import Mathlib

/-!
# fsdm: barcode index, edit distances and pairwise demultiplexing

A shallow embedding of the C sources `bc_hash.c`, `edit_distance.c`,
`demultiplex.c` and the build phase of `main.c`.

Conventions of the embedding

* A C string or byte buffer is a `List Nat` of byte values; a read past
  the end of the list yields the byte `0` (the terminating NUL).
* `size_t` and `uint32_t` arithmetic is `Nat` arithmetic with an explicit
  `% 2 ^ 64` or `% 2 ^ 32` where the C code can wrap; `int` is `Int`.
* A `for` loop over an index is `forLoop`; a `while (true)` probe loop is
  a structurally recursive function over a fuel equal to the number of
  slots, which is exactly the number of distinct positions the probe can
  visit: the result `none` stands for a C loop that never returns.
-/

namespace Fsdm

/-! ## C strings -/

/-- The byte at position `i` of a buffer; `0` past its end. -/
def byteAt (s : List Nat) (i : Nat) : Nat := s.getD i 0

/-- The characters of a C string: everything before the first NUL. -/
def cstr (s : List Nat) : List Nat := s.takeWhile (fun c => c != 0)

/-- Truth of `strncmp(a, b, n) == 0`: the two strings agree on their first
`n` characters, the comparison stopping at a common NUL. -/
def strncmp_eq (a b : List Nat) (n : Nat) : Bool := (cstr a).take n == (cstr b).take n

/-- Truth of `strcmp(a, b) == 0`. -/
def strcmp_eq (a b : List Nat) : Bool := cstr a == cstr b

/-- The `n` bytes `strncpy(dst, src, n)` writes to `dst`: the characters of
`src` up to `n`, padded with NUL bytes. -/
def strncpy (src : List Nat) (n : Nat) : List Nat :=
  (cstr src).take n ++ List.replicate (n - ((cstr src).take n).length) 0

/-- A C `for (i = start; i < start + count; i++) s = body i s` loop. -/
def forLoop {σ : Type} (body : Nat → σ → σ) : Nat → Nat → σ → σ
  | 0, _, s => s
  | count + 1, start, s => forLoop body count (start + 1) (body start s)

/-! ## bc_hash.c -/

/-- A slot of the table: `char key[6]; int8_t value[2]`. A value is kept as
an `Int`; the narrowing of an argument to `int8_t` is `to_int8`, applied
where `main` passes a `size_t` to `hash_table_insert`. -/
structure hash_kv where
  key : List Nat
  value : Fin 2 → Int

/-- The table header and its flexible array member `items`, an array of
`num_slots` slots. -/
structure bc_hash_table where
  key_length : Nat
  num_items : Nat
  items : List hash_kv

/-- The field `num_slots`: the number of elements of `items`. -/
def bc_hash_table.num_slots (ht : bc_hash_table) : Nat := ht.items.length

/-- One round of the FNV-1a loop body: `hash ^= octet; hash *= FNV_PRIME`. -/
def fnv_step (hash octet : Nat) : Nat := ((hash ^^^ octet) * 16777619) % 2 ^ 32

/-- The 32-bit FNV-1a hash of the first `length` bytes of `buffer`. -/
def fnv_1a (buffer : List Nat) (length : Nat) : Nat :=
  forLoop (fun i hash => fnv_step hash (byteAt buffer i % 256)) length 0 2166136261

/-- The loop of `nearest_pow2`; `none` when `value` wrapped to `0` and the
C loop spins forever. -/
def nearest_pow2_loop (number : Nat) : Nat → Nat → Option Nat
  | 0, _ => none
  | fuel + 1, value =>
    if value < number then nearest_pow2_loop number fuel (value * 2 % 2 ^ 64) else some value

/-- The smallest power of two that is at least `number`. -/
def nearest_pow2 (number : Nat) : Option Nat := nearest_pow2_loop number 66 1

/-- The zeroed slot `memset` leaves behind. -/
def empty_kv : hash_kv := ⟨List.replicate 6 0, fun _ => 0⟩

/-- The function `init_hash_table`; the allocation is taken to succeed. -/
def init_hash_table (num_items : Nat) : Option bc_hash_table :=
  (nearest_pow2 (num_items * 3 % 2 ^ 64 / 2)).map fun num_slots =>
    { key_length := 6, num_items := 0, items := List.replicate num_slots empty_kv }

/-- The start of a probe: `hash & (ht->num_slots - 1)` in `size_t`. -/
def probe_start (ht : bc_hash_table) (key : List Nat) : Nat :=
  fnv_1a key ht.key_length &&& ((ht.num_slots + (2 ^ 64 - 1)) % 2 ^ 64)

/-- The `while (true)` loop of `hash_table_insert` from position `index`. -/
def insert_loop (ht : bc_hash_table) (key : List Nat) (value : Int) (bc_index : Fin 2)
    (overwrite : Bool) : Nat → Nat → Option bc_hash_table
  | 0, _ => none
  | fuel + 1, index =>
    let index := if index ≥ ht.num_slots then 0 else index
    match ht.items[index]? with
    | none => none
    | some kv_slot =>
      if kv_slot.value bc_index = 0 then
        some { ht with
          items := ht.items.set index
            ⟨strncpy key ht.key_length, Function.update kv_slot.value bc_index value⟩,
          num_items := ht.num_items + 1 }
      else if strncmp_eq key kv_slot.key ht.key_length then
        some { ht with
          items := ht.items.set index
            ⟨kv_slot.key, Function.update kv_slot.value bc_index (if overwrite then value else -1)⟩ }
      else insert_loop ht key value bc_index overwrite fuel (index + 1)

/-- The function `hash_table_insert`; `none` when the probe never stops. -/
def hash_table_insert (ht : bc_hash_table) (key : List Nat) (value : Int) (bc_index : Fin 2)
    (overwrite : Bool) : Option bc_hash_table :=
  insert_loop ht key value bc_index overwrite ht.num_slots (probe_start ht key)

/-- The `do ... while (value != 0)` loop of `hash_table_lookup`. -/
def lookup_loop (ht : bc_hash_table) (key : List Nat) (bc_index : Fin 2) :
    Nat → Nat → Option Int
  | 0, _ => none
  | fuel + 1, index =>
    let index := if index ≥ ht.num_slots then 0 else index
    match ht.items[index]? with
    | none => none
    | some kv =>
      let value := kv.value bc_index
      if value ≠ 0 ∧ strncmp_eq key kv.key ht.key_length then some value
      else if value ≠ 0 then lookup_loop ht key bc_index fuel (index + 1)
      else some value

/-- The function `hash_table_lookup`; `none` when the probe never stops. -/
def hash_table_lookup (ht : bc_hash_table) (key : List Nat) (bc_index : Fin 2) : Option Int :=
  lookup_loop ht key bc_index ht.num_slots (probe_start ht key)

/-- The slots the probe loops of `hash_table_insert` and `hash_table_lookup`
read, in the order of the rounds, from position `index`: each round wraps
`index` to `0` at `num_slots` and reads the slot; both loops return at a slot
whose value for the pool is `0` or whose key matches, and go on with
`index + 1` otherwise. -/
def probe_visits (ht : bc_hash_table) (key : List Nat) (bc_index : Fin 2) : Nat → Nat → List Nat
  | 0, _ => []
  | fuel + 1, index =>
    let index := if index ≥ ht.num_slots then 0 else index
    match ht.items[index]? with
    | none => [index]
    | some kv =>
      if kv.value bc_index = 0 ∨ strncmp_eq key kv.key ht.key_length then [index]
      else index :: probe_visits ht key bc_index fuel (index + 1)

/-- The two counters of the first scan of `prune_hash_table`:
`(num_unique_keys, num_slots_with_duplicates)`. -/
def prune_count (items : List hash_kv) : Nat × Nat :=
  items.foldl (fun acc kv =>
    if kv.value 0 > 0 ∨ kv.value 1 > 0 then (acc.1 + 1, acc.2)
    else if kv.value 0 < 0 ∨ kv.value 1 < 0 then (acc.1, acc.2 + 1)
    else acc) (0, 0)

/-- The inner `for (j = 0; j < 2; j++)` of the second scan of
`prune_hash_table` for one slot of the original table. -/
def prune_reinsert_slot (pruned : Option bc_hash_table) (kv : hash_kv) : Option bc_hash_table :=
  let step (acc : Option bc_hash_table) (j : Fin 2) : Option bc_hash_table :=
    acc.bind fun t => if kv.value j > 0 then hash_table_insert t kv.key (kv.value j) j false else some t
  step (step pruned 0) 1

/-- The function `prune_hash_table` on a non-null table. -/
def prune_hash_table (original_table : bc_hash_table) : Option bc_hash_table :=
  let counts := prune_count original_table.items
  if counts.2 = 0 then some original_table
  else
    (nearest_pow2 (counts.1 * 3 % 2 ^ 64 / 2)).bind fun pruned_num_slots =>
      original_table.items.foldl prune_reinsert_slot (init_hash_table pruned_num_slots)

/-! ## edit_distance.c -/

/-- The variadic `min(4, a, b, c, d)`: the first item, replaced by each
later item that is strictly smaller. -/
def min4 (a b c d : Int) : Int :=
  let m := if b < a then b else a
  let m := if c < m then c else m
  if d < m then d else m

/-- The lookup table of `factorial`; `0` past its end. -/
def factorial (n : Nat) : Nat :=
  [1, 1, 2, 6, 24, 120, 720, 5040, 40320, 362880, 3628800, 39916800, 479001600,
    6227020800, 87178291200, 1307674368000, 20922789888000, 355687428096000,
    6402373705728000, 121645100408832000, 2432902008176640000].getD n 0

/-- The function `n_choose_k` with `unsigned int` subtraction and `uint64_t`
product; a zero divisor, which traps in C, yields `0`. -/
def n_choose_k (n k : Nat) : Nat :=
  factorial n / ((factorial k * factorial ((n + 2 ^ 32 - k) % 2 ^ 32)) % 2 ^ 64)

/-- The loop of `uint_pow` (square and multiply on 64-bit words). -/
def uint_pow_loop : Nat → Nat → Nat → Nat → Nat
  | 0, _, _, value => value
  | fuel + 1, base, exponent, value =>
    if exponent > 0 then
      uint_pow_loop fuel (base * base % 2 ^ 64) (exponent / 2)
        (if exponent % 2 = 1 then value * base % 2 ^ 64 else value)
    else value

/-- The function `uint_pow`: an exponent below `2 ^ 64` is used up in 64 halvings. -/
def uint_pow (base exponent : Nat) : Nat := uint_pow_loop 64 base exponent 1

/-- The function `calc_num_combos`. -/
def calc_num_combos (bc_len num_barcodes max_mismatches : Nat) : Nat :=
  if max_mismatches = 0 ∨ max_mismatches ≥ bc_len then num_barcodes
  else
    let total_possible_combos := forLoop (fun k total =>
        (total + (uint_pow 4 k * n_choose_k bc_len k) % 2 ^ 64) % 2 ^ 64) max_mismatches 1 0
    let total_possible_combos := total_possible_combos * num_barcodes % 2 ^ 64
    let max_possible_permutations := uint_pow 4 bc_len
    if total_possible_combos > max_possible_permutations then max_possible_permutations
    else total_possible_combos

/-- The byte values of the four bases. -/
def chA : Nat := 65

/-- The byte value of `C`. -/
def chC : Nat := 67

/-- The byte value of `G`. -/
def chG : Nat := 71

/-- The byte value of `T`. -/
def chT : Nat := 84

/-- The array `bases` of `generate_all_bc_combos`. -/
def bases : List Nat := [chA, chT, chG, chC]

/-- The row `dst` after `strncpy(dst + off, src + off, n)`. -/
def copy_suffix (dst src : List Nat) (off n : Nat) : List Nat :=
  dst.take off ++ strncpy (src.drop off) n ++ dst.drop (off + n)

/-- One pass `i` of the outer loop of `generate_all_bc_combos`. -/
def combos_pass (len : Nat) (i : Nat) (output : List (List Nat)) : List (List Nat) :=
  let prev_num_combos := uint_pow 4 i
  let output := forLoop (fun j out => forLoop (fun k out =>
      out.set (j * prev_num_combos + k)
        (copy_suffix (out.getD (j * prev_num_combos + k) []) (out.getD k []) (len - i) i))
      prev_num_combos 0 out) 3 1 output
  forLoop (fun j out => forLoop (fun k out =>
      out.set (j * prev_num_combos + k)
        ((out.getD (j * prev_num_combos + k) []).set (len - i - 1) (bases.getD j 0)))
      prev_num_combos 0 out) 4 0 output

/-- The function `generate_all_bc_combos` on the caller's array `output`. -/
def generate_all_bc_combos (len : Nat) (output : List (List Nat)) : List (List Nat) :=
  forLoop (combos_pass len) len 0 output

/-- The function `hamming_distance`; the counter is an `unsigned int`. -/
def hamming_distance (seq_1 seq_2 : List Nat) (length : Nat) : Nat :=
  forLoop (fun i num_mismatches =>
    (num_mismatches + (if byteAt seq_1 i ≠ byteAt seq_2 i then 1 else 0)) % 2 ^ 32) length 0 0

/-- The matrix `dpm` with one cell rewritten. -/
def set2 (m : Nat → Nat → Int) (i j : Nat) (v : Int) : Nat → Nat → Int :=
  fun a b => if a = i ∧ b = j then v else m a b

/-- The two initialisation loops of `damerau_levenshtein`; cells the code
never writes read as `0`. -/
def dl_init (len : Nat) : Nat → Nat → Int :=
  let max_dist : Int := len + len
  let dpm := set2 (fun _ _ => 0) 0 0 max_dist
  let dpm := forLoop (fun i dpm => set2 (set2 dpm (i + 1) 0 max_dist) (i + 1) 1 i) (len + 1) 0 dpm
  forLoop (fun j dpm => set2 (set2 dpm 0 (j + 1) max_dist) 1 (j + 1) j) (len + 1) 0 dpm

/-- The body of the inner loop of `damerau_levenshtein` at row `i`, column
`j`, on the pair `(dpm, db)`. -/
def dl_cell (seq_1 seq_2 : List Nat) (da : Nat → Nat) (i j : Nat)
    (st : (Nat → Nat → Int) × Nat) : (Nat → Nat → Int) × Nat :=
  let dpm := st.1
  let k := da (byteAt seq_2 (j - 1) % 256)
  let l := st.2
  let same := byteAt seq_1 (i - 1) = byteAt seq_2 (j - 1)
  let cost : Int := if same then 0 else 1
  let db := if same then j else st.2
  (set2 dpm (i + 1) (j + 1)
    (min4 (dpm i j + cost) (dpm (i + 1) j + 1) (dpm i (j + 1) + 1)
      (dpm k l + ((i : Int) - k - 1) + 1 + ((j : Int) - l - 1))), db)

/-- The body of the outer loop of `damerau_levenshtein` at row `i`, on the
pair `(dpm, da)`. -/
def dl_row (seq_1 seq_2 : List Nat) (len : Nat) (i : Nat)
    (st : (Nat → Nat → Int) × (Nat → Nat)) : (Nat → Nat → Int) × (Nat → Nat) :=
  let inner := forLoop (dl_cell seq_1 seq_2 st.2 i) len 1 (st.1, 0)
  (inner.1, Function.update st.2 (byteAt seq_1 (i - 1) % 256) i)

/-- The filled matrix of `damerau_levenshtein`. -/
def dl_matrix (seq_1 seq_2 : List Nat) (len : Nat) : Nat → Nat → Int :=
  (forLoop (dl_row seq_1 seq_2 len) len 1 (dl_init len, fun _ => 0)).1

/-- The function `damerau_levenshtein`. -/
def damerau_levenshtein (seq_1 seq_2 : List Nat) (len : Nat) : Int :=
  dl_matrix seq_1 seq_2 len (len + 1) (len + 1)

/-- The traceback codes of `nw_offset`. -/
def DIAG : Int := 0

/-- The traceback code for a vertical gap move. -/
def UP : Int := 1

/-- The traceback code for a horizontal gap move. -/
def LEFT : Int := 2

/-- The body of the fill loop of `nw_offset` at cell `(i, j)`, on the pair
`(scores, traceback)`. -/
def nw_cell (seq_1 seq_2 : List Nat) (i j : Nat)
    (st : (Nat → Nat → Int) × (Nat → Nat → Int)) : (Nat → Nat → Int) × (Nat → Nat → Int) :=
  let scores := st.1
  let s_m : Int := if byteAt seq_1 (i - 1) = byteAt seq_2 (j - 1) then 1 else -1
  let overlap_score := scores (i - 1) (j - 1) + s_m
  let s1_gap := scores (i - 1) j + -1
  let s2_gap := scores i (j - 1) + -1
  let gap_score := if s1_gap > s2_gap then s1_gap else s2_gap
  let gap_move := if s1_gap > s2_gap then UP else LEFT
  if overlap_score > gap_score then (set2 scores i j overlap_score, set2 st.2 i j DIAG)
  else (set2 scores i j gap_score, set2 st.2 i j gap_move)

/-- The matrices `(scores, traceback)` of `nw_offset` after the fill loops. -/
def nw_fill (seq_1 seq_2 : List Nat) (len : Nat) : (Nat → Nat → Int) × (Nat → Nat → Int) :=
  let st : (Nat → Nat → Int) × (Nat → Nat → Int) := (fun _ _ => 0, fun _ _ => 0)
  let st := forLoop (fun i st => (set2 st.1 i 0 (-(i : Int)), set2 st.2 i 0 UP)) len 1 st
  let st := forLoop (fun j st => (set2 st.1 0 j (-(j : Int)), set2 st.2 0 j LEFT)) len 1 st
  forLoop (fun i st => forLoop (fun j st => nw_cell seq_1 seq_2 i j st) len 1 st) len 1 st

/-- The state of the traceback loop of `nw_offset`. -/
structure nw_state where
  aln_index : Int
  i_1 : Nat
  i_2 : Nat
  offset : Int
  offset_index : Fin 2 → Int
  offset_reached : Bool

/-- The traceback `while` loop of `nw_offset`; each round either stops the
loop or lowers `i_1 + i_2`, so `2 * len + 1` rounds of fuel are never used up. -/
def nw_traceback (traceback : Nat → Nat → Int) : Nat → nw_state → nw_state
  | 0, st => st
  | fuel + 1, st =>
    if ¬ st.offset_reached ∧ (st.i_1 > 0 ∨ st.i_2 > 0) then
      let traceback_direction := traceback st.i_1 st.i_2
      let st :=
        if traceback_direction = DIAG then
          { st with offset_reached := true, offset := st.offset_index 1 - st.offset_index 0 }
        else if traceback_direction = LEFT then
          { st with offset_index := Function.update st.offset_index 1 (st.aln_index - 1),
                    i_2 := st.i_2 - 1 }
        else if traceback_direction = UP then
          { st with offset_index := Function.update st.offset_index 0 (st.aln_index - 1),
                    i_1 := st.i_1 - 1 }
        else st
      nw_traceback traceback fuel { st with aln_index := st.aln_index - 1 }
    else st

/-- The function `nw_offset`. -/
def nw_offset (seq_1 seq_2 : List Nat) (len : Nat) : Int :=
  let aln_index : Int := (len : Int) * 2 - 1
  (nw_traceback (nw_fill seq_1 seq_2 len).2 (2 * len + 1)
    { aln_index := aln_index, i_1 := len, i_2 := len, offset := 0,
      offset_index := fun n => if n = 0 then aln_index else 0,
      offset_reached := false }).offset

/-! ## parse_seq.h, fs2_barcodes.c -/

/-- A barcode of the library: `char seq[7]; int label`. -/
structure barcode_t where
  seq : List Nat
  label : Int

/-- A segment of a read template. -/
structure read_segment where
  offset : Nat
  length : Nat
  seq : List Nat

/-- The layout of one mate: the allele offset and the NULL-terminated array
of the segments to validate. -/
structure prototype where
  allele_offset : Nat
  segments : List read_segment

/-- The fields of `library_seqs` the demultiplexer reads. -/
structure library_seqs where
  barcodes : Fin 2 → List barcode_t
  flanking : Fin 2 → read_segment
  alleles : Fin 4 → read_segment
  prototypes : Fin 2 → prototype

/-- The field `num_barcodes`. -/
def library_seqs.num_barcodes (fs2_seqs : library_seqs) (s : Fin 2) : Nat :=
  (fs2_seqs.barcodes s).length

/-- The table `FS2_BARCODES` of the 48 standard barcodes. -/
def FS2_BARCODES : List (List Nat) :=
  [[chA, chG, chC, chA, chA, chT], [chC, chC, chT, chG, chT, chT], [chG, chG, chG, chT, chT, chT],
   [chG, chA, chA, chG, chG, chC], [chA, chT, chC, chT, chC, chA], [chA, chT, chG, chG, chA, chT],
   [chA, chT, chG, chT, chC, chT], [chC, chG, chT, chG, chA, chC], [chT, chT, chA, chG, chG, chT],
   [chG, chT, chG, chC, chA, chT], [chA, chA, chC, chT, chT, chT], [chG, chG, chA, chT, chC, chG],
   [chA, chT, chA, chA, chG, chG], [chA, chT, chT, chG, chG, chT], [chA, chG, chT, chG, chA, chG],
   [chC, chC, chC, chA, chC, chC], [chC, chG, chA, chT, chG, chC], [chG, chA, chT, chA, chG, chC],
   [chG, chT, chC, chA, chG, chA], [chT, chT, chA, chA, chG, chC], [chA, chA, chC, chC, chT, chG],
   [chC, chT, chT, chT, chG, chC], [chT, chG, chG, chA, chG, chA], [chA, chA, chT, chT, chG, chT],
   [chT, chG, chA, chC, chG, chA], [chC, chA, chA, chA, chT, chA], [chG, chT, chT, chC, chA, chG],
   [chC, chT, chT, chC, chA, chA], [chG, chT, chT, chG, chG, chG], [chG, chC, chT, chT, chA, chG],
   [chT, chA, chG, chC, chC, chA], [chT, chA, chA, chC, chT, chT], [chC, chG, chG, chA, chT, chA],
   [chC, chA, chG, chC, chA, chG], [chA, chA, chG, chT, chA, chG], [chG, chG, chG, chA, chC, chG],
   [chC, chC, chG, chT, chG, chG], [chA, chT, chT, chG, chT, chA], [chT, chT, chT, chA, chG, chA],
   [chC, chC, chA, chC, chG, chA], [chT, chC, chA, chT, chG, chG], [chG, chA, chA, chC, chC, chA],
   [chT, chC, chC, chT, chA, chA], [chC, chA, chA, chC, chG, chC], [chA, chG, chT, chG, chT, chT],
   [chG, chG, chA, chT, chT, chA], [chT, chA, chT, chA, chT, chA], [chG, chT, chA, chC, chA, chA]]

/-- The function `allele_char_to_enum`. -/
def allele_char_to_enum (allele : Nat) : Fin 4 :=
  if allele = chA then 0 else if allele = chC then 1 else if allele = chG then 2
  else if allele = chT then 3 else 0

/-- The function `all_standard_barcodes`. -/
def all_standard_barcodes (fs2_seqs : library_seqs) : Bool :=
  (fs2_seqs.barcodes 0).all (fun bc => FS2_BARCODES.any (fun std => strcmp_eq bc.seq std)) &&
  (fs2_seqs.barcodes 1).all (fun bc => FS2_BARCODES.any (fun std => strcmp_eq bc.seq std))

/-! ## parse_seq.c: `parse_prototypes` -/

/-- A non-null `read_segment *` of `parse_prototypes`: the address of
`adapters[i]` or of `flanking[i]`. -/
inductive segment_ptr where
  | adapter : Fin 2 → segment_ptr
  | flanking : Fin 2 → segment_ptr
deriving DecidableEq

/-- The prototype as `parse_prototypes` writes it: `size_t allele_offset`
and the array `read_segment *segments[5]`, a null pointer being `none`. -/
structure prototype_slots where
  allele_offset : Nat
  segments : List (Option segment_ptr)

/-- The fields of `library_seqs` that `parse_prototypes` reads and writes. -/
structure library_layout where
  adapters : Fin 2 → read_segment
  flanking : Fin 2 → read_segment
  prototype_strings : Fin 2 → read_segment
  prototypes : Fin 2 → prototype_slots

/-- The segment a pointer points to. -/
def library_layout.deref (fs2_seqs : library_layout) : segment_ptr → read_segment
  | segment_ptr.adapter i => fs2_seqs.adapters i
  | segment_ptr.flanking i => fs2_seqs.flanking i

/-- The library after the assignments `segment_ptr->offset = offset` and
`segment_ptr->length = length`. -/
def library_layout.write (fs2_seqs : library_layout) (ptr : segment_ptr) (offset length : Nat) :
    library_layout :=
  match ptr with
  | segment_ptr.adapter i =>
    { fs2_seqs with
      adapters := Function.update fs2_seqs.adapters i ⟨offset, length, (fs2_seqs.adapters i).seq⟩ }
  | segment_ptr.flanking i =>
    { fs2_seqs with
      flanking := Function.update fs2_seqs.flanking i ⟨offset, length, (fs2_seqs.flanking i).seq⟩ }

/-- The scan of `strtok` with the delimiter `|` over the characters of a
string, `token` being the characters of the token begun: a delimiter ends a
token begun and is skipped otherwise, the end of the string ends the token
begun. -/
def strtok_scan : List Nat → List Nat → List (List Nat)
  | [], token => if token = [] then [] else [token]
  | c :: rest, token =>
    if c = 124 then
      if token = [] then strtok_scan rest [] else token :: strtok_scan rest []
    else strtok_scan rest (token ++ [c])

/-- The tokens that `strtok(str, "|")` and the calls `strtok(NULL, "|")`
after it return, in order, until the null pointer. -/
def strtok_tokens (str : List Nat) : List (List Nat) := strtok_scan (cstr str) []

/-- The string `"bc"`. -/
def str_bc : List Nat := [98, 99]

/-- The string `"allele"`. -/
def str_allele : List Nat := [97, 108, 108, 101, 108, 101]

/-- The value of `atoi(segment + last_char_index) - 1`: `atoi` of the last
character of the token, the value of a decimal digit and 0 for any other
character, minus 1. -/
def seq_1_or_2 (segment : List Nat) : Int :=
  let c := (cstr segment).getLastD 0
  (if 48 ≤ c ∧ c ≤ 57 then ((c - 48 : Nat) : Int) else 0) - 1

/-- The pointer `segment_ptr` of the last branch of `parse_prototypes`:
`&adapters[seq_1_or_2]` for a token that starts with `a`, `&flanking[seq_1_or_2]`
for one that starts with `f`; `none` where the pointer stays null or the
index is outside the two elements of the array, and the uses of the pointer
that follow are undefined. -/
def token_segment_ptr (segment : List Nat) : Option segment_ptr :=
  let i := seq_1_or_2 segment
  if h : 0 ≤ i ∧ i < 2 then
    if byteAt segment 0 = 97 then some (segment_ptr.adapter ⟨i.toNat, by omega⟩)
    else if byteAt segment 0 = 102 then some (segment_ptr.flanking ⟨i.toNat, by omega⟩)
    else none
  else none

/-- The variables of the `while` loop of `parse_prototypes`. -/
structure parse_state where
  fs2_seqs : library_layout
  segment_index : Nat
  offset_counter : Nat

/-- One round of the `while` loop of `parse_prototypes` for prototype `i`, on
the token `segment`; `none` where the behaviour is undefined: a null or
out-of-range `segment_ptr`, or a write past the five elements of `segments`.
The lengths are those of strings of at most 303 characters, so the `size_t`
sum `offset_counter` does not wrap. -/
def parse_token (i : Fin 2) (st : parse_state) (segment : List Nat) : Option parse_state :=
  if strncmp_eq segment str_bc 2 then
    some ⟨st.fs2_seqs, st.segment_index, st.offset_counter + 6⟩
  else if strcmp_eq segment str_allele then
    some ⟨{ st.fs2_seqs with
        prototypes := Function.update st.fs2_seqs.prototypes i
          ⟨st.offset_counter, (st.fs2_seqs.prototypes i).segments⟩ },
      st.segment_index, st.offset_counter + 1⟩
  else
    (token_segment_ptr segment).bind fun ptr =>
      let segment_length := (cstr (st.fs2_seqs.deref ptr).seq).length
      let written := st.fs2_seqs.write ptr st.offset_counter segment_length
      if st.segment_index < (written.prototypes i).segments.length then
        some ⟨{ written with
            prototypes := Function.update written.prototypes i
              ⟨(written.prototypes i).allele_offset,
                (written.prototypes i).segments.set st.segment_index (some ptr)⟩ },
          st.segment_index + 1, st.offset_counter + segment_length⟩
      else none

/-- The `while (segment != NULL)` loop of `parse_prototypes` over the tokens
of one prototype string. -/
def parse_loop (i : Fin 2) : parse_state → List (List Nat) → Option parse_state
  | st, [] => some st
  | st, segment :: rest => (parse_token i st segment).bind fun st => parse_loop i st rest

/-- The body of the `for` loop of `parse_prototypes` for prototype `i`. The
delimiters `strtok` overwrites in the prototype string are not tracked: the
string is not read again. -/
def parse_prototype (i : Fin 2) (fs2_seqs : library_layout) : Option library_layout :=
  (parse_loop i ⟨fs2_seqs, 0, 0⟩ (strtok_tokens (fs2_seqs.prototype_strings i).seq)).map
    fun st => st.fs2_seqs

/-- The function `parse_prototypes`. -/
def parse_prototypes (fs2_seqs : library_layout) : Option library_layout :=
  (parse_prototype 0 fs2_seqs).bind (parse_prototype 1)

/-- The prototype the demultiplexer reads from the parsed library: the
segments the pointers before the first null pointer point to. -/
def library_layout.prototype (fs2_seqs : library_layout) (i : Fin 2) : prototype :=
  ⟨(fs2_seqs.prototypes i).allele_offset,
    ((fs2_seqs.prototypes i).segments.takeWhile Option.isSome).filterMap
      (Option.map fs2_seqs.deref)⟩

/-! ## main.c: the build phase of the barcode index -/

/-- The conversion of a `size_t` to the `int8_t` parameter `value` of
`hash_table_insert`. -/
def to_int8 (n : Nat) : Int := ((n + 128) % 256 : Nat) - 128

/-- The barcodes scanned for pool `j`: `FS2_BARCODES[k]` in all-combinations
mode, `fasta_seqs->barcodes[j][k].seq` otherwise, for `k < num_bc[j]`. -/
def pool_seqs (output_all : Bool) (fasta_seqs : library_seqs) (j : Fin 2) : List (List Nat) :=
  if output_all then FS2_BARCODES else (fasta_seqs.barcodes j).map barcode_t.seq

/-- The loop over `k` of the build phase: the pair `(mm_bc, mm_bc_index)` it
leaves, `none` standing for `mm_bc == NULL`. -/
def scan_pool (candidate : List Nat) (bc_mismatches : Nat) :
    List (List Nat) → Nat → Option (List Nat × Nat) → Option (List Nat × Nat)
  | [], _, mm_bc => mm_bc
  | current_bc :: rest, k, mm_bc =>
    if hamming_distance current_bc candidate 6 ≤ bc_mismatches then
      match mm_bc with
      | some _ => none
      | none => scan_pool candidate bc_mismatches rest (k + 1) (some (current_bc, k))
    else scan_pool candidate bc_mismatches rest (k + 1) mm_bc

/-- The body of the loop over `j` of the build phase for one candidate. -/
def insert_candidate (output_all : Bool) (bc_mismatches : Nat) (fasta_seqs : library_seqs)
    (candidate : List Nat) (j : Fin 2) (hash_table : Option bc_hash_table) :
    Option bc_hash_table :=
  if output_all ∧ j.val > 0 then hash_table
  else
    match scan_pool candidate bc_mismatches (pool_seqs output_all fasta_seqs j) 0 none with
    | none => hash_table
    | some (mm_bc, mm_bc_index) =>
      if output_all then
        (hash_table.bind fun t => hash_table_insert t mm_bc (to_int8 (mm_bc_index + 1)) 0 false).bind
          fun t => hash_table_insert t mm_bc (to_int8 (mm_bc_index + 1)) 1 false
      else
        hash_table.bind fun t => hash_table_insert t mm_bc (to_int8 (mm_bc_index + 1)) j false

/-- The loop over the candidates `all_permutations[i]` of the build phase. -/
def insert_candidates (output_all : Bool) (bc_mismatches : Nat) (fasta_seqs : library_seqs)
    (all_permutations : List (List Nat)) (hash_table : Option bc_hash_table) :
    Option bc_hash_table :=
  all_permutations.foldl (fun t candidate =>
    insert_candidate output_all bc_mismatches fasta_seqs candidate 1
      (insert_candidate output_all bc_mismatches fasta_seqs candidate 0 t)) hash_table

/-- The loop that inserts the real barcodes of one pool with
`overwrite = true`, barcode `j` under the value `j + 1`. -/
def insert_exact : List (List Nat) → Nat → Fin 2 → Option bc_hash_table → Option bc_hash_table
  | [], _, _, hash_table => hash_table
  | seq :: rest, j, i, hash_table =>
    insert_exact rest (j + 1) i
      (hash_table.bind fun t => hash_table_insert t seq (to_int8 (j + 1)) i true)

/-- The loop that inserts the standard barcodes for both pools in
all-combinations mode. -/
def insert_exact_all : List (List Nat) → Nat → Option bc_hash_table → Option bc_hash_table
  | [], _, hash_table => hash_table
  | seq :: rest, i, hash_table =>
    insert_exact_all rest (i + 1)
      ((hash_table.bind fun t => hash_table_insert t seq (to_int8 (i + 1)) 0 true).bind
        fun t => hash_table_insert t seq (to_int8 (i + 1)) 1 true)

/-- The effective all-combinations flag of `main`. -/
def effective_output_all (output_all : Bool) (fasta_seqs : library_seqs) : Bool :=
  output_all && all_standard_barcodes fasta_seqs

/-- The array `num_bc` of `main`. -/
def main_num_bc (output_all : Bool) (fasta_seqs : library_seqs) (j : Fin 2) : Nat :=
  if effective_output_all output_all fasta_seqs then FS2_BARCODES.length
  else fasta_seqs.num_barcodes j

/-- The variable `total_num_unique_barcodes` of `main` (`unsigned int`). -/
def total_num_unique_barcodes (output_all : Bool) (fasta_seqs : library_seqs) : Nat :=
  if effective_output_all output_all fasta_seqs then FS2_BARCODES.length
  else if all_standard_barcodes fasta_seqs then FS2_BARCODES.length
  else (fasta_seqs.num_barcodes 0 + fasta_seqs.num_barcodes 1) % 2 ^ 32

/-- The build phase of `main` up to the call of `prune_hash_table`: the table
is sized, the mismatch candidates are inserted with `overwrite = false`, then
the real barcodes with `overwrite = true`. -/
def main_build (output_all : Bool) (bc_mismatches : Nat) (fasta_seqs : library_seqs) :
    Option bc_hash_table :=
  let output_all := effective_output_all output_all fasta_seqs
  let num_slots := calc_num_combos 6 (total_num_unique_barcodes output_all fasta_seqs) bc_mismatches
  let hash_table := init_hash_table num_slots
  let hash_table :=
    if bc_mismatches > 0 then
      insert_candidates output_all bc_mismatches fasta_seqs
        (generate_all_bc_combos 6 (List.replicate (uint_pow 4 6) (List.replicate 7 0))) hash_table
    else hash_table
  if output_all then insert_exact_all FS2_BARCODES 0 hash_table
  else
    insert_exact ((fasta_seqs.barcodes 1).map barcode_t.seq) 0 1
      (insert_exact ((fasta_seqs.barcodes 0).map barcode_t.seq) 0 0 hash_table)

/-- The barcode index `main` hands to the demultiplexer: the build phase
followed by `prune_hash_table`. -/
def main_index (output_all : Bool) (bc_mismatches : Nat) (fasta_seqs : library_seqs) :
    Option bc_hash_table :=
  (main_build output_all bc_mismatches fasta_seqs).bind prune_hash_table

/-- The array `valid_alleles` of `main`: allele `i` is valid when its name in
the library is not empty. -/
def main_valid_alleles (fasta_seqs : library_seqs) (i : Fin 4) : Bool :=
  byteAt (fasta_seqs.alleles i).seq 0 != 0

/-- The index expression `num_bc[1] * i + j` of the output loop of `main`,
evaluated in `size_t`. -/
def main_row_index (num_bc_1 i j : Nat) : Nat := (num_bc_1 * i + j) % 2 ^ 64

/-! ## demultiplex.c -/

/-- The counter matrix: `unsigned int counts[][4]` with `num_bc1 * num_bc2` rows. -/
structure bc_counter where
  num_bc1 : Nat
  num_bc2 : Nat
  counts : List (List Nat)
deriving DecidableEq

/-- The zeroed counter `main` allocates with `calloc`; the number of rows
`num_bc[0] * num_bc[1]` is a product of two `unsigned int`. -/
def init_counter (num_bc1 num_bc2 : Nat) : bc_counter :=
  ⟨num_bc1, num_bc2, List.replicate (num_bc1 * num_bc2 % 2 ^ 32) [0, 0, 0, 0]⟩

/-- The segment loop of one mate: the running `edit_distance` after the
`while (segments[segment_index] && edit_distance <= ed_threshold)` loop. The
`int` arithmetic is exact: `ed_threshold + 1` is taken not to overflow. -/
def segment_loop (read : List Nat) (ad_fl_mismatches ed_threshold : Int) :
    List read_segment → Int → Int
  | [], edit_distance => edit_distance
  | segment :: rest, edit_distance =>
    if edit_distance ≤ ed_threshold then
      let segment_ed := damerau_levenshtein segment.seq (read.drop segment.offset) segment.length
      segment_loop read ad_fl_mismatches ed_threshold rest
        (if segment_ed ≤ ad_fl_mismatches then edit_distance + segment_ed else ed_threshold + 1)
    else edit_distance

/-- The byte `s[i]` for an `int` index; a read outside the buffer yields `0`. -/
def byteAtInt (s : List Nat) (i : Int) : Nat := if i < 0 then 0 else byteAt s i.toNat

/-- The allele index of an accepted pair: the base at the prototype's allele
offset and, when that is not a valid allele, the base at the offset shifted
by `nw_offset` on the left flanking segment. -/
def resolve_allele (fs2_seqs : library_seqs) (valid_alleles : Fin 4 → Bool) (read_1 : List Nat) :
    Fin 4 :=
  let allele_i := allele_char_to_enum (byteAt read_1 (fs2_seqs.prototypes 0).allele_offset)
  if ¬ valid_alleles allele_i then
    let left_flanking := fs2_seqs.flanking 0
    let allele_offset : Int :=
      nw_offset left_flanking.seq (read_1.drop left_flanking.offset) left_flanking.length +
        ((fs2_seqs.prototypes 0).allele_offset : Int)
    if (if 0 < allele_offset then 1 else 0) < read_1.length then
      allele_char_to_enum (byteAtInt read_1 allele_offset)
    else allele_i
  else allele_i

/-- The corrected allele offset of the recovery in `demultiplex_fastq_pair`:
the result of `nw_offset` on the left flanking segment plus the allele offset
of the prototype of mate 1, an `int`. -/
def recovered_allele_offset (fs2_seqs : library_seqs) (read_1 : List Nat) : Int :=
  let left_flanking := fs2_seqs.flanking 0
  nw_offset left_flanking.seq (read_1.drop left_flanking.offset) left_flanking.length +
    ((fs2_seqs.prototypes 0).allele_offset : Int)

/-- The condition `0 < allele_offset < fq[0]->seq.l` of the recovery: C
compares the truth value of `0 < allele_offset`, which is 0 or 1, with the
length of the read. -/
def recovery_guard (allele_offset : Int) (seq_l : Nat) : Bool :=
  decide ((if 0 < allele_offset then 1 else 0) < seq_l)

/-- The index expression `bc_combo_counts->num_bc2 * bc1 + bc2` of
`demultiplex_fastq_pair`, evaluated in `unsigned int`. -/
def counts_index (num_bc2 bc1 bc2 : Nat) : Nat := (num_bc2 * bc1 + bc2) % 2 ^ 32

/-- The statement `counts[num_bc2 * bc1 + bc2][allele_i] += 1`. -/
def increment (c : bc_counter) (bc1 bc2 : Nat) (allele_i : Fin 4) : bc_counter :=
  ⟨c.num_bc1, c.num_bc2, List.modify
    (fun row => List.modify (fun n => (n + 1) % 2 ^ 32) allele_i.val row)
    (counts_index c.num_bc2 bc1 bc2) c.counts⟩

/-- The body of the `while` loop of `demultiplex_fastq_pair` for one read
pair; `none` when a barcode lookup never returns. -/
def demultiplex_read_pair (fs2_seqs : library_seqs) (hash_table : bc_hash_table)
    (ad_fl_mismatches ed_threshold : Int) (valid_alleles : Fin 4 → Bool)
    (bc_combo_counts : bc_counter) (read_1 read_2 : List Nat) : Option bc_counter :=
  (hash_table_lookup hash_table read_1 0).bind fun v1 =>
  (hash_table_lookup hash_table read_2 1).bind fun v2 =>
    let bc1 := v1 - 1
    let bc2 := v2 - 1
    if bc1 < 0 ∨ bc2 < 0 then some bc_combo_counts
    else
      let edit_distance := segment_loop read_1 ad_fl_mismatches ed_threshold
        (fs2_seqs.prototypes 0).segments 0
      let edit_distance := segment_loop read_2 ad_fl_mismatches ed_threshold
        (fs2_seqs.prototypes 1).segments edit_distance
      if edit_distance > ed_threshold then some bc_combo_counts
      else
        some (increment bc_combo_counts bc1.toNat bc2.toNat
          (resolve_allele fs2_seqs valid_alleles read_1))

/-- Modelled from the spec: the FASTQ reader `kseq_t` of `kseq.h`, which is
not among the sources. The state of a stream is the list of the sequences of
its records still to be read, together with `seq.s`, the sequence of the
record read last. -/
structure kseq_t where
  records : List (List Nat)
  seq : List Nat

/-- Modelled from the spec: the function `kseq_read` of `kseq.h`, which is not
among the sources: reading a record returns a non-negative status, the length
of its sequence, and the end of the stream returns -1. -/
def kseq_read (fq : kseq_t) : kseq_t × Int :=
  match fq.records with
  | [] => (fq, -1)
  | r :: rest => (⟨rest, r⟩, (r.length : Int))

/-- The function `read_fastq_pair`: both streams are read, the two statuses
are stored, and the result tells whether both are non-negative. -/
def read_fastq_pair (fq_1 fq_2 : kseq_t) : (kseq_t × kseq_t) × (Int × Int) × Bool :=
  let r_1 := kseq_read fq_1
  let r_2 := kseq_read fq_2
  ((r_1.1, r_2.1), (r_1.2, r_2.2), decide (r_1.2 ≥ 0) && decide (r_2.2 ≥ 0))

/-- The `while (read_fastq_pair(...))` loop of `demultiplex_fastq_pair`: the
counter and the array `read_status` it leaves; `none` when the fuel runs out
or a barcode lookup never returns. -/
def demultiplex_loop (fs2_seqs : library_seqs) (hash_table : bc_hash_table)
    (ad_fl_mismatches ed_threshold : Int) (valid_alleles : Fin 4 → Bool) :
    Nat → kseq_t → kseq_t → bc_counter → Option (bc_counter × Int × Int)
  | 0, _, _, _ => none
  | fuel + 1, fq_1, fq_2, bc_combo_counts =>
    let r := read_fastq_pair fq_1 fq_2
    if r.2.2 then
      (demultiplex_read_pair fs2_seqs hash_table ad_fl_mismatches ed_threshold valid_alleles
        bc_combo_counts r.1.1.seq r.1.2.seq).bind
        (demultiplex_loop fs2_seqs hash_table ad_fl_mismatches ed_threshold valid_alleles fuel
          r.1.1 r.1.2)
    else some (bc_combo_counts, r.2.1.1, r.2.1.2)

/-- The function `demultiplex_fastq_pair` on two opened streams: the counter
after the loop and whether the warning about a different number of reads is
printed, `(read_status[0] & read_status[1]) != -1`. Every round of the loop
reads a record of mate 1, so one round more than its records is enough fuel. -/
def demultiplex_fastq_pair (fs2_seqs : library_seqs) (hash_table : bc_hash_table)
    (bc_combo_counts : bc_counter) (ad_fl_mismatches ed_threshold : Int)
    (valid_alleles : Fin 4 → Bool) (fastq_1 fastq_2 : List (List Nat)) :
    Option (bc_counter × Bool) :=
  (demultiplex_loop fs2_seqs hash_table ad_fl_mismatches ed_threshold valid_alleles
    (fastq_1.length + 1) ⟨fastq_1, []⟩ ⟨fastq_2, []⟩ bc_combo_counts).map
    fun r => (r.1, decide (Int.land r.2.1 r.2.2 ≠ -1))

/-! ## Concrete libraries and keys used as inputs -/

/-- The barcode `GGATCG` (standard barcode 12). -/
def bc_GGATCG : List Nat := [chG, chG, chA, chT, chC, chG]

/-- The barcode `GTACAA` (standard barcode 48); its hash agrees with that of
`GGATCG` in the low seven bits. -/
def bc_GTACAA : List Nat := [chG, chT, chA, chC, chA, chA]

/-- A library with one standard barcode per pool, `GGATCG` for pool 1 and
`GTACAA` for pool 2, the prototypes `bc1|adapter1|flanking1|allele` and
`bc2|adapter2|flanking2` with adapters `AC`, `TT` and flanking segments `GT`,
`GG`, and the single declared allele `A`. -/
def colliding_library : library_seqs :=
  { barcodes := fun j => if j = 0 then [⟨bc_GGATCG, 12⟩] else [⟨bc_GTACAA, 48⟩],
    flanking := fun j => if j = 0 then ⟨8, 2, [chG, chT]⟩ else ⟨8, 2, [chG, chG]⟩,
    alleles := fun i => if i = 0 then ⟨0, 0, [chA]⟩ else ⟨0, 0, []⟩,
    prototypes := fun j =>
      if j = 0 then ⟨10, [⟨6, 2, [chA, chC]⟩, ⟨8, 2, [chG, chT]⟩]⟩
      else ⟨0, [⟨6, 2, [chT, chT]⟩, ⟨8, 2, [chG, chG]⟩]⟩ }

/-- The six-mer `AAAAAA`. -/
def bc_AAAAAA : List Nat := [chA, chA, chA, chA, chA, chA]

/-- The six-mer `AAAAAT`. -/
def bc_AAAAAT : List Nat := [chA, chA, chA, chA, chA, chT]

/-- The six-mer `CCCCCC`. -/
def bc_CCCCCC : List Nat := [chC, chC, chC, chC, chC, chC]

/-- The six-mer `AAAAAC`, at Hamming distance 1 from `AAAAAA` and from `AAAAAT`. -/
def bc_AAAAAC : List Nat := [chA, chA, chA, chA, chA, chC]

/-- The six-mer `CAAAAA`, at Hamming distance 1 from `AAAAAA` and 2 from `AAAAAT`. -/
def bc_CAAAAA : List Nat := [chC, chA, chA, chA, chA, chA]

/-- The barcode lists of `near_pair_library`. -/
def near_pair_keys (r : Fin 2) : List (List Nat) :=
  if r = 0 then [bc_CCCCCC] else [bc_AAAAAA, bc_AAAAAT]

/-- A library whose pool 1 is `[CCCCCC]` and whose pool 2 is
`[AAAAAA, AAAAAT]`, two barcodes at Hamming distance 1. -/
def near_pair_library : library_seqs :=
  { barcodes := fun j => if j = 0 then [⟨bc_CCCCCC, 1⟩] else [⟨bc_AAAAAA, 1⟩, ⟨bc_AAAAAT, 2⟩],
    flanking := fun _ => ⟨0, 0, []⟩,
    alleles := fun _ => ⟨0, 0, []⟩,
    prototypes := fun _ => ⟨0, []⟩ }

/-- The barcode `AGCAAT` (standard barcode 1). -/
def bc_AGCAAT : List Nat := [chA, chG, chC, chA, chA, chT]

/-- The barcode `CCTGTT` (standard barcode 2). -/
def bc_CCTGTT : List Nat := [chC, chC, chT, chG, chT, chT]

/-- The barcode `GGGTTT` (standard barcode 3). -/
def bc_GGGTTT : List Nat := [chG, chG, chG, chT, chT, chT]

/-- The barcode `GAAGGC` (standard barcode 4). -/
def bc_GAAGGC : List Nat := [chG, chA, chA, chG, chG, chC]

/-- A library with two barcodes per pool, `AGCAAT`, `CCTGTT` for pool 1 and
`GGGTTT`, `GAAGGC` for pool 2, the prototypes `bc1|adapter1|flanking1|allele`
and `bc2|adapter2|flanking2` with adapters `AC`, `TT` and flanking segments
`GT`, `GG`, and the single declared allele `A`. -/
def two_by_two_library : library_seqs :=
  { barcodes := fun j =>
      if j = 0 then [⟨bc_AGCAAT, 1⟩, ⟨bc_CCTGTT, 2⟩] else [⟨bc_GGGTTT, 3⟩, ⟨bc_GAAGGC, 4⟩],
    flanking := fun j => if j = 0 then ⟨8, 2, [chG, chT]⟩ else ⟨8, 2, [chG, chG]⟩,
    alleles := fun i => if i = 0 then ⟨0, 0, [chA]⟩ else ⟨0, 0, []⟩,
    prototypes := fun j =>
      if j = 0 then ⟨10, [⟨6, 2, [chA, chC]⟩, ⟨8, 2, [chG, chT]⟩]⟩
      else ⟨0, [⟨6, 2, [chT, chT]⟩, ⟨8, 2, [chG, chG]⟩]⟩ }

/-- The mate-1 read `CCTGTT AC GT A`: barcode 2 of pool 1, exact adapter and
flanking segment, allele base `A`. -/
def read_1_exact : List Nat := bc_CCTGTT ++ [chA, chC, chG, chT, chA]

/-- The mate-2 read `GGGTTT TT GG`: barcode 1 of pool 2, exact adapter and
flanking segment. -/
def read_2_exact : List Nat := bc_GGGTTT ++ [chT, chT, chG, chG]

/-- The mate-1 read `CCTGTT AC TG C`: the two characters of the flanking
segment are swapped and the base at the allele offset is `C`. -/
def read_1_swapped_flanking : List Nat := bc_CCTGTT ++ [chA, chC, chT, chG, chC]

/-- The mate-1 read `CCTGTT AC GT N`: the character at the allele offset is `N`. -/
def read_1_allele_N : List Nat := bc_CCTGTT ++ [chA, chC, chG, chT, 78]

/-- The mate-1 read `AAAAAA AC GT A`, whose first six characters are no barcode. -/
def read_1_unknown_barcode : List Nat := bc_AAAAAA ++ [chA, chC, chG, chT, chA]

/-- The flanking segment `GATTACAGAT`. -/
def fl_GATTACAGAT : List Nat := [chG, chA, chT, chT, chA, chC, chA, chG, chA, chT]

/-- The library `two_by_two_library` with the left flanking segment
`GATTACAGAT` in place of `GT`: the prototype `bc1|adapter1|flanking1|allele`
puts the adapter at offset 6, the flanking segment at offset 8 and the allele
at offset 18. -/
def long_flanking_library : library_seqs :=
  { barcodes := fun j =>
      if j = 0 then [⟨bc_AGCAAT, 1⟩, ⟨bc_CCTGTT, 2⟩] else [⟨bc_GGGTTT, 3⟩, ⟨bc_GAAGGC, 4⟩],
    flanking := fun j => if j = 0 then ⟨8, 10, fl_GATTACAGAT⟩ else ⟨8, 2, [chG, chG]⟩,
    alleles := fun i => if i = 0 then ⟨0, 0, [chA]⟩ else ⟨0, 0, []⟩,
    prototypes := fun j =>
      if j = 0 then ⟨18, [⟨6, 2, [chA, chC]⟩, ⟨8, 10, fl_GATTACAGAT⟩]⟩
      else ⟨0, [⟨6, 2, [chT, chT]⟩, ⟨8, 2, [chG, chG]⟩]⟩ }

/-- The mate-1 read `CCTGTT AC GATTACAGAT C`: barcode 2 of pool 1, exact
adapter and flanking segment, and the base `C` at the allele offset 18. -/
def read_1_long_flanking : List Nat := bc_CCTGTT ++ [chA, chC] ++ fl_GATTACAGAT ++ [chC]

/-- The bytes of a string literal. -/
def ascii (s : String) : List Nat := s.toList.map Char.toNat

/-- A zeroed library, as `calloc` leaves it, with the adapters `AC`, `TT`, the
flanking segments `GT`, `GG` and the two prototype strings given. -/
def layout_of (prototype1 prototype2 : String) : library_layout :=
  { adapters := fun j => if j = 0 then ⟨0, 0, [chA, chC]⟩ else ⟨0, 0, [chT, chT]⟩,
    flanking := fun j => if j = 0 then ⟨0, 0, [chG, chT]⟩ else ⟨0, 0, [chG, chG]⟩,
    prototype_strings := fun j =>
      if j = 0 then ⟨0, 0, ascii prototype1⟩ else ⟨0, 0, ascii prototype2⟩,
    prototypes := fun _ => ⟨0, List.replicate 5 none⟩ }

/-! ## Reference recurrences of the specification -/

/-- Row `i ≥ 1` of the reference recurrence of the optimal-string-alignment
distance, as the specification words it, from the rows `i - 2` and `i - 1`:
a substitution, an insertion and a deletion cost 1 each, and so does the
transposition of two adjacent characters. -/
def osa_row (s1 s2 : List Nat) (i : Nat) (prev2 prev : Nat → Int) : Nat → Int
  | 0 => i
  | j + 1 =>
    let cost : Int := if byteAt s1 (i - 1) = byteAt s2 j then 0 else 1
    let d := min (min (prev (j + 1) + 1) (osa_row s1 s2 i prev2 prev j + 1)) (prev j + cost)
    if 1 < i ∧ 0 < j ∧ byteAt s1 (i - 1) = byteAt s2 (j - 1) ∧ byteAt s1 (i - 2) = byteAt s2 j then
      min d (prev2 (j - 1) + 1)
    else d

/-- The rows `i - 1` and `i` of the reference recurrence of the
optimal-string-alignment distance; row 0 is `0, 1, 2, ...`. -/
def osa_rows (s1 s2 : List Nat) : Nat → (Nat → Int) × (Nat → Int)
  | 0 => (fun _ => 0, fun j => j)
  | i + 1 => ((osa_rows s1 s2 i).2, osa_row s1 s2 (i + 1) (osa_rows s1 s2 i).1 (osa_rows s1 s2 i).2)

/-- The optimal-string-alignment distance of the first `len` characters of
`s1` and `s2`, by the reference recurrence of the specification. -/
def osa_distance (s1 s2 : List Nat) (len : Nat) : Int := (osa_rows s1 s2 len).2 len

/-- The largest position `p ≤ n`, counted from 1, with `s[p - 1] = x`, or `0`
when there is none. -/
def last_occurrence (s : List Nat) (x : Nat) : Nat → Nat
  | 0 => 0
  | n + 1 => if byteAt s n = x then n + 1 else last_occurrence s x n

/-- Row `i ≥ 1` of the reference recurrence of the unrestricted
Damerau-Levenshtein distance (Lowrance and Wagner) from the rows before it,
given as the table `D`: a substitution, an insertion and a deletion cost 1
each; a transposition swaps the characters at the last row `k < i` with
`s1[k] = s2[j]` and at the last column `l < j` with `s2[l] = s1[i]`, and
costs 1 plus the `i - k - 1` characters deleted and the `j - l - 1`
characters inserted between the two. -/
def lw_row (s1 s2 : List Nat) (D : Nat → Nat → Int) (i : Nat) : Nat → Int
  | 0 => i
  | j + 1 =>
    let cost : Int := if byteAt s1 (i - 1) = byteAt s2 j then 0 else 1
    let d := min (min (D (i - 1) j + cost) (lw_row s1 s2 D i j + 1)) (D (i - 1) (j + 1) + 1)
    let k := last_occurrence s1 (byteAt s2 j) (i - 1)
    let l := last_occurrence s2 (byteAt s1 (i - 1)) j
    if 0 < k ∧ 0 < l then
      min d (D (k - 1) (l - 1) + ((i : Int) - k - 1) + 1 + ((j : Int) + 1 - l - 1))
    else d

/-- The rows `0..n` of the reference recurrence of the unrestricted
Damerau-Levenshtein distance; row 0 is `0, 1, 2, ...`. -/
def lw_table (s1 s2 : List Nat) : Nat → Nat → Nat → Int
  | 0 => fun _ j => j
  | n + 1 => fun i j =>
    if i = n + 1 then lw_row s1 s2 (lw_table s1 s2 n) (n + 1) j else lw_table s1 s2 n i j

/-- The unrestricted Damerau-Levenshtein distance of the first `len`
characters of `s1` and `s2`, by the reference recurrence. -/
def lw_distance (s1 s2 : List Nat) (len : Nat) : Int := lw_table s1 s2 len len len

/-- The reference formula of the candidate bound: the sum over
`k = 1..max_mismatches` of `C(bc_len, k) * 4 ^ k`. -/
def combos_sum (bc_len max_mismatches : Nat) : Nat :=
  ∑ k ∈ Finset.Icc 1 max_mismatches, bc_len.choose k * 4 ^ k

/-- The reference enumeration of the specification: all strings of length
`n` over the alphabet, each pass prepending every symbol of `bases`, in the
order of `bases`, to the strings of the pass before. -/
def all_strings : Nat → List (List Nat)
  | 0 => [[]]
  | n + 1 => bases.flatMap fun c => (all_strings n).map fun s => c :: s

/-- The segment an adapter or flanking token of a prototype names; `none`
for a barcode token, for the allele token and for a token that names no
segment. -/
def token_names (segment : List Nat) : Option segment_ptr :=
  if strncmp_eq segment str_bc 2 then none
  else if strcmp_eq segment str_allele then none
  else token_segment_ptr segment

/-- The token is the allele token: it is `allele` and does not start with `bc`. -/
def is_allele_token (segment : List Nat) : Bool :=
  !strncmp_eq segment str_bc 2 && strcmp_eq segment str_allele

/-- The token is a barcode token, the allele token, or names a segment. -/
def valid_token (segment : List Nat) : Bool :=
  strncmp_eq segment str_bc 2 || strcmp_eq segment str_allele ||
    (token_segment_ptr segment).isSome

/-- The length the layout gives a token: 6 for a barcode token, 1 for the
allele token, the length of its reference sequence for an adapter or
flanking token. -/
def token_length (fs2_seqs : library_layout) (segment : List Nat) : Nat :=
  if strncmp_eq segment str_bc 2 then 6
  else if strcmp_eq segment str_allele then 1
  else match token_segment_ptr segment with
    | some ptr => (cstr (fs2_seqs.deref ptr).seq).length
    | none => 0

/-- The sum of the lengths of the tokens before token `k`. -/
def token_offset (fs2_seqs : library_layout) (tokens : List (List Nat)) (k : Nat) : Nat :=
  ((tokens.take k).map (token_length fs2_seqs)).sum

/-- The segments the adapter and flanking tokens name, in the order of the
tokens. -/
def segment_tokens (tokens : List (List Nat)) : List segment_ptr := tokens.filterMap token_names

/-! ## Auxiliary definitions of the proofs

None of these is part of the program: they name the position where a probe
stops, the values a loop has computed so far, and the invariants of the
index. -/

/-- Auxiliary: the probe for `key` in pool `p` that starts at raw index
`index` stops after exactly `t` further steps: the first `t` slots are taken
by other keys, the next one is free for `p` or holds `key`. -/
def ProbeStops (ht : bc_hash_table) (key : List Nat) (p : Fin 2) (index t : Nat) : Prop :=
  (∀ s < t, ∃ kv, ht.items[(index + s) % ht.items.length]? = some kv ∧ kv.value p ≠ 0 ∧
      strncmp_eq key kv.key ht.key_length = false) ∧
  ∃ kv, ht.items[(index + t) % ht.items.length]? = some kv ∧
      (kv.value p = 0 ∨ strncmp_eq key kv.key ht.key_length = true)

/-- Auxiliary: the table after `hash_table_insert` has stopped at slot `pos`. -/
def insert_at (ht : bc_hash_table) (key : List Nat) (value : Int) (p : Fin 2) (overwrite : Bool)
    (pos : Nat) : bc_hash_table :=
  match ht.items[pos]? with
  | none => ht
  | some kv_slot =>
    if kv_slot.value p = 0 then
      { ht with
        items := ht.items.set pos ⟨strncpy key ht.key_length, Function.update kv_slot.value p value⟩,
        num_items := ht.num_items + 1 }
    else
      { ht with
        items := ht.items.set pos
          ⟨kv_slot.key, Function.update kv_slot.value p (if overwrite then value else -1)⟩ }

/-- Auxiliary: the slot `hash_table_insert` leaves where its probe stopped on
the slot `kv`. -/
def written_slot (key_length : Nat) (key : List Nat) (value : Int) (p : Fin 2) (overwrite : Bool)
    (kv : hash_kv) : hash_kv :=
  if kv.value p = 0 then ⟨strncpy key key_length, Function.update kv.value p value⟩
  else ⟨kv.key, Function.update kv.value p (if overwrite then value else -1)⟩

/-- Auxiliary: the entry `da[c]` once rows `1..r` are done: the last row
whose character of `seq_1` has byte `c`, or `0`. -/
def last_match_row (seq_1 : List Nat) (c : Nat) : Nat → Nat
  | 0 => 0
  | r + 1 => if byteAt seq_1 r % 256 = c then r + 1 else last_match_row seq_1 c r

/-- Auxiliary: the variable `db` once columns `1..c` of a row are done: the
last column whose character of `seq_2` equals the row's character `x`, or `0`. -/
def last_match_col (seq_2 : List Nat) (x : Nat) : Nat → Nat
  | 0 => 0
  | c + 1 => if x = byteAt seq_2 c then c + 1 else last_match_col seq_2 x c

/-- Auxiliary: the value `damerau_levenshtein` writes to `dpm[i + 1][j + 1]`,
as a function of the matrix it reads. -/
def dl_cell_value (seq_1 seq_2 : List Nat) (dpm : Nat → Nat → Int) (i j : Nat) : Int :=
  min4 (dpm i j + (if byteAt seq_1 (i - 1) = byteAt seq_2 (j - 1) then 0 else 1))
    (dpm (i + 1) j + 1) (dpm i (j + 1) + 1)
    (dpm (last_match_row seq_1 (byteAt seq_2 (j - 1) % 256) (i - 1))
        (last_match_col seq_2 (byteAt seq_1 (i - 1)) (j - 1)) +
      ((i : Int) - (last_match_row seq_1 (byteAt seq_2 (j - 1) % 256) (i - 1) : Nat) - 1) + 1 +
      ((j : Int) - (last_match_col seq_2 (byteAt seq_1 (i - 1)) (j - 1) : Nat) - 1))

/-- Auxiliary: the loop invariant of `damerau_levenshtein` before cell
`(i, j)`: the border is the initial one, and every cell written so far holds
the value of the recurrence on the current matrix. -/
def DLInv (seq_1 seq_2 : List Nat) (len : Nat) (dpm : Nat → Nat → Int) (i j : Nat) : Prop :=
  (∀ a b, (a ≤ 1 ∨ b ≤ 1) → dpm a b = dl_init len a b) ∧
  (∀ a b, 1 ≤ a → 1 ≤ b → b ≤ len → (a < i ∨ (a = i ∧ b < j)) →
    dpm (a + 1) (b + 1) = dl_cell_value seq_1 seq_2 dpm a b)

/-- Auxiliary: collision-free tables. Every key of the lists `K 0`, `K 1` is
a six-character string, different keys start their probes at different
slots, and a slot that holds a value for pool `r` holds a key of `K r` at
that key's own start slot. -/
def PerfectHash (K : Fin 2 → List (List Nat)) (t : bc_hash_table) : Prop :=
  t.key_length = 6 ∧
  (∀ r, ∀ k ∈ K r, k.length = 6 ∧ ∀ c ∈ k, c ≠ 0) ∧
  (∀ r r', ∀ k ∈ K r, ∀ k' ∈ K r', probe_start t k = probe_start t k' → k = k') ∧
  (∀ i kv, t.items[i]? = some kv → ∀ r, kv.value r ≠ 0 → kv.key ∈ K r ∧ probe_start t kv.key = i)

/-- Auxiliary: a slot that holds a value for at least one pool. -/
def occupied (kv : hash_kv) : Prop := kv.value 0 ≠ 0 ∨ kv.value 1 ≠ 0

/-- Auxiliary: the invariant behind the occupancy bound of the index. The
keys of `K 0`, `K 1` are six-character strings, and every occupied slot `i`
has an owner pool `owner i`, the pool whose insert wrote its key: the slot
holds a value for its owner, its key is a key of the owner, every slot on the
key's probe path before `i` holds a value for the owner, and no two occupied
slots have the same owner and key. -/
def Owned (K : Fin 2 → List (List Nat)) (t : bc_hash_table) (owner : Nat → Fin 2) : Prop :=
  t.key_length = 6 ∧
  (∀ r, ∀ k ∈ K r, k.length = 6 ∧ ∀ c ∈ k, c ≠ 0) ∧
  (∀ i kv, t.items[i]? = some kv → occupied kv →
    kv.value (owner i) ≠ 0 ∧ kv.key ∈ K (owner i) ∧
    ∃ T, T < t.items.length ∧ (probe_start t kv.key + T) % t.items.length = i ∧
      ∀ s < T, ∃ kv', t.items[(probe_start t kv.key + s) % t.items.length]? = some kv' ∧
        kv'.value (owner i) ≠ 0) ∧
  (∀ i j kv kv', t.items[i]? = some kv → t.items[j]? = some kv' → occupied kv → occupied kv' →
    owner i = owner j → kv.key = kv'.key → i = j)

/-- Auxiliary: the keys of both pools, each tagged with its pool. -/
def tagged_keys (K : Fin 2 → List (List Nat)) : List (Fin 2 × List Nat) :=
  (K 0).map (fun k => ((0 : Fin 2), k)) ++ (K 1).map (fun k => ((1 : Fin 2), k))

/-- Auxiliary: the invariant of the build phase on a table of `n` slots. -/
def BuildInv (K : Fin 2 → List (List Nat)) (n : Nat) (t : bc_hash_table) : Prop :=
  t.items.length = n ∧ ∃ owner, Owned K t owner

/-- Auxiliary: some slot holds the key `b` with a positive value for pool `P`. -/
def Wit (P : Fin 2) (t : bc_hash_table) (b : List Nat) : Prop :=
  ∃ (i : Nat) (kv : hash_kv), t.items[i]? = some kv ∧ kv.key = b ∧ kv.value P > 0

/-- Auxiliary: two different slots hold a positive value for pool `P`. -/
def Pos2 (P : Fin 2) (t : bc_hash_table) : Prop :=
  ∃ (i1 i2 : Nat) (kv1 kv2 : hash_kv), i1 ≠ i2 ∧ t.items[i1]? = some kv1 ∧ t.items[i2]? = some kv2 ∧
    kv1.value P > 0 ∧ kv2.value P > 0

/-- Auxiliary: the invariant of the rebuild loop of `prune_hash_table` on a
table of `n` slots: at most `c p` slots hold a value for pool `p`, and every
occupied slot holds a key of `K 0` or `K 1`. -/
def PruneInv (K : Fin 2 → List (List Nat)) (n : Nat) (c : Fin 2 → Nat) (t : bc_hash_table) :
    Prop :=
  t.key_length = 6 ∧ t.items.length = n ∧
  (∀ p : Fin 2, t.items.countP (fun kv => decide (kv.value p ≠ 0)) ≤ c p) ∧
  (∀ kv ∈ t.items, occupied kv → ∃ r, kv.key ∈ K r)

/-- Auxiliary: the distance `damerau_levenshtein(segment->seq, read + segment->offset,
segment->length)` the segment loop computes for one segment. -/
def segment_distance (read : List Nat) (segment : read_segment) : Int :=
  damerau_levenshtein segment.seq (read.drop segment.offset) segment.length

/-- Auxiliary: the counter `counts[row][a]`. -/
def count_at (c : bc_counter) (row : Nat) (a : Fin 4) : Nat := (c.counts.getD row []).getD a.val 0

/-- Auxiliary: the acceptance condition of segment validation: every segment
of both prototypes is within `ad_fl_mismatches` of its window, and the
distances of all segments of both mates sum to at most `ed_threshold`. -/
def segments_accepted (fs2_seqs : library_seqs) (ad_fl_mismatches ed_threshold : Int)
    (read_1 read_2 : List Nat) : Prop :=
  (∀ s ∈ (fs2_seqs.prototypes 0).segments, segment_distance read_1 s ≤ ad_fl_mismatches) ∧
  (∀ s ∈ (fs2_seqs.prototypes 1).segments, segment_distance read_2 s ≤ ad_fl_mismatches) ∧
  (((fs2_seqs.prototypes 0).segments.map (segment_distance read_1)).sum +
    ((fs2_seqs.prototypes 1).segments.map (segment_distance read_2)).sum ≤ ed_threshold)

/-- Auxiliary: the score `nw_offset` writes to `scores[i][j]` in its fill
loop, as a function of the matrix it reads. -/
def nw_score_value (seq_1 seq_2 : List Nat) (scores : Nat → Nat → Int) (i j : Nat) : Int :=
  let s_m : Int := if byteAt seq_1 (i - 1) = byteAt seq_2 (j - 1) then 1 else -1
  let overlap_score := scores (i - 1) (j - 1) + s_m
  let s1_gap := scores (i - 1) j + -1
  let s2_gap := scores i (j - 1) + -1
  let gap_score := if s1_gap > s2_gap then s1_gap else s2_gap
  if overlap_score > gap_score then overlap_score else gap_score

/-- Auxiliary: the move `nw_offset` writes to `traceback[i][j]` in its fill
loop, as a function of the score matrix it reads. -/
def nw_move_value (seq_1 seq_2 : List Nat) (scores : Nat → Nat → Int) (i j : Nat) : Int :=
  let s_m : Int := if byteAt seq_1 (i - 1) = byteAt seq_2 (j - 1) then 1 else -1
  let overlap_score := scores (i - 1) (j - 1) + s_m
  let s1_gap := scores (i - 1) j + -1
  let s2_gap := scores i (j - 1) + -1
  let gap_score := if s1_gap > s2_gap then s1_gap else s2_gap
  if overlap_score > gap_score then DIAG else if s1_gap > s2_gap then UP else LEFT

/-- Auxiliary: the loop invariant of the fill loop of `nw_offset` before cell
`(i, j)`: the first column and the first row hold the indel scores, and every
cell written so far holds the score and the move of the recurrence. -/
def NWInv (seq_1 seq_2 : List Nat) (len : Nat) (st : (Nat → Nat → Int) × (Nat → Nat → Int))
    (i j : Nat) : Prop :=
  (∀ a, a ≤ len → st.1 a 0 = -(a : Int)) ∧ (∀ b, b ≤ len → st.1 0 b = -(b : Int)) ∧
  (∀ a b, 1 ≤ a → 1 ≤ b → b ≤ len → (a < i ∨ (a = i ∧ b < j)) →
    st.1 a b = nw_score_value seq_1 seq_2 st.1 a b ∧
    st.2 a b = nw_move_value seq_1 seq_2 st.1 a b)

/-- Auxiliary: the numbers of vertical and of horizontal gap moves the
traceback takes from cell `(i_1, i_2)` before its first diagonal move. -/
def gap_moves (traceback : Nat → Nat → Int) : Nat → Nat → Nat → Nat × Nat
  | 0, _, _ => (0, 0)
  | fuel + 1, i_1, i_2 =>
    if i_1 = 0 ∧ i_2 = 0 then (0, 0)
    else if traceback i_1 i_2 = UP then
      ((gap_moves traceback fuel (i_1 - 1) i_2).1 + 1, (gap_moves traceback fuel (i_1 - 1) i_2).2)
    else if traceback i_1 i_2 = LEFT then
      ((gap_moves traceback fuel i_1 (i_2 - 1)).1, (gap_moves traceback fuel i_1 (i_2 - 1)).2 + 1)
    else (0, 0)

/-- Auxiliary: the sum of all counters of the count matrix. -/
def counter_total (c : bc_counter) : Nat := (c.counts.map List.sum).sum

/-- Auxiliary: the number of positions below `k` at which the two strings differ. -/
def mismatches (seq_1 seq_2 : List Nat) : Nat → Nat
  | 0 => 0
  | k + 1 => mismatches seq_1 seq_2 k + (if byteAt seq_1 k ≠ byteAt seq_2 k then 1 else 0)

/-- Row `n` of the array after `i` passes of `generate_all_bc_combos` on a
zeroed array: the first `4 ^ i` rows hold the strings of length `i`, right
aligned before the final NUL; the others are still zero. -/
def combos_rows (len i n : Nat) : List Nat :=
  if n < 4 ^ i then List.replicate (len - i) 0 ++ (all_strings i).getD n [] ++ [0]
  else List.replicate (len + 1) 0

/-- Auxiliary: the number of strings of length `len` over four symbols within
Hamming distance `m` of a given one, the sum over `k = 0..m` of
`C(len, k) * 3 ^ k`. -/
def ball_size (len m : Nat) : Nat := ∑ k ∈ Finset.range (m + 1), len.choose k * 3 ^ k

/-! # Theorems

## Loops and C strings -/

theorem forLoop_induction {σ : Type} (body : Nat → σ → σ) (P : Nat → σ → Prop) :
    ∀ (count start : Nat) (s : σ), P start s →
      (∀ i s, start ≤ i → i < start + count → P i s → P (i + 1) (body i s)) →
      P (start + count) (forLoop body count start s) := by
  intro count
  induction count with
  | zero => intro start s h0 _; simpa [forLoop] using h0
  | succ n ih =>
    intro start s h0 hstep
    have h1 := hstep start s (le_refl _) (by omega) h0
    have := ih (start + 1) (body start s) h1
      (fun i s hi hlt hP => hstep i s (by omega) (by omega) hP)
    simpa [forLoop, Nat.add_assoc, Nat.add_comm 1 n] using this

theorem cstr_of_nonzero (k : List Nat) (h : ∀ c ∈ k, c ≠ 0) : cstr k = k := by
  unfold cstr
  rw [List.takeWhile_eq_self_iff]
  intro c hc
  simpa using h c hc

theorem prune_count_snd_zero (items : List hash_kv)
    (h : ∀ kv ∈ items, 0 ≤ kv.value 0 ∧ 0 ≤ kv.value 1) : (prune_count items).2 = 0 := by
  unfold prune_count
  suffices hgen : ∀ (l : List hash_kv) (acc : Nat × Nat),
      (∀ kv ∈ l, 0 ≤ kv.value 0 ∧ 0 ≤ kv.value 1) →
      (l.foldl (fun acc kv =>
        if kv.value 0 > 0 ∨ kv.value 1 > 0 then (acc.1 + 1, acc.2)
        else if kv.value 0 < 0 ∨ kv.value 1 < 0 then (acc.1, acc.2 + 1)
        else acc) acc).2 = acc.2 from hgen items (0, 0) h
  intro l
  induction l with
  | nil => intro acc _; rfl
  | cons kv rest ih =>
    intro acc hl
    rw [List.foldl_cons, ih _ (fun kv' hkv' => hl kv' (List.mem_cons_of_mem _ hkv'))]
    have := hl kv (List.mem_cons_self _ _)
    by_cases h1 : kv.value 0 > 0 ∨ kv.value 1 > 0
    · rw [if_pos h1]
    · rw [if_neg h1, if_neg (by omega)]

theorem written_slot_value_ne (key_length : Nat) (key : List Nat) (v : Int) (hv : v ≠ 0)
    (r : Fin 2) (overwrite : Bool) (kv : hash_kv) (p : Fin 2) (h : kv.value p ≠ 0) :
    (written_slot key_length key v r overwrite kv).value p ≠ 0 := by
  unfold written_slot
  by_cases h0 : kv.value r = 0
  · rw [if_pos h0]
    by_cases hp : p = r
    · subst hp; exact absurd h0 h
    · simpa [Function.update_noteq hp] using h
  · rw [if_neg h0]
    by_cases hp : p = r
    · subst hp
      simp only [Function.update_same]
      cases overwrite <;> simp [hv]
    · simpa [Function.update_noteq hp] using h

/-! ## Probe loops of the barcode index -/

theorem norm_index (n index : Nat) (h : index ≤ n) :
    (if index ≥ n then 0 else index) = index % n := by
  by_cases hi : index ≥ n
  · have : index = n := le_antisymm h hi
    simp [this]
  · simp [hi, Nat.mod_eq_of_lt (not_le.mp hi)]

theorem insert_loop_of_stops (ht : bc_hash_table) (key : List Nat) (value : Int) (p : Fin 2)
    (overwrite : Bool) (t : Nat) :
    ∀ fuel index, t < fuel → index ≤ ht.items.length → ProbeStops ht key p index t →
      insert_loop ht key value p overwrite fuel index =
        some (insert_at ht key value p overwrite ((index + t) % ht.items.length)) := by
  induction t with
  | zero =>
    intro fuel index hf hi hs
    obtain ⟨fuel, rfl⟩ : ∃ f, fuel = f + 1 := ⟨fuel - 1, by omega⟩
    obtain ⟨-, kv, hkv, hstop⟩ := hs
    have hn : 0 < ht.items.length := by
      rcases Nat.eq_zero_or_pos ht.items.length with h0 | h0
      · rw [List.length_eq_zero] at h0; simp [h0] at hkv
      · exact h0
    simp only [Nat.add_zero] at hkv ⊢
    simp only [insert_loop, bc_hash_table.num_slots, norm_index _ _ hi, hkv, insert_at]
    by_cases hv : kv.value p = 0
    · simp [hv]
    · have hm : strncmp_eq key kv.key ht.key_length = true := by
        rcases hstop with h | h
        · exact absurd h hv
        · exact h
      simp [hv, hm]
  | succ t ih =>
    intro fuel index hf hi hs
    obtain ⟨fuel, rfl⟩ : ∃ f, fuel = f + 1 := ⟨fuel - 1, by omega⟩
    obtain ⟨hpre, kv, hkv, hstop⟩ := hs
    obtain ⟨kv0, hkv0, hv0, hm0⟩ := hpre 0 (Nat.succ_pos t)
    have hn : 0 < ht.items.length := by
      rcases Nat.eq_zero_or_pos ht.items.length with h0 | h0
      · rw [List.length_eq_zero] at h0; simp [h0] at hkv
      · exact h0
    simp only [Nat.add_zero] at hkv0
    have hstep : ∀ s, (index % ht.items.length + 1 + s) % ht.items.length
        = (index + (s + 1)) % ht.items.length := by
      intro s
      rw [Nat.add_assoc, Nat.mod_add_mod, Nat.add_comm 1 s]
    have hrec := ih fuel (index % ht.items.length + 1) (by omega)
      (Nat.succ_le_of_lt (Nat.mod_lt _ hn))
      ⟨fun s hs => by rw [hstep]; exact hpre (s + 1) (by omega), kv, by rw [hstep]; exact hkv,
        hstop⟩
    rw [hstep] at hrec
    simp only [insert_loop, bc_hash_table.num_slots, norm_index _ _ hi, hkv0]
    simp [hv0, hm0, hrec]

theorem lookup_loop_of_stops (ht : bc_hash_table) (key : List Nat) (p : Fin 2) (t : Nat) :
    ∀ fuel index, t < fuel → index ≤ ht.items.length → ProbeStops ht key p index t →
      lookup_loop ht key p fuel index =
        (ht.items[(index + t) % ht.items.length]?).map (fun kv => kv.value p) := by
  induction t with
  | zero =>
    intro fuel index hf hi hs
    obtain ⟨fuel, rfl⟩ : ∃ f, fuel = f + 1 := ⟨fuel - 1, by omega⟩
    obtain ⟨-, kv, hkv, hstop⟩ := hs
    have hn : 0 < ht.items.length := by
      rcases Nat.eq_zero_or_pos ht.items.length with h0 | h0
      · rw [List.length_eq_zero] at h0; simp [h0] at hkv
      · exact h0
    simp only [Nat.add_zero] at hkv ⊢
    simp only [lookup_loop, bc_hash_table.num_slots, norm_index _ _ hi, hkv]
    by_cases hv : kv.value p = 0
    · simp [hv]
    · have hm : strncmp_eq key kv.key ht.key_length = true := by
        rcases hstop with h | h
        · exact absurd h hv
        · exact h
      simp [hv, hm]
  | succ t ih =>
    intro fuel index hf hi hs
    obtain ⟨fuel, rfl⟩ : ∃ f, fuel = f + 1 := ⟨fuel - 1, by omega⟩
    obtain ⟨hpre, kv, hkv, hstop⟩ := hs
    obtain ⟨kv0, hkv0, hv0, hm0⟩ := hpre 0 (Nat.succ_pos t)
    have hn : 0 < ht.items.length := by
      rcases Nat.eq_zero_or_pos ht.items.length with h0 | h0
      · rw [List.length_eq_zero] at h0; simp [h0] at hkv
      · exact h0
    simp only [Nat.add_zero] at hkv0
    have hstep : ∀ s, (index % ht.items.length + 1 + s) % ht.items.length
        = (index + (s + 1)) % ht.items.length := by
      intro s
      rw [Nat.add_assoc, Nat.mod_add_mod, Nat.add_comm 1 s]
    have hrec := ih fuel (index % ht.items.length + 1) (by omega)
      (Nat.succ_le_of_lt (Nat.mod_lt _ hn))
      ⟨fun s hs => by rw [hstep]; exact hpre (s + 1) (by omega), kv, by rw [hstep]; exact hkv,
        hstop⟩
    rw [hstep] at hrec
    simp only [lookup_loop, bc_hash_table.num_slots, norm_index _ _ hi, hkv0]
    simp [hv0, hm0, hrec]

theorem cstr_ne_zero (s : List Nat) : ∀ c ∈ cstr s, (c != 0) = true := by
  intro c hc
  exact List.mem_takeWhile_imp (p := fun c => c != 0) hc

theorem cstr_strncpy (src : List Nat) (n : Nat) : cstr (strncpy src n) = (cstr src).take n := by
  unfold strncpy
  have h : ∀ c ∈ (cstr src).take n, (c != 0) = true :=
    fun c hc => cstr_ne_zero src c (List.mem_of_mem_take hc)
  show List.takeWhile _ _ = _
  rw [List.takeWhile_append_of_pos h]
  cases hk : n - ((cstr src).take n).length with
  | zero => simp
  | succ k => simp [List.replicate_succ, List.takeWhile_cons]

theorem strncmp_strncpy (key : List Nat) (n : Nat) : strncmp_eq key (strncpy key n) n = true := by
  simp [strncmp_eq, cstr_strncpy, List.take_take]

theorem exists_probeStops (ht : bc_hash_table) (key : List Nat) (p : Fin 2) (index : Nat)
    (hfree : ∃ kv ∈ ht.items, kv.value p = 0) :
    ∃ t, t < ht.items.length ∧ ProbeStops ht key p index t := by
  classical
  obtain ⟨kv, hmem, hzero⟩ := hfree
  obtain ⟨j, hj, hjkv⟩ := List.mem_iff_getElem.mp hmem
  have hn : 0 < ht.items.length := by omega
  let Q : Nat → Prop := fun t => ∃ kv, ht.items[(index + t) % ht.items.length]? = some kv ∧
      (kv.value p = 0 ∨ strncmp_eq key kv.key ht.key_length = true)
  have hr : index % ht.items.length < ht.items.length := Nat.mod_lt _ hn
  have hex : ∃ t, t < ht.items.length ∧ Q t := by
    by_cases hc : index % ht.items.length ≤ j
    · refine ⟨j - index % ht.items.length, by omega, kv, ?_, Or.inl hzero⟩
      rw [← Nat.mod_add_mod, Nat.add_sub_cancel' hc, Nat.mod_eq_of_lt hj,
        List.getElem?_eq_getElem hj, hjkv]
    · refine ⟨j + ht.items.length - index % ht.items.length, by omega, kv, ?_, Or.inl hzero⟩
      rw [← Nat.mod_add_mod, Nat.add_sub_cancel' (by omega), Nat.add_mod_right,
        Nat.mod_eq_of_lt hj, List.getElem?_eq_getElem hj, hjkv]
  obtain ⟨t0, ht0, hQ0⟩ := hex
  have hexQ : ∃ t, Q t := ⟨t0, hQ0⟩
  refine ⟨Nat.find hexQ, lt_of_le_of_lt (Nat.find_min' hexQ hQ0) ht0, ?_, Nat.find_spec hexQ⟩
  intro s hs
  have hnot : ¬ Q s := Nat.find_min hexQ hs
  have hlt : (index + s) % ht.items.length < ht.items.length := Nat.mod_lt _ hn
  refine ⟨ht.items[(index + s) % ht.items.length], List.getElem?_eq_getElem hlt, ?_, ?_⟩
  · intro h0
    exact hnot ⟨_, List.getElem?_eq_getElem hlt, Or.inl h0⟩
  · cases hm : strncmp_eq key (ht.items[(index + s) % ht.items.length]).key ht.key_length with
    | false => rfl
    | true => exact absurd ⟨_, List.getElem?_eq_getElem hlt, Or.inr hm⟩ hnot

theorem insert_at_items (ht : bc_hash_table) (key : List Nat) (value : Int) (p : Fin 2)
    (overwrite : Bool) (pos : Nat) (kv : hash_kv) (hkv : ht.items[pos]? = some kv) :
    (insert_at ht key value p overwrite pos).items =
      ht.items.set pos (written_slot ht.key_length key value p overwrite kv) := by
  unfold insert_at written_slot
  rw [hkv]
  by_cases hv : kv.value p = 0 <;> simp [hv]

theorem insert_at_key_length (ht : bc_hash_table) (key : List Nat) (value : Int) (p : Fin 2)
    (overwrite : Bool) (pos : Nat) :
    (insert_at ht key value p overwrite pos).key_length = ht.key_length := by
  unfold insert_at
  cases h : ht.items[pos]? with
  | none => rfl
  | some kv => by_cases hv : kv.value p = 0 <;> simp [hv]

theorem insert_at_length (ht : bc_hash_table) (key : List Nat) (value : Int) (p : Fin 2)
    (overwrite : Bool) (pos : Nat) :
    (insert_at ht key value p overwrite pos).items.length = ht.items.length := by
  unfold insert_at
  cases h : ht.items[pos]? with
  | none => rfl
  | some kv => by_cases hv : kv.value p = 0 <;> simp [hv]

theorem probe_start_lt (ht : bc_hash_table) (key : List Nat) (hn : 0 < ht.items.length) :
    probe_start ht key < ht.items.length := by
  unfold probe_start bc_hash_table.num_slots
  have h1 := Nat.and_le_right (n := fnv_1a key ht.key_length)
    (m := (ht.items.length + (2 ^ 64 - 1)) % 2 ^ 64)
  have h2 : (ht.items.length + (2 ^ 64 - 1)) % 2 ^ 64 < ht.items.length := by omega
  omega

theorem probe_start_insert_at (ht : bc_hash_table) (key : List Nat) (value : Int) (p : Fin 2)
    (overwrite : Bool) (pos : Nat) (key' : List Nat) :
    probe_start (insert_at ht key value p overwrite pos) key' = probe_start ht key' := by
  unfold probe_start bc_hash_table.num_slots
  rw [insert_at_key_length, insert_at_length]

/-! ## Insert, lookup and prune: claims C2 and C4 to C8 -/

/-- Claim C8: in a table with a slot free for pool `p`, inserting any key `k`
with any value `v` (in particular one in `1..127`) and `overwrite = true`
returns, and the lookup of `k` in pool `p` right after it returns `v`,
whatever `k` resolved to before (absent, positive or ambiguous). -/
theorem insert_overwrite_then_lookup (ht : bc_hash_table) (k : List Nat) (v : Int) (p : Fin 2)
    (hfree : ∃ kv ∈ ht.items, kv.value p = 0) :
    ∃ ht', hash_table_insert ht k v p true = some ht' ∧ hash_table_lookup ht' k p = some v := by
  obtain ⟨t, ht_lt, hstop⟩ := exists_probeStops ht k p (probe_start ht k) hfree
  have hn : 0 < ht.items.length := by omega
  have hstart := probe_start_lt ht k hn
  refine ⟨_, insert_loop_of_stops ht k v p true t _ _ ht_lt (le_of_lt hstart) hstop, ?_⟩
  obtain ⟨hpre, kv, hkv, hcond⟩ := hstop
  set pos := (probe_start ht k + t) % ht.items.length with hpos
  have hposlt : pos < ht.items.length := Nat.mod_lt _ hn
  have hitems := insert_at_items ht k v p true pos kv hkv
  have hlen := insert_at_length ht k v p true pos
  have hkl := insert_at_key_length ht k v p true pos
  have hnew : (insert_at ht k v p true pos).items[pos]?
      = some (written_slot ht.key_length k v p true kv) := by
    rw [hitems, List.getElem?_set_self hposlt]
  have hval : (written_slot ht.key_length k v p true kv).value p = v := by
    unfold written_slot
    by_cases h0 : kv.value p = 0 <;> simp [h0]
  have hmatch : strncmp_eq k (written_slot ht.key_length k v p true kv).key ht.key_length = true := by
    unfold written_slot
    by_cases h0 : kv.value p = 0
    · simp [h0, strncmp_strncpy]
    · rcases hcond with h | h
      · exact absurd h h0
      · simp [h0, h]
  have hstop' : ProbeStops (insert_at ht k v p true pos) k p (probe_start ht k) t := by
    refine ⟨fun s hs => ?_, _, by rw [hlen]; exact hnew, Or.inr (by rw [hkl]; exact hmatch)⟩
    obtain ⟨kv', hkv', hv', hm'⟩ := hpre s hs
    refine ⟨kv', ?_, hv', by rw [hkl]; exact hm'⟩
    rw [hlen, hitems, List.getElem?_set_ne ?_]
    · exact hkv'
    · intro heq
      have hmod : (probe_start ht k + t) % ht.items.length
          = (probe_start ht k + s) % ht.items.length := heq
      have := Nat.ModEq.add_left_cancel' (probe_start ht k) hmod
      have h1 : t % ht.items.length = t := Nat.mod_eq_of_lt ht_lt
      have h2 : s % ht.items.length = s := Nat.mod_eq_of_lt (by omega)
      unfold Nat.ModEq at this
      omega
  unfold hash_table_lookup bc_hash_table.num_slots
  rw [probe_start_insert_at, lookup_loop_of_stops _ k p t _ _ (by rw [hlen]; exact ht_lt)
    (by rw [hlen]; exact le_of_lt hstart) hstop', hlen, hnew]
  simp [hval]

/-- Witness of claim C8 on the four-slot table of `init_hash_table 2`, whose
slots are all free: the key `GGATCG` inserted under value 5 for pool 1. -/
theorem insert_overwrite_then_lookup_witness :
    (∃ kv ∈ (bc_hash_table.mk 6 0 (List.replicate 4 empty_kv)).items, kv.value 0 = 0) ∧
    ∃ ht', hash_table_insert (bc_hash_table.mk 6 0 (List.replicate 4 empty_kv))
        [chG, chG, chA, chT, chC, chG] 5 0 true = some ht' ∧
      hash_table_lookup ht' [chG, chG, chA, chT, chC, chG] 0 = some 5 :=
  ⟨⟨empty_kv, by simp, rfl⟩,
    insert_overwrite_then_lookup _ _ 5 0 ⟨empty_kv, by simp, rfl⟩⟩

set_option maxRecDepth 100000 in
/-- Claim C6 fails on the code: in the four-slot table that holds `GGATCG` for
pool 1, inserting `GTACAA` for pool 2 rewrites the shared slot's key and the
pool-1 lookup of `GGATCG` changes from 1 to 0. -/
theorem insert_other_pool_changes_lookup :
    (((init_hash_table 2).bind fun t => hash_table_insert t bc_GGATCG 1 0 true).bind
      fun t => hash_table_lookup t bc_GGATCG 0) = some 1 ∧
    ((((init_hash_table 2).bind fun t => hash_table_insert t bc_GGATCG 1 0 true).bind
      fun t => hash_table_insert t bc_GTACAA 1 1 true).bind
      fun t => hash_table_lookup t bc_GGATCG 0) = some 0 := by
  decide

set_option maxRecDepth 100000 in
/-- Claim C7 fails on the code: `GTACAA` is inserted for pool 2 only, two of the
four slots stay empty, and the pool-1 lookup of `GTACAA` returns 1, the value
stored for `GGATCG`. -/
theorem lookup_absent_key_returns_other_value :
    ((((init_hash_table 2).bind fun t => hash_table_insert t bc_GGATCG 1 0 true).bind
      fun t => hash_table_insert t bc_GTACAA 1 1 true).bind
      fun t => hash_table_lookup t bc_GTACAA 0) = some 1 := by
  decide

set_option maxRecDepth 100000 in
/-- Claim C5 fails on the code: after `GGATCG` is inserted once for pool 1 and
twice for pool 2 without overwrite, the slot holds the values `(1, -1)`;
`prune_hash_table` counts no slot with duplicates, returns early, and the
pool-2 lookup still returns -1. -/
theorem prune_keeps_ambiguous_value :
    (((((init_hash_table 2).bind fun t => hash_table_insert t bc_GGATCG 1 0 false).bind
      fun t => hash_table_insert t bc_GGATCG 1 1 false).bind
      fun t => hash_table_insert t bc_GGATCG 1 1 false).bind prune_hash_table).bind
      (fun t => hash_table_lookup t bc_GGATCG 1) = some (-1) := by
  decide

set_option maxRecDepth 100000 in
/-- Claim C2 fails on the code: with no mismatch allowance and the pools
`[GGATCG]` and `[GTACAA]`, the exact insert of `GTACAA` for pool 2 rewrites the
key of the slot that holds `GGATCG` for pool 1, and the index resolves the
first barcode of pool 1 to 0 instead of 1. -/
theorem exact_barcode_lost_after_build :
    ((main_index false 0 colliding_library).bind
      fun t => hash_table_lookup t bc_GGATCG 0) = some 0 := by
  decide

set_option maxRecDepth 100000 in
/-- Claim C4 fails on the code: with no mismatch allowance, the read pair
`GTACAAACGTA` / `GTACAATTGG` starts mate 1 with `GTACAA`, which differs from
the only pool-1 barcode `GGATCG` in four positions, and still the pair is
counted in cell `(1, 1)` under allele `A`. -/
theorem read_outside_allowance_is_counted :
    hamming_distance bc_GGATCG [chG, chT, chA, chC, chA, chA, chA, chC, chG, chT, chA] 6 = 4 ∧
    ((main_index false 0 colliding_library).bind fun t =>
      demultiplex_read_pair colliding_library t 1 4 (main_valid_alleles colliding_library)
        (init_counter 1 1)
        [chG, chT, chA, chC, chA, chA, chA, chC, chG, chT, chA]
        [chG, chT, chA, chC, chA, chA, chT, chT, chG, chG]) =
      some ⟨1, 1, [[1, 0, 0, 0]]⟩ := by
  decide

/-! ## The matrix of `damerau_levenshtein`: claims C9 to C12 -/

theorem set2_apply (m : Nat → Nat → Int) (i j : Nat) (v : Int) (a b : Nat) :
    set2 m i j v a b = if a = i ∧ b = j then v else m a b := rfl

theorem last_match_row_le (seq_1 : List Nat) (c : Nat) (r : Nat) : last_match_row seq_1 c r ≤ r := by
  induction r with
  | zero => simp [last_match_row]
  | succ r ih =>
    unfold last_match_row
    split_ifs <;> omega

theorem last_match_col_le (seq_2 : List Nat) (x : Nat) (c : Nat) : last_match_col seq_2 x c ≤ c := by
  induction c with
  | zero => simp [last_match_col]
  | succ c ih =>
    unfold last_match_col
    split_ifs <;> omega

theorem dl_cell_value_set2 (seq_1 seq_2 : List Nat) (dpm : Nat → Nat → Int) (i j : Nat) (v : Int)
    (a b : Nat) (ha : 1 ≤ a) (h : a < i ∨ (a = i ∧ b ≤ j)) :
    dl_cell_value seq_1 seq_2 (set2 dpm (i + 1) (j + 1) v) a b = dl_cell_value seq_1 seq_2 dpm a b := by
  have hk := last_match_row_le seq_1 (byteAt seq_2 (b - 1) % 256) (a - 1)
  unfold dl_cell_value
  simp only [set2_apply]
  have h1 : ¬ (a = i + 1 ∧ b = j + 1) := by omega
  have h2 : ¬ (a + 1 = i + 1 ∧ b = j + 1) := by omega
  have h3 : ¬ (a = i + 1 ∧ b + 1 = j + 1) := by omega
  have h4 : ¬ (last_match_row seq_1 (byteAt seq_2 (b - 1) % 256) (a - 1) = i + 1 ∧
      last_match_col seq_2 (byteAt seq_1 (a - 1)) (b - 1) = j + 1) := by omega
  simp only [h1, h2, h3, h4, if_false]

theorem dl_cell_inv (seq_1 seq_2 : List Nat) (len : Nat) (da : Nat → Nat) (i j : Nat)
    (dpm : Nat → Nat → Int) (db : Nat) (hi : 1 ≤ i) (hj : 1 ≤ j) (hjl : j ≤ len)
    (hda : ∀ c, da c = last_match_row seq_1 c (i - 1))
    (hdb : db = last_match_col seq_2 (byteAt seq_1 (i - 1)) (j - 1))
    (hinv : DLInv seq_1 seq_2 len dpm i j) :
    DLInv seq_1 seq_2 len (dl_cell seq_1 seq_2 da i j (dpm, db)).1 i (j + 1) ∧
    (dl_cell seq_1 seq_2 da i j (dpm, db)).2 = last_match_col seq_2 (byteAt seq_1 (i - 1)) j := by
  have hval : (dl_cell seq_1 seq_2 da i j (dpm, db)).1 =
      set2 dpm (i + 1) (j + 1) (dl_cell_value seq_1 seq_2 dpm i j) := by
    simp only [dl_cell, dl_cell_value, hda, hdb]
  refine ⟨?_, ?_⟩
  · rw [hval]
    refine ⟨fun a b hab => ?_, fun a b ha hb hbl hab => ?_⟩
    · rw [set2_apply, if_neg (by omega)]
      exact hinv.1 a b hab
    · rw [dl_cell_value_set2 _ _ _ _ _ _ _ _ ha (by omega), set2_apply]
      by_cases hc : a = i ∧ b = j
      · obtain ⟨rfl, rfl⟩ := hc
        simp
      · rw [if_neg (by omega)]
        exact hinv.2 a b ha hb hbl (by omega)
  · obtain ⟨j', rfl⟩ : ∃ j', j = j' + 1 := ⟨j - 1, by omega⟩
    simp only [dl_cell, hdb, last_match_col, Nat.add_sub_cancel]

theorem dl_row_inv (seq_1 seq_2 : List Nat) (len : Nat) (i : Nat)
    (dpm : Nat → Nat → Int) (da : Nat → Nat) (hi : 1 ≤ i)
    (hda : ∀ c, da c = last_match_row seq_1 c (i - 1))
    (hinv : DLInv seq_1 seq_2 len dpm i 1) :
    DLInv seq_1 seq_2 len (dl_row seq_1 seq_2 len i (dpm, da)).1 (i + 1) 1 ∧
    ∀ c, (dl_row seq_1 seq_2 len i (dpm, da)).2 c = last_match_row seq_1 c i := by
  have hloop := forLoop_induction (dl_cell seq_1 seq_2 da i)
    (fun j st => DLInv seq_1 seq_2 len st.1 i j ∧
      st.2 = last_match_col seq_2 (byteAt seq_1 (i - 1)) (j - 1))
    len 1 (dpm, 0) ⟨hinv, by simp [last_match_col]⟩
    (fun j st hj hjl hP => by
      have := dl_cell_inv seq_1 seq_2 len da i j st.1 st.2 hi hj (by omega) hda hP.2 hP.1
      simpa using this)
  refine ⟨?_, fun c => ?_⟩
  · obtain ⟨⟨hb, hc⟩, -⟩ := hloop
    refine ⟨hb, fun a b ha hb' hbl hab => hc a b ha hb' hbl ?_⟩
    omega
  · obtain ⟨i', rfl⟩ : ∃ i', i = i' + 1 := ⟨i - 1, by omega⟩
    simp only [dl_row, Nat.add_sub_cancel, last_match_row]
    by_cases hc : byteAt seq_1 i' % 256 = c
    · subst hc; simp
    · rw [Function.update_noteq (Ne.symm hc), if_neg hc]
      simpa using hda c

theorem dl_matrix_inv (seq_1 seq_2 : List Nat) (len : Nat) :
    DLInv seq_1 seq_2 len (dl_matrix seq_1 seq_2 len) (len + 1) 1 := by
  have hloop := forLoop_induction (dl_row seq_1 seq_2 len)
    (fun i st => DLInv seq_1 seq_2 len st.1 i 1 ∧ ∀ c, st.2 c = last_match_row seq_1 c (i - 1))
    len 1 (dl_init len, fun _ => 0)
    ⟨⟨fun _ _ _ => rfl, fun a b ha hb hbl hab => by omega⟩, fun c => by simp [last_match_row]⟩
    (fun i st hi hil hP => by
      have := dl_row_inv seq_1 seq_2 len i st.1 st.2 hi hP.2 hP.1
      simpa using this)
  rw [Nat.add_comm 1 len] at hloop
  exact hloop.1

theorem dl_init_loop1 (m : Int) (dpm0 : Nat → Nat → Int) (n : Nat) (a b : Nat) :
    forLoop (fun i dpm => set2 (set2 dpm (i + 1) 0 m) (i + 1) 1 (i : Int)) n 0 dpm0 a b =
      if 1 ≤ a ∧ a ≤ n ∧ b = 0 then m
      else if 1 ≤ a ∧ a ≤ n ∧ b = 1 then (a : Int) - 1 else dpm0 a b := by
  have h := forLoop_induction (fun i dpm => set2 (set2 dpm (i + 1) 0 m) (i + 1) 1 (i : Int))
    (fun k dpm => ∀ a b, dpm a b =
      if 1 ≤ a ∧ a ≤ k ∧ b = 0 then m
      else if 1 ≤ a ∧ a ≤ k ∧ b = 1 then (a : Int) - 1 else dpm0 a b)
    n 0 dpm0 (fun a b => by
      rw [if_neg (by omega), if_neg (by omega)])
    (fun i dpm _ _ hP a b => by
      simp only [set2_apply, hP a b]
      by_cases h1 : a = i + 1 ∧ b = 1
      · obtain ⟨rfl, rfl⟩ := h1; simp
      · by_cases h2 : a = i + 1 ∧ b = 0
        · obtain ⟨rfl, rfl⟩ := h2; simp
        · rw [if_neg h1, if_neg h2]
          have e1 : (1 ≤ a ∧ a ≤ i + 1 ∧ b = 0) ↔ (1 ≤ a ∧ a ≤ i ∧ b = 0) := by
            constructor <;> intro h <;> refine ⟨h.1, ?_, h.2.2⟩ <;> omega
          have e2 : (1 ≤ a ∧ a ≤ i + 1 ∧ b = 1) ↔ (1 ≤ a ∧ a ≤ i ∧ b = 1) := by
            constructor <;> intro h <;> refine ⟨h.1, ?_, h.2.2⟩ <;> omega
          simp only [e1, e2])
  simpa using h a b

theorem dl_init_loop2 (m : Int) (dpm0 : Nat → Nat → Int) (n : Nat) (a b : Nat) :
    forLoop (fun j dpm => set2 (set2 dpm 0 (j + 1) m) 1 (j + 1) (j : Int)) n 0 dpm0 a b =
      if 1 ≤ b ∧ b ≤ n ∧ a = 0 then m
      else if 1 ≤ b ∧ b ≤ n ∧ a = 1 then (b : Int) - 1 else dpm0 a b := by
  have h := forLoop_induction (fun j dpm => set2 (set2 dpm 0 (j + 1) m) 1 (j + 1) (j : Int))
    (fun k dpm => ∀ a b, dpm a b =
      if 1 ≤ b ∧ b ≤ k ∧ a = 0 then m
      else if 1 ≤ b ∧ b ≤ k ∧ a = 1 then (b : Int) - 1 else dpm0 a b)
    n 0 dpm0 (fun a b => by
      rw [if_neg (by omega), if_neg (by omega)])
    (fun i dpm _ _ hP a b => by
      simp only [set2_apply, hP a b]
      by_cases h1 : a = 1 ∧ b = i + 1
      · obtain ⟨rfl, rfl⟩ := h1; simp
      · by_cases h2 : a = 0 ∧ b = i + 1
        · obtain ⟨rfl, rfl⟩ := h2; simp
        · rw [if_neg h1, if_neg h2]
          have e1 : (1 ≤ b ∧ b ≤ i + 1 ∧ a = 0) ↔ (1 ≤ b ∧ b ≤ i ∧ a = 0) := by
            constructor <;> intro h <;> refine ⟨h.1, ?_, h.2.2⟩ <;> omega
          have e2 : (1 ≤ b ∧ b ≤ i + 1 ∧ a = 1) ↔ (1 ≤ b ∧ b ≤ i ∧ a = 1) := by
            constructor <;> intro h <;> refine ⟨h.1, ?_, h.2.2⟩ <;> omega
          simp only [e1, e2])
  simpa using h a b

theorem dl_init_row0 (len b : Nat) (hb : b ≤ len + 1) : dl_init len 0 b = (len : Int) + len := by
  unfold dl_init
  simp only [dl_init_loop2, dl_init_loop1, set2_apply]
  by_cases h : 1 ≤ b
  · simp [h, hb]
  · have : b = 0 := by omega
    subst this; simp

theorem dl_init_col0 (len a : Nat) (ha : a ≤ len + 1) : dl_init len a 0 = (len : Int) + len := by
  unfold dl_init
  simp only [dl_init_loop2, dl_init_loop1, set2_apply]
  by_cases h : 1 ≤ a
  · simp [h, ha]
  · have : a = 0 := by omega
    subst this; simp

theorem dl_init_col1 (len a : Nat) (ha : a ≤ len) : dl_init len (a + 1) 1 = (a : Int) := by
  unfold dl_init
  simp only [dl_init_loop2, dl_init_loop1, set2_apply]
  by_cases h : a = 0
  · subst h; simp
  · simp [h, ha]

theorem dl_init_row1 (len b : Nat) (hb : b ≤ len) : dl_init len 1 (b + 1) = (b : Int) := by
  unfold dl_init
  simp only [dl_init_loop2, dl_init_loop1, set2_apply]
  simp [hb]

theorem min4_le_first (a b c d : Int) : min4 a b c d ≤ a := by
  simp only [min4]; split_ifs <;> omega

theorem min4_le_fourth (a b c d : Int) : min4 a b c d ≤ d := by
  simp only [min4]; split_ifs <;> omega

theorem min4_cases (a b c d : Int) :
    min4 a b c d = a ∨ min4 a b c d = b ∨ min4 a b c d = c ∨ min4 a b c d = d := by
  simp only [min4]; split_ifs <;> simp

theorem dl_matrix_rec (seq_1 seq_2 : List Nat) (len a b : Nat) (ha : 1 ≤ a) (hal : a ≤ len)
    (hb : 1 ≤ b) (hbl : b ≤ len) :
    dl_matrix seq_1 seq_2 len (a + 1) (b + 1) =
      dl_cell_value seq_1 seq_2 (dl_matrix seq_1 seq_2 len) a b :=
  (dl_matrix_inv seq_1 seq_2 len).2 a b ha hb hbl (Or.inl (by omega))

theorem dl_matrix_border (seq_1 seq_2 : List Nat) (len a b : Nat) (h : a ≤ 1 ∨ b ≤ 1) :
    dl_matrix seq_1 seq_2 len a b = dl_init len a b :=
  (dl_matrix_inv seq_1 seq_2 len).1 a b h

theorem dl_matrix_nonneg (seq_1 seq_2 : List Nat) (len : Nat) :
    ∀ a, a ≤ len + 1 → ∀ b, b ≤ len + 1 → 0 ≤ dl_matrix seq_1 seq_2 len a b := by
  intro a
  induction a using Nat.strong_induction_on with
  | _ a iha =>
    intro hal b
    induction b using Nat.strong_induction_on with
    | _ b ihb =>
      intro hbl
      rcases Nat.lt_or_ge a 2 with ha2 | ha2
      · rw [dl_matrix_border _ _ _ _ _ (Or.inl (by omega))]
        rcases Nat.eq_zero_or_pos a with rfl | hapos
        · rw [dl_init_row0 _ _ hbl]; omega
        · have ha1 : a = 1 := by omega
          subst ha1
          rcases Nat.eq_zero_or_pos b with rfl | hbpos
          · rw [dl_init_col0 _ _ hal]; omega
          · obtain ⟨b', rfl⟩ : ∃ b', b = b' + 1 := ⟨b - 1, by omega⟩
            rw [dl_init_row1 _ _ (by omega)]; omega
      · rcases Nat.lt_or_ge b 2 with hb2 | hb2
        · rw [dl_matrix_border _ _ _ _ _ (Or.inr (by omega))]
          rcases Nat.eq_zero_or_pos b with rfl | hbpos
          · rw [dl_init_col0 _ _ hal]; omega
          · have hb1 : b = 1 := by omega
            subst hb1
            obtain ⟨a', rfl⟩ : ∃ a', a = a' + 1 := ⟨a - 1, by omega⟩
            rw [dl_init_col1 _ _ (by omega)]; omega
        · obtain ⟨i, rfl⟩ : ∃ i, a = i + 1 := ⟨a - 1, by omega⟩
          obtain ⟨j, rfl⟩ : ∃ j, b = j + 1 := ⟨b - 1, by omega⟩
          rw [dl_matrix_rec _ _ _ _ _ (by omega) (by omega) (by omega) (by omega)]
          have hk := last_match_row_le seq_1 (byteAt seq_2 (j - 1) % 256) (i - 1)
          have hl := last_match_col_le seq_2 (byteAt seq_1 (i - 1)) (j - 1)
          have h1 := iha i (by omega) (by omega) j (by omega)
          have h2 := ihb j (by omega) (by omega)
          have h3 := iha i (by omega) (by omega) (j + 1) (by omega)
          have h4 := iha _ (show last_match_row seq_1 (byteAt seq_2 (j - 1) % 256) (i - 1) < i + 1
            by omega) (by omega) (last_match_col seq_2 (byteAt seq_1 (i - 1)) (j - 1)) (by omega)
          unfold dl_cell_value
          rcases min4_cases
            (dl_matrix seq_1 seq_2 len i j + (if byteAt seq_1 (i - 1) = byteAt seq_2 (j - 1) then 0 else 1))
            (dl_matrix seq_1 seq_2 len (i + 1) j + 1) (dl_matrix seq_1 seq_2 len i (j + 1) + 1)
            (dl_matrix seq_1 seq_2 len (last_match_row seq_1 (byteAt seq_2 (j - 1) % 256) (i - 1))
              (last_match_col seq_2 (byteAt seq_1 (i - 1)) (j - 1)) +
              ((i : Int) - (last_match_row seq_1 (byteAt seq_2 (j - 1) % 256) (i - 1) : Nat) - 1) + 1 +
              ((j : Int) - (last_match_col seq_2 (byteAt seq_1 (i - 1)) (j - 1) : Nat) - 1))
            with h | h | h | h <;> rw [h]
          · split_ifs <;> omega
          · omega
          · omega
          · omega

theorem dl_matrix_zero (seq_1 seq_2 : List Nat) (len : Nat) :
    ∀ a, 1 ≤ a → a ≤ len + 1 → ∀ b, 1 ≤ b → b ≤ len + 1 →
      dl_matrix seq_1 seq_2 len a b = 0 →
      a = b ∧ ∀ n, n + 1 < a → byteAt seq_1 n = byteAt seq_2 n := by
  intro a
  induction a with
  | zero => intro h; omega
  | succ i ih =>
    intro _ hal b hb hbl hz
    obtain ⟨j, rfl⟩ : ∃ j, b = j + 1 := ⟨b - 1, by omega⟩
    rcases Nat.eq_zero_or_pos i with rfl | hipos
    · rw [dl_matrix_border _ _ _ _ _ (Or.inl (by omega)), dl_init_row1 _ _ (by omega)] at hz
      exact ⟨by omega, fun n hn => by omega⟩
    · rcases Nat.eq_zero_or_pos j with rfl | hjpos
      · rw [dl_matrix_border _ _ _ _ _ (Or.inr (by omega)), dl_init_col1 _ _ (by omega)] at hz
        omega
      · rw [dl_matrix_rec _ _ _ _ _ hipos (by omega) hjpos (by omega)] at hz
        have hk := last_match_row_le seq_1 (byteAt seq_2 (j - 1) % 256) (i - 1)
        have hl := last_match_col_le seq_2 (byteAt seq_1 (i - 1)) (j - 1)
        have h1 := dl_matrix_nonneg seq_1 seq_2 len i (by omega) j (by omega)
        have h2 := dl_matrix_nonneg seq_1 seq_2 len (i + 1) (by omega) j (by omega)
        have h3 := dl_matrix_nonneg seq_1 seq_2 len i (by omega) (j + 1) (by omega)
        have h4 := dl_matrix_nonneg seq_1 seq_2 len
          (last_match_row seq_1 (byteAt seq_2 (j - 1) % 256) (i - 1)) (by omega)
          (last_match_col seq_2 (byteAt seq_1 (i - 1)) (j - 1)) (by omega)
        unfold dl_cell_value at hz
        rcases min4_cases
            (dl_matrix seq_1 seq_2 len i j + (if byteAt seq_1 (i - 1) = byteAt seq_2 (j - 1) then 0 else 1))
            (dl_matrix seq_1 seq_2 len (i + 1) j + 1) (dl_matrix seq_1 seq_2 len i (j + 1) + 1)
            (dl_matrix seq_1 seq_2 len (last_match_row seq_1 (byteAt seq_2 (j - 1) % 256) (i - 1))
              (last_match_col seq_2 (byteAt seq_1 (i - 1)) (j - 1)) +
              ((i : Int) - (last_match_row seq_1 (byteAt seq_2 (j - 1) % 256) (i - 1) : Nat) - 1) + 1 +
              ((j : Int) - (last_match_col seq_2 (byteAt seq_1 (i - 1)) (j - 1) : Nat) - 1))
            with h | h | h | h <;> rw [h] at hz
        · by_cases hc : byteAt seq_1 (i - 1) = byteAt seq_2 (j - 1)
          · rw [if_pos hc] at hz
            obtain ⟨hij, hpre⟩ := ih hipos (by omega) j hjpos (by omega) (by omega)
            subst hij
            refine ⟨rfl, fun n hn => ?_⟩
            rcases Nat.lt_or_ge (n + 1) i with hlt | hge
            · exact hpre n hlt
            · have : n = i - 1 := by omega
              subst this; exact hc
          · rw [if_neg hc] at hz; omega
        · omega
        · omega
        · omega

theorem dl_matrix_diag_step (seq_1 seq_2 : List Nat) (len a : Nat) (ha : 1 ≤ a) (hal : a ≤ len)
    (hc : byteAt seq_1 (a - 1) = byteAt seq_2 (a - 1)) :
    dl_matrix seq_1 seq_2 len (a + 1) (a + 1) ≤ dl_matrix seq_1 seq_2 len a a := by
  rw [dl_matrix_rec _ _ _ _ _ ha hal ha hal]
  unfold dl_cell_value
  refine le_trans (min4_le_first _ _ _ _) ?_
  rw [if_pos hc]; omega

theorem dl_matrix_diag_zero (seq_1 seq_2 : List Nat) (len : Nat) :
    ∀ a, a ≤ len → (∀ n, n < a → byteAt seq_1 n = byteAt seq_2 n) →
      dl_matrix seq_1 seq_2 len (a + 1) (a + 1) = 0 := by
  intro a
  induction a with
  | zero =>
    intro _ _
    rw [dl_matrix_border _ _ _ _ _ (Or.inl (by omega)), dl_init_row1 _ _ (by omega)]; rfl
  | succ a ih =>
    intro hal hpre
    have h1 := ih (by omega) (fun n hn => hpre n (by omega))
    have h2 := dl_matrix_diag_step seq_1 seq_2 len (a + 1) (by omega) hal (hpre a (by omega))
    have h3 := dl_matrix_nonneg seq_1 seq_2 len (a + 1 + 1) (by omega) (a + 1 + 1) (by omega)
    omega

theorem dl_nonneg_and_zero_iff (seq_1 seq_2 : List Nat) (len : Nat) :
    0 ≤ damerau_levenshtein seq_1 seq_2 len ∧
    (damerau_levenshtein seq_1 seq_2 len = 0 ↔
      ∀ n, n < len → byteAt seq_1 n = byteAt seq_2 n) := by
  refine ⟨dl_matrix_nonneg seq_1 seq_2 len _ (le_refl _) _ (le_refl _), fun h => ?_, fun h => ?_⟩
  · exact fun n hn =>
      (dl_matrix_zero seq_1 seq_2 len (len + 1) (by omega) (le_refl _) (len + 1) (by omega)
        (le_refl _) h).2 n (by omega)
  · exact dl_matrix_diag_zero seq_1 seq_2 len len (le_refl _) h

/-- Claim C9: `damerau_levenshtein` is never negative, it is `0` exactly when
the first `len` characters of the two strings agree, and in particular the
distance of a string to itself is `0`. -/
theorem damerau_levenshtein_zero_iff (seq_1 seq_2 : List Nat) (len : Nat) :
    0 ≤ damerau_levenshtein seq_1 seq_2 len ∧
    (damerau_levenshtein seq_1 seq_2 len = 0 ↔ ∀ n, n < len → byteAt seq_1 n = byteAt seq_2 n) ∧
    damerau_levenshtein seq_1 seq_1 len = 0 :=
  ⟨(dl_nonneg_and_zero_iff seq_1 seq_2 len).1, (dl_nonneg_and_zero_iff seq_1 seq_2 len).2,
    (dl_nonneg_and_zero_iff seq_1 seq_1 len).2.mpr (fun _ _ => rfl)⟩

theorem dl_matrix_transposed_cell (s t : List Nat) (len i : Nat) (hi : i + 1 < len)
    (h1 : byteAt t i = byteAt s (i + 1)) (h2 : byteAt t (i + 1) = byteAt s i) :
    dl_matrix s t len (i + 2 + 1) (i + 2 + 1) ≤ dl_matrix s t len (i + 1) (i + 1) + 1 := by
  rw [dl_matrix_rec _ _ _ _ _ (by omega) (by omega) (by omega) (by omega)]
  unfold dl_cell_value
  refine le_trans (min4_le_fourth _ _ _ _) ?_
  have hk : last_match_row s (byteAt t (i + 2 - 1) % 256) (i + 2 - 1) = i + 1 := by
    have e : i + 2 - 1 = i + 1 := by omega
    rw [e, last_match_row, h2, if_pos rfl]
  have hl : last_match_col t (byteAt s (i + 2 - 1)) (i + 2 - 1) = i + 1 := by
    have e : i + 2 - 1 = i + 1 := by omega
    rw [e, last_match_col, h1, if_pos rfl]
  rw [hk, hl]
  push_cast
  omega

/-- Claim C10: when `t` is `s` with the two different characters at positions
`i` and `i + 1` swapped, both inside the first `len` characters, then
`damerau_levenshtein s t len` is `1`. -/
theorem damerau_levenshtein_transposition (s t : List Nat) (len i : Nat) (hi : i + 1 < len)
    (hne : byteAt s i ≠ byteAt s (i + 1))
    (h1 : byteAt t i = byteAt s (i + 1)) (h2 : byteAt t (i + 1) = byteAt s i)
    (hrest : ∀ n, n < len → n ≠ i → n ≠ i + 1 → byteAt t n = byteAt s n) :
    damerau_levenshtein s t len = 1 := by
  have hz : dl_matrix s t len (i + 1) (i + 1) = 0 :=
    dl_matrix_diag_zero s t len i (by omega)
      (fun n hn => (hrest n (by omega) (by omega) (by omega)).symm)
  have hcell := dl_matrix_transposed_cell s t len i hi h1 h2
  have hdiag : ∀ d, i + 2 + d ≤ len → dl_matrix s t len (i + 2 + d + 1) (i + 2 + d + 1) ≤ 1 := by
    intro d
    induction d with
    | zero => intro _; simpa [hz] using hcell
    | succ d ih =>
      intro hd
      have hstep := dl_matrix_diag_step s t len (i + 2 + (d + 1)) (by omega) hd
        ((hrest _ (by omega) (by omega) (by omega)).symm)
      have hprev := ih (by omega)
      have e : i + 2 + (d + 1) = i + 2 + d + 1 := by omega
      rw [e] at hstep ⊢
      omega
  have hle : damerau_levenshtein s t len ≤ 1 := by
    have := hdiag (len - (i + 2)) (by omega)
    have e : i + 2 + (len - (i + 2)) = len := by omega
    rw [e] at this
    exact this
  obtain ⟨hnn, hiff⟩ := dl_nonneg_and_zero_iff s t len
  have hnz : damerau_levenshtein s t len ≠ 0 := by
    intro h0
    have := hiff.mp h0 i (by omega)
    rw [h1] at this
    exact hne this
  omega

/-- Witness of claim C10: `AB` against `BA` with `len = 2`, swapped at position 0. -/
theorem damerau_levenshtein_transposition_witness :
    (0 + 1 < 2 ∧ byteAt [65, 66] 0 ≠ byteAt [65, 66] (0 + 1)) ∧
    damerau_levenshtein [65, 66] [66, 65] 2 = 1 :=
  ⟨⟨by decide, by decide⟩,
    damerau_levenshtein_transposition [65, 66] [66, 65] 2 0 (by decide) (by decide) (by decide)
      (by decide) (fun n h hn0 hn1 => by omega)⟩

theorem dl_matrix_diag_subst (seq_1 seq_2 : List Nat) (len a : Nat) (ha : 1 ≤ a) (hal : a ≤ len) :
    dl_matrix seq_1 seq_2 len (a + 1) (a + 1) ≤ dl_matrix seq_1 seq_2 len a a + 1 := by
  rw [dl_matrix_rec _ _ _ _ _ ha hal ha hal]
  unfold dl_cell_value
  refine le_trans (min4_le_first _ _ _ _) ?_
  split_ifs <;> omega

/-- Claim C11: when `s` and `t` differ at exactly one position `i` of their
first `len` characters, `damerau_levenshtein s t len` is `1`. -/
theorem damerau_levenshtein_substitution (s t : List Nat) (len i : Nat) (hi : i < len)
    (hne : byteAt s i ≠ byteAt t i)
    (hrest : ∀ n, n < len → n ≠ i → byteAt s n = byteAt t n) :
    damerau_levenshtein s t len = 1 := by
  have hz : dl_matrix s t len (i + 1) (i + 1) = 0 :=
    dl_matrix_diag_zero s t len i (by omega) (fun n hn => hrest n (by omega) (by omega))
  have hcell := dl_matrix_diag_subst s t len (i + 1) (by omega) (by omega)
  have hdiag : ∀ d, i + 1 + d ≤ len → dl_matrix s t len (i + 1 + d + 1) (i + 1 + d + 1) ≤ 1 := by
    intro d
    induction d with
    | zero => intro _; simpa [hz] using hcell
    | succ d ih =>
      intro hd
      have hstep := dl_matrix_diag_step s t len (i + 1 + (d + 1)) (by omega) hd
        (hrest _ (by omega) (by omega))
      have hprev := ih (by omega)
      have e : i + 1 + (d + 1) = i + 1 + d + 1 := by omega
      rw [e] at hstep ⊢
      omega
  have hle : damerau_levenshtein s t len ≤ 1 := by
    have := hdiag (len - (i + 1)) (by omega)
    have e : i + 1 + (len - (i + 1)) = len := by omega
    rw [e] at this
    exact this
  obtain ⟨hnn, hiff⟩ := dl_nonneg_and_zero_iff s t len
  have hnz : damerau_levenshtein s t len ≠ 0 := fun h0 => hne (hiff.mp h0 i hi)
  omega

/-- Witness of claim C11: `AAAA` against `AATA` with `len = 4`, differing at
position 2. -/
theorem damerau_levenshtein_substitution_witness :
    (2 < 4 ∧ byteAt [65, 65, 65, 65] 2 ≠ byteAt [65, 65, 84, 65] 2) ∧
    damerau_levenshtein [65, 65, 65, 65] [65, 65, 84, 65] 4 = 1 :=
  ⟨⟨by decide, by decide⟩,
    damerau_levenshtein_substitution [65, 65, 65, 65] [65, 65, 84, 65] 4 2 (by decide) (by decide)
      (fun n h hn => by
        have : n = 0 ∨ n = 1 ∨ n = 3 := by omega
        rcases this with rfl | rfl | rfl <;> rfl)⟩

theorem min4_eq_min (a b c d : Int) : min4 a b c d = min (min (min a b) c) d := by
  simp only [min4]
  split_ifs <;> omega

theorem byteAt_lt (s : List Nat) (h : ∀ c ∈ s, c < 256) (n : Nat) : byteAt s n < 256 := by
  unfold byteAt
  rw [List.getD_eq_getElem?_getD]
  cases hn : s[n]? with
  | none => simp
  | some c => exact h c (List.mem_iff_getElem?.mpr ⟨n, hn⟩)

theorem last_match_row_eq (s : List Nat) (h : ∀ c ∈ s, c < 256) (x : Nat) (hx : x < 256) :
    ∀ r, last_match_row s (x % 256) r = last_occurrence s x r := by
  intro r
  induction r with
  | zero => rfl
  | succ r ih =>
    rw [last_match_row, last_occurrence, ih, Nat.mod_eq_of_lt (byteAt_lt s h r),
      Nat.mod_eq_of_lt hx]

theorem last_match_col_eq (s : List Nat) (x : Nat) :
    ∀ c, last_match_col s x c = last_occurrence s x c := by
  intro c
  induction c with
  | zero => rfl
  | succ c ih =>
    rw [last_match_col, last_occurrence, ih]
    by_cases h : x = byteAt s c
    · rw [if_pos h, if_pos h.symm]
    · rw [if_neg h, if_neg (fun e => h e.symm)]

theorem last_occurrence_le (s : List Nat) (x : Nat) (n : Nat) : last_occurrence s x n ≤ n := by
  induction n with
  | zero => simp [last_occurrence]
  | succ n ih =>
    unfold last_occurrence
    split_ifs <;> omega

theorem lw_row_congr (s1 s2 : List Nat) (D D' : Nat → Nat → Int) (i : Nat) (hi : 1 ≤ i)
    (h : ∀ a b, a < i → D a b = D' a b) : ∀ j, lw_row s1 s2 D i j = lw_row s1 s2 D' i j := by
  intro j
  induction j with
  | zero => rfl
  | succ j ih =>
    have hk := last_occurrence_le s1 (byteAt s2 j) (i - 1)
    simp only [lw_row]
    rw [ih, h (i - 1) j (by omega), h (i - 1) (j + 1) (by omega),
      h (last_occurrence s1 (byteAt s2 j) (i - 1) - 1) _ (by omega)]

theorem lw_table_of_le (s1 s2 : List Nat) (i j : Nat) :
    ∀ n, i ≤ n → lw_table s1 s2 n i j = lw_table s1 s2 i i j := by
  intro n
  induction n with
  | zero => intro h; obtain rfl : i = 0 := by omega
            rfl
  | succ n ih =>
    intro h
    by_cases e : i = n + 1
    · subst e; rfl
    · rw [lw_table]
      simp only [if_neg e]
      exact ih (by omega)

theorem lw_table_row0 (s1 s2 : List Nat) (n j : Nat) : lw_table s1 s2 n 0 j = (j : Int) := by
  rw [lw_table_of_le s1 s2 0 j n (by omega)]
  rfl

theorem lw_table_row (s1 s2 : List Nat) (n i j : Nat) (hi : 1 ≤ i) (hin : i ≤ n) :
    lw_table s1 s2 n i j = lw_row s1 s2 (lw_table s1 s2 n) i j := by
  rw [lw_table_of_le s1 s2 i j n hin]
  obtain ⟨i', rfl⟩ : ∃ i', i = i' + 1 := ⟨i - 1, by omega⟩
  rw [lw_table]
  simp only [if_true]
  apply lw_row_congr s1 s2 _ _ _ hi
  intro a b ha
  rw [lw_table_of_le s1 s2 a b n (by omega), lw_table_of_le s1 s2 a b i' (by omega)]

theorem lw_row_succ (s1 s2 : List Nat) (D : Nat → Nat → Int) (i j : Nat) :
    lw_row s1 s2 D i (j + 1) =
      if 0 < last_occurrence s1 (byteAt s2 j) (i - 1) ∧
          0 < last_occurrence s2 (byteAt s1 (i - 1)) j then
        min (min (min (D (i - 1) j + (if byteAt s1 (i - 1) = byteAt s2 j then 0 else 1))
            (lw_row s1 s2 D i j + 1)) (D (i - 1) (j + 1) + 1))
          (D (last_occurrence s1 (byteAt s2 j) (i - 1) - 1)
              (last_occurrence s2 (byteAt s1 (i - 1)) j - 1) +
            ((i : Int) - (last_occurrence s1 (byteAt s2 j) (i - 1) : Nat) - 1) + 1 +
            ((j : Int) + 1 - (last_occurrence s2 (byteAt s1 (i - 1)) j : Nat) - 1))
      else
        min (min (D (i - 1) j + (if byteAt s1 (i - 1) = byteAt s2 j then 0 else 1))
          (lw_row s1 s2 D i j + 1)) (D (i - 1) (j + 1) + 1) := rfl

theorem lw_row_succ_le (s1 s2 : List Nat) (D : Nat → Nat → Int) (i j : Nat) :
    lw_row s1 s2 D i (j + 1) ≤ lw_row s1 s2 D i j + 1 := by
  rw [lw_row_succ]
  by_cases hc : 0 < last_occurrence s1 (byteAt s2 j) (i - 1) ∧
      0 < last_occurrence s2 (byteAt s1 (i - 1)) j
  · rw [if_pos hc]
    exact le_trans (min_le_left _ _) (le_trans (min_le_left _ _) (min_le_right _ _))
  · rw [if_neg hc]
    exact le_trans (min_le_left _ _) (min_le_right _ _)

theorem lw_table_bound (s1 s2 : List Nat) (n : Nat) :
    ∀ i, i ≤ n → ∀ j, lw_table s1 s2 n i j ≤ (i : Int) + j := by
  intro i hi j
  by_cases h0 : i = 0
  · subst h0
    rw [lw_table_row0]
    omega
  · rw [lw_table_row s1 s2 n i j (by omega) hi]
    induction j with
    | zero => simp [lw_row]
    | succ j ih =>
      have := lw_row_succ_le s1 s2 (lw_table s1 s2 n) i j
      push_cast
      omega

theorem lw_table_col0 (s1 s2 : List Nat) (n i : Nat) (hi : i ≤ n) :
    lw_table s1 s2 n i 0 = (i : Int) := by
  by_cases h0 : i = 0
  · subst h0; rw [lw_table_row0]
  · rw [lw_table_row s1 s2 n i 0 (by omega) hi]
    rfl

theorem min_min_min_drop (A B C D4 : Int) (h : B < D4) :
    min (min (min A B) C) D4 = min (min A B) C := by
  simp only [min_def]
  split_ifs <;> omega

theorem dl_matrix_eq_lw_table (s1 s2 : List Nat) (len : Nat) (h1 : ∀ c ∈ s1, c < 256)
    (h2 : ∀ c ∈ s2, c < 256) :
    ∀ a, a ≤ len → ∀ b, b ≤ len →
      dl_matrix s1 s2 len (a + 1) (b + 1) = lw_table s1 s2 len a b := by
  intro a
  induction a using Nat.strong_induction_on with
  | _ a iha =>
    intro ha b
    induction b with
    | zero =>
      intro _
      rw [dl_matrix_border _ _ _ _ _ (Or.inr (by omega)), dl_init_col1 _ _ ha,
        lw_table_col0 _ _ _ _ ha]
    | succ b ihb =>
      intro hb
      by_cases ha0 : a = 0
      · subst ha0
        rw [dl_matrix_border _ _ _ _ _ (Or.inl (by omega)), dl_init_row1 _ _ hb, lw_table_row0]
      · obtain ⟨a', rfl⟩ : ∃ a', a = a' + 1 := ⟨a - 1, by omega⟩
        have hk := last_occurrence_le s1 (byteAt s2 b) a'
        have hl := last_occurrence_le s2 (byteAt s1 a') b
        rw [dl_matrix_rec s1 s2 len (a' + 1) (b + 1) (by omega) ha (by omega) hb,
          lw_table_row s1 s2 len (a' + 1) (b + 1) (by omega) ha, lw_row_succ,
          ← lw_table_row s1 s2 len (a' + 1) b (by omega) ha]
        unfold dl_cell_value
        simp only [Nat.add_sub_cancel]
        rw [last_match_row_eq s1 h1 _ (byteAt_lt s2 h2 b), last_match_col_eq, min4_eq_min,
          iha a' (by omega) (by omega) b (by omega), ihb (by omega),
          iha a' (by omega) (by omega) (b + 1) hb]
        have hB := lw_table_bound s1 s2 len (a' + 1) ha b
        by_cases hc : 0 < last_occurrence s1 (byteAt s2 b) a' ∧
            0 < last_occurrence s2 (byteAt s1 a') b
        · rw [if_pos hc]
          obtain ⟨k, hk'⟩ : ∃ k, last_occurrence s1 (byteAt s2 b) a' = k + 1 :=
            ⟨last_occurrence s1 (byteAt s2 b) a' - 1, by omega⟩
          obtain ⟨l, hl'⟩ : ∃ l, last_occurrence s2 (byteAt s1 a') b = l + 1 :=
            ⟨last_occurrence s2 (byteAt s1 a') b - 1, by omega⟩
          rw [hk'] at hk
          rw [hl'] at hl
          rw [hk', hl']
          rw [iha k (by omega) (by omega) l (by omega)]
          simp only [Nat.add_sub_cancel]
          push_cast
          ring_nf
        · rw [if_neg hc]
          apply min_min_min_drop
          have hborder : dl_matrix s1 s2 len (last_occurrence s1 (byteAt s2 b) a')
              (last_occurrence s2 (byteAt s1 a') b) = (len : Int) + len := by
            by_cases hk0 : last_occurrence s1 (byteAt s2 b) a' = 0
            · rw [hk0, dl_matrix_border _ _ _ _ _ (Or.inl (by omega)),
                dl_init_row0 _ _ (by omega)]
            · have hl0 : last_occurrence s2 (byteAt s1 a') b = 0 := by omega
              rw [hl0, dl_matrix_border _ _ _ _ _ (Or.inr (by omega)),
                dl_init_col0 _ _ (by omega)]
          rw [hborder]
          push_cast
          omega

/-- Claim C12 fails on the code as stated: for `ACCG` and `CGAC` with
`len = 4` the optimal-string-alignment distance of the reference recurrence
is 4 and `damerau_levenshtein` returns 3. -/
theorem damerau_levenshtein_below_osa :
    damerau_levenshtein [chA, chC, chC, chG] [chC, chG, chA, chC] 4 = 3 ∧
    osa_distance [chA, chC, chC, chG] [chC, chG, chA, chC] 4 = 4 := by
  decide

/-- Claim C12 as amended: on strings of bytes, `damerau_levenshtein s1 s2 len`
is the value of the reference recurrence of the unrestricted
Damerau-Levenshtein distance, in which a transposition may span characters
deleted and inserted between the two it swaps. -/
theorem damerau_levenshtein_eq_lw_distance (s1 s2 : List Nat) (len : Nat)
    (h1 : ∀ c ∈ s1, c < 256) (h2 : ∀ c ∈ s2, c < 256) :
    damerau_levenshtein s1 s2 len = lw_distance s1 s2 len :=
  dl_matrix_eq_lw_table s1 s2 len h1 h2 len (le_refl _) len (le_refl _)

/-- Witness of the amended claim C12: `ACCG` and `CGAC` with `len = 4`. -/
theorem damerau_levenshtein_eq_lw_distance_witness :
    ((∀ c ∈ [chA, chC, chC, chG], c < 256) ∧ (∀ c ∈ [chC, chG, chA, chC], c < 256)) ∧
    damerau_levenshtein [chA, chC, chC, chG] [chC, chG, chA, chC] 4 =
      lw_distance [chA, chC, chC, chG] [chC, chG, chA, chC] 4 :=
  ⟨⟨by decide, by decide⟩,
    damerau_levenshtein_eq_lw_distance [chA, chC, chC, chG] [chC, chG, chA, chC] 4 (by decide)
      (by decide)⟩

/-! ## Collision-free tables -/

theorem strncpy_of_barcode (k : List Nat) (hl : k.length = 6) (h : ∀ c ∈ k, c ≠ 0) :
    strncpy k 6 = k := by
  unfold strncpy
  rw [cstr_of_nonzero k h, List.take_of_length_le (by omega)]
  simp [hl]

theorem strncmp_eq_self (k : List Nat) (n : Nat) : strncmp_eq k k n = true := by
  simp [strncmp_eq]

theorem probe_start_eq (t t' : bc_hash_table) (key : List Nat) (hk : t'.key_length = t.key_length)
    (hl : t'.items.length = t.items.length) : probe_start t' key = probe_start t key := by
  unfold probe_start bc_hash_table.num_slots
  rw [hk, hl]

theorem probeStops_zero_of_perfectHash (K : Fin 2 → List (List Nat)) (t : bc_hash_table)
    (hph : PerfectHash K t) (hn : 0 < t.items.length) (r r' : Fin 2) (k : List Nat)
    (hk : k ∈ K r') : ProbeStops t k r (probe_start t k) 0 := by
  obtain ⟨hkl, hwf, hinj, hslots⟩ := hph
  have hlt := probe_start_lt t k hn
  refine ⟨fun s hs => absurd hs (Nat.not_lt_zero s), t.items[probe_start t k], ?_, ?_⟩
  · rw [Nat.add_zero, Nat.mod_eq_of_lt hlt, List.getElem?_eq_getElem hlt]
  · by_cases h0 : (t.items[probe_start t k]).value r = 0
    · exact Or.inl h0
    · right
      obtain ⟨hmem, hhome⟩ := hslots _ _ (List.getElem?_eq_getElem hlt) r h0
      have := hinj r r' _ hmem k hk hhome
      rw [this]
      exact strncmp_eq_self k _

theorem lookup_of_perfectHash (K : Fin 2 → List (List Nat)) (t : bc_hash_table)
    (hph : PerfectHash K t) (hn : 0 < t.items.length) (r r' : Fin 2) (k : List Nat)
    (hk : k ∈ K r') :
    hash_table_lookup t k r = (t.items[probe_start t k]?).map (fun kv => kv.value r) := by
  have hlt := probe_start_lt t k hn
  have hs := probeStops_zero_of_perfectHash K t hph hn r r' k hk
  unfold hash_table_lookup bc_hash_table.num_slots
  rw [lookup_loop_of_stops t k r 0 _ _ hn (le_of_lt hlt) hs, Nat.add_zero, Nat.mod_eq_of_lt hlt]

theorem insert_of_perfectHash (K : Fin 2 → List (List Nat)) (t : bc_hash_table)
    (hph : PerfectHash K t) (hn : 0 < t.items.length) (r : Fin 2) (k : List Nat) (hk : k ∈ K r)
    (v : Int) (overwrite : Bool) :
    hash_table_insert t k v r overwrite =
      some (insert_at t k v r overwrite (probe_start t k)) := by
  have hlt := probe_start_lt t k hn
  have hs := probeStops_zero_of_perfectHash K t hph hn r r k hk
  unfold hash_table_insert bc_hash_table.num_slots
  rw [insert_loop_of_stops t k v r overwrite 0 _ _ hn (le_of_lt hlt) hs, Nat.add_zero,
    Nat.mod_eq_of_lt hlt]

theorem perfectHash_insert_at (K : Fin 2 → List (List Nat)) (t : bc_hash_table)
    (hph : PerfectHash K t) (hn : 0 < t.items.length) (r : Fin 2) (k : List Nat) (hk : k ∈ K r)
    (v : Int) (overwrite : Bool) :
    PerfectHash K (insert_at t k v r overwrite (probe_start t k)) := by
  have hlt := probe_start_lt t k hn
  have hph' := hph
  obtain ⟨hkl, hwf, hinj, hslots⟩ := hph
  obtain ⟨kv0, hget⟩ : ∃ kv0, t.items[probe_start t k]? = some kv0 :=
    ⟨_, List.getElem?_eq_getElem hlt⟩
  have hitems := insert_at_items t k v r overwrite _ _ hget
  have hlen := insert_at_length t k v r overwrite (probe_start t k)
  have hkl' := insert_at_key_length t k v r overwrite (probe_start t k)
  have hps : ∀ key, probe_start (insert_at t k v r overwrite (probe_start t k)) key
      = probe_start t key := fun key => probe_start_eq _ _ key hkl' hlen
  refine ⟨by rw [hkl', hkl], hwf, ?_, ?_⟩
  · intro r1 r2 k1 hk1 k2 hk2 heq
    rw [hps, hps] at heq
    exact hinj r1 r2 k1 hk1 k2 hk2 heq
  · intro i kv hkv r1 hr1
    rw [hitems] at hkv
    rw [hps]
    by_cases hi : probe_start t k = i
    · subst hi
      rw [List.getElem?_set_self hlt] at hkv
      injection hkv with hkv
      subst hkv
      have hkeq : ∀ r2, kv0.value r2 ≠ 0 → kv0.key = k := by
        intro r2 h2
        obtain ⟨hmem, hhome⟩ := hslots _ _ hget r2 h2
        exact hinj r2 r _ hmem k hk hhome
      unfold written_slot at hr1 ⊢
      by_cases h0 : kv0.value r = 0
      · simp only [h0, if_true] at hr1 ⊢
        rw [hkl, strncpy_of_barcode k (hwf r k hk).1 (hwf r k hk).2]
        refine ⟨?_, rfl⟩
        by_cases hr : r1 = r
        · subst hr; exact hk
        · rw [Function.update_noteq hr] at hr1
          have := hkeq r1 hr1
          rw [← this]
          exact (hslots _ _ hget r1 hr1).1
      · simp only [h0, if_false] at hr1 ⊢
        have hkey := hkeq r h0
        rw [hkey]
        refine ⟨?_, rfl⟩
        by_cases hr : r1 = r
        · subst hr; exact hk
        · rw [Function.update_noteq hr] at hr1
          have := (hslots _ _ hget r1 hr1).1
          rw [hkey] at this
          exact this
    · rw [List.getElem?_set_ne hi] at hkv
      exact hslots i kv hkv r1 hr1

theorem lookup_insert_at_of_perfectHash (K : Fin 2 → List (List Nat)) (t : bc_hash_table)
    (hph : PerfectHash K t) (hn : 0 < t.items.length) (r : Fin 2) (k : List Nat) (hk : k ∈ K r)
    (v : Int) (overwrite : Bool) (r' r'' : Fin 2) (k' : List Nat) (hk' : k' ∈ K r'') :
    hash_table_lookup (insert_at t k v r overwrite (probe_start t k)) k' r' =
      if k' = k ∧ r' = r then
        (if hash_table_lookup t k r = some 0 then some v
         else some (if overwrite then v else -1))
      else hash_table_lookup t k' r' := by
  have hlt := probe_start_lt t k hn
  obtain ⟨kv0, hget⟩ : ∃ kv0, t.items[probe_start t k]? = some kv0 :=
    ⟨_, List.getElem?_eq_getElem hlt⟩
  have hitems := insert_at_items t k v r overwrite _ _ hget
  have hlen := insert_at_length t k v r overwrite (probe_start t k)
  have hkl' := insert_at_key_length t k v r overwrite (probe_start t k)
  have hph2 := perfectHash_insert_at K t hph hn r k hk v overwrite
  have hn2 : 0 < (insert_at t k v r overwrite (probe_start t k)).items.length := by
    rw [hlen]; exact hn
  have hps : probe_start (insert_at t k v r overwrite (probe_start t k)) k' = probe_start t k' :=
    probe_start_eq t _ k' hkl' hlen
  rw [lookup_of_perfectHash K _ hph2 hn2 r' r'' k' hk', hps, hitems,
    lookup_of_perfectHash K t hph hn r' r'' k' hk',
    lookup_of_perfectHash K t hph hn r r k hk, hget]
  by_cases hpos : probe_start t k = probe_start t k'
  · have hkk : k = k' := hph.2.2.1 r r'' k hk k' hk' hpos
    subst hkk
    rw [List.getElem?_set_self hlt, hget]
    simp only [Option.map_some', true_and]
    unfold written_slot
    by_cases hr : r' = r
    · subst hr
      by_cases h0 : kv0.value r' = 0
      · simp [h0]
      · simp [h0]
    · by_cases h0 : kv0.value r = 0
      · simp [h0, hr, Function.update_noteq hr]
      · simp [h0, hr, Function.update_noteq hr]
  · rw [List.getElem?_set_ne hpos]
    have hne : ¬ (k' = k ∧ r' = r) := fun h => hpos (by rw [h.1])
    rw [if_neg hne]

/-! ## Invariants through the loops of the build phase -/

theorem to_int8_small (n : Nat) (h : n ≤ 127) : to_int8 n = (n : Int) := by
  unfold to_int8
  have : (n + 128) % 256 = n + 128 := Nat.mod_eq_of_lt (by omega)
  rw [this]
  push_cast
  omega

theorem scan_pool_some (candidate : List Nat) (bc_mismatches : Nat) :
    ∀ (pool : List (List Nat)) (k : Nat) (mm_bc : Option (List Nat × Nat)) (res : List Nat × Nat),
      scan_pool candidate bc_mismatches pool k mm_bc = some res →
      mm_bc = some res ∨ (res.1 ∈ pool ∧ k ≤ res.2 ∧ res.2 < k + pool.length) := by
  intro pool
  induction pool with
  | nil => intro k mm_bc res h; left; simpa [scan_pool] using h
  | cons current_bc rest ih =>
    intro k mm_bc res h
    unfold scan_pool at h
    by_cases hd : hamming_distance current_bc candidate 6 ≤ bc_mismatches
    · rw [if_pos hd] at h
      cases mm_bc with
      | some x => simp at h
      | none =>
        simp only at h
        rcases ih (k + 1) _ res h with h1 | ⟨h1, h2, h3⟩
        · right
          injection h1 with h1
          subst h1
          simp
        · right
          exact ⟨List.mem_cons_of_mem _ h1, by omega, by simp; omega⟩
    · rw [if_neg hd] at h
      rcases ih (k + 1) mm_bc res h with h1 | ⟨h1, h2, h3⟩
      · left; exact h1
      · right
        exact ⟨List.mem_cons_of_mem _ h1, by omega, by simp; omega⟩

theorem effective_output_all_false (fasta_seqs : library_seqs) :
    effective_output_all false fasta_seqs = false := by
  simp [effective_output_all]

theorem insert_candidate_inv (Inv : bc_hash_table → Prop) (fasta_seqs : library_seqs)
    (bc_mismatches : Nat) (hsize : ∀ j, (fasta_seqs.barcodes j).length ≤ 127)
    (hstep : ∀ t r k v overwrite, Inv t → k ∈ (fasta_seqs.barcodes r).map barcode_t.seq →
      1 ≤ v → v ≤ 127 → ∃ t', hash_table_insert t k v r overwrite = some t' ∧ Inv t')
    (candidate : List Nat) (j : Fin 2) (st : Option bc_hash_table)
    (h : ∃ t, st = some t ∧ Inv t) :
    ∃ t, insert_candidate false bc_mismatches fasta_seqs candidate j st = some t ∧ Inv t := by
  obtain ⟨t, rfl, hinv⟩ := h
  unfold insert_candidate
  simp only [Bool.false_eq_true, false_and, if_false]
  cases hscan : scan_pool candidate bc_mismatches (pool_seqs false fasta_seqs j) 0 none with
  | none => exact ⟨t, rfl, hinv⟩
  | some res =>
    obtain ⟨mm_bc, mm_bc_index⟩ := res
    rcases scan_pool_some _ _ _ _ _ _ hscan with h1 | ⟨h1, -, h3⟩
    · simp at h1
    · simp only [pool_seqs, Bool.false_eq_true, if_false] at h1 h3
      simp only [List.length_map, Nat.zero_add] at h3
      have hsz := hsize j
      have hv : to_int8 (mm_bc_index + 1) = ((mm_bc_index + 1 : Nat) : Int) :=
        to_int8_small _ (by omega)
      simp only [Option.bind_some]
      exact hstep t j mm_bc _ false hinv h1 (by rw [hv]; omega) (by rw [hv]; omega)

theorem insert_candidates_inv (Inv : bc_hash_table → Prop) (fasta_seqs : library_seqs)
    (bc_mismatches : Nat) (hsize : ∀ j, (fasta_seqs.barcodes j).length ≤ 127)
    (hstep : ∀ t r k v overwrite, Inv t → k ∈ (fasta_seqs.barcodes r).map barcode_t.seq →
      1 ≤ v → v ≤ 127 → ∃ t', hash_table_insert t k v r overwrite = some t' ∧ Inv t')
    (all_permutations : List (List Nat)) :
    ∀ st : Option bc_hash_table, (∃ t, st = some t ∧ Inv t) →
      ∃ t, insert_candidates false bc_mismatches fasta_seqs all_permutations st = some t ∧ Inv t := by
  unfold insert_candidates
  induction all_permutations with
  | nil => intro st h; simpa using h
  | cons candidate rest ih =>
    intro st h
    rw [List.foldl_cons]
    exact ih _ (insert_candidate_inv Inv fasta_seqs bc_mismatches hsize hstep candidate 1 _
      (insert_candidate_inv Inv fasta_seqs bc_mismatches hsize hstep candidate 0 _ h))

theorem insert_exact_inv (Inv : bc_hash_table → Prop) (K : List (List Nat)) (i : Fin 2)
    (hstep : ∀ t k v, Inv t → k ∈ K → 1 ≤ v → v ≤ 127 →
      ∃ t', hash_table_insert t k v i true = some t' ∧ Inv t') :
    ∀ (pool : List (List Nat)) (j : Nat) (st : Option bc_hash_table),
      (∀ b ∈ pool, b ∈ K) → j + pool.length ≤ 127 → (∃ t, st = some t ∧ Inv t) →
      ∃ t, insert_exact pool j i st = some t ∧ Inv t := by
  intro pool
  induction pool with
  | nil => intro j st _ _ h; simpa [insert_exact] using h
  | cons seq rest ih =>
    intro j st hmem hlen h
    obtain ⟨t, rfl, hinv⟩ := h
    unfold insert_exact
    simp only [List.length_cons] at hlen
    have hv : to_int8 (j + 1) = ((j + 1 : Nat) : Int) := to_int8_small _ (by omega)
    refine ih (j + 1) _ (fun b hb => hmem b (List.mem_cons_of_mem _ hb)) (by omega) ?_
    show ∃ t', hash_table_insert t seq (to_int8 (j + 1)) i true = some t' ∧ Inv t'
    exact hstep t seq _ hinv (hmem seq (List.mem_cons_self _ _)) (by rw [hv]; omega)
      (by rw [hv]; omega)

theorem main_build_false_eq (bc_mismatches : Nat) (fasta_seqs : library_seqs) :
    main_build false bc_mismatches fasta_seqs =
      insert_exact ((fasta_seqs.barcodes 1).map barcode_t.seq) 0 1
        (insert_exact ((fasta_seqs.barcodes 0).map barcode_t.seq) 0 0
          (if bc_mismatches > 0 then
            insert_candidates false bc_mismatches fasta_seqs
              (generate_all_bc_combos 6 (List.replicate (uint_pow 4 6) (List.replicate 7 0)))
              (init_hash_table
                (calc_num_combos 6 (total_num_unique_barcodes false fasta_seqs) bc_mismatches))
          else init_hash_table
            (calc_num_combos 6 (total_num_unique_barcodes false fasta_seqs) bc_mismatches))) := by
  simp [main_build, effective_output_all_false]

theorem candidate_phase_inv (Inv : bc_hash_table → Prop) (fasta_seqs : library_seqs)
    (bc_mismatches : Nat) (hsize : ∀ j, (fasta_seqs.barcodes j).length ≤ 127)
    (hstep : ∀ t r k v overwrite, Inv t → k ∈ (fasta_seqs.barcodes r).map barcode_t.seq →
      1 ≤ v → v ≤ 127 → ∃ t', hash_table_insert t k v r overwrite = some t' ∧ Inv t')
    (st : Option bc_hash_table) (h : ∃ t, st = some t ∧ Inv t) :
    ∃ t, (if bc_mismatches > 0 then
        insert_candidates false bc_mismatches fasta_seqs
          (generate_all_bc_combos 6 (List.replicate (uint_pow 4 6) (List.replicate 7 0))) st
      else st) = some t ∧ Inv t := by
  by_cases hm : bc_mismatches > 0
  · rw [if_pos hm]
    exact insert_candidates_inv Inv fasta_seqs bc_mismatches hsize hstep _ st h
  · rw [if_neg hm]; exact h

/-! ## A real barcode within the allowance of two barcodes: the counterexample to claim C3 -/

theorem prune_of_nonneg (t : bc_hash_table)
    (h : ∀ kv ∈ t.items, 0 ≤ kv.value 0 ∧ 0 ≤ kv.value 1) : prune_hash_table t = some t := by
  unfold prune_hash_table
  simp [prune_count_snd_zero t.items h]

theorem values_nonneg_of_perfectHash (K : Fin 2 → List (List Nat)) (t : bc_hash_table)
    (hph : PerfectHash K t) (hn : 0 < t.items.length)
    (hpos : ∀ r, ∀ k ∈ K r, ∃ v, hash_table_lookup t k r = some v ∧ 0 ≤ v) :
    ∀ kv ∈ t.items, ∀ r, 0 ≤ kv.value r := by
  intro kv hkv r
  by_cases h0 : kv.value r = 0
  · omega
  · obtain ⟨i, hi⟩ := List.mem_iff_getElem?.mp hkv
    obtain ⟨hmem, hhome⟩ := hph.2.2.2 i kv hi r h0
    obtain ⟨v, hv, hv0⟩ := hpos r kv.key hmem
    rw [lookup_of_perfectHash K t hph hn r r kv.key hmem, hhome, hi] at hv
    simp only [Option.map_some', Option.some.injEq] at hv
    omega

set_option maxRecDepth 100000 in
theorem near_pair_init :
    init_hash_table (calc_num_combos 6 (total_num_unique_barcodes false near_pair_library) 1) =
      some ⟨6, 0, List.replicate 128 empty_kv⟩ := by
  have h : calc_num_combos 6 (total_num_unique_barcodes false near_pair_library) 1 = 72 := by
    decide
  rw [h]
  rfl

set_option maxRecDepth 100000 in
theorem near_pair_perfectHash :
    PerfectHash near_pair_keys ⟨6, 0, List.replicate 128 empty_kv⟩ := by
  have h1 : probe_start ⟨6, 0, List.replicate 128 empty_kv⟩ bc_CCCCCC = 87 := by decide
  have h2 : probe_start ⟨6, 0, List.replicate 128 empty_kv⟩ bc_AAAAAA = 75 := by decide
  have h3 : probe_start ⟨6, 0, List.replicate 128 empty_kv⟩ bc_AAAAAT = 52 := by decide
  have hmem : ∀ r, ∀ k ∈ near_pair_keys r, k = bc_CCCCCC ∨ k = bc_AAAAAA ∨ k = bc_AAAAAT := by
    intro r k hk
    unfold near_pair_keys at hk
    by_cases hr : r = 0
    · rw [if_pos hr] at hk; simp at hk; exact Or.inl hk
    · rw [if_neg hr] at hk; simp at hk; exact Or.inr hk
  refine ⟨rfl, ?_, ?_, ?_⟩
  · intro r k hk
    rcases hmem r k hk with rfl | rfl | rfl <;> decide
  · intro r r' k hk k' hk' heq
    have hne : ∀ a b : Nat, a ≠ b → a = b → False := fun a b h e => h e
    rcases hmem r k hk with rfl | rfl | rfl <;> rcases hmem r' k' hk' with rfl | rfl | rfl <;>
      first
      | rfl
      | exact absurd heq (by rw [h1, h2]; decide)
      | exact absurd heq (by rw [h1, h3]; decide)
      | exact absurd heq (by rw [h2, h3]; decide)
  · intro i kv hkv r hr
    have := List.mem_iff_getElem?.mpr ⟨i, hkv⟩
    rw [List.mem_replicate] at this
    rw [this.2] at hr
    exact absurd rfl hr

theorem near_pair_barcodes (r : Fin 2) :
    (near_pair_library.barcodes r).map barcode_t.seq = near_pair_keys r := by
  unfold near_pair_library near_pair_keys
  by_cases hr : r = 0 <;> simp [hr]

theorem near_pair_step (t : bc_hash_table) (r : Fin 2) (k : List Nat) (v : Int) (overwrite : Bool)
    (h : PerfectHash near_pair_keys t ∧ 0 < t.items.length)
    (hk : k ∈ (near_pair_library.barcodes r).map barcode_t.seq) :
    ∃ t', hash_table_insert t k v r overwrite = some t' ∧
      (PerfectHash near_pair_keys t' ∧ 0 < t'.items.length) := by
  rw [near_pair_barcodes] at hk
  refine ⟨_, insert_of_perfectHash near_pair_keys t h.1 h.2 r k hk v overwrite,
    perfectHash_insert_at near_pair_keys t h.1 h.2 r k hk v overwrite, ?_⟩
  rw [insert_at_length]; exact h.2

theorem exact_step_of_perfectHash (K : Fin 2 → List (List Nat)) (t : bc_hash_table)
    (hph : PerfectHash K t) (hn : 0 < t.items.length) (r : Fin 2) (k : List Nat) (hk : k ∈ K r)
    (v : Int) :
    ∃ t', hash_table_insert t k v r true = some t' ∧ PerfectHash K t' ∧ 0 < t'.items.length ∧
      hash_table_lookup t' k r = some v ∧
      ∀ (r' r'' : Fin 2) (k' : List Nat), k' ∈ K r'' → ¬ (k' = k ∧ r' = r) →
        hash_table_lookup t' k' r' = hash_table_lookup t k' r' := by
  refine ⟨_, insert_of_perfectHash K t hph hn r k hk v true,
    perfectHash_insert_at K t hph hn r k hk v true, by rw [insert_at_length]; exact hn, ?_, ?_⟩
  · rw [lookup_insert_at_of_perfectHash K t hph hn r k hk v true r r k hk, if_pos ⟨rfl, rfl⟩]
    simp
  · intro r' r'' k' hk' hne
    rw [lookup_insert_at_of_perfectHash K t hph hn r k hk v true r' r'' k' hk', if_neg hne]

/-- Claim C3 fails on the code as stated: with allowance 1 and pool 2 equal to
`[AAAAAA, AAAAAT]`, the six-mer `AAAAAA` is within the allowance of both
barcodes, yet after the build phase and `prune_hash_table` its pool-2 lookup
returns 1, the identity of the barcode `AAAAAA` itself. -/
theorem ambiguous_real_barcode_resolves :
    hamming_distance bc_AAAAAA bc_AAAAAA 6 ≤ 1 ∧ hamming_distance bc_AAAAAA bc_AAAAAT 6 ≤ 1 ∧
    bc_AAAAAA ≠ bc_AAAAAT ∧
    bc_AAAAAA ∈ (near_pair_library.barcodes 1).map barcode_t.seq ∧
    bc_AAAAAT ∈ (near_pair_library.barcodes 1).map barcode_t.seq ∧
    ((main_index false 1 near_pair_library).bind
      fun t => hash_table_lookup t bc_AAAAAA 1) = some 1 := by
  refine ⟨by decide, by decide, by decide, by decide, by decide, ?_⟩
  have hsize : ∀ j, (near_pair_library.barcodes j).length ≤ 127 := by
    intro j; unfold near_pair_library; by_cases hj : j = 0 <;> simp [hj]
  -- the candidate phase keeps the table collision-free
  obtain ⟨tA, hA, hphA, hnA⟩ := candidate_phase_inv
    (fun t => PerfectHash near_pair_keys t ∧ 0 < t.items.length) near_pair_library 1 hsize
    (fun t r k v overwrite h hk _ _ => near_pair_step t r k v overwrite h hk)
    (init_hash_table (calc_num_combos 6 (total_num_unique_barcodes false near_pair_library) 1))
    ⟨_, near_pair_init, near_pair_perfectHash, by simp⟩
  have hC : bc_CCCCCC ∈ near_pair_keys 0 := by simp [near_pair_keys]
  have hA1 : bc_AAAAAA ∈ near_pair_keys 1 := by simp [near_pair_keys]
  have hT1 : bc_AAAAAT ∈ near_pair_keys 1 := by simp [near_pair_keys]
  -- the three exact inserts
  obtain ⟨tB, hB, hphB, hnB, lB, fB⟩ :=
    exact_step_of_perfectHash near_pair_keys tA hphA hnA 0 bc_CCCCCC hC 1
  obtain ⟨tC, hC', hphC, hnC, lC, fC⟩ :=
    exact_step_of_perfectHash near_pair_keys tB hphB hnB 1 bc_AAAAAA hA1 1
  obtain ⟨tD, hD, hphD, hnD, lD, fD⟩ :=
    exact_step_of_perfectHash near_pair_keys tC hphC hnC 1 bc_AAAAAT hT1 2
  have e1 : to_int8 (0 + 1) = 1 := by decide
  have e2 : to_int8 (0 + 1 + 1) = 2 := by decide
  have hbuild : main_build false 1 near_pair_library = some tD := by
    rw [main_build_false_eq, hA, near_pair_barcodes, near_pair_barcodes]
    simp only [near_pair_keys, if_true, insert_exact, Option.bind, e1, hB]
    simp only [Fin.isValue, one_ne_zero, if_false, insert_exact, Option.bind, e1, e2, hC', hD]
  -- what the three barcodes resolve to in the built table
  have rC : hash_table_lookup tD bc_CCCCCC 0 = some 1 := by
    rw [fD 0 0 bc_CCCCCC hC (by decide), fC 0 0 bc_CCCCCC hC (by decide), lB]
  have rA : hash_table_lookup tD bc_AAAAAA 1 = some 1 := by
    rw [fD 1 1 bc_AAAAAA hA1 (by decide), lC]
  -- no value is negative, so pruning returns the table as it is
  have hnonneg := values_nonneg_of_perfectHash near_pair_keys tD hphD hnD (by
    intro r k hk
    unfold near_pair_keys at hk
    by_cases hr : r = 0
    · subst hr
      simp only [if_true, List.mem_singleton] at hk
      subst hk
      exact ⟨1, rC, by omega⟩
    · have hr1 : r = 1 := by omega
      subst hr1
      simp only [Fin.isValue, one_ne_zero, if_false, List.mem_cons, List.mem_singleton,
        List.not_mem_nil, or_false] at hk
      rcases hk with rfl | rfl
      · exact ⟨1, rA, by omega⟩
      · exact ⟨2, lD, by omega⟩)
  unfold main_index
  rw [hbuild]
  simp only [Option.bind]
  rw [prune_of_nonneg tD (fun kv hkv => ⟨hnonneg kv hkv 0, hnonneg kv hkv 1⟩)]
  exact rA

/-! ## The occupancy bound of the built index -/

theorem mod_add_inj (n start a b : Nat) (ha : a < n) (hb : b < n)
    (h : (start + a) % n = (start + b) % n) : a = b := by
  have := Nat.ModEq.add_left_cancel' start h
  unfold Nat.ModEq at this
  rw [Nat.mod_eq_of_lt ha, Nat.mod_eq_of_lt hb] at this
  exact this

theorem owned_insert_at (K : Fin 2 → List (List Nat)) (t : bc_hash_table) (owner : Nat → Fin 2)
    (h : Owned K t owner) (r : Fin 2) (k : List Nat) (hk : k ∈ K r) (v : Int) (hv : v ≠ 0)
    (overwrite : Bool) (T : Nat) (hT : T < t.items.length)
    (hs : ProbeStops t k r (probe_start t k) T) :
    ∃ owner', Owned K
      (insert_at t k v r overwrite ((probe_start t k + T) % t.items.length)) owner' := by
  obtain ⟨hkl, hwf, hown, hinj⟩ := h
  obtain ⟨hpre, kv0, hkv0, hstop⟩ := hs
  have hn : 0 < t.items.length := by omega
  have hposlt : (probe_start t k + T) % t.items.length < t.items.length := Nat.mod_lt _ hn
  set pos := (probe_start t k + T) % t.items.length with hposdef
  set t' := insert_at t k v r overwrite pos with ht'
  have hitems : t'.items = t.items.set pos (written_slot t.key_length k v r overwrite kv0) :=
    insert_at_items t k v r overwrite _ kv0 hkv0
  have hlen : t'.items.length = t.items.length := insert_at_length t k v r overwrite pos
  have hkl' : t'.key_length = t.key_length := insert_at_key_length t k v r overwrite pos
  have hps : ∀ key : List Nat, probe_start t' key = probe_start t key :=
    fun key => probe_start_eq t _ key hkl' hlen
  -- a slot that held a value for a pool still holds one
  have hmono : ∀ (j : Nat) (kv : hash_kv) (p : Fin 2), t.items[j]? = some kv → kv.value p ≠ 0 →
      ∃ kv', t'.items[j]? = some kv' ∧ kv'.value p ≠ 0 := by
    intro j kv p hj hp
    rw [hitems]
    by_cases hjp : pos = j
    · subst hjp
      rw [hkv0] at hj
      injection hj with hj
      subst hj
      exact ⟨_, List.getElem?_set_self hposlt, written_slot_value_ne _ _ v hv r overwrite _ p hp⟩
    · exact ⟨kv, by rw [List.getElem?_set_ne hjp]; exact hj, hp⟩
  have hpath : ∀ (key : List Nat) (o : Fin 2) (i : Nat),
      (∃ T', T' < t.items.length ∧ (probe_start t key + T') % t.items.length = i ∧
        ∀ s < T', ∃ kv', t.items[(probe_start t key + s) % t.items.length]? = some kv' ∧
          kv'.value o ≠ 0) →
      ∃ T', T' < t'.items.length ∧ (probe_start t' key + T') % t'.items.length = i ∧
        ∀ s < T', ∃ kv', t'.items[(probe_start t' key + s) % t'.items.length]? = some kv' ∧
          kv'.value o ≠ 0 := by
    intro key o i ⟨T', hT', hi, hall⟩
    refine ⟨T', by rw [hlen]; exact hT', by rw [hps, hlen]; exact hi, fun s hs' => ?_⟩
    obtain ⟨kv', hkv', hval'⟩ := hall s hs'
    rw [hps, hlen]
    exact hmono _ kv' o hkv' hval'
  by_cases h0 : kv0.value r = 0
  · -- the insert takes a slot that was free for `r` and writes its key
    have hW : written_slot t.key_length k v r overwrite kv0
        = ⟨k, Function.update kv0.value r v⟩ := by
      unfold written_slot
      rw [if_pos h0, hkl, strncpy_of_barcode k (hwf r k hk).1 (hwf r k hk).2]
    refine ⟨Function.update owner pos r,
      by rw [hkl', hkl], hwf, ?_, ?_⟩
    · intro i kv hkv hocc
      rw [hitems] at hkv
      by_cases hi : pos = i
      · subst hi
        rw [List.getElem?_set_self hposlt] at hkv
        injection hkv with hkv
        subst hkv
        rw [Function.update_same, hW]
        refine ⟨by simp [hv], hk, ?_⟩
        apply hpath k r
        refine ⟨T, hT, hposdef.symm, fun s hs' => ?_⟩
        obtain ⟨kv', hkv', hval', -⟩ := hpre s hs'
        exact ⟨kv', hkv', hval'⟩
      · rw [List.getElem?_set_ne hi] at hkv
        rw [Function.update_noteq (Ne.symm hi)]
        obtain ⟨h1, h2, h3⟩ := hown i kv hkv hocc
        exact ⟨h1, h2, hpath kv.key (owner i) i h3⟩
    · intro i j kv kv' hkv hkv' hocc hocc' hoij hkey
      rw [hitems] at hkv hkv'
      -- a second slot owned by `r` with key `k` contradicts the probe
      have hclash : ∀ (j : Nat) (kv' : hash_kv), j ≠ pos →
          t.items[j]? = some kv' → occupied kv' → owner j = r → kv'.key = k → False := by
        intro j kv' hj hkv' hocc' hoj hkey'
        obtain ⟨h1, -, Tj, hTj, hpos, hall⟩ := hown j kv' hkv' hocc'
        rw [hkey'] at hpos hall
        rw [hoj] at h1 hall
        rcases Nat.lt_trichotomy T Tj with hlt | heq | hgt
        · obtain ⟨kv'', hkv'', hval''⟩ := hall T hlt
          rw [hkv0] at hkv''
          injection hkv'' with hkv''
          subst hkv''
          exact hval'' h0
        · subst heq
          exact hj hpos.symm
        · obtain ⟨kv'', hkv'', -, hmis⟩ := hpre Tj hgt
          rw [hpos, hkv'] at hkv''
          injection hkv'' with hkv''
          subst hkv''
          rw [hkey', strncmp_eq_self] at hmis
          exact absurd hmis (by decide)
      by_cases hi : pos = i
      · by_cases hj : pos = j
        · rw [← hi, ← hj]
        · exfalso
          subst hi
          rw [List.getElem?_set_self hposlt] at hkv
          injection hkv with hkv
          subst hkv
          rw [List.getElem?_set_ne hj] at hkv'
          rw [Function.update_same, Function.update_noteq (Ne.symm hj)] at hoij
          rw [hW] at hkey
          exact hclash j kv' (Ne.symm hj) hkv' hocc' hoij.symm hkey.symm
      · by_cases hj : pos = j
        · exfalso
          subst hj
          rw [List.getElem?_set_self hposlt] at hkv'
          injection hkv' with hkv'
          subst hkv'
          rw [List.getElem?_set_ne hi] at hkv
          rw [Function.update_same, Function.update_noteq (Ne.symm hi)] at hoij
          rw [hW] at hkey
          exact hclash i kv (Ne.symm hi) hkv hocc hoij hkey
        · rw [List.getElem?_set_ne hi] at hkv
          rw [List.getElem?_set_ne hj] at hkv'
          rw [Function.update_noteq (Ne.symm hi), Function.update_noteq (Ne.symm hj)] at hoij
          exact hinj i j kv kv' hkv hkv' hocc hocc' hoij hkey
  · -- the insert rewrites the value of a slot that already holds the key
    have hW : written_slot t.key_length k v r overwrite kv0
        = ⟨kv0.key, Function.update kv0.value r (if overwrite then v else -1)⟩ := by
      unfold written_slot
      rw [if_neg h0]
    have hocc0 : occupied kv0 := by
      unfold occupied
      by_cases hr : r = 0
      · subst hr; exact Or.inl h0
      · have : r = 1 := by omega
        subst this; exact Or.inr h0
    -- every slot of the new table is the old slot up to the values of `r`
    have hold : ∀ (i : Nat) (kv : hash_kv), t'.items[i]? = some kv →
        ∃ kv1, t.items[i]? = some kv1 ∧ kv1.key = kv.key ∧ occupied kv1 ∨
          t.items[i]? = some kv := by
      intro i kv hkv
      rw [hitems] at hkv
      by_cases hi : pos = i
      · subst hi
        rw [List.getElem?_set_self hposlt] at hkv
        injection hkv with hkv
        subst hkv
        exact ⟨kv0, Or.inl ⟨hkv0, by rw [hW], hocc0⟩⟩
      · rw [List.getElem?_set_ne hi] at hkv
        exact ⟨kv, Or.inr hkv⟩
    have hold' : ∀ (i : Nat) (kv : hash_kv), t'.items[i]? = some kv → occupied kv →
        ∃ kv1, t.items[i]? = some kv1 ∧ kv1.key = kv.key ∧ occupied kv1 := by
      intro i kv hkv hocc
      obtain ⟨kv1, h1 | h1⟩ := hold i kv hkv
      · exact ⟨kv1, h1⟩
      · exact ⟨kv, h1, rfl, hocc⟩
    refine ⟨owner, by rw [hkl', hkl], hwf, ?_, ?_⟩
    · intro i kv hkv hocc
      obtain ⟨kv1, hkv1, hkey1, hocc1⟩ := hold' i kv hkv hocc
      obtain ⟨h1, h2, h3⟩ := hown i kv1 hkv1 hocc1
      obtain ⟨kv2, hkv2, hval2⟩ := hmono i kv1 (owner i) hkv1 h1
      rw [hkv] at hkv2
      injection hkv2 with hkv2
      subst hkv2
      rw [← hkey1]
      exact ⟨hval2, h2, hpath kv1.key (owner i) i h3⟩
    · intro i j kv kv' hkv hkv' hocc hocc' hoij hkey
      obtain ⟨kv1, hkv1, hkey1, hocc1⟩ := hold' i kv hkv hocc
      obtain ⟨kv2, hkv2, hkey2, hocc2⟩ := hold' j kv' hkv' hocc'
      exact hinj i j kv1 kv2 hkv1 hkv2 hocc1 hocc2 hoij (by rw [hkey1, hkey2, hkey])

theorem mem_tagged_keys (K : Fin 2 → List (List Nat)) (o : Fin 2) (k : List Nat) (hk : k ∈ K o) :
    (o, k) ∈ tagged_keys K := by
  unfold tagged_keys
  rw [List.mem_append, List.mem_map, List.mem_map]
  by_cases ho : o = 0
  · subst ho; exact Or.inl ⟨k, hk, rfl⟩
  · have : o = 1 := by omega
    subst this; exact Or.inr ⟨k, hk, rfl⟩

theorem owned_free_slot (K : Fin 2 → List (List Nat)) (t : bc_hash_table) (owner : Nat → Fin 2)
    (h : Owned K t owner) (hcard : (tagged_keys K).toFinset.card < t.items.length) :
    ∃ kv ∈ t.items, kv.value 0 = 0 ∧ kv.value 1 = 0 := by
  by_contra hno
  have hocc : ∀ kv ∈ t.items, occupied kv := by
    intro kv hkv
    unfold occupied
    by_cases h0 : kv.value 0 = 0
    · right
      intro h1
      exact hno ⟨kv, hkv, h0, h1⟩
    · exact Or.inl h0
  obtain ⟨-, -, hown, hinj⟩ := h
  have hget : ∀ i, i < t.items.length → ∃ kv, t.items[i]? = some kv ∧ occupied kv := by
    intro i hi
    exact ⟨_, List.getElem?_eq_getElem hi,
      hocc _ (List.mem_iff_getElem?.mpr ⟨i, List.getElem?_eq_getElem hi⟩)⟩
  have hle := Finset.card_le_card_of_injOn
    (s := Finset.range t.items.length) (t := (tagged_keys K).toFinset)
    (fun i => (owner i, ((t.items[i]?).map hash_kv.key).getD []))
    (by
      intro i hi
      rw [Finset.mem_range] at hi
      obtain ⟨kv, hkv, hoc⟩ := hget i hi
      simp only [hkv, Option.map_some', Option.getD_some, List.mem_toFinset]
      exact mem_tagged_keys K _ _ (hown i kv hkv hoc).2.1)
    (by
      intro i hi j hj hij
      rw [Finset.mem_coe, Finset.mem_range] at hi hj
      obtain ⟨kv, hkv, hoc⟩ := hget i hi
      obtain ⟨kv', hkv', hoc'⟩ := hget j hj
      simp only [hkv, hkv', Option.map_some', Option.getD_some, Prod.mk.injEq] at hij
      exact hinj i j kv kv' hkv hkv' hoc hoc' hij.1 hij.2)
  rw [Finset.card_range] at hle
  omega

theorem nearest_pow2_loop_spec (number : Nat) (hx : number ≤ 2 ^ 63) :
    ∀ fuel e, e ≤ 63 → 65 ≤ fuel + e → (e = 0 ∨ 2 ^ (e - 1) < number) →
      ∃ v, nearest_pow2_loop number fuel (2 ^ e) = some v ∧ number ≤ v ∧ (∃ e', v = 2 ^ e') ∧
        (v = 1 ∨ v < 2 * number) := by
  intro fuel
  induction fuel with
  | zero => intro e he hf; omega
  | succ fuel ih =>
    intro e he hf hprev
    unfold nearest_pow2_loop
    by_cases hlt : 2 ^ e < number
    · rw [if_pos hlt]
      have he63 : e < 63 := by
        by_contra hcon
        have : e = 63 := by omega
        subst this
        omega
      have hpow : 2 ^ e * 2 % 2 ^ 64 = 2 ^ (e + 1) := by
        rw [← pow_succ]
        apply Nat.mod_eq_of_lt
        exact Nat.pow_lt_pow_right (by omega) (by omega)
      rw [hpow]
      exact ih (e + 1) (by omega) (by omega) (Or.inr (by simpa using hlt))
    · rw [if_neg hlt]
      refine ⟨2 ^ e, rfl, by omega, ⟨e, rfl⟩, ?_⟩
      rcases hprev with h0 | hp
      · left; subst h0; rfl
      · right
        have : 2 ^ e = 2 * 2 ^ (e - 1) := by
          obtain ⟨e', rfl⟩ : ∃ e', e = e' + 1 := ⟨e - 1, by
            rcases Nat.eq_zero_or_pos e with h0 | h0
            · subst h0; simp at hp; omega
            · omega⟩
          simp [pow_succ, Nat.mul_comm]
        omega

theorem nearest_pow2_spec (number : Nat) (hx : number ≤ 2 ^ 63) :
    ∃ v, nearest_pow2 number = some v ∧ number ≤ v ∧ (∃ e, v = 2 ^ e) ∧
      (v = 1 ∨ v < 2 * number) := by
  have := nearest_pow2_loop_spec number hx 66 0 (by omega) (by omega) (Or.inl rfl)
  simpa [nearest_pow2] using this

theorem init_hash_table_spec (num_items : Nat) (hx : num_items ≤ 2 ^ 62) :
    ∃ t0, init_hash_table num_items = some t0 ∧ t0.key_length = 6 ∧
      (∀ kv ∈ t0.items, kv = empty_kv) ∧ num_items * 3 / 2 ≤ t0.items.length ∧
      (∃ e, t0.items.length = 2 ^ e) ∧
      (t0.items.length = 1 ∨ t0.items.length < 2 * (num_items * 3 / 2)) := by
  have hmod : num_items * 3 % 2 ^ 64 = num_items * 3 := Nat.mod_eq_of_lt (by omega)
  obtain ⟨v, hv, hle, hpow, hub⟩ := nearest_pow2_spec (num_items * 3 / 2) (by omega)
  refine ⟨⟨6, 0, List.replicate v empty_kv⟩, ?_, rfl, ?_, ?_, ?_, ?_⟩
  · unfold init_hash_table
    rw [hmod, hv]
    rfl
  · intro kv hkv
    exact (List.mem_replicate.mp hkv).2
  · simpa using hle
  · simpa using hpow
  · simpa using hub

set_option maxRecDepth 100000 in
theorem calc_num_combos_bounds (total m : Nat) (ht : total ≤ 4096) :
    total ≤ calc_num_combos 6 total m ∧ calc_num_combos 6 total m ≤ 4096 := by
  unfold calc_num_combos
  by_cases hm : m = 0 ∨ m ≥ 6
  · rw [if_pos hm]; exact ⟨le_refl _, ht⟩
  · rw [if_neg hm]
    have hP : uint_pow 4 6 = 4096 := by decide
    have hS : ∃ S, forLoop (fun k total =>
        (total + (uint_pow 4 k * n_choose_k 6 k) % 2 ^ 64) % 2 ^ 64) m 1 0 = S ∧
        1 ≤ S ∧ S ≤ 11528 := by
      have hm1 : 1 ≤ m := by omega
      have hm6 : m < 6 := by omega
      interval_cases m
      · exact ⟨24, by decide, by omega, by omega⟩
      · exact ⟨264, by decide, by omega, by omega⟩
      · exact ⟨1544, by decide, by omega, by omega⟩
      · exact ⟨5384, by decide, by omega, by omega⟩
      · exact ⟨11528, by decide, by omega, by omega⟩
    obtain ⟨S, hSeq, hS1, hS2⟩ := hS
    simp only [hSeq, hP]
    have hprod : S * total % 2 ^ 64 = S * total := Nat.mod_eq_of_lt (by
      calc S * total ≤ 11528 * 4096 := Nat.mul_le_mul hS2 ht
        _ < 2 ^ 64 := by norm_num)
    rw [hprod]
    have hge : total ≤ S * total := Nat.le_mul_of_pos_left total hS1
    split_ifs <;> omega

theorem not_occupied_empty_kv : ¬ occupied empty_kv := by
  unfold occupied empty_kv
  simp

theorem owned_empty (K : Fin 2 → List (List Nat))
    (hwf : ∀ r, ∀ k ∈ K r, k.length = 6 ∧ ∀ c ∈ k, c ≠ 0) (t0 : bc_hash_table)
    (hkl : t0.key_length = 6) (hempty : ∀ kv ∈ t0.items, kv = empty_kv) :
    Owned K t0 (fun _ => 0) := by
  refine ⟨hkl, hwf, ?_, ?_⟩
  · intro i kv hkv hocc
    rw [hempty kv (List.mem_iff_getElem?.mpr ⟨i, hkv⟩)] at hocc
    exact absurd hocc not_occupied_empty_kv
  · intro i j kv kv' hkv _ hocc
    rw [hempty kv (List.mem_iff_getElem?.mpr ⟨i, hkv⟩)] at hocc
    exact absurd hocc not_occupied_empty_kv

theorem build_step (K : Fin 2 → List (List Nat)) (n : Nat) (t : bc_hash_table)
    (hcard : (tagged_keys K).toFinset.card < n) (hinv : BuildInv K n t) (r : Fin 2)
    (k : List Nat) (hk : k ∈ K r) (v : Int) (hv : v ≠ 0) (overwrite : Bool) :
    ∃ pos kv0, t.items[pos]? = some kv0 ∧
      (kv0.value r = 0 ∨ strncmp_eq k kv0.key 6 = true) ∧
      hash_table_insert t k v r overwrite = some (insert_at t k v r overwrite pos) ∧
      (insert_at t k v r overwrite pos).items =
        t.items.set pos (written_slot 6 k v r overwrite kv0) ∧
      BuildInv K n (insert_at t k v r overwrite pos) := by
  obtain ⟨hlen, owner, hown⟩ := hinv
  obtain ⟨kvf, hkvf, hf0, hf1⟩ := owned_free_slot K t owner hown (by rw [hlen]; exact hcard)
  have hfree : ∃ kv ∈ t.items, kv.value r = 0 := by
    refine ⟨kvf, hkvf, ?_⟩
    by_cases hr : r = 0
    · subst hr; exact hf0
    · have : r = 1 := by omega
      subst this; exact hf1
  obtain ⟨T, hT, hs⟩ := exists_probeStops t k r (probe_start t k) hfree
  have hn : 0 < t.items.length := by omega
  have hs' := hs
  obtain ⟨-, kv0, hkv0, hstop⟩ := hs'
  refine ⟨(probe_start t k + T) % t.items.length, kv0, hkv0, by rw [← hown.1]; exact hstop, ?_,
    ?_, ?_, ?_⟩
  · exact insert_loop_of_stops t k v r overwrite T _ _ hT (le_of_lt (probe_start_lt t k hn)) hs
  · rw [insert_at_items t k v r overwrite _ kv0 hkv0, hown.1]
  · rw [insert_at_length, hlen]
  · exact owned_insert_at K t owner hown r k hk v hv overwrite T hT hs

theorem card_tagged_le_length (K : Fin 2 → List (List Nat)) :
    (tagged_keys K).toFinset.card ≤ (K 0).length + (K 1).length := by
  refine le_trans (List.toFinset_card_le _) ?_
  simp [tagged_keys]

theorem card_tagged_le_of_subset (K K' : Fin 2 → List (List Nat))
    (h : ∀ r, ∀ k ∈ K r, k ∈ K' r) :
    (tagged_keys K).toFinset.card ≤ (K' 0).length + (K' 1).length := by
  refine le_trans (Finset.card_le_card ?_) (card_tagged_le_length K')
  intro x hx
  rw [List.mem_toFinset] at hx ⊢
  unfold tagged_keys at hx
  rw [List.mem_append, List.mem_map, List.mem_map] at hx
  rcases hx with ⟨k, hk, rfl⟩ | ⟨k, hk, rfl⟩
  · exact mem_tagged_keys K' 0 k (h 0 k hk)
  · exact mem_tagged_keys K' 1 k (h 1 k hk)

theorem eq_of_strncmp_eq (a b : List Nat) (ha : a.length = 6 ∧ ∀ c ∈ a, c ≠ 0)
    (hb : b.length = 6 ∧ ∀ c ∈ b, c ≠ 0) (h : strncmp_eq a b 6 = true) : a = b := by
  unfold strncmp_eq at h
  rw [cstr_of_nonzero a ha.2, cstr_of_nonzero b hb.2, List.take_of_length_le (by omega),
    List.take_of_length_le (by omega)] at h
  simpa using h

set_option maxRecDepth 100000 in
theorem mem_FS2_of_all_standard (fasta_seqs : library_seqs)
    (hwf : ∀ r, ∀ k ∈ (fasta_seqs.barcodes r).map barcode_t.seq, k.length = 6 ∧ ∀ c ∈ k, c ≠ 0)
    (hstd : all_standard_barcodes fasta_seqs = true) :
    ∀ r, ∀ k ∈ (fasta_seqs.barcodes r).map barcode_t.seq, k ∈ FS2_BARCODES := by
  have hfs : ∀ std ∈ FS2_BARCODES, cstr std = std := by decide
  intro r k hk
  unfold all_standard_barcodes at hstd
  rw [Bool.and_eq_true, List.all_eq_true, List.all_eq_true] at hstd
  obtain ⟨bc, hbc, rfl⟩ := List.mem_map.mp hk
  have hany : (FS2_BARCODES.any fun std => strcmp_eq bc.seq std) = true := by
    by_cases hr : r = 0
    · subst hr; exact hstd.1 bc hbc
    · have : r = 1 := by omega
      subst this; exact hstd.2 bc hbc
  rw [List.any_eq_true] at hany
  obtain ⟨std, hstd_mem, heq⟩ := hany
  unfold strcmp_eq at heq
  rw [cstr_of_nonzero bc.seq (hwf r bc.seq hk).2, hfs std hstd_mem] at heq
  have : bc.seq = std := by simpa using heq
  rw [this]
  exact hstd_mem

theorem written_slot_other (key_length : Nat) (key : List Nat) (v : Int) (r : Fin 2)
    (overwrite : Bool) (kv : hash_kv) (p : Fin 2) (hp : p ≠ r) :
    (written_slot key_length key v r overwrite kv).value p = kv.value p := by
  unfold written_slot
  by_cases h0 : kv.value r = 0
  · rw [if_pos h0]; exact Function.update_noteq hp _ _
  · rw [if_neg h0]; exact Function.update_noteq hp _ _

theorem written_slot_overwrite (key_length : Nat) (key : List Nat) (v : Int) (r : Fin 2)
    (kv : hash_kv) : (written_slot key_length key v r true kv).value r = v := by
  unfold written_slot
  by_cases h0 : kv.value r = 0
  · rw [if_pos h0]; exact Function.update_same _ _ _
  · rw [if_neg h0]; simp

theorem pos2_of_set_other (P r : Fin 2) (hPr : P ≠ r) (t t' : bc_hash_table) (pos : Nat)
    (kv0 : hash_kv) (key : List Nat) (v : Int) (overwrite : Bool)
    (hkv0 : t.items[pos]? = some kv0)
    (hitems : t'.items = t.items.set pos (written_slot 6 key v r overwrite kv0))
    (h : Pos2 P t) : Pos2 P t' := by
  have hposlt : pos < t.items.length := by
    rcases Nat.lt_or_ge pos t.items.length with h1 | h1
    · exact h1
    · rw [List.getElem?_eq_none h1] at hkv0; exact absurd hkv0 (by simp)
  have hkeep : ∀ (i : Nat) (kv : hash_kv), t.items[i]? = some kv → kv.value P > 0 →
      ∃ kv', t'.items[i]? = some kv' ∧ kv'.value P > 0 := by
    intro i kv hkv hpos
    rw [hitems]
    by_cases hi : pos = i
    · subst hi
      rw [hkv0] at hkv
      injection hkv with hkv
      subst hkv
      exact ⟨_, List.getElem?_set_self hposlt, by rw [written_slot_other _ _ _ _ _ _ _ hPr]; exact hpos⟩
    · exact ⟨kv, by rw [List.getElem?_set_ne hi]; exact hkv, hpos⟩
  obtain ⟨i1, i2, kv1, kv2, hne, h1, h2, hp1, hp2⟩ := h
  obtain ⟨kv1', h1', hp1'⟩ := hkeep i1 kv1 h1 hp1
  obtain ⟨kv2', h2', hp2'⟩ := hkeep i2 kv2 h2 hp2
  exact ⟨i1, i2, kv1', kv2', hne, h1', h2', hp1', hp2'⟩

theorem wit_step (K : Fin 2 → List (List Nat)) (n : Nat) (t : bc_hash_table)
    (hcard : (tagged_keys K).toFinset.card < n) (hinv : BuildInv K n t) (P : Fin 2)
    (b : List Nat) (hb : b ∈ K P) (v : Int) (hv : 0 < v) :
    ∃ t', hash_table_insert t b v P true = some t' ∧ BuildInv K n t' ∧ Wit P t' b ∧
      ∀ b', Wit P t b' → Wit P t' b' := by
  obtain ⟨pos, kv0, hkv0, hstop, hins, hitems, hinv'⟩ :=
    build_step K n t hcard hinv P b hb v (by omega) true
  have hposlt : pos < t.items.length := by
    rcases Nat.lt_or_ge pos t.items.length with h1 | h1
    · exact h1
    · rw [List.getElem?_eq_none h1] at hkv0; exact absurd hkv0 (by simp)
  obtain ⟨hlen, owner, hown⟩ := hinv
  have hnew : (insert_at t b v P true pos).items[pos]? = some (written_slot 6 b v P true kv0) := by
    rw [hitems, List.getElem?_set_self hposlt]
  refine ⟨_, hins, hinv', ⟨pos, _, hnew, ?_, ?_⟩, ?_⟩
  · unfold written_slot
    by_cases h0 : kv0.value P = 0
    · rw [if_pos h0]
      exact strncpy_of_barcode b (hown.2.1 P b hb).1 (hown.2.1 P b hb).2
    · rw [if_neg h0]
      have hm : strncmp_eq b kv0.key 6 = true := by
        rcases hstop with h | h
        · exact absurd h h0
        · exact h
      have hocc : occupied kv0 := by
        unfold occupied
        by_cases hP : P = 0
        · subst hP; exact Or.inl h0
        · have : P = 1 := by omega
          subst this; exact Or.inr h0
      have hkey := (hown.2.2.1 pos kv0 hkv0 hocc).2.1
      exact (eq_of_strncmp_eq b kv0.key (hown.2.1 P b hb) (hown.2.1 _ _ hkey) hm).symm
  · rw [written_slot_overwrite]; exact hv
  · intro b' ⟨i, kv, hkv, hkey, hpos⟩
    by_cases hi : pos = i
    · subst hi
      rw [hkv0] at hkv
      injection hkv with hkv
      subst hkv
      refine ⟨pos, _, hnew, ?_, by rw [written_slot_overwrite]; exact hv⟩
      unfold written_slot
      rw [if_neg (by omega)]
      exact hkey
    · exact ⟨i, kv, by rw [hitems, List.getElem?_set_ne hi]; exact hkv, hkey, hpos⟩

theorem insert_exact_wit (K : Fin 2 → List (List Nat)) (n : Nat)
    (hcard : (tagged_keys K).toFinset.card < n) (P : Fin 2) :
    ∀ (pool : List (List Nat)) (j : Nat) (t : bc_hash_table),
      (∀ b ∈ pool, b ∈ K P) → j + pool.length ≤ 127 → BuildInv K n t →
      ∃ t', insert_exact pool j P (some t) = some t' ∧ BuildInv K n t' ∧
        (∀ b ∈ pool, Wit P t' b) ∧ ∀ b', Wit P t b' → Wit P t' b' := by
  intro pool
  induction pool with
  | nil => intro j t _ _ hinv; exact ⟨t, rfl, hinv, fun b hb => absurd hb (List.not_mem_nil b), fun _ h => h⟩
  | cons seq rest ih =>
    intro j t hmem hlen hinv
    simp only [List.length_cons] at hlen
    have hv : to_int8 (j + 1) = ((j + 1 : Nat) : Int) := to_int8_small _ (by omega)
    obtain ⟨t1, hins, hinv1, hwit1, hkeep1⟩ := wit_step K n t hcard hinv P seq
      (hmem seq (List.mem_cons_self _ _)) (to_int8 (j + 1)) (by rw [hv]; omega)
    obtain ⟨t', hrest, hinv', hwit', hkeep'⟩ := ih (j + 1) t1
      (fun b hb => hmem b (List.mem_cons_of_mem _ hb)) (by omega) hinv1
    refine ⟨t', ?_, hinv', ?_, fun b' hb' => hkeep' b' (hkeep1 b' hb')⟩
    · unfold insert_exact
      simp only [Option.bind, hins]
      exact hrest
    · intro b hb
      rcases List.mem_cons.mp hb with rfl | hb
      · exact hkeep' _ hwit1
      · exact hwit' b hb

theorem pos2_of_wit (P : Fin 2) (t : bc_hash_table) (b1 b2 : List Nat) (hne : b1 ≠ b2)
    (h1 : Wit P t b1) (h2 : Wit P t b2) : Pos2 P t := by
  obtain ⟨i1, kv1, hkv1, hkey1, hp1⟩ := h1
  obtain ⟨i2, kv2, hkv2, hkey2, hp2⟩ := h2
  refine ⟨i1, i2, kv1, kv2, ?_, hkv1, hkv2, hp1, hp2⟩
  intro heq
  subst heq
  rw [hkv1] at hkv2
  injection hkv2 with hkv2
  subst hkv2
  exact hne (hkey1.symm.trans hkey2)

theorem two_le_length_of_ne {α : Type} (l : List α) (a b : α) (ha : a ∈ l) (hb : b ∈ l)
    (hne : a ≠ b) : 2 ≤ l.length := by
  match l, ha, hb with
  | [], ha, _ => exact absurd ha (List.not_mem_nil a)
  | [x], ha, hb =>
    rw [List.mem_singleton] at ha hb
    exact absurd (ha.trans hb.symm) hne
  | _ :: _ :: _, _, _ => simp

theorem main_build_table_size (bc_mismatches : Nat) (fasta_seqs : library_seqs)
    (hwf : ∀ r, ∀ k ∈ (fasta_seqs.barcodes r).map barcode_t.seq, k.length = 6 ∧ ∀ c ∈ k, c ≠ 0)
    (hsize : ∀ j, (fasta_seqs.barcodes j).length ≤ 127)
    (htwo : 2 ≤ (fasta_seqs.barcodes 0).length + (fasta_seqs.barcodes 1).length) :
    ∃ t0, init_hash_table (calc_num_combos 6
        (total_num_unique_barcodes false fasta_seqs) bc_mismatches) = some t0 ∧
      BuildInv (fun r => (fasta_seqs.barcodes r).map barcode_t.seq) t0.items.length t0 ∧
      (tagged_keys (fun r => (fasta_seqs.barcodes r).map barcode_t.seq)).toFinset.card
        < t0.items.length ∧ t0.items.length ≤ 2 ^ 14 := by
  have h0 := hsize 0
  have h1 := hsize 1
  have htot : total_num_unique_barcodes false fasta_seqs ≤ 4096 ∧
      (all_standard_barcodes fasta_seqs = true →
        total_num_unique_barcodes false fasta_seqs = 48) ∧
      (all_standard_barcodes fasta_seqs = false → total_num_unique_barcodes false fasta_seqs =
        (fasta_seqs.barcodes 0).length + (fasta_seqs.barcodes 1).length) := by
    unfold total_num_unique_barcodes
    rw [effective_output_all_false]
    have e48 : FS2_BARCODES.length = 48 := by decide
    simp only [Bool.false_eq_true, if_false, e48, library_seqs.num_barcodes]
    have hmod : ((fasta_seqs.barcodes 0).length + (fasta_seqs.barcodes 1).length) % 2 ^ 32
        = (fasta_seqs.barcodes 0).length + (fasta_seqs.barcodes 1).length :=
      Nat.mod_eq_of_lt (by omega)
    cases hstd : all_standard_barcodes fasta_seqs with
    | true => simp
    | false =>
      simp only [Bool.false_eq_true, if_false, hmod]
      refine ⟨by omega, fun h => absurd h (by simp), fun _ => trivial⟩
  obtain ⟨htot1, htot2, htot3⟩ := htot
  obtain ⟨hlo, hhi⟩ := calc_num_combos_bounds
    (total_num_unique_barcodes false fasta_seqs) bc_mismatches htot1
  obtain ⟨t0, hinit, hkl, hempty, hge, ⟨e, hpow⟩, hub⟩ := init_hash_table_spec
    (calc_num_combos 6 (total_num_unique_barcodes false fasta_seqs) bc_mismatches) (by omega)
  refine ⟨t0, hinit, ⟨rfl, _, owned_empty _ hwf t0 hkl hempty⟩, ?_, ?_⟩
  · by_cases hstd : all_standard_barcodes fasta_seqs = true
    · have hc := card_tagged_le_of_subset
        (fun r => (fasta_seqs.barcodes r).map barcode_t.seq) (fun _ => FS2_BARCODES)
        (mem_FS2_of_all_standard fasta_seqs hwf hstd)
      have e48 : FS2_BARCODES.length = 48 := by decide
      rw [e48] at hc
      have h72 : 72 ≤ t0.items.length := by
        have := htot2 hstd
        omega
      have h128 : 128 ≤ t0.items.length := by
        rw [hpow] at h72 ⊢
        by_contra hcon
        have he : e ≤ 6 := by
          by_contra he
          have : 2 ^ 7 ≤ 2 ^ e := Nat.pow_le_pow_right (by omega) (by omega)
          omega
        have : 2 ^ e ≤ 2 ^ 6 := Nat.pow_le_pow_right (by omega) he
        omega
      omega
    · have hc := card_tagged_le_length (fun r => (fasta_seqs.barcodes r).map barcode_t.seq)
      simp only [List.length_map] at hc
      have := htot3 (by simpa using hstd)
      omega
  · rcases hub with h | h
    · rw [h]; norm_num
    · have : (2 : Nat) ^ 14 = 16384 := by norm_num
      omega

theorem main_build_final (bc_mismatches : Nat) (fasta_seqs : library_seqs)
    (hwf : ∀ r, ∀ k ∈ (fasta_seqs.barcodes r).map barcode_t.seq, k.length = 6 ∧ ∀ c ∈ k, c ≠ 0)
    (hsize : ∀ j, (fasta_seqs.barcodes j).length ≤ 127) (P : Fin 2) (b1 b2 : List Nat)
    (hb1 : b1 ∈ (fasta_seqs.barcodes P).map barcode_t.seq)
    (hb2 : b2 ∈ (fasta_seqs.barcodes P).map barcode_t.seq) (hne : b1 ≠ b2) :
    ∃ t n, main_build false bc_mismatches fasta_seqs = some t ∧
      BuildInv (fun r => (fasta_seqs.barcodes r).map barcode_t.seq) n t ∧
      (tagged_keys (fun r => (fasta_seqs.barcodes r).map barcode_t.seq)).toFinset.card < n ∧
      n ≤ 2 ^ 14 ∧ Pos2 P t := by
  have hlenP : 2 ≤ (fasta_seqs.barcodes P).length := by
    have := two_le_length_of_ne _ b1 b2 hb1 hb2 hne
    simpa using this
  have htwo : 2 ≤ (fasta_seqs.barcodes 0).length + (fasta_seqs.barcodes 1).length := by
    by_cases hP : P = 0
    · subst hP; omega
    · have : P = 1 := by omega
      subst this; omega
  obtain ⟨t0, hinit, hinv0, hcard, hn14⟩ :=
    main_build_table_size bc_mismatches fasta_seqs hwf hsize htwo
  have hstep : ∀ (t : bc_hash_table) (r : Fin 2) (k : List Nat) (v : Int) (overwrite : Bool),
      BuildInv (fun r => (fasta_seqs.barcodes r).map barcode_t.seq) t0.items.length t →
      k ∈ (fasta_seqs.barcodes r).map barcode_t.seq → 1 ≤ v → v ≤ 127 →
      ∃ t', hash_table_insert t k v r overwrite = some t' ∧
        BuildInv (fun r => (fasta_seqs.barcodes r).map barcode_t.seq) t0.items.length t' := by
    intro t r k v overwrite hinv hk hv1 _
    obtain ⟨pos, kv0, -, -, hins, -, hinv'⟩ :=
      build_step _ _ t hcard hinv r k hk v (by omega) overwrite
    exact ⟨_, hins, hinv'⟩
  obtain ⟨tA, hA, hinvA⟩ := candidate_phase_inv _ fasta_seqs bc_mismatches hsize hstep _
    ⟨t0, hinit, hinv0⟩
  rw [main_build_false_eq, hA]
  by_cases hP : P = 0
  · subst hP
    obtain ⟨tB, hB, hinvB, hwitB, -⟩ := insert_exact_wit _ _ hcard 0
      ((fasta_seqs.barcodes 0).map barcode_t.seq) 0 tA (fun b hb => hb)
      (by have := hsize 0; simp; omega) hinvA
    have hpos2 := pos2_of_wit 0 tB b1 b2 hne (hwitB b1 hb1) (hwitB b2 hb2)
    rw [hB]
    obtain ⟨tC, hC, hinvC, hposC⟩ := insert_exact_inv
      (fun t => BuildInv (fun r => (fasta_seqs.barcodes r).map barcode_t.seq) t0.items.length t ∧
        Pos2 0 t) ((fasta_seqs.barcodes 1).map barcode_t.seq) 1
      (by
        intro t k v hinv hk hv1 _
        obtain ⟨pos, kv0, hkv0, -, hins, hitems, hinv'⟩ :=
          build_step _ _ t hcard hinv.1 1 k hk v (by omega) true
        exact ⟨_, hins, hinv', pos2_of_set_other 0 1 (by decide) t _ pos kv0 k v true hkv0
          hitems hinv.2⟩)
      ((fasta_seqs.barcodes 1).map barcode_t.seq) 0 (some tB) (fun b hb => hb)
      (by have := hsize 1; simp; omega) ⟨tB, rfl, hinvB, hpos2⟩
    exact ⟨tC, _, hC, hinvC, hcard, hn14, hposC⟩
  · have hP1 : P = 1 := by omega
    subst hP1
    obtain ⟨tB, hB, hinvB⟩ := insert_exact_inv
      (fun t => BuildInv (fun r => (fasta_seqs.barcodes r).map barcode_t.seq) t0.items.length t)
      ((fasta_seqs.barcodes 0).map barcode_t.seq) 0
      (fun t k v hinv hk hv1 hv2 => hstep t 0 k v true hinv hk hv1 hv2)
      ((fasta_seqs.barcodes 0).map barcode_t.seq) 0 (some tA) (fun b hb => hb)
      (by have := hsize 0; simp; omega) ⟨tA, rfl, hinvA⟩
    rw [hB]
    obtain ⟨tC, hC, hinvC, hwitC, -⟩ := insert_exact_wit _ _ hcard 1
      ((fasta_seqs.barcodes 1).map barcode_t.seq) 0 tB (fun b hb => hb)
      (by have := hsize 1; simp; omega) hinvB
    exact ⟨tC, _, hC, hinvC, hcard, hn14, pos2_of_wit 1 tC b1 b2 hne (hwitC b1 hb1) (hwitC b2 hb2)⟩

/-! ## The rebuild loop of `prune_hash_table` -/

theorem lookup_absent (t : bc_hash_table) (c : List Nat) (P : Fin 2)
    (hfree : ∃ kv ∈ t.items, kv.value P = 0)
    (hkeys : ∀ kv ∈ t.items, kv.value P ≠ 0 → strncmp_eq c kv.key t.key_length = false) :
    hash_table_lookup t c P = some 0 := by
  obtain ⟨T, hT, hs⟩ := exists_probeStops t c P (probe_start t c) hfree
  have hn : 0 < t.items.length := by omega
  unfold hash_table_lookup bc_hash_table.num_slots
  rw [lookup_loop_of_stops t c P T _ _ hT (le_of_lt (probe_start_lt t c hn)) hs]
  obtain ⟨-, kv, hkv, hstop⟩ := hs
  rw [hkv]
  simp only [Option.map_some', Option.some.injEq]
  rcases hstop with h | h
  · exact h
  · by_contra h0
    have := hkeys kv (List.mem_iff_getElem?.mpr ⟨_, hkv⟩) h0
    rw [h] at this
    exact absurd this (by decide)

theorem prune_count_fst (items : List hash_kv) :
    (prune_count items).1 =
      items.countP (fun kv => decide (kv.value 0 > 0 ∨ kv.value 1 > 0)) := by
  unfold prune_count
  suffices hgen : ∀ (l : List hash_kv) (acc : Nat × Nat),
      (l.foldl (fun acc kv =>
        if kv.value 0 > 0 ∨ kv.value 1 > 0 then (acc.1 + 1, acc.2)
        else if kv.value 0 < 0 ∨ kv.value 1 < 0 then (acc.1, acc.2 + 1)
        else acc) acc).1 =
        acc.1 + l.countP (fun kv => decide (kv.value 0 > 0 ∨ kv.value 1 > 0)) by
    simpa using hgen items (0, 0)
  intro l
  induction l with
  | nil => intro acc; simp
  | cons kv rest ih =>
    intro acc
    rw [List.foldl_cons, ih, List.countP_cons]
    by_cases h1 : kv.value 0 > 0 ∨ kv.value 1 > 0
    · simp only [h1, if_true, decide_True]; omega
    · by_cases h2 : kv.value 0 < 0 ∨ kv.value 1 < 0
      · simp [h1, h2]
      · simp [h1, h2]

theorem two_le_countP {α : Type} (p : α → Bool) :
    ∀ (l : List α) (i1 i2 : Nat) (a b : α), i1 < i2 → l[i1]? = some a → l[i2]? = some b →
      p a = true → p b = true → 2 ≤ l.countP p := by
  intro l
  induction l with
  | nil => intro i1 i2 a b _ h1; simp at h1
  | cons x xs ih =>
    intro i1 i2 a b hlt h1 h2 ha hb
    obtain ⟨i2', rfl⟩ : ∃ i2', i2 = i2' + 1 := ⟨i2 - 1, by omega⟩
    rw [List.getElem?_cons_succ] at h2
    rw [List.countP_cons]
    rcases Nat.eq_zero_or_pos i1 with rfl | hpos
    · rw [List.getElem?_cons_zero] at h1
      injection h1 with h1
      subst h1
      have : 0 < xs.countP p :=
        List.countP_pos_iff.mpr ⟨b, List.mem_iff_getElem?.mpr ⟨i2', h2⟩, hb⟩
      simp only [ha, if_true]
      omega
    · obtain ⟨i1', rfl⟩ : ∃ i1', i1 = i1' + 1 := ⟨i1 - 1, by omega⟩
      rw [List.getElem?_cons_succ] at h1
      have := ih i1' i2' a b (by omega) h1 h2 ha hb
      omega

theorem two_le_countP_of_pos2 (P : Fin 2) (t : bc_hash_table) (h : Pos2 P t) :
    2 ≤ t.items.countP (fun kv => decide (kv.value 0 > 0 ∨ kv.value 1 > 0)) := by
  obtain ⟨i1, i2, kv1, kv2, hne, h1, h2, hp1, hp2⟩ := h
  have hsome : ∀ kv : hash_kv, kv.value P > 0 →
      decide (kv.value 0 > 0 ∨ kv.value 1 > 0) = true := by
    intro kv hkv
    rw [decide_eq_true_eq]
    by_cases hP : P = 0
    · subst hP; exact Or.inl hkv
    · have : P = 1 := by omega
      subst this; exact Or.inr hkv
  rcases Nat.lt_or_gt_of_ne hne with hlt | hgt
  · exact two_le_countP _ t.items i1 i2 kv1 kv2 hlt h1 h2 (hsome kv1 hp1) (hsome kv2 hp2)
  · exact two_le_countP _ t.items i2 i1 kv2 kv1 hgt h2 h1 (hsome kv2 hp2) (hsome kv1 hp1)

theorem countP_set {α : Type} (p : α → Bool) :
    ∀ (l : List α) (pos : Nat) (a b : α), l[pos]? = some a →
      (l.set pos b).countP p + (if p a = true then 1 else 0) =
        l.countP p + (if p b = true then 1 else 0) := by
  intro l
  induction l with
  | nil => intro pos a b h; simp at h
  | cons x xs ih =>
    intro pos a b h
    cases pos with
    | zero =>
      rw [List.getElem?_cons_zero] at h
      injection h with h
      subst h
      simp only [List.set_cons_zero, List.countP_cons]
      omega
    | succ pos =>
      rw [List.getElem?_cons_succ] at h
      simp only [List.set_cons_succ, List.countP_cons]
      have := ih pos a b h
      omega

theorem free_of_countP_lt (items : List hash_kv) (p : Fin 2)
    (h : items.countP (fun kv => decide (kv.value p ≠ 0)) < items.length) :
    ∃ kv ∈ items, kv.value p = 0 := by
  by_contra hno
  have hall : ∀ kv ∈ items, decide (kv.value p ≠ 0) = true := by
    intro kv hkv
    rw [decide_eq_true_eq]
    intro h0
    exact hno ⟨kv, hkv, h0⟩
  have := List.countP_eq_length.mpr hall
  omega

theorem occupied_of_ne_zero (kv : hash_kv) (p : Fin 2) (h : kv.value p ≠ 0) : occupied kv := by
  unfold occupied
  by_cases hp : p = 0
  · subst hp; exact Or.inl h
  · have : p = 1 := by omega
    subst this; exact Or.inr h

theorem prune_reinsert_step (K : Fin 2 → List (List Nat))
    (hwf : ∀ r, ∀ k ∈ K r, k.length = 6 ∧ ∀ c ∈ k, c ≠ 0) (n : Nat) (c : Fin 2 → Nat)
    (t : bc_hash_table) (hinv : PruneInv K n c t) (j : Fin 2) (k : List Nat)
    (hk : ∃ r, k ∈ K r) (v : Int) (hv : v ≠ 0) (hroom : c j < n) :
    ∃ t', hash_table_insert t k v j false = some t' ∧
      PruneInv K n (Function.update c j (c j + 1)) t' := by
  obtain ⟨hkl, hlen, hcount, hkeys⟩ := hinv
  have hfree : ∃ kv ∈ t.items, kv.value j = 0 :=
    free_of_countP_lt t.items j (by have := hcount j; omega)
  obtain ⟨T, hT, hs⟩ := exists_probeStops t k j (probe_start t k) hfree
  have hn : 0 < t.items.length := by omega
  have hins := insert_loop_of_stops t k v j false T _ _ hT
    (le_of_lt (probe_start_lt t k hn)) hs
  obtain ⟨-, kv0, hkv0, hstop⟩ := hs
  have hitems := insert_at_items t k v j false _ kv0 hkv0
  refine ⟨_, hins, by rw [insert_at_key_length, hkl], by rw [insert_at_length, hlen], ?_, ?_⟩
  · intro p
    rw [hitems]
    have hset := countP_set (fun kv : hash_kv => decide (kv.value p ≠ 0)) t.items _ kv0
      (written_slot t.key_length k v j false kv0) hkv0
    beta_reduce at hset
    by_cases hp : p = j
    · subst hp
      rw [Function.update_same]
      have hW : (written_slot t.key_length k v p false kv0).value p ≠ 0 := by
        unfold written_slot
        by_cases h0 : kv0.value p = 0
        · rw [if_pos h0]; simpa using hv
        · rw [if_neg h0]; simp
      have := hcount p
      rw [decide_eq_true hW, if_pos rfl] at hset
      split_ifs at hset <;> omega
    · rw [Function.update_noteq hp]
      have hsame : (written_slot t.key_length k v j false kv0).value p = kv0.value p :=
        written_slot_other _ _ _ _ _ _ _ hp
      rw [hsame] at hset
      have := hcount p
      omega
  · intro kv hkv hocc
    rw [hitems] at hkv
    rcases List.mem_or_eq_of_mem_set hkv with hmem | rfl
    · exact hkeys kv hmem hocc
    · unfold written_slot
      by_cases h0 : kv0.value j = 0
      · rw [if_pos h0]
        obtain ⟨r, hr⟩ := hk
        rw [hkl, strncpy_of_barcode k (hwf r k hr).1 (hwf r k hr).2]
        exact ⟨r, hr⟩
      · rw [if_neg h0]
        exact hkeys kv0 (List.mem_iff_getElem?.mpr ⟨_, hkv0⟩) (occupied_of_ne_zero kv0 j h0)

theorem prune_reinsert_slot_spec (K : Fin 2 → List (List Nat))
    (hwf : ∀ r, ∀ k ∈ K r, k.length = 6 ∧ ∀ c ∈ k, c ≠ 0) (n : Nat) (c : Fin 2 → Nat)
    (t : bc_hash_table) (hinv : PruneInv K n c t) (kv : hash_kv)
    (hk : occupied kv → ∃ r, kv.key ∈ K r)
    (hroom : ∀ j : Fin 2, c j + (if kv.value j > 0 then 1 else 0) ≤ n) :
    ∃ t', prune_reinsert_slot (some t) kv = some t' ∧
      PruneInv K n (fun j => c j + (if kv.value j > 0 then 1 else 0)) t' := by
  unfold prune_reinsert_slot
  simp only [Option.bind]
  -- pool 1 of the slot
  have step0 : ∃ t1, (if kv.value 0 > 0 then hash_table_insert t kv.key (kv.value 0) 0 false
      else some t) = some t1 ∧
      PruneInv K n (fun j => if j = 0 then c 0 + (if kv.value 0 > 0 then 1 else 0) else c j)
        t1 := by
    by_cases h0 : kv.value 0 > 0
    · rw [if_pos h0]
      have hr := hroom 0
      rw [if_pos h0] at hr
      obtain ⟨t1, h1, hinv1⟩ := prune_reinsert_step K hwf n c t hinv 0 kv.key
        (hk (Or.inl (by omega))) (kv.value 0) (by omega) (by omega)
      refine ⟨t1, h1, ?_⟩
      have : (fun j : Fin 2 => if j = 0 then c 0 + (if kv.value 0 > 0 then 1 else 0) else c j)
          = Function.update c 0 (c 0 + 1) := by
        funext j
        by_cases hj : j = 0
        · subst hj; simp [h0]
        · simp [hj, Function.update_noteq hj]
      rw [this]; exact hinv1
    · rw [if_neg h0]
      refine ⟨t, rfl, ?_⟩
      have : (fun j : Fin 2 => if j = 0 then c 0 + (if kv.value 0 > 0 then 1 else 0) else c j)
          = c := by
        funext j
        by_cases hj : j = 0
        · subst hj; simp [h0]
        · simp [hj]
      rw [this]; exact hinv
  obtain ⟨t1, h1, hinv1⟩ := step0
  rw [h1]
  simp only
  by_cases h1' : kv.value 1 > 0
  · rw [if_pos h1']
    have hr := hroom 1
    rw [if_pos h1'] at hr
    obtain ⟨t2, h2, hinv2⟩ := prune_reinsert_step K hwf n _ t1 hinv1 1 kv.key
      (hk (Or.inr (by omega))) (kv.value 1) (by omega) (by simp; omega)
    refine ⟨t2, h2, ?_⟩
    have : (fun j : Fin 2 => c j + (if kv.value j > 0 then 1 else 0)) =
        Function.update
          (fun j : Fin 2 => if j = 0 then c 0 + (if kv.value 0 > 0 then 1 else 0) else c j) 1
          ((fun j : Fin 2 => if j = 0 then c 0 + (if kv.value 0 > 0 then 1 else 0) else c j) 1
            + 1) := by
      funext j
      by_cases hj : j = 0
      · subst hj; simp
      · have hj1 : j = 1 := by omega
        subst hj1; simp [h1']
    rw [this]; exact hinv2
  · rw [if_neg h1']
    refine ⟨t1, rfl, ?_⟩
    have : (fun j : Fin 2 => c j + (if kv.value j > 0 then 1 else 0)) =
        (fun j : Fin 2 => if j = 0 then c 0 + (if kv.value 0 > 0 then 1 else 0) else c j) := by
      funext j
      by_cases hj : j = 0
      · subst hj; simp
      · have hj1 : j = 1 := by omega
        subst hj1; simp [h1']
    rw [this]; exact hinv1

theorem prune_fold_spec (K : Fin 2 → List (List Nat))
    (hwf : ∀ r, ∀ k ∈ K r, k.length = 6 ∧ ∀ c ∈ k, c ≠ 0) (n : Nat) :
    ∀ (l : List hash_kv) (c : Fin 2 → Nat) (t : bc_hash_table), PruneInv K n c t →
      (∀ kv ∈ l, occupied kv → ∃ r, kv.key ∈ K r) →
      (∀ j : Fin 2, c j + l.countP (fun kv => decide (kv.value j > 0)) ≤ n) →
      ∃ t', l.foldl prune_reinsert_slot (some t) = some t' ∧
        PruneInv K n (fun j => c j + l.countP (fun kv => decide (kv.value j > 0))) t' := by
  intro l
  induction l with
  | nil => intro c t hinv _ _; exact ⟨t, rfl, by simpa using hinv⟩
  | cons kv rest ih =>
    intro c t hinv hkeys hroom
    have hroom' : ∀ j : Fin 2, c j + (if kv.value j > 0 then 1 else 0) +
        rest.countP (fun kv => decide (kv.value j > 0)) ≤ n := by
      intro j
      have := hroom j
      rw [List.countP_cons] at this
      by_cases hj : kv.value j > 0
      · simp only [hj, decide_True, if_true] at this ⊢; omega
      · simp only [hj, decide_False, if_false] at this ⊢
        simpa using this
    obtain ⟨t1, h1, hinv1⟩ := prune_reinsert_slot_spec K hwf n c t hinv kv
      (hkeys kv (List.mem_cons_self _ _)) (fun j => by have := hroom' j; omega)
    obtain ⟨t', h', hinv'⟩ := ih _ t1 hinv1
      (fun kv' hkv' => hkeys kv' (List.mem_cons_of_mem _ hkv')) hroom'
    refine ⟨t', by rw [List.foldl_cons, h1]; exact h', ?_⟩
    have : (fun j : Fin 2 => c j + (kv :: rest).countP (fun kv => decide (kv.value j > 0))) =
        (fun j : Fin 2 => c j + (if kv.value j > 0 then 1 else 0) +
          rest.countP (fun kv => decide (kv.value j > 0))) := by
      funext j
      rw [List.countP_cons]
      by_cases hj : kv.value j > 0
      · simp only [hj, decide_True, if_true]; omega
      · simp [hj]
    rw [this]; exact hinv'

/-! ## Keys that are not barcodes: claims C1 and C3 -/

theorem unknown_key_resolves_zero (bc_mismatches : Nat) (fasta_seqs : library_seqs)
    (hwf : ∀ r, ∀ k ∈ (fasta_seqs.barcodes r).map barcode_t.seq, k.length = 6 ∧ ∀ c ∈ k, c ≠ 0)
    (hsize : ∀ j, (fasta_seqs.barcodes j).length ≤ 127) (P : Fin 2) (b1 b2 : List Nat)
    (hb1 : b1 ∈ (fasta_seqs.barcodes P).map barcode_t.seq)
    (hb2 : b2 ∈ (fasta_seqs.barcodes P).map barcode_t.seq) (hne : b1 ≠ b2) (c : List Nat)
    (hc : ∀ r, ∀ k ∈ (fasta_seqs.barcodes r).map barcode_t.seq, strncmp_eq c k 6 = false) :
    ∃ t, main_index false bc_mismatches fasta_seqs = some t ∧
      hash_table_lookup t c P = some 0 := by
  obtain ⟨t, n, hbuild, ⟨hlen, owner, hown⟩, hcard, hn14, hpos2⟩ :=
    main_build_final bc_mismatches fasta_seqs hwf hsize P b1 b2 hb1 hb2 hne
  have hkeys : ∀ kv ∈ t.items, occupied kv →
      ∃ r, kv.key ∈ (fasta_seqs.barcodes r).map barcode_t.seq := by
    intro kv hkv hocc
    obtain ⟨i, hi⟩ := List.mem_iff_getElem?.mp hkv
    exact ⟨_, (hown.2.2.1 i kv hi hocc).2.1⟩
  unfold main_index
  rw [hbuild]
  simp only [Option.bind]
  unfold prune_hash_table
  by_cases hd : (prune_count t.items).2 = 0
  · simp only [hd, if_true]
    refine ⟨t, rfl, lookup_absent t c P ?_ ?_⟩
    · obtain ⟨kvf, hkvf, hf0, hf1⟩ := owned_free_slot _ t owner hown (by rw [hlen]; exact hcard)
      refine ⟨kvf, hkvf, ?_⟩
      by_cases hP : P = 0
      · subst hP; exact hf0
      · have : P = 1 := by omega
        subst this; exact hf1
    · intro kv hkv hval
      obtain ⟨r, hr⟩ := hkeys kv hkv (occupied_of_ne_zero kv P hval)
      rw [hown.1]
      exact hc r kv.key hr
  · simp only [hd, if_false]
    rw [prune_count_fst]
    have hu2 := two_le_countP_of_pos2 P t hpos2
    have hule : t.items.countP (fun kv => decide (kv.value 0 > 0 ∨ kv.value 1 > 0))
        ≤ t.items.length := List.countP_le_length _
    have h14 : (2 : Nat) ^ 14 = 16384 := by norm_num
    have hmod : t.items.countP (fun kv => decide (kv.value 0 > 0 ∨ kv.value 1 > 0)) * 3 % 2 ^ 64
        = t.items.countP (fun kv => decide (kv.value 0 > 0 ∨ kv.value 1 > 0)) * 3 :=
      Nat.mod_eq_of_lt (by omega)
    rw [hmod]
    obtain ⟨P', hP', hPge, -, hPub⟩ := nearest_pow2_spec
      (t.items.countP (fun kv => decide (kv.value 0 > 0 ∨ kv.value 1 > 0)) * 3 / 2) (by omega)
    rw [hP']
    simp only [Option.bind]
    obtain ⟨t0, hinit, hkl0, hempty0, hge0, -, -⟩ := init_hash_table_spec P' (by omega)
    rw [hinit]
    have hinv0 : PruneInv (fun r => (fasta_seqs.barcodes r).map barcode_t.seq) t0.items.length
        (fun _ => 0) t0 := by
      refine ⟨hkl0, rfl, fun p => ?_, fun kv hkv hocc => ?_⟩
      · rw [Nat.le_zero, List.countP_eq_zero]
        intro kv hkv
        rw [hempty0 kv hkv]
        simp [empty_kv]
      · rw [hempty0 kv hkv] at hocc
        exact absurd hocc not_occupied_empty_kv
    have hgt_le : ∀ j : Fin 2, t.items.countP (fun kv => decide (kv.value j > 0)) ≤
        t.items.countP (fun kv => decide (kv.value 0 > 0 ∨ kv.value 1 > 0)) := by
      intro j
      apply List.countP_mono_left
      intro kv _ hj
      rw [decide_eq_true_eq] at hj ⊢
      by_cases hj0 : j = 0
      · subst hj0; exact Or.inl hj
      · have : j = 1 := by omega
        subst this; exact Or.inr hj
    obtain ⟨t', hfold, hkl', hlen', hcount', hkeys'⟩ := prune_fold_spec _ hwf t0.items.length
      t.items (fun _ => 0) t0 hinv0 hkeys (fun j => by
        have := hgt_le j
        show 0 + _ ≤ _
        omega)
    refine ⟨t', hfold, lookup_absent t' c P ?_ ?_⟩
    · apply free_of_countP_lt
      have h1 : t'.items.countP (fun kv => decide (kv.value P ≠ 0)) ≤
          0 + t.items.countP (fun kv => decide (kv.value P > 0)) := hcount' P
      have := hgt_le P
      omega
    · intro kv hkv hval
      obtain ⟨r, hr⟩ := hkeys' kv hkv (occupied_of_ne_zero kv P hval)
      rw [hkl']
      exact hc r kv.key hr

/-- Claim C3 as amended: with barcodes that are six-character strings, at most
127 per pool, and a key `c` whose first six characters are not a real barcode
of either pool, if `c` is within the allowance `m` of two distinct real
barcodes `b1`, `b2` of pool `P`, then the build phase and `prune_hash_table`
return an index in which the lookup of `c` for `P` returns 0. -/
theorem ambiguous_candidate_resolves_zero (m : Nat) (fasta_seqs : library_seqs) (P : Fin 2)
    (c b1 b2 : List Nat)
    (hwf : ∀ r, ∀ k ∈ (fasta_seqs.barcodes r).map barcode_t.seq, k.length = 6 ∧ ∀ x ∈ k, x ≠ 0)
    (hsize : ∀ j, (fasta_seqs.barcodes j).length ≤ 127)
    (hb1 : b1 ∈ (fasta_seqs.barcodes P).map barcode_t.seq)
    (hb2 : b2 ∈ (fasta_seqs.barcodes P).map barcode_t.seq) (hne : b1 ≠ b2)
    (_hd1 : hamming_distance c b1 6 ≤ m) (_hd2 : hamming_distance c b2 6 ≤ m)
    (hc : ∀ r, ∀ k ∈ (fasta_seqs.barcodes r).map barcode_t.seq, strncmp_eq c k 6 = false) :
    ∃ t, main_index false m fasta_seqs = some t ∧ hash_table_lookup t c P = some 0 :=
  unknown_key_resolves_zero m fasta_seqs hwf hsize P b1 b2 hb1 hb2 hne c hc

theorem near_pair_wf : ∀ r, ∀ k ∈ (near_pair_library.barcodes r).map barcode_t.seq,
    k.length = 6 ∧ ∀ x ∈ k, x ≠ 0 := by
  intro r k hk
  rw [near_pair_barcodes] at hk
  exact near_pair_perfectHash.2.1 r k hk

theorem near_pair_size : ∀ j, (near_pair_library.barcodes j).length ≤ 127 := by
  intro j; unfold near_pair_library; by_cases hj : j = 0 <;> simp [hj]

theorem near_pair_not_barcode (c : List Nat)
    (h1 : strncmp_eq c bc_CCCCCC 6 = false) (h2 : strncmp_eq c bc_AAAAAA 6 = false)
    (h3 : strncmp_eq c bc_AAAAAT 6 = false) :
    ∀ r, ∀ k ∈ (near_pair_library.barcodes r).map barcode_t.seq, strncmp_eq c k 6 = false := by
  intro r k hk
  rw [near_pair_barcodes] at hk
  unfold near_pair_keys at hk
  by_cases hr : r = 0
  · rw [if_pos hr] at hk
    simp only [List.mem_singleton] at hk
    rw [hk]; exact h1
  · rw [if_neg hr] at hk
    simp only [List.mem_cons, List.mem_singleton, List.not_mem_nil, or_false] at hk
    rcases hk with rfl | rfl
    · exact h2
    · exact h3

/-- Witness of the amended claim C3: allowance 1, pool 2 equal to
`[AAAAAA, AAAAAT]` and the candidate `AAAAAC`, within distance 1 of both. -/
theorem ambiguous_candidate_resolves_zero_witness :
    (hamming_distance bc_AAAAAC bc_AAAAAA 6 ≤ 1 ∧ hamming_distance bc_AAAAAC bc_AAAAAT 6 ≤ 1 ∧
      bc_AAAAAA ≠ bc_AAAAAT) ∧
    ∃ t, main_index false 1 near_pair_library = some t ∧
      hash_table_lookup t bc_AAAAAC 1 = some 0 :=
  ⟨⟨by decide, by decide, by decide⟩,
    ambiguous_candidate_resolves_zero 1 near_pair_library 1 bc_AAAAAC bc_AAAAAA bc_AAAAAT
      near_pair_wf near_pair_size (by decide) (by decide) (by decide) (by decide) (by decide)
      (near_pair_not_barcode bc_AAAAAC (by decide) (by decide) (by decide))⟩

/-- Claim C1 fails on the code: with allowance 1 and pool 2 equal to
`[AAAAAA, AAAAAT]`, the six-mer `CAAAAA` is within the allowance of the
barcode `AAAAAA` only, and still its pool-2 lookup in the built and pruned
index returns 0, not the identity 1 of `AAAAAA`. -/
theorem mismatch_variant_not_indexed :
    hamming_distance bc_CAAAAA bc_AAAAAA 6 ≤ 1 ∧ 1 < hamming_distance bc_CAAAAA bc_AAAAAT 6 ∧
    ∃ t, main_index false 1 near_pair_library = some t ∧
      hash_table_lookup t bc_CAAAAA 1 = some 0 :=
  ⟨by decide, by decide,
    unknown_key_resolves_zero 1 near_pair_library near_pair_wf near_pair_size 1 bc_AAAAAA
      bc_AAAAAT (by decide) (by decide) (by decide) bc_CAAAAA
      (near_pair_not_barcode bc_CAAAAA (by decide) (by decide) (by decide))⟩

/-! ## The matrices of `nw_offset`: claims C13 and C14 -/

theorem nw_traceback_reached (traceback : Nat → Nat → Int) (fuel : Nat) (st : nw_state)
    (h : st.offset_reached = true) : nw_traceback traceback fuel st = st := by
  cases fuel with
  | zero => rfl
  | succ fuel => rw [nw_traceback, if_neg (by simp [h])]

theorem nw_offset_of_diag (seq_1 seq_2 : List Nat) (len : Nat) (hlen : 0 < len)
    (h : (nw_fill seq_1 seq_2 len).2 len len = DIAG) :
    nw_offset seq_1 seq_2 len = 1 - 2 * (len : Int) := by
  unfold nw_offset
  simp only
  rw [nw_traceback, if_pos ⟨by simp, Or.inl hlen⟩]
  simp only [h, if_true]
  rw [nw_traceback_reached _ _ _ rfl]
  simp
  omega

theorem nw_cell_eq (seq_1 seq_2 : List Nat) (i j : Nat)
    (st : (Nat → Nat → Int) × (Nat → Nat → Int)) :
    nw_cell seq_1 seq_2 i j st =
      (set2 st.1 i j (nw_score_value seq_1 seq_2 st.1 i j),
        set2 st.2 i j (nw_move_value seq_1 seq_2 st.1 i j)) := by
  unfold nw_cell nw_score_value nw_move_value
  simp only
  split_ifs <;> rfl

theorem nw_value_set2 (seq_1 seq_2 : List Nat) (scores : Nat → Nat → Int) (i j : Nat) (v : Int)
    (a b : Nat) (ha : 1 ≤ a) (hb : 1 ≤ b) (h : a < i ∨ (a = i ∧ b ≤ j)) :
    nw_score_value seq_1 seq_2 (set2 scores i j v) a b = nw_score_value seq_1 seq_2 scores a b ∧
    nw_move_value seq_1 seq_2 (set2 scores i j v) a b = nw_move_value seq_1 seq_2 scores a b := by
  unfold nw_score_value nw_move_value
  simp only [set2_apply]
  have h1 : ¬ (a - 1 = i ∧ b - 1 = j) := by omega
  have h2 : ¬ (a - 1 = i ∧ b = j) := by omega
  have h3 : ¬ (a = i ∧ b - 1 = j) := by omega
  simp only [h1, h2, h3, if_false, and_self]

theorem nw_cell_inv (seq_1 seq_2 : List Nat) (len i j : Nat)
    (st : (Nat → Nat → Int) × (Nat → Nat → Int)) (hi : 1 ≤ i) (hj : 1 ≤ j)
    (hinv : NWInv seq_1 seq_2 len st i j) :
    NWInv seq_1 seq_2 len (nw_cell seq_1 seq_2 i j st) i (j + 1) := by
  rw [nw_cell_eq]
  refine ⟨fun a ha => ?_, fun b hb => ?_, fun a b ha hb hbl hab => ?_⟩
  · show set2 st.1 i j _ a 0 = _
    rw [set2_apply, if_neg (by omega)]
    exact hinv.1 a ha
  · show set2 st.1 i j _ 0 b = _
    rw [set2_apply, if_neg (by omega)]
    exact hinv.2.1 b hb
  · show set2 st.1 i j _ a b = nw_score_value seq_1 seq_2 (set2 st.1 i j _) a b ∧
      set2 st.2 i j _ a b = nw_move_value seq_1 seq_2 (set2 st.1 i j _) a b
    obtain ⟨e1, e2⟩ := nw_value_set2 seq_1 seq_2 st.1 i j (nw_score_value seq_1 seq_2 st.1 i j)
      a b ha hb (by omega)
    rw [e1, e2, set2_apply, set2_apply]
    by_cases hc : a = i ∧ b = j
    · obtain ⟨rfl, rfl⟩ := hc
      simp
    · rw [if_neg hc, if_neg hc]
      exact hinv.2.2 a b ha hb hbl (by omega)

theorem nw_border_loop1 (st0 : (Nat → Nat → Int) × (Nat → Nat → Int)) (n : Nat) (a b : Nat) :
    (forLoop (fun i st => (set2 st.1 i 0 (-(i : Int)), set2 st.2 i 0 UP)) n 1 st0).1 a b =
      if 1 ≤ a ∧ a ≤ n ∧ b = 0 then -(a : Int) else st0.1 a b := by
  have h := forLoop_induction
    (fun i (st : (Nat → Nat → Int) × (Nat → Nat → Int)) =>
      (set2 st.1 i 0 (-(i : Int)), set2 st.2 i 0 UP))
    (fun k st => ∀ a b, st.1 a b = if 1 ≤ a ∧ a < k ∧ b = 0 then -(a : Int) else st0.1 a b)
    n 1 st0 (fun a b => by rw [if_neg (by omega)])
    (fun i st hi _ hP a b => by
      show set2 st.1 i 0 _ a b = _
      rw [set2_apply]
      by_cases h1 : a = i ∧ b = 0
      · obtain ⟨rfl, rfl⟩ := h1
        rw [if_pos ⟨rfl, rfl⟩, if_pos ⟨hi, by omega, rfl⟩]
      · rw [if_neg h1, hP a b]
        have e : (1 ≤ a ∧ a < i + 1 ∧ b = 0) ↔ (1 ≤ a ∧ a < i ∧ b = 0) := by
          constructor <;> intro h <;> refine ⟨h.1, ?_, h.2.2⟩ <;> omega
        simp only [e])
  have e : (1 ≤ a ∧ a < 1 + n ∧ b = 0) ↔ (1 ≤ a ∧ a ≤ n ∧ b = 0) := by
    constructor <;> intro h <;> refine ⟨h.1, ?_, h.2.2⟩ <;> omega
  simpa only [e] using h a b

theorem nw_border_loop2 (st0 : (Nat → Nat → Int) × (Nat → Nat → Int)) (n : Nat) (a b : Nat) :
    (forLoop (fun j st => (set2 st.1 0 j (-(j : Int)), set2 st.2 0 j LEFT)) n 1 st0).1 a b =
      if a = 0 ∧ 1 ≤ b ∧ b ≤ n then -(b : Int) else st0.1 a b := by
  have h := forLoop_induction
    (fun j (st : (Nat → Nat → Int) × (Nat → Nat → Int)) =>
      (set2 st.1 0 j (-(j : Int)), set2 st.2 0 j LEFT))
    (fun k st => ∀ a b, st.1 a b = if a = 0 ∧ 1 ≤ b ∧ b < k then -(b : Int) else st0.1 a b)
    n 1 st0 (fun a b => by rw [if_neg (by omega)])
    (fun j st hj _ hP a b => by
      show set2 st.1 0 j _ a b = _
      rw [set2_apply]
      by_cases h1 : a = 0 ∧ b = j
      · obtain ⟨rfl, rfl⟩ := h1
        rw [if_pos ⟨rfl, rfl⟩, if_pos ⟨rfl, hj, by omega⟩]
      · rw [if_neg h1, hP a b]
        have e : (a = 0 ∧ 1 ≤ b ∧ b < j + 1) ↔ (a = 0 ∧ 1 ≤ b ∧ b < j) := by
          constructor <;> intro h <;> refine ⟨h.1, h.2.1, ?_⟩ <;> omega
        simp only [e])
  have e : (a = 0 ∧ 1 ≤ b ∧ b < 1 + n) ↔ (a = 0 ∧ 1 ≤ b ∧ b ≤ n) := by
    constructor <;> intro h <;> refine ⟨h.1, h.2.1, ?_⟩ <;> omega
  simpa only [e] using h a b

theorem nw_fill_inv (seq_1 seq_2 : List Nat) (len : Nat) :
    NWInv seq_1 seq_2 len (nw_fill seq_1 seq_2 len) (len + 1) 1 := by
  unfold nw_fill
  simp only
  have hrow : ∀ i (st : (Nat → Nat → Int) × (Nat → Nat → Int)), 1 ≤ i →
      NWInv seq_1 seq_2 len st i 1 →
      NWInv seq_1 seq_2 len (forLoop (fun j st => nw_cell seq_1 seq_2 i j st) len 1 st)
        (i + 1) 1 := by
    intro i st hi hinv
    have hloop := forLoop_induction (fun j st => nw_cell seq_1 seq_2 i j st)
      (fun j st => NWInv seq_1 seq_2 len st i j) len 1 st hinv
      (fun j st hj _ hP => nw_cell_inv seq_1 seq_2 len i j st hi hj hP)
    exact ⟨hloop.1, hloop.2.1, fun a b ha hb hbl hab => hloop.2.2 a b ha hb hbl (by omega)⟩
  have hloop := forLoop_induction
    (fun i st => forLoop (fun j st => nw_cell seq_1 seq_2 i j st) len 1 st)
    (fun i st => NWInv seq_1 seq_2 len st i 1) len 1
    (forLoop (fun j st => (set2 st.1 0 j (-(j : Int)), set2 st.2 0 j LEFT)) len 1
      (forLoop (fun i st => (set2 st.1 i 0 (-(i : Int)), set2 st.2 i 0 UP)) len 1
        (fun _ _ => 0, fun _ _ => 0)))
    ⟨fun a ha => by
        rw [nw_border_loop2, if_neg (by omega), nw_border_loop1]
        by_cases h0 : a = 0
        · subst h0; simp
        · rw [if_pos ⟨by omega, ha, rfl⟩],
      fun b hb => by
        rw [nw_border_loop2]
        by_cases h0 : b = 0
        · subst h0
          rw [if_neg (by omega), nw_border_loop1, if_neg (by omega)]
          simp
        · rw [if_pos ⟨rfl, by omega, hb⟩],
      fun a b ha hb hbl hab => by omega⟩
    (fun i st hi _ hP => hrow i st hi hP)
  rw [Nat.add_comm 1 len] at hloop
  exact hloop

theorem nw_fill_rec (seq_1 seq_2 : List Nat) (len a b : Nat) (ha : 1 ≤ a) (hal : a ≤ len)
    (hb : 1 ≤ b) (hbl : b ≤ len) :
    (nw_fill seq_1 seq_2 len).1 a b = nw_score_value seq_1 seq_2 (nw_fill seq_1 seq_2 len).1 a b ∧
    (nw_fill seq_1 seq_2 len).2 a b = nw_move_value seq_1 seq_2 (nw_fill seq_1 seq_2 len).1 a b :=
  (nw_fill_inv seq_1 seq_2 len).2.2 a b ha hb hbl (Or.inl (by omega))

theorem nw_fill_bound (seq_1 seq_2 : List Nat) (len : Nat) :
    ∀ a, a ≤ len → ∀ b, b ≤ len →
      (nw_fill seq_1 seq_2 len).1 a b ≤ 2 * (a : Int) - b ∧
      (nw_fill seq_1 seq_2 len).1 a b ≤ 2 * (b : Int) - a := by
  intro a
  induction a with
  | zero =>
    intro _ b hb
    rw [(nw_fill_inv seq_1 seq_2 len).2.1 b hb]
    constructor <;> push_cast <;> omega
  | succ a iha =>
    intro ha b
    induction b with
    | zero =>
      intro _
      rw [(nw_fill_inv seq_1 seq_2 len).1 (a + 1) ha]
      constructor <;> push_cast <;> omega
    | succ b ihb =>
      intro hb
      have h1 := iha (by omega) b (by omega)
      have h2 := iha (by omega) (b + 1) hb
      have h3 := ihb (by omega)
      rw [(nw_fill_rec seq_1 seq_2 len (a + 1) (b + 1) (by omega) ha (by omega) hb).1]
      unfold nw_score_value
      simp only [Nat.add_sub_cancel]
      push_cast at h1 h2 h3 ⊢
      split_ifs <;> constructor <;> omega

theorem nw_fill_diag (s : List Nat) (len : Nat) :
    ∀ a, a ≤ len → (nw_fill s s len).1 a a = (a : Int) ∧
      (1 ≤ a → (nw_fill s s len).2 a a = DIAG) := by
  intro a
  induction a with
  | zero =>
    intro _
    refine ⟨?_, fun h => by omega⟩
    rw [(nw_fill_inv s s len).1 0 (by omega)]
    rfl
  | succ a ih =>
    intro ha
    have h0 := (ih (by omega)).1
    have h1 := (nw_fill_bound s s len a (by omega) (a + 1) ha).1
    have h2 := (nw_fill_bound s s len (a + 1) ha a (by omega)).2
    obtain ⟨e1, e2⟩ := nw_fill_rec s s len (a + 1) (a + 1) (by omega) ha (by omega) ha
    rw [e1, e2]
    unfold nw_score_value nw_move_value
    simp only [Nat.add_sub_cancel, if_true]
    push_cast at h1 h2 ⊢
    constructor
    · split_ifs <;> omega
    · intro _
      split_ifs <;> first | rfl | omega

/-- Claim C13 fails on the code: for the reference `GT` and the observed
window `CG` the traceback takes one vertical gap move and no horizontal one
before its first diagonal move, and `nw_offset` returns -2, not 1; for the
reference `A` and the window `A` the first move is diagonal after no gap
move, and `nw_offset` returns -1, not 0. -/
theorem nw_offset_differs_from_gap_difference :
    gap_moves (nw_fill [chG, chT] [chC, chG] 2).2 4 2 2 = (1, 0) ∧
    nw_offset [chG, chT] [chC, chG] 2 = -2 ∧
    gap_moves (nw_fill [chA] [chA] 1).2 2 1 1 = (0, 0) ∧
    nw_offset [chA] [chA] 1 = -1 := by
  decide

/-- Claim C14 fails on the code: for every string `s` and every `len ≥ 1`,
`nw_offset s s len` is `1 - 2 * len`, which is never `0`. -/
theorem nw_offset_identical (s : List Nat) (len : Nat) (hlen : 1 ≤ len) :
    nw_offset s s len = 1 - 2 * (len : Int) ∧ nw_offset s s len ≠ 0 := by
  have h := nw_offset_of_diag s s len hlen ((nw_fill_diag s len len (le_refl _)).2 hlen)
  rw [h]
  exact ⟨rfl, by omega⟩

/-- Witness of the evaluation for claim C14: `nw_offset` of `ACGT` against
itself with `len = 4` is -7. -/
theorem nw_offset_identical_witness :
    nw_offset [chA, chC, chG, chT] [chA, chC, chG, chT] 4 = 1 - 2 * ((4 : Nat) : Int) ∧
    nw_offset [chA, chC, chG, chT] [chA, chC, chG, chT] 4 ≠ 0 :=
  nw_offset_identical [chA, chC, chG, chT] 4 (by decide)

/-! ## The pipeline of one read pair: claims C15 to C19 -/

theorem segment_distance_nonneg (read : List Nat) (segment : read_segment) :
    0 ≤ segment_distance read segment :=
  (dl_nonneg_and_zero_iff _ _ _).1

theorem sum_segment_distance_nonneg (read : List Nat) (segments : List read_segment) :
    0 ≤ (segments.map (segment_distance read)).sum := by
  induction segments with
  | nil => simp
  | cons s rest ih =>
    have := segment_distance_nonneg read s
    simp only [List.map_cons, List.sum_cons]
    omega

theorem segment_loop_above (read : List Nat) (ad_fl_mismatches ed_threshold : Int)
    (segments : List read_segment) (edit_distance : Int) (h : ed_threshold < edit_distance) :
    segment_loop read ad_fl_mismatches ed_threshold segments edit_distance = edit_distance := by
  cases segments with
  | nil => rfl
  | cons s rest => rw [segment_loop, if_neg (by omega)]

theorem segment_loop_accept (read : List Nat) (ad_fl_mismatches ed_threshold : Int) :
    ∀ (segments : List read_segment) (edit_distance : Int),
      (∀ s ∈ segments, segment_distance read s ≤ ad_fl_mismatches) →
      edit_distance + (segments.map (segment_distance read)).sum ≤ ed_threshold →
      segment_loop read ad_fl_mismatches ed_threshold segments edit_distance =
        edit_distance + (segments.map (segment_distance read)).sum := by
  intro segments
  induction segments with
  | nil => intro ed _ _; simp [segment_loop]
  | cons s rest ih =>
    intro ed hall hsum
    simp only [List.map_cons, List.sum_cons] at hsum ⊢
    have h0 := segment_distance_nonneg read s
    have h1 := sum_segment_distance_nonneg read rest
    have hs : segment_distance read s ≤ ad_fl_mismatches := hall s (List.mem_cons_self _ _)
    rw [segment_loop, if_pos (by omega)]
    show segment_loop read ad_fl_mismatches ed_threshold rest
      (if segment_distance read s ≤ ad_fl_mismatches then ed + segment_distance read s
        else ed_threshold + 1) = _
    rw [if_pos hs, ih _ (fun x hx => hall x (List.mem_cons_of_mem _ hx)) (by omega)]
    omega

theorem segment_loop_reject (read : List Nat) (ad_fl_mismatches ed_threshold : Int) :
    ∀ (segments : List read_segment) (edit_distance : Int),
      ¬ ((∀ s ∈ segments, segment_distance read s ≤ ad_fl_mismatches) ∧
        edit_distance + (segments.map (segment_distance read)).sum ≤ ed_threshold) →
      ed_threshold < segment_loop read ad_fl_mismatches ed_threshold segments edit_distance := by
  intro segments
  induction segments with
  | nil =>
    intro ed h
    simp only [List.not_mem_nil, false_implies, implies_true, List.map_nil, List.sum_nil,
      add_zero, true_and, not_le] at h
    simpa [segment_loop] using h
  | cons s rest ih =>
    intro ed h
    by_cases hed : ed ≤ ed_threshold
    · rw [segment_loop, if_pos hed]
      show ed_threshold < segment_loop read ad_fl_mismatches ed_threshold rest
        (if segment_distance read s ≤ ad_fl_mismatches then ed + segment_distance read s
          else ed_threshold + 1)
      by_cases hs : segment_distance read s ≤ ad_fl_mismatches
      · rw [if_pos hs]
        apply ih
        intro hrest
        apply h
        refine ⟨?_, ?_⟩
        · intro x hx
          rcases List.mem_cons.mp hx with rfl | hx
          · exact hs
          · exact hrest.1 x hx
        · simp only [List.map_cons, List.sum_cons]
          have := hrest.2
          omega
      · rw [if_neg hs, segment_loop_above _ _ _ _ _ (by omega)]
        omega
    · rw [segment_loop_above _ _ _ _ _ (by omega)]
      omega

theorem demultiplex_read_pair_of_lookups (fs2_seqs : library_seqs) (hash_table : bc_hash_table)
    (ad_fl_mismatches ed_threshold : Int) (valid_alleles : Fin 4 → Bool)
    (bc_combo_counts : bc_counter) (read_1 read_2 : List Nat) (v1 v2 : Int)
    (h1 : hash_table_lookup hash_table read_1 0 = some v1)
    (h2 : hash_table_lookup hash_table read_2 1 = some v2) :
    demultiplex_read_pair fs2_seqs hash_table ad_fl_mismatches ed_threshold valid_alleles
        bc_combo_counts read_1 read_2 =
      if v1 - 1 < 0 ∨ v2 - 1 < 0 then some bc_combo_counts
      else if segment_loop read_2 ad_fl_mismatches ed_threshold (fs2_seqs.prototypes 1).segments
          (segment_loop read_1 ad_fl_mismatches ed_threshold (fs2_seqs.prototypes 0).segments 0) >
          ed_threshold then some bc_combo_counts
      else some (increment bc_combo_counts (v1 - 1).toNat (v2 - 1).toNat
        (resolve_allele fs2_seqs valid_alleles read_1)) := by
  unfold demultiplex_read_pair
  rw [h1, h2]
  rfl

theorem getD_modify {α : Type} (f : α → α) (n : Nat) (l : List α) (m : Nat) (d : α) (hn : n < l.length) :
    (List.modify f n l).getD m d = if m = n then f (l.getD m d) else l.getD m d := by
  rw [List.getD_eq_getElem?_getD, List.getD_eq_getElem?_getD, List.getElem?_modify]
  by_cases h : m = n
  · subst h
    rw [if_pos rfl, List.getElem?_eq_getElem hn]
    simp
  · rw [if_neg h]
    have h' : ¬ n = m := fun e => h e.symm
    cases l[m]? <;> simp [h']

theorem count_at_increment (c : bc_counter) (bc1 bc2 : Nat) (allele_i : Fin 4)
    (hrow : c.num_bc2 * bc1 + bc2 < c.counts.length) (hfit : c.counts.length ≤ 2 ^ 32)
    (hcols : ∀ r ∈ c.counts, r.length = 4) (row : Nat) (a : Fin 4) :
    count_at (increment c bc1 bc2 allele_i) row a =
      if row = c.num_bc2 * bc1 + bc2 ∧ a = allele_i then (count_at c row a + 1) % 2 ^ 32
      else count_at c row a := by
  have e : counts_index c.num_bc2 bc1 bc2 = c.num_bc2 * bc1 + bc2 :=
    Nat.mod_eq_of_lt (by omega)
  unfold count_at increment
  simp only [e]
  rw [getD_modify _ _ _ _ _ hrow]
  by_cases h : row = c.num_bc2 * bc1 + bc2
  · subst h
    rw [if_pos rfl]
    have hlen : (c.counts.getD (c.num_bc2 * bc1 + bc2) []).length = 4 := by
      apply hcols
      rw [List.getD_eq_getElem?_getD, List.getElem?_eq_getElem hrow]
      exact List.getElem_mem _
    rw [getD_modify _ _ _ _ _ (by rw [hlen]; exact allele_i.isLt)]
    by_cases ha : a = allele_i
    · subst ha; simp
    · have : a.val ≠ allele_i.val := fun e => ha (Fin.ext e)
      simp [ha, this]
  · simp [h]

theorem loop_of_segments_accepted (fs2_seqs : library_seqs) (ad_fl_mismatches ed_threshold : Int)
    (read_1 read_2 : List Nat)
    (h : segments_accepted fs2_seqs ad_fl_mismatches ed_threshold read_1 read_2) :
    ¬ (segment_loop read_2 ad_fl_mismatches ed_threshold (fs2_seqs.prototypes 1).segments
      (segment_loop read_1 ad_fl_mismatches ed_threshold (fs2_seqs.prototypes 0).segments 0) >
        ed_threshold) := by
  obtain ⟨ha, hb, hs⟩ := h
  have n1 := sum_segment_distance_nonneg read_1 (fs2_seqs.prototypes 0).segments
  have n2 := sum_segment_distance_nonneg read_2 (fs2_seqs.prototypes 1).segments
  rw [segment_loop_accept read_1 _ _ _ 0 ha (by omega),
    segment_loop_accept read_2 _ _ _ _ hb (by omega)]
  omega

theorem loop_of_not_segments_accepted (fs2_seqs : library_seqs)
    (ad_fl_mismatches ed_threshold : Int) (read_1 read_2 : List Nat)
    (h : ¬ segments_accepted fs2_seqs ad_fl_mismatches ed_threshold read_1 read_2) :
    segment_loop read_2 ad_fl_mismatches ed_threshold (fs2_seqs.prototypes 1).segments
      (segment_loop read_1 ad_fl_mismatches ed_threshold (fs2_seqs.prototypes 0).segments 0) >
        ed_threshold := by
  have n1 := sum_segment_distance_nonneg read_1 (fs2_seqs.prototypes 0).segments
  have n2 := sum_segment_distance_nonneg read_2 (fs2_seqs.prototypes 1).segments
  by_cases h1 : (∀ s ∈ (fs2_seqs.prototypes 0).segments,
      segment_distance read_1 s ≤ ad_fl_mismatches) ∧
      0 + ((fs2_seqs.prototypes 0).segments.map (segment_distance read_1)).sum ≤ ed_threshold
  · rw [segment_loop_accept read_1 _ _ _ 0 h1.1 h1.2]
    apply segment_loop_reject
    intro h2
    apply h
    refine ⟨h1.1, h2.1, ?_⟩
    have := h2.2
    omega
  · have := segment_loop_reject read_1 ad_fl_mismatches ed_threshold _ 0 h1
    rw [segment_loop_above _ _ _ _ _ this]
    exact this

set_option maxRecDepth 100000 in
theorem two_by_two_index_isSome : (main_index false 0 two_by_two_library).isSome = true := by
  decide

/-- Claim C17: when the lookup of mate 1 under pool 1 or of mate 2 under pool 2
returns a non-positive value, the read pair leaves the count matrix as it
was; when both are positive the pair goes on to segment validation, whose
outcome alone decides between discarding the pair and counting it. -/
theorem barcode_gate (fs2_seqs : library_seqs) (hash_table : bc_hash_table)
    (ad_fl_mismatches ed_threshold : Int) (valid_alleles : Fin 4 → Bool)
    (bc_combo_counts : bc_counter) (read_1 read_2 : List Nat) (v1 v2 : Int)
    (h1 : hash_table_lookup hash_table read_1 0 = some v1)
    (h2 : hash_table_lookup hash_table read_2 1 = some v2) :
    ((v1 ≤ 0 ∨ v2 ≤ 0) →
      demultiplex_read_pair fs2_seqs hash_table ad_fl_mismatches ed_threshold valid_alleles
        bc_combo_counts read_1 read_2 = some bc_combo_counts) ∧
    ((0 < v1 ∧ 0 < v2) →
      demultiplex_read_pair fs2_seqs hash_table ad_fl_mismatches ed_threshold valid_alleles
        bc_combo_counts read_1 read_2 =
      if segment_loop read_2 ad_fl_mismatches ed_threshold (fs2_seqs.prototypes 1).segments
          (segment_loop read_1 ad_fl_mismatches ed_threshold (fs2_seqs.prototypes 0).segments 0) >
          ed_threshold then some bc_combo_counts
      else some (increment bc_combo_counts (v1 - 1).toNat (v2 - 1).toNat
        (resolve_allele fs2_seqs valid_alleles read_1))) := by
  rw [demultiplex_read_pair_of_lookups fs2_seqs hash_table ad_fl_mismatches ed_threshold
    valid_alleles bc_combo_counts read_1 read_2 v1 v2 h1 h2]
  constructor
  · intro h
    rw [if_pos (by omega)]
  · intro h
    rw [if_neg (by omega)]

set_option maxRecDepth 100000 in
/-- Witness of claim C17: in the index of `two_by_two_library`, mate 1
`AAAAAA AC GT A` resolves to 0 and mate 2 `GGGTTT TT GG` to 1; the pair
leaves the zero matrix unchanged. -/
theorem barcode_gate_witness :
    ∃ t, main_index false 0 two_by_two_library = some t ∧
      hash_table_lookup t read_1_unknown_barcode 0 = some 0 ∧
      hash_table_lookup t read_2_exact 1 = some 1 ∧
      demultiplex_read_pair two_by_two_library t 1 4 (main_valid_alleles two_by_two_library)
        (init_counter 2 2) read_1_unknown_barcode read_2_exact = some (init_counter 2 2) := by
  obtain ⟨t, ht⟩ := Option.isSome_iff_exists.mp two_by_two_index_isSome
  have hl1 : hash_table_lookup t read_1_unknown_barcode 0 = some 0 := by
    have h : (main_index false 0 two_by_two_library).bind
        (fun t => hash_table_lookup t read_1_unknown_barcode 0) = some 0 := by decide
    rw [ht] at h; exact h
  have hl2 : hash_table_lookup t read_2_exact 1 = some 1 := by
    have h : (main_index false 0 two_by_two_library).bind
        (fun t => hash_table_lookup t read_2_exact 1) = some 1 := by decide
    rw [ht] at h; exact h
  exact ⟨t, ht, hl1, hl2,
    (barcode_gate two_by_two_library t 1 4 (main_valid_alleles two_by_two_library)
      (init_counter 2 2) read_1_unknown_barcode read_2_exact 0 1 hl1 hl2).1 (Or.inl (le_refl _))⟩

/-- Claim C15: for a read pair whose two barcodes resolved to positive ids,
the pair goes on to allele resolution and is counted when every segment of
both prototypes is within `ad_fl_mismatches` of its read window and the
distances of all segments of both mates sum to at most `ed_threshold`; in
every other case the count matrix is left as it was. -/
theorem segment_validation_decision (fs2_seqs : library_seqs) (hash_table : bc_hash_table)
    (ad_fl_mismatches ed_threshold : Int) (valid_alleles : Fin 4 → Bool)
    (bc_combo_counts : bc_counter) (read_1 read_2 : List Nat) (v1 v2 : Int)
    (h1 : hash_table_lookup hash_table read_1 0 = some v1)
    (h2 : hash_table_lookup hash_table read_2 1 = some v2) (hv1 : 0 < v1) (hv2 : 0 < v2) :
    (((∀ s ∈ (fs2_seqs.prototypes 0).segments, segment_distance read_1 s ≤ ad_fl_mismatches) ∧
      (∀ s ∈ (fs2_seqs.prototypes 1).segments, segment_distance read_2 s ≤ ad_fl_mismatches) ∧
      (((fs2_seqs.prototypes 0).segments.map (segment_distance read_1)).sum +
        ((fs2_seqs.prototypes 1).segments.map (segment_distance read_2)).sum ≤ ed_threshold)) →
      demultiplex_read_pair fs2_seqs hash_table ad_fl_mismatches ed_threshold valid_alleles
        bc_combo_counts read_1 read_2 =
      some (increment bc_combo_counts (v1 - 1).toNat (v2 - 1).toNat
        (resolve_allele fs2_seqs valid_alleles read_1))) ∧
    (¬ ((∀ s ∈ (fs2_seqs.prototypes 0).segments, segment_distance read_1 s ≤ ad_fl_mismatches) ∧
      (∀ s ∈ (fs2_seqs.prototypes 1).segments, segment_distance read_2 s ≤ ad_fl_mismatches) ∧
      (((fs2_seqs.prototypes 0).segments.map (segment_distance read_1)).sum +
        ((fs2_seqs.prototypes 1).segments.map (segment_distance read_2)).sum ≤ ed_threshold)) →
      demultiplex_read_pair fs2_seqs hash_table ad_fl_mismatches ed_threshold valid_alleles
        bc_combo_counts read_1 read_2 = some bc_combo_counts) := by
  rw [demultiplex_read_pair_of_lookups fs2_seqs hash_table ad_fl_mismatches ed_threshold
    valid_alleles bc_combo_counts read_1 read_2 v1 v2 h1 h2, if_neg (by omega)]
  constructor
  · intro h
    rw [if_neg (loop_of_segments_accepted fs2_seqs ad_fl_mismatches ed_threshold read_1 read_2 h)]
  · intro h
    rw [if_pos (loop_of_not_segments_accepted fs2_seqs ad_fl_mismatches ed_threshold read_1
      read_2 h)]

set_option maxRecDepth 100000 in
/-- Witness of claim C15: in the index of `two_by_two_library`, the mates
`CCTGTT AC TG C` and `GGGTTT TT GG` resolve to the ids 2 and 1; with the
thresholds 0 and 4 the swapped flanking segment, at distance 1, is over the
segment allowance and the pair leaves the zero matrix unchanged. -/
theorem segment_validation_decision_witness :
    ∃ t, main_index false 0 two_by_two_library = some t ∧
      hash_table_lookup t read_1_swapped_flanking 0 = some 2 ∧
      hash_table_lookup t read_2_exact 1 = some 1 ∧
      demultiplex_read_pair two_by_two_library t 0 4 (main_valid_alleles two_by_two_library)
        (init_counter 2 2) read_1_swapped_flanking read_2_exact = some (init_counter 2 2) := by
  obtain ⟨t, ht⟩ := Option.isSome_iff_exists.mp two_by_two_index_isSome
  have hl1 : hash_table_lookup t read_1_swapped_flanking 0 = some 2 := by
    have h : (main_index false 0 two_by_two_library).bind
        (fun t => hash_table_lookup t read_1_swapped_flanking 0) = some 2 := by decide
    rw [ht] at h; exact h
  have hl2 : hash_table_lookup t read_2_exact 1 = some 1 := by
    have h : (main_index false 0 two_by_two_library).bind
        (fun t => hash_table_lookup t read_2_exact 1) = some 1 := by decide
    rw [ht] at h; exact h
  exact ⟨t, ht, hl1, hl2,
    (segment_validation_decision two_by_two_library t 0 4 (main_valid_alleles two_by_two_library)
      (init_counter 2 2) read_1_swapped_flanking read_2_exact 2 1 hl1 hl2 (by decide)
      (by decide)).2 (by decide)⟩

theorem segment_distance_exact (read : List Nat) (s : read_segment)
    (h : ∀ n, n < s.length → byteAt s.seq n = byteAt (read.drop s.offset) n) :
    segment_distance read s = 0 :=
  (dl_nonneg_and_zero_iff _ _ _).2.mpr h

theorem sum_segment_distance_exact (read : List Nat) (segments : List read_segment)
    (h : ∀ s ∈ segments, ∀ n, n < s.length → byteAt s.seq n = byteAt (read.drop s.offset) n) :
    (segments.map (segment_distance read)).sum = 0 := by
  induction segments with
  | nil => rfl
  | cons s rest ih =>
    simp only [List.map_cons, List.sum_cons]
    rw [segment_distance_exact read s (h s (List.mem_cons_self _ _)),
      ih (fun x hx => h x (List.mem_cons_of_mem _ hx))]
    rfl

theorem resolve_allele_of_valid (fs2_seqs : library_seqs) (valid_alleles : Fin 4 → Bool)
    (read_1 : List Nat)
    (h : valid_alleles
      (allele_char_to_enum (byteAt read_1 (fs2_seqs.prototypes 0).allele_offset)) = true) :
    resolve_allele fs2_seqs valid_alleles read_1 =
      allele_char_to_enum (byteAt read_1 (fs2_seqs.prototypes 0).allele_offset) := by
  unfold resolve_allele
  simp only
  rw [if_neg (by simp [h])]

theorem cell_index_lt (n1 n2 : Nat) (i1 i2 : Int) (h1 : 0 < i1) (h2 : 0 < i2)
    (hb1 : i1 ≤ n1) (hb2 : i2 ≤ n2) : n2 * (i1 - 1).toNat + (i2 - 1).toNat < n1 * n2 := by
  obtain ⟨a, rfl⟩ : ∃ a : Nat, i1 = (a : Int) + 1 := ⟨(i1 - 1).toNat, by omega⟩
  obtain ⟨b, rfl⟩ : ∃ b : Nat, i2 = (b : Int) + 1 := ⟨(i2 - 1).toNat, by omega⟩
  have ha : a + 1 ≤ n1 := by omega
  have hb : b + 1 ≤ n2 := by omega
  have e1 : ((a : Int) + 1 - 1).toNat = a := by omega
  have e2 : ((b : Int) + 1 - 1).toNat = b := by omega
  rw [e1, e2]
  calc n2 * a + b < n2 * a + n2 := by omega
    _ = (a + 1) * n2 := by ring
    _ ≤ n1 * n2 := Nat.mul_le_mul_right _ ha

/-- Claim C16: a read pair whose barcodes resolve to the ids `(i1, i2)`, whose
segment windows equal their reference segments and whose base at the allele
offset of mate 1 is a declared valid allele `a` adds exactly 1 to the counter
`counts[(i1 - 1) * num_bc2 + (i2 - 1)][a]` and leaves every other counter
as it was. The thresholds are non-negative, the ids lie within the matrix of
`num_bc1 * num_bc2` rows of four counters, a number of rows that fits an
`unsigned int`, and the counter is below the largest `unsigned int`. -/
theorem exact_match_pair_counts_once (fs2_seqs : library_seqs) (hash_table : bc_hash_table)
    (ad_fl_mismatches ed_threshold : Int) (valid_alleles : Fin 4 → Bool)
    (bc_combo_counts : bc_counter) (read_1 read_2 : List Nat) (i1 i2 : Int)
    (h1 : hash_table_lookup hash_table read_1 0 = some i1)
    (h2 : hash_table_lookup hash_table read_2 1 = some i2)
    (hi1 : 0 < i1) (hi2 : 0 < i2)
    (hb1 : i1 ≤ bc_combo_counts.num_bc1) (hb2 : i2 ≤ bc_combo_counts.num_bc2)
    (hrows : bc_combo_counts.counts.length = bc_combo_counts.num_bc1 * bc_combo_counts.num_bc2)
    (hfit : bc_combo_counts.num_bc1 * bc_combo_counts.num_bc2 ≤ 2 ^ 32)
    (hcols : ∀ r ∈ bc_combo_counts.counts, r.length = 4)
    (had : 0 ≤ ad_fl_mismatches) (hed : 0 ≤ ed_threshold)
    (hseg1 : ∀ s ∈ (fs2_seqs.prototypes 0).segments, ∀ n, n < s.length →
      byteAt s.seq n = byteAt (read_1.drop s.offset) n)
    (hseg2 : ∀ s ∈ (fs2_seqs.prototypes 1).segments, ∀ n, n < s.length →
      byteAt s.seq n = byteAt (read_2.drop s.offset) n)
    (hvalid : valid_alleles
      (allele_char_to_enum (byteAt read_1 (fs2_seqs.prototypes 0).allele_offset)) = true)
    (hroom : count_at bc_combo_counts
      ((i1 - 1).toNat * bc_combo_counts.num_bc2 + (i2 - 1).toNat)
      (allele_char_to_enum (byteAt read_1 (fs2_seqs.prototypes 0).allele_offset)) < 2 ^ 32 - 1) :
    ∃ c, demultiplex_read_pair fs2_seqs hash_table ad_fl_mismatches ed_threshold valid_alleles
        bc_combo_counts read_1 read_2 = some c ∧
      ∀ (row : Nat) (a : Fin 4), count_at c row a =
        if row = (i1 - 1).toNat * bc_combo_counts.num_bc2 + (i2 - 1).toNat ∧
            a = allele_char_to_enum (byteAt read_1 (fs2_seqs.prototypes 0).allele_offset)
        then count_at bc_combo_counts row a + 1 else count_at bc_combo_counts row a := by
  have hacc : segments_accepted fs2_seqs ad_fl_mismatches ed_threshold read_1 read_2 := by
    refine ⟨fun s hs => ?_, fun s hs => ?_, ?_⟩
    · rw [segment_distance_exact read_1 s (hseg1 s hs)]; exact had
    · rw [segment_distance_exact read_2 s (hseg2 s hs)]; exact had
    · rw [sum_segment_distance_exact read_1 _ hseg1, sum_segment_distance_exact read_2 _ hseg2]
      simpa using hed
  have hidx := cell_index_lt bc_combo_counts.num_bc1 bc_combo_counts.num_bc2 i1 i2 hi1 hi2 hb1 hb2
  rw [← hrows] at hidx hfit
  have hcomm : (i1 - 1).toNat * bc_combo_counts.num_bc2 + (i2 - 1).toNat =
      bc_combo_counts.num_bc2 * (i1 - 1).toNat + (i2 - 1).toNat := by rw [Nat.mul_comm]
  rw [hcomm] at hroom ⊢
  refine ⟨increment bc_combo_counts (i1 - 1).toNat (i2 - 1).toNat
    (allele_char_to_enum (byteAt read_1 (fs2_seqs.prototypes 0).allele_offset)), ?_,
    fun row a => ?_⟩
  · rw [demultiplex_read_pair_of_lookups fs2_seqs hash_table ad_fl_mismatches ed_threshold
      valid_alleles bc_combo_counts read_1 read_2 i1 i2 h1 h2, if_neg (by omega),
      if_neg (loop_of_segments_accepted fs2_seqs ad_fl_mismatches ed_threshold read_1 read_2
        hacc),
      resolve_allele_of_valid fs2_seqs valid_alleles read_1 hvalid]
  · rw [count_at_increment _ _ _ _ hidx hfit hcols]
    by_cases hc : row = bc_combo_counts.num_bc2 * (i1 - 1).toNat + (i2 - 1).toNat ∧
        a = allele_char_to_enum (byteAt read_1 (fs2_seqs.prototypes 0).allele_offset)
    · rw [if_pos hc, if_pos hc]
      obtain ⟨rfl, rfl⟩ := hc
      exact Nat.mod_eq_of_lt (by omega)
    · rw [if_neg hc, if_neg hc]

set_option maxRecDepth 100000 in
/-- Witness of claim C16: in the index of `two_by_two_library`, the exact
mates `CCTGTT AC GT A` and `GGGTTT TT GG` resolve to the ids 2 and 1; on the
zero matrix of 2 x 2 cells the pair adds 1 to `counts[2][A]` and to nothing
else. -/
theorem exact_match_pair_counts_once_witness :
    ∃ t, main_index false 0 two_by_two_library = some t ∧
      hash_table_lookup t read_1_exact 0 = some 2 ∧ hash_table_lookup t read_2_exact 1 = some 1 ∧
      ∃ c, demultiplex_read_pair two_by_two_library t 1 4
          (main_valid_alleles two_by_two_library) (init_counter 2 2) read_1_exact read_2_exact =
          some c ∧
        ∀ (row : Nat) (a : Fin 4), count_at c row a =
          if row = ((2 : Int) - 1).toNat * (init_counter 2 2).num_bc2 + ((1 : Int) - 1).toNat ∧
              a = allele_char_to_enum (byteAt read_1_exact (two_by_two_library.prototypes 0).allele_offset)
          then count_at (init_counter 2 2) row a + 1 else count_at (init_counter 2 2) row a := by
  obtain ⟨t, ht⟩ := Option.isSome_iff_exists.mp two_by_two_index_isSome
  have hl1 : hash_table_lookup t read_1_exact 0 = some 2 := by
    have h : (main_index false 0 two_by_two_library).bind
        (fun t => hash_table_lookup t read_1_exact 0) = some 2 := by decide
    rw [ht] at h; exact h
  have hl2 : hash_table_lookup t read_2_exact 1 = some 1 := by
    have h : (main_index false 0 two_by_two_library).bind
        (fun t => hash_table_lookup t read_2_exact 1) = some 1 := by decide
    rw [ht] at h; exact h
  exact ⟨t, ht, hl1, hl2,
    exact_match_pair_counts_once two_by_two_library t 1 4 (main_valid_alleles two_by_two_library)
      (init_counter 2 2) read_1_exact read_2_exact 2 1 hl1 hl2 (by decide) (by decide)
      (by decide) (by decide) (by decide) (by decide) (by decide) (by decide) (by decide)
      (by decide) (by decide) (by decide) (by decide)⟩

set_option maxRecDepth 100000 in
/-- Claim C18 fails on the code as stated: with the index and the declared
allele `A` of `two_by_two_library` and the default thresholds 1 and 4, mate 1
`CCTGTT AC TG C` passes segment validation, its base `C` at the allele offset
10 is not a declared allele, `nw_offset` moves the offset by -1, the base `G`
re-read at offset 9 is not a declared allele either, and the pair still
changes a counter: `counts[2][G]` becomes 1. -/
theorem unresolved_allele_pair_changes_counter :
    main_valid_alleles two_by_two_library
      (allele_char_to_enum (byteAt read_1_swapped_flanking 10)) = false ∧
    nw_offset (two_by_two_library.flanking 0).seq
      (read_1_swapped_flanking.drop (two_by_two_library.flanking 0).offset)
      (two_by_two_library.flanking 0).length = -1 ∧
    main_valid_alleles two_by_two_library
      (allele_char_to_enum (byteAt read_1_swapped_flanking 9)) = false ∧
    ((main_index false 0 two_by_two_library).bind fun t =>
      demultiplex_read_pair two_by_two_library t 1 4 (main_valid_alleles two_by_two_library)
        (init_counter 2 2) read_1_swapped_flanking read_2_exact) =
      some ⟨2, 2, [[0, 0, 0, 0], [0, 0, 0, 0], [0, 0, 1, 0], [0, 0, 0, 0]]⟩ := by
  decide

/-- Claim C18 as amended: when the allele left after the recovery by
`nw_offset` is not a declared valid allele, an accepted read pair is not
discarded: it adds 1 (modulo `2 ^ 32`) to the counter of that undeclared
allele in its barcode cell, and no counter of a declared valid allele
changes, in any barcode cell. -/
theorem unresolved_allele_counted_in_undeclared_slot (fs2_seqs : library_seqs)
    (hash_table : bc_hash_table) (ad_fl_mismatches ed_threshold : Int)
    (valid_alleles : Fin 4 → Bool) (bc_combo_counts : bc_counter) (read_1 read_2 : List Nat)
    (i1 i2 : Int)
    (h1 : hash_table_lookup hash_table read_1 0 = some i1)
    (h2 : hash_table_lookup hash_table read_2 1 = some i2)
    (hi1 : 0 < i1) (hi2 : 0 < i2)
    (hb1 : i1 ≤ bc_combo_counts.num_bc1) (hb2 : i2 ≤ bc_combo_counts.num_bc2)
    (hrows : bc_combo_counts.counts.length = bc_combo_counts.num_bc1 * bc_combo_counts.num_bc2)
    (hfit : bc_combo_counts.num_bc1 * bc_combo_counts.num_bc2 ≤ 2 ^ 32)
    (hcols : ∀ r ∈ bc_combo_counts.counts, r.length = 4)
    (hacc : segments_accepted fs2_seqs ad_fl_mismatches ed_threshold read_1 read_2)
    (hinv : valid_alleles (resolve_allele fs2_seqs valid_alleles read_1) = false) :
    ∃ c, demultiplex_read_pair fs2_seqs hash_table ad_fl_mismatches ed_threshold valid_alleles
        bc_combo_counts read_1 read_2 = some c ∧
      count_at c (bc_combo_counts.num_bc2 * (i1 - 1).toNat + (i2 - 1).toNat)
          (resolve_allele fs2_seqs valid_alleles read_1) =
        (count_at bc_combo_counts (bc_combo_counts.num_bc2 * (i1 - 1).toNat + (i2 - 1).toNat)
          (resolve_allele fs2_seqs valid_alleles read_1) + 1) % 2 ^ 32 ∧
      ∀ (row : Nat) (a : Fin 4), valid_alleles a = true →
        count_at c row a = count_at bc_combo_counts row a := by
  have hidx := cell_index_lt bc_combo_counts.num_bc1 bc_combo_counts.num_bc2 i1 i2 hi1 hi2 hb1 hb2
  rw [← hrows] at hidx hfit
  refine ⟨increment bc_combo_counts (i1 - 1).toNat (i2 - 1).toNat
    (resolve_allele fs2_seqs valid_alleles read_1), ?_, ?_, fun row a ha => ?_⟩
  · rw [demultiplex_read_pair_of_lookups fs2_seqs hash_table ad_fl_mismatches ed_threshold
      valid_alleles bc_combo_counts read_1 read_2 i1 i2 h1 h2, if_neg (by omega),
      if_neg (loop_of_segments_accepted fs2_seqs ad_fl_mismatches ed_threshold read_1 read_2
        hacc)]
  · rw [count_at_increment _ _ _ _ hidx hfit hcols, if_pos ⟨rfl, rfl⟩]
  · rw [count_at_increment _ _ _ _ hidx hfit hcols, if_neg]
    rintro ⟨_, rfl⟩
    rw [hinv] at ha
    exact Bool.false_ne_true ha

set_option maxRecDepth 100000 in
/-- Witness of the amended claim C18: the mates `CCTGTT AC TG C` and
`GGGTTT TT GG` on the index of `two_by_two_library` and the zero matrix. -/
theorem unresolved_allele_counted_in_undeclared_slot_witness :
    ∃ t, main_index false 0 two_by_two_library = some t ∧
      hash_table_lookup t read_1_swapped_flanking 0 = some 2 ∧
      hash_table_lookup t read_2_exact 1 = some 1 ∧
      ∃ c, demultiplex_read_pair two_by_two_library t 1 4
          (main_valid_alleles two_by_two_library) (init_counter 2 2) read_1_swapped_flanking
          read_2_exact = some c ∧
        count_at c ((init_counter 2 2).num_bc2 * ((2 : Int) - 1).toNat + ((1 : Int) - 1).toNat)
            (resolve_allele two_by_two_library (main_valid_alleles two_by_two_library)
              read_1_swapped_flanking) =
          (count_at (init_counter 2 2)
            ((init_counter 2 2).num_bc2 * ((2 : Int) - 1).toNat + ((1 : Int) - 1).toNat)
            (resolve_allele two_by_two_library (main_valid_alleles two_by_two_library)
              read_1_swapped_flanking) + 1) % 2 ^ 32 ∧
        ∀ (row : Nat) (a : Fin 4), main_valid_alleles two_by_two_library a = true →
          count_at c row a = count_at (init_counter 2 2) row a := by
  obtain ⟨t, ht⟩ := Option.isSome_iff_exists.mp two_by_two_index_isSome
  have hl1 : hash_table_lookup t read_1_swapped_flanking 0 = some 2 := by
    have h : (main_index false 0 two_by_two_library).bind
        (fun t => hash_table_lookup t read_1_swapped_flanking 0) = some 2 := by decide
    rw [ht] at h; exact h
  have hl2 : hash_table_lookup t read_2_exact 1 = some 1 := by
    have h : (main_index false 0 two_by_two_library).bind
        (fun t => hash_table_lookup t read_2_exact 1) = some 1 := by decide
    rw [ht] at h; exact h
  exact ⟨t, ht, hl1, hl2,
    unresolved_allele_counted_in_undeclared_slot two_by_two_library t 1 4
      (main_valid_alleles two_by_two_library) (init_counter 2 2) read_1_swapped_flanking
      read_2_exact 2 1 hl1 hl2 (by decide) (by decide) (by decide) (by decide) (by decide)
      (by decide) (by decide) (by unfold segments_accepted; decide) (by decide)⟩

set_option maxRecDepth 100000 in
/-- Claim C19 fails on the code: with the index and the single declared allele
`A` of `two_by_two_library`, mate 1 `CCTGTT AC GT N` carries the character `N`
at its allele offset 10; `allele_char_to_enum` maps `N` to the index of `A`,
no recovery is attempted and the pair is counted under `A`: `counts[2][A]`
becomes 1. -/
theorem non_base_character_counted_as_A :
    byteAt read_1_allele_N (two_by_two_library.prototypes 0).allele_offset = 78 ∧
    allele_char_to_enum 78 = 0 ∧
    main_valid_alleles two_by_two_library 0 = true ∧
    ((main_index false 0 two_by_two_library).bind fun t =>
      demultiplex_read_pair two_by_two_library t 1 4 (main_valid_alleles two_by_two_library)
        (init_counter 2 2) read_1_allele_N read_2_exact) =
      some ⟨2, 2, [[0, 0, 0, 0], [0, 0, 0, 0], [1, 0, 0, 0], [0, 0, 0, 0]]⟩ := by
  decide

/-! ## The loop over the read pairs of two streams: claim C20 -/

theorem land_neg_one_neg_one : Int.land (-1) (-1) = -1 := by decide

theorem land_nat_neg_one (n : Nat) : Int.land (n : Int) (-1) ≠ -1 := by
  show ((Nat.ldiff n 0 : Nat) : Int) ≠ -1
  omega

theorem land_neg_one_nat (n : Nat) : Int.land (-1) (n : Int) ≠ -1 := by
  show ((Nat.ldiff n 0 : Nat) : Int) ≠ -1
  omega

theorem hash_table_lookup_returns (ht : bc_hash_table) (key : List Nat) (p : Fin 2)
    (hfree : ∃ kv ∈ ht.items, kv.value p = 0) : ∃ v, hash_table_lookup ht key p = some v := by
  obtain ⟨t, ht_lt, hstop⟩ := exists_probeStops ht key p (probe_start ht key) hfree
  have hn : 0 < ht.items.length := by omega
  have hstart := probe_start_lt ht key hn
  unfold hash_table_lookup bc_hash_table.num_slots
  rw [lookup_loop_of_stops ht key p t _ _ ht_lt (le_of_lt hstart) hstop]
  obtain ⟨_, kv, hkv, _⟩ := hstop
  exact ⟨kv.value p, by rw [hkv]; rfl⟩

theorem demultiplex_read_pair_returns (fs2_seqs : library_seqs) (hash_table : bc_hash_table)
    (ad_fl_mismatches ed_threshold : Int) (valid_alleles : Fin 4 → Bool)
    (hfree : ∀ p : Fin 2, ∃ kv ∈ hash_table.items, kv.value p = 0)
    (bc_combo_counts : bc_counter) (read_1 read_2 : List Nat) :
    ∃ c, demultiplex_read_pair fs2_seqs hash_table ad_fl_mismatches ed_threshold valid_alleles
      bc_combo_counts read_1 read_2 = some c := by
  obtain ⟨v1, h1⟩ := hash_table_lookup_returns hash_table read_1 0 (hfree 0)
  obtain ⟨v2, h2⟩ := hash_table_lookup_returns hash_table read_2 1 (hfree 1)
  rw [demultiplex_read_pair_of_lookups fs2_seqs hash_table ad_fl_mismatches ed_threshold
    valid_alleles bc_combo_counts read_1 read_2 v1 v2 h1 h2]
  split_ifs <;> exact ⟨_, rfl⟩

theorem demultiplex_loop_spec (fs2_seqs : library_seqs) (hash_table : bc_hash_table)
    (ad_fl_mismatches ed_threshold : Int) (valid_alleles : Fin 4 → Bool) :
    ∀ (fastq_1 fastq_2 : List (List Nat)) (fuel : Nat) (s_1 s_2 : List Nat)
      (bc_combo_counts : bc_counter), fastq_1.length < fuel →
      (demultiplex_loop fs2_seqs hash_table ad_fl_mismatches ed_threshold valid_alleles fuel
        ⟨fastq_1, s_1⟩ ⟨fastq_2, s_2⟩ bc_combo_counts).map
        (fun r => (r.1, decide (Int.land r.2.1 r.2.2 ≠ -1))) =
      ((fastq_1.zip fastq_2).foldlM
        (fun c p => demultiplex_read_pair fs2_seqs hash_table ad_fl_mismatches ed_threshold
          valid_alleles c p.1 p.2) bc_combo_counts).map
        (fun c => (c, decide (fastq_1.length ≠ fastq_2.length))) := by
  intro fastq_1
  induction fastq_1 with
  | nil =>
    intro fastq_2 fuel s_1 s_2 c hf
    obtain ⟨fuel, rfl⟩ : ∃ f, fuel = f + 1 := ⟨fuel - 1, by simp at hf; omega⟩
    cases fastq_2 with
    | nil =>
      simp [demultiplex_loop, read_fastq_pair, kseq_read, land_neg_one_neg_one]
    | cons r_2 rest_2 =>
      simp [demultiplex_loop, read_fastq_pair, kseq_read, land_neg_one_nat]
  | cons r_1 rest_1 ih =>
    intro fastq_2 fuel s_1 s_2 c hf
    obtain ⟨fuel, rfl⟩ : ∃ f, fuel = f + 1 := ⟨fuel - 1, by simp at hf; omega⟩
    cases fastq_2 with
    | nil =>
      simp [demultiplex_loop, read_fastq_pair, kseq_read, land_nat_neg_one]
    | cons r_2 rest_2 =>
      have hf' : rest_1.length < fuel := by simp at hf; omega
      simp only [demultiplex_loop, read_fastq_pair, kseq_read, List.zip_cons_cons,
        List.foldlM_cons, List.length_cons]
      have hpos : (decide ((r_1.length : Int) ≥ 0) && decide ((r_2.length : Int) ≥ 0)) = true := by
        simp
      rw [if_pos hpos]
      cases hstep : demultiplex_read_pair fs2_seqs hash_table ad_fl_mismatches ed_threshold
          valid_alleles c r_1 r_2 with
      | none => rfl
      | some c' =>
        have := ih rest_2 fuel r_1 r_2 c' hf'
        simp only [Option.bind_eq_bind, Option.some_bind]
        rw [this]
        congr 1
        funext c''
        simp

theorem foldlM_demultiplex_returns (fs2_seqs : library_seqs) (hash_table : bc_hash_table)
    (ad_fl_mismatches ed_threshold : Int) (valid_alleles : Fin 4 → Bool)
    (hfree : ∀ p : Fin 2, ∃ kv ∈ hash_table.items, kv.value p = 0) :
    ∀ (pairs : List (List Nat × List Nat)) (bc_combo_counts : bc_counter),
      ∃ c, pairs.foldlM
        (fun c p => demultiplex_read_pair fs2_seqs hash_table ad_fl_mismatches ed_threshold
          valid_alleles c p.1 p.2) bc_combo_counts = some c := by
  intro pairs
  induction pairs with
  | nil => intro c; exact ⟨c, rfl⟩
  | cons p rest ih =>
    intro c
    obtain ⟨c', hc'⟩ := demultiplex_read_pair_returns fs2_seqs hash_table ad_fl_mismatches
      ed_threshold valid_alleles hfree c p.1 p.2
    obtain ⟨c'', hc''⟩ := ih c'
    refine ⟨c'', ?_⟩
    rw [List.foldlM_cons, hc']
    exact hc''

/-- Claim C20: on mate streams of `n1` and `n2` records `demultiplex_fastq_pair`
processes the pairs of the zipped streams in order, record `i` of mate 1 with
record `i` of mate 2, which are `min n1 n2` pairs, and it prints the warning
exactly when `n1 ≠ n2`; when each pool has a free slot in the index, so that
every lookup returns, the function returns. -/
theorem demultiplex_fastq_pair_pairing (fs2_seqs : library_seqs) (hash_table : bc_hash_table)
    (bc_combo_counts : bc_counter) (ad_fl_mismatches ed_threshold : Int)
    (valid_alleles : Fin 4 → Bool) (fastq_1 fastq_2 : List (List Nat)) :
    demultiplex_fastq_pair fs2_seqs hash_table bc_combo_counts ad_fl_mismatches ed_threshold
        valid_alleles fastq_1 fastq_2 =
      ((fastq_1.zip fastq_2).foldlM
        (fun c p => demultiplex_read_pair fs2_seqs hash_table ad_fl_mismatches ed_threshold
          valid_alleles c p.1 p.2) bc_combo_counts).map
        (fun c => (c, decide (fastq_1.length ≠ fastq_2.length))) ∧
    (fastq_1.zip fastq_2).length = min fastq_1.length fastq_2.length ∧
    ((∀ p : Fin 2, ∃ kv ∈ hash_table.items, kv.value p = 0) →
      ∃ c, demultiplex_fastq_pair fs2_seqs hash_table bc_combo_counts ad_fl_mismatches
        ed_threshold valid_alleles fastq_1 fastq_2 =
          some (c, decide (fastq_1.length ≠ fastq_2.length))) := by
  have h := demultiplex_loop_spec fs2_seqs hash_table ad_fl_mismatches ed_threshold valid_alleles
    fastq_1 fastq_2 (fastq_1.length + 1) [] [] bc_combo_counts (by omega)
  refine ⟨h, List.length_zip _ _, fun hfree => ?_⟩
  obtain ⟨c, hc⟩ := foldlM_demultiplex_returns fs2_seqs hash_table ad_fl_mismatches ed_threshold
    valid_alleles hfree (fastq_1.zip fastq_2) bc_combo_counts
  refine ⟨c, ?_⟩
  unfold demultiplex_fastq_pair
  rw [h, hc]
  rfl

set_option maxRecDepth 100000 in
/-- Witness of claim C20: five records `CCTGTT AC GT A` of mate 1 and four
records `GGGTTT TT GG` of mate 2 on the index of `two_by_two_library` and the
zero matrix: four pairs are counted in `counts[2][A]` and the warning is
printed. -/
theorem demultiplex_fastq_pair_pairing_witness :
    ((main_index false 0 two_by_two_library).bind fun t =>
      demultiplex_fastq_pair two_by_two_library t (init_counter 2 2) 1 4
        (main_valid_alleles two_by_two_library)
        [read_1_exact, read_1_exact, read_1_exact, read_1_exact, read_1_exact]
        [read_2_exact, read_2_exact, read_2_exact, read_2_exact]) =
      some (⟨2, 2, [[0, 0, 0, 0], [0, 0, 0, 0], [4, 0, 0, 0], [0, 0, 0, 0]]⟩, true) := by
  obtain ⟨t, ht⟩ := Option.isSome_iff_exists.mp two_by_two_index_isSome
  have h : ((main_index false 0 two_by_two_library).bind fun t =>
      (([read_1_exact, read_1_exact, read_1_exact, read_1_exact, read_1_exact].zip
        [read_2_exact, read_2_exact, read_2_exact, read_2_exact]).foldlM
        (fun c p => demultiplex_read_pair two_by_two_library t 1 4
          (main_valid_alleles two_by_two_library) c p.1 p.2) (init_counter 2 2)).map
        (fun c => (c, decide
          ([read_1_exact, read_1_exact, read_1_exact, read_1_exact, read_1_exact].length ≠
            [read_2_exact, read_2_exact, read_2_exact, read_2_exact].length)))) =
      some (⟨2, 2, [[0, 0, 0, 0], [0, 0, 0, 0], [4, 0, 0, 0], [0, 0, 0, 0]]⟩, true) := by
    decide
  rw [ht] at h ⊢
  show demultiplex_fastq_pair two_by_two_library t (init_counter 2 2) 1 4
    (main_valid_alleles two_by_two_library) _ _ = _
  rw [(demultiplex_fastq_pair_pairing two_by_two_library t (init_counter 2 2) 1 4
    (main_valid_alleles two_by_two_library) _ _).1]
  exact h

/-! ## The count matrix: claims C27 and C28 -/

theorem cell_index_lt_nat (n1 n2 id1 id2 : Nat) (h1 : 1 ≤ id1) (hb1 : id1 ≤ n1) (h2 : 1 ≤ id2)
    (hb2 : id2 ≤ n2) : n2 * (id1 - 1) + (id2 - 1) < n1 * n2 := by
  obtain ⟨a, rfl⟩ : ∃ a, id1 = a + 1 := ⟨id1 - 1, by omega⟩
  obtain ⟨b, rfl⟩ : ∃ b, id2 = b + 1 := ⟨id2 - 1, by omega⟩
  simp only [Nat.add_sub_cancel]
  calc n2 * a + b < n2 * a + n2 := by omega
    _ = (a + 1) * n2 := by ring
    _ ≤ n1 * n2 := Nat.mul_le_mul_right _ hb1

theorem cell_index_inj (n2 a b a' b' : Nat) (hb : b < n2) (hb' : b' < n2)
    (h : n2 * a + b = n2 * a' + b') : a = a' ∧ b = b' := by
  have hn : 0 < n2 := by omega
  have h1 : (n2 * a + b) / n2 = a := by
    rw [Nat.mul_add_div hn, Nat.div_eq_of_lt hb, Nat.add_zero]
  have h2 : (n2 * a' + b') / n2 = a' := by
    rw [Nat.mul_add_div hn, Nat.div_eq_of_lt hb', Nat.add_zero]
  have ha : a = a' := by rw [← h1, ← h2, h]
  subst ha
  exact ⟨rfl, by omega⟩

/-- Claim C27: in a count matrix of `num_bc1 * num_bc2` rows, a number that
fits an `unsigned int`, the index `demultiplex_fastq_pair` computes for the
ids `(bc1_id, bc2_id)` with `1 ≤ bc1_id ≤ num_bc1` and `1 ≤ bc2_id ≤ num_bc2`
is `(bc1_id - 1) * num_bc2 + (bc2_id - 1)`, it is below the number of rows
`main` allocates, it is the index `main` prints for that pair, and different
pairs of ids get different indices. -/
theorem count_matrix_addressing (num_bc1 num_bc2 : Nat) (hfit : num_bc1 * num_bc2 < 2 ^ 32) :
    (init_counter num_bc1 num_bc2).counts.length = num_bc1 * num_bc2 ∧
    (∀ bc1_id bc2_id, 1 ≤ bc1_id → bc1_id ≤ num_bc1 → 1 ≤ bc2_id → bc2_id ≤ num_bc2 →
      counts_index num_bc2 (bc1_id - 1) (bc2_id - 1) = (bc1_id - 1) * num_bc2 + (bc2_id - 1) ∧
      counts_index num_bc2 (bc1_id - 1) (bc2_id - 1) < num_bc1 * num_bc2 ∧
      main_row_index num_bc2 (bc1_id - 1) (bc2_id - 1) =
        counts_index num_bc2 (bc1_id - 1) (bc2_id - 1)) ∧
    (∀ bc1_id bc2_id bc1_id' bc2_id', 1 ≤ bc1_id → bc1_id ≤ num_bc1 → 1 ≤ bc2_id →
      bc2_id ≤ num_bc2 → 1 ≤ bc1_id' → bc1_id' ≤ num_bc1 → 1 ≤ bc2_id' → bc2_id' ≤ num_bc2 →
      counts_index num_bc2 (bc1_id - 1) (bc2_id - 1) =
        counts_index num_bc2 (bc1_id' - 1) (bc2_id' - 1) →
      bc1_id = bc1_id' ∧ bc2_id = bc2_id') := by
  have hidx : ∀ bc1_id bc2_id, 1 ≤ bc1_id → bc1_id ≤ num_bc1 → 1 ≤ bc2_id → bc2_id ≤ num_bc2 →
      counts_index num_bc2 (bc1_id - 1) (bc2_id - 1) = num_bc2 * (bc1_id - 1) + (bc2_id - 1) := by
    intro a b h1 hb1 h2 hb2
    have := cell_index_lt_nat num_bc1 num_bc2 a b h1 hb1 h2 hb2
    exact Nat.mod_eq_of_lt (by omega)
  refine ⟨?_, fun a b h1 hb1 h2 hb2 => ?_, fun a b a' b' h1 hb1 h2 hb2 h1' hb1' h2' hb2' h => ?_⟩
  · unfold init_counter
    rw [List.length_replicate]
    exact Nat.mod_eq_of_lt hfit
  · have hlt := cell_index_lt_nat num_bc1 num_bc2 a b h1 hb1 h2 hb2
    rw [hidx a b h1 hb1 h2 hb2]
    refine ⟨by rw [Nat.mul_comm], hlt, ?_⟩
    exact Nat.mod_eq_of_lt (by omega)
  · rw [hidx a b h1 hb1 h2 hb2, hidx a' b' h1' hb1' h2' hb2'] at h
    have := cell_index_inj num_bc2 (a - 1) (b - 1) (a' - 1) (b' - 1) (by omega) (by omega) h
    omega

/-- Witness of claim C27: the matrix of 2 x 2 cells. -/
theorem count_matrix_addressing_witness :
    (init_counter 2 2).counts.length = 2 * 2 ∧
    (∀ bc1_id bc2_id, 1 ≤ bc1_id → bc1_id ≤ 2 → 1 ≤ bc2_id → bc2_id ≤ 2 →
      counts_index 2 (bc1_id - 1) (bc2_id - 1) = (bc1_id - 1) * 2 + (bc2_id - 1) ∧
      counts_index 2 (bc1_id - 1) (bc2_id - 1) < 2 * 2 ∧
      main_row_index 2 (bc1_id - 1) (bc2_id - 1) = counts_index 2 (bc1_id - 1) (bc2_id - 1)) ∧
    (∀ bc1_id bc2_id bc1_id' bc2_id', 1 ≤ bc1_id → bc1_id ≤ 2 → 1 ≤ bc2_id →
      bc2_id ≤ 2 → 1 ≤ bc1_id' → bc1_id' ≤ 2 → 1 ≤ bc2_id' → bc2_id' ≤ 2 →
      counts_index 2 (bc1_id - 1) (bc2_id - 1) = counts_index 2 (bc1_id' - 1) (bc2_id' - 1) →
      bc1_id = bc1_id' ∧ bc2_id = bc2_id') :=
  count_matrix_addressing 2 2 (by decide)

theorem getD_modify_gen {α : Type} (f : α → α) (n : Nat) (l : List α) (m : Nat) (d : α) :
    (List.modify f n l).getD m d =
      if m = n ∧ n < l.length then f (l.getD m d) else l.getD m d := by
  by_cases hn : n < l.length
  · rw [getD_modify f n l m d hn]
    by_cases h : m = n <;> simp [h, hn]
  · rw [List.modify_eq_self (by omega), if_neg (fun h => hn h.2)]

theorem sum_map_modify_le {α : Type} (w : α → Nat) (g : α → α) (hg : ∀ x, w (g x) ≤ w x + 1) :
    ∀ (l : List α) (n : Nat), ((List.modify g n l).map w).sum ≤ (l.map w).sum + 1 := by
  intro l
  induction l with
  | nil => intro n; simp
  | cons x rest ih =>
    intro n
    cases n with
    | zero =>
      simp only [List.modify_zero_cons, List.map_cons, List.sum_cons]
      have := hg x
      omega
    | succ n =>
      simp only [List.modify_succ_cons, List.map_cons, List.sum_cons]
      have := ih n
      omega

theorem counter_total_increment_le (c : bc_counter) (bc1 bc2 : Nat) (allele_i : Fin 4) :
    counter_total (increment c bc1 bc2 allele_i) ≤ counter_total c + 1 := by
  unfold counter_total increment
  simp only
  apply sum_map_modify_le List.sum
  intro row
  have h := sum_map_modify_le (fun n : Nat => n) (fun n => (n + 1) % 2 ^ 32)
    (fun x => by
      show (x + 1) % 2 ^ 32 ≤ x + 1
      exact Nat.mod_le _ _) row allele_i.val
  simpa using h

theorem count_at_increment_ge (c : bc_counter) (bc1 bc2 : Nat) (allele_i : Fin 4)
    (hroom : ∀ (row : Nat) (a : Fin 4), count_at c row a < 2 ^ 32 - 1) (row : Nat) (a : Fin 4) :
    count_at c row a ≤ count_at (increment c bc1 bc2 allele_i) row a := by
  unfold count_at increment
  simp only
  rw [getD_modify_gen]
  by_cases h1 : row = counts_index c.num_bc2 bc1 bc2 ∧
      counts_index c.num_bc2 bc1 bc2 < c.counts.length
  · rw [if_pos h1, getD_modify_gen]
    by_cases h2 : a.val = allele_i.val ∧ allele_i.val < (c.counts.getD row []).length
    · rw [if_pos h2]
      have := hroom row a
      unfold count_at at this
      rw [Nat.mod_eq_of_lt (by omega)]
      omega
    · rw [if_neg h2]
  · rw [if_neg h1]

/-- Claim C28: processing one read pair, with every counter below the largest
`unsigned int`, never lowers a counter of the count matrix and raises the sum
of all counters by at most 1; a pair that is discarded, because a barcode
lookup is not positive or segment validation rejects it, leaves the sum as it
was. -/
theorem counters_only_grow (fs2_seqs : library_seqs) (hash_table : bc_hash_table)
    (ad_fl_mismatches ed_threshold : Int) (valid_alleles : Fin 4 → Bool)
    (bc_combo_counts : bc_counter) (read_1 read_2 : List Nat) (v1 v2 : Int)
    (h1 : hash_table_lookup hash_table read_1 0 = some v1)
    (h2 : hash_table_lookup hash_table read_2 1 = some v2)
    (hroom : ∀ (row : Nat) (a : Fin 4), count_at bc_combo_counts row a < 2 ^ 32 - 1) :
    ∃ c, demultiplex_read_pair fs2_seqs hash_table ad_fl_mismatches ed_threshold valid_alleles
        bc_combo_counts read_1 read_2 = some c ∧
      (∀ (row : Nat) (a : Fin 4), count_at bc_combo_counts row a ≤ count_at c row a) ∧
      counter_total c ≤ counter_total bc_combo_counts + 1 ∧
      ((v1 ≤ 0 ∨ v2 ≤ 0 ∨
          ¬ segments_accepted fs2_seqs ad_fl_mismatches ed_threshold read_1 read_2) →
        counter_total c = counter_total bc_combo_counts) := by
  rw [demultiplex_read_pair_of_lookups fs2_seqs hash_table ad_fl_mismatches ed_threshold
    valid_alleles bc_combo_counts read_1 read_2 v1 v2 h1 h2]
  by_cases hg : v1 - 1 < 0 ∨ v2 - 1 < 0
  · rw [if_pos hg]
    exact ⟨_, rfl, fun _ _ => le_refl _, by omega, fun _ => rfl⟩
  · rw [if_neg hg]
    by_cases hacc : segments_accepted fs2_seqs ad_fl_mismatches ed_threshold read_1 read_2
    · rw [if_neg (loop_of_segments_accepted fs2_seqs ad_fl_mismatches ed_threshold read_1
        read_2 hacc)]
      refine ⟨_, rfl, count_at_increment_ge _ _ _ _ hroom, counter_total_increment_le _ _ _ _,
        fun h => ?_⟩
      rcases h with h | h | h
      · omega
      · omega
      · exact absurd hacc h
    · rw [if_pos (loop_of_not_segments_accepted fs2_seqs ad_fl_mismatches ed_threshold read_1
        read_2 hacc)]
      exact ⟨_, rfl, fun _ _ => le_refl _, by omega, fun _ => rfl⟩

theorem count_at_init_counter (num_bc1 num_bc2 row : Nat) (a : Fin 4) :
    count_at (init_counter num_bc1 num_bc2) row a = 0 := by
  unfold count_at init_counter
  simp only
  have hrow : (List.replicate (num_bc1 * num_bc2 % 2 ^ 32) [0, 0, 0, 0]).getD row [] = [] ∨
      (List.replicate (num_bc1 * num_bc2 % 2 ^ 32) [0, 0, 0, 0]).getD row [] = [0, 0, 0, 0] := by
    rw [List.getD_eq_getElem?_getD, List.getElem?_replicate]
    split_ifs
    · right; rfl
    · left; rfl
  have h4 : a.val < 4 := a.isLt
  have hcases : a.val = 0 ∨ a.val = 1 ∨ a.val = 2 ∨ a.val = 3 := by omega
  rcases hrow with h | h <;> rw [h]
  · rfl
  · rcases hcases with e | e | e | e <;> rw [e] <;> rfl

set_option maxRecDepth 100000 in
/-- Witness of claim C28: the exact mates `CCTGTT AC GT A` and `GGGTTT TT GG`
on the index of `two_by_two_library` and the zero matrix of 2 x 2 cells. -/
theorem counters_only_grow_witness :
    ∃ t, main_index false 0 two_by_two_library = some t ∧
      hash_table_lookup t read_1_exact 0 = some 2 ∧ hash_table_lookup t read_2_exact 1 = some 1 ∧
      ∃ c, demultiplex_read_pair two_by_two_library t 1 4
          (main_valid_alleles two_by_two_library) (init_counter 2 2) read_1_exact read_2_exact =
          some c ∧
        (∀ (row : Nat) (a : Fin 4), count_at (init_counter 2 2) row a ≤ count_at c row a) ∧
        counter_total c ≤ counter_total (init_counter 2 2) + 1 ∧
        (((2 : Int) ≤ 0 ∨ (1 : Int) ≤ 0 ∨
            ¬ segments_accepted two_by_two_library 1 4 read_1_exact read_2_exact) →
          counter_total c = counter_total (init_counter 2 2)) := by
  obtain ⟨t, ht⟩ := Option.isSome_iff_exists.mp two_by_two_index_isSome
  have hl1 : hash_table_lookup t read_1_exact 0 = some 2 := by
    have h : (main_index false 0 two_by_two_library).bind
        (fun t => hash_table_lookup t read_1_exact 0) = some 2 := by decide
    rw [ht] at h; exact h
  have hl2 : hash_table_lookup t read_2_exact 1 = some 1 := by
    have h : (main_index false 0 two_by_two_library).bind
        (fun t => hash_table_lookup t read_2_exact 1) = some 1 := by decide
    rw [ht] at h; exact h
  exact ⟨t, ht, hl1, hl2,
    counters_only_grow two_by_two_library t 1 4 (main_valid_alleles two_by_two_library)
      (init_counter 2 2) read_1_exact read_2_exact 2 1 hl1 hl2
      (fun row a => by rw [count_at_init_counter]; decide)⟩

/-! ## Hamming distance against `damerau_levenshtein`: claim C30 -/

theorem mismatches_le (seq_1 seq_2 : List Nat) (k : Nat) : mismatches seq_1 seq_2 k ≤ k := by
  induction k with
  | zero => simp [mismatches]
  | succ k ih =>
    unfold mismatches
    split_ifs <;> omega

theorem hamming_distance_le (seq_1 seq_2 : List Nat) (length : Nat) :
    hamming_distance seq_1 seq_2 length ≤ length := by
  have h := forLoop_induction
    (fun i num_mismatches =>
      (num_mismatches + (if byteAt seq_1 i ≠ byteAt seq_2 i then 1 else 0)) % 2 ^ 32)
    (fun k num_mismatches => num_mismatches ≤ k) length 0 0 (le_refl _)
    (fun i s _ _ hP => by
      refine le_trans (Nat.mod_le _ _) ?_
      split_ifs <;> omega)
  simpa [hamming_distance] using h

theorem hamming_distance_eq_mismatches (seq_1 seq_2 : List Nat) (length : Nat)
    (hlen : length < 2 ^ 32) :
    hamming_distance seq_1 seq_2 length = mismatches seq_1 seq_2 length := by
  have h := forLoop_induction
    (fun i num_mismatches =>
      (num_mismatches + (if byteAt seq_1 i ≠ byteAt seq_2 i then 1 else 0)) % 2 ^ 32)
    (fun k num_mismatches => num_mismatches = mismatches seq_1 seq_2 k) length 0 0 rfl
    (fun i s _ hi hP => by
      have hle := mismatches_le seq_1 seq_2 (i + 1)
      rw [hP]
      show _ = mismatches seq_1 seq_2 i + _
      unfold mismatches at hle
      exact Nat.mod_eq_of_lt (by omega))
  simpa [hamming_distance] using h

theorem dl_matrix_diag_le_mismatches (seq_1 seq_2 : List Nat) (len : Nat) :
    ∀ a, a ≤ len → dl_matrix seq_1 seq_2 len (a + 1) (a + 1) ≤ (mismatches seq_1 seq_2 a : Int) := by
  intro a
  induction a with
  | zero =>
    intro _
    rw [dl_matrix_border _ _ _ _ _ (Or.inl (by omega)), dl_init_row1 _ _ (by omega)]
    rfl
  | succ a ih =>
    intro ha
    have h1 := ih (by omega)
    unfold mismatches
    by_cases hc : byteAt seq_1 a = byteAt seq_2 a
    · have h2 := dl_matrix_diag_step seq_1 seq_2 len (a + 1) (by omega) ha hc
      rw [if_neg (by simpa using hc)]
      push_cast
      omega
    · have h2 := dl_matrix_diag_subst seq_1 seq_2 len (a + 1) (by omega) ha
      rw [if_pos hc]
      push_cast
      omega

/-- Claim C30: for a length that fits the `int` parameter `len`,
`damerau_levenshtein` is at most `hamming_distance`, which is at most the
length; so a segment whose window differs from it in at most
`ad_fl_mismatches` positions passes the per-segment check
`segment_ed <= ad_fl_mismatches`. -/
theorem damerau_levenshtein_le_hamming (seq_1 seq_2 : List Nat) (len : Nat)
    (hlen : len < 2 ^ 31) :
    damerau_levenshtein seq_1 seq_2 len ≤ (hamming_distance seq_1 seq_2 len : Int) ∧
    hamming_distance seq_1 seq_2 len ≤ len ∧
    ∀ (read : List Nat) (segment : read_segment) (ad_fl_mismatches : Int),
      segment.seq = seq_1 → read.drop segment.offset = seq_2 → segment.length = len →
      (hamming_distance seq_1 seq_2 len : Int) ≤ ad_fl_mismatches →
      segment_distance read segment ≤ ad_fl_mismatches := by
  have h1 : damerau_levenshtein seq_1 seq_2 len ≤ (hamming_distance seq_1 seq_2 len : Int) := by
    rw [hamming_distance_eq_mismatches seq_1 seq_2 len (by omega)]
    exact dl_matrix_diag_le_mismatches seq_1 seq_2 len len (le_refl _)
  refine ⟨h1, hamming_distance_le seq_1 seq_2 len, fun read segment ad e1 e2 e3 h => ?_⟩
  unfold segment_distance
  rw [e1, e2, e3]
  omega

/-- Witness of claim C30: `AAAA` against `AATA` with `len = 4`. -/
theorem damerau_levenshtein_le_hamming_witness :
    damerau_levenshtein [chA, chA, chA, chA] [chA, chA, chT, chA] 4 ≤
      (hamming_distance [chA, chA, chA, chA] [chA, chA, chT, chA] 4 : Int) ∧
    hamming_distance [chA, chA, chA, chA] [chA, chA, chT, chA] 4 ≤ 4 :=
  ⟨(damerau_levenshtein_le_hamming [chA, chA, chA, chA] [chA, chA, chT, chA] 4 (by decide)).1,
    (damerau_levenshtein_le_hamming [chA, chA, chA, chA] [chA, chA, chT, chA] 4 (by decide)).2.1⟩

/-! ## Sizing, pruning and ambiguity marks of the index: claims C25, C26 and C29 -/

set_option maxRecDepth 100000 in
/-- Claim C25 fails on the code: `init_hash_table(3)` creates a table of 4
slots, below `1.5 * 3` and with three items filled above the load factor 0.67,
and `init_hash_table(1)` creates a table of one slot. -/
theorem init_hash_table_rounds_down :
    (init_hash_table 3).map bc_hash_table.num_slots = some 4 ∧ 2 * 4 < 3 * 3 ∧
    67 * 4 < 100 * 3 ∧
    (init_hash_table 1).map bc_hash_table.num_slots = some 1 := by
  decide

set_option maxRecDepth 100000 in
/-- Claim C26 fails on the code: in a table of 128 slots `AGCAAT` is stored for
pool 1, `GGGTTT` for pool 2, and `CCTGTT` is marked ambiguous for pool 1, each
in a slot of its own. Before `prune_hash_table` the pool-2 lookup of `GGGTTT`
returns 1 and the pool-2 lookup of `AGCAAT` returns 0; the rebuilt table has 8
slots, both keys start at the same slot, the insert for pool 1 rewrites the
key stored for pool 2, and afterwards `GGGTTT` resolves to 0 and `AGCAAT`
to 1 in pool 2. -/
theorem prune_loses_resolved_entry :
    ((((((init_hash_table 48).bind fun t => hash_table_insert t bc_AGCAAT 1 0 true).bind
      fun t => hash_table_insert t bc_GGGTTT 1 1 true).bind
      fun t => hash_table_insert t bc_CCTGTT 2 0 false).bind
      fun t => hash_table_insert t bc_CCTGTT 2 0 false).bind
      fun t => (hash_table_lookup t bc_GGGTTT 1).bind
        fun v => (hash_table_lookup t bc_AGCAAT 1).map fun w => (v, w)) = some (1, 0) ∧
    (((((((init_hash_table 48).bind fun t => hash_table_insert t bc_AGCAAT 1 0 true).bind
      fun t => hash_table_insert t bc_GGGTTT 1 1 true).bind
      fun t => hash_table_insert t bc_CCTGTT 2 0 false).bind
      fun t => hash_table_insert t bc_CCTGTT 2 0 false).bind prune_hash_table).bind
      fun t => (hash_table_lookup t bc_GGGTTT 1).bind
        fun v => (hash_table_lookup t bc_AGCAAT 1).map fun w => (v, w)) = some (0, 1) := by
  decide

theorem lookup_loop_nonzero_stops (ht : bc_hash_table) (key : List Nat) (p : Fin 2) :
    ∀ (fuel index : Nat) (v : Int), index ≤ ht.items.length →
      lookup_loop ht key p fuel index = some v → v ≠ 0 →
      ∃ t, t < fuel ∧ ProbeStops ht key p index t ∧
        ∃ kv, ht.items[(index + t) % ht.items.length]? = some kv ∧ kv.value p = v := by
  intro fuel
  induction fuel with
  | zero => intro index v _ h; simp [lookup_loop] at h
  | succ fuel ih =>
    intro index v hi h hv
    simp only [lookup_loop, bc_hash_table.num_slots, norm_index _ _ hi] at h
    cases hkv : ht.items[index % ht.items.length]? with
    | none => simp [hkv] at h
    | some kv =>
      have hn : 0 < ht.items.length := by
        rcases Nat.eq_zero_or_pos ht.items.length with h0 | h0
        · rw [List.length_eq_zero] at h0; simp [h0] at hkv
        · exact h0
      simp only [hkv] at h
      by_cases hm : kv.value p ≠ 0 ∧ strncmp_eq key kv.key ht.key_length = true
      · rw [if_pos hm] at h
        refine ⟨0, by omega, ⟨fun s hs => by omega, kv, by simpa using hkv, Or.inr hm.2⟩, kv,
          by simpa using hkv, by simpa using h⟩
      · rw [if_neg hm] at h
        by_cases hz : kv.value p ≠ 0
        · rw [if_pos hz] at h
          obtain ⟨t, htf, hstop, kv', hkv', hval⟩ :=
            ih (index % ht.items.length + 1) v (Nat.succ_le_of_lt (Nat.mod_lt _ hn)) h hv
          have hstep : ∀ s, (index % ht.items.length + 1 + s) % ht.items.length
              = (index + (s + 1)) % ht.items.length := by
            intro s
            rw [Nat.add_assoc, Nat.mod_add_mod, Nat.add_comm 1 s]
          have hnm : strncmp_eq key kv.key ht.key_length = false := by
            cases hc : strncmp_eq key kv.key ht.key_length
            · rfl
            · exact absurd ⟨hz, hc⟩ hm
          refine ⟨t + 1, by omega, ⟨fun s hs => ?_, ?_⟩, kv', by rw [← hstep]; exact hkv', hval⟩
          · cases s with
            | zero => exact ⟨kv, by simpa using hkv, hz, hnm⟩
            | succ s =>
              obtain ⟨kv2, h2, h3, h4⟩ := hstop.1 s (by omega)
              exact ⟨kv2, by rw [← hstep]; exact h2, h3, h4⟩
          · obtain ⟨kv2, h2, h3⟩ := hstop.2
            exact ⟨kv2, by rw [← hstep]; exact h2, h3⟩
        · rw [if_neg hz] at h
          have hz' : kv.value p = 0 := by simpa using hz
          simp only [Option.some.injEq] at h
          exact absurd (h ▸ hz') hv

theorem insert_of_stored (ht : bc_hash_table) (k : List Nat) (p : Fin 2) (t : Nat) (kv : hash_kv)
    (v : Int) (overwrite : Bool) (ht_lt : t < ht.items.length)
    (hstop : ProbeStops ht k p (probe_start ht k) t)
    (hkv : ht.items[(probe_start ht k + t) % ht.items.length]? = some kv)
    (hne : kv.value p ≠ 0) :
    ∃ ht', hash_table_insert ht k v p overwrite = some ht' ∧
      ht'.items = ht.items.set ((probe_start ht k + t) % ht.items.length)
        ⟨kv.key, Function.update kv.value p (if overwrite then v else -1)⟩ ∧
      ht'.key_length = ht.key_length ∧
      ProbeStops ht' k p (probe_start ht' k) t ∧
      ht'.items[(probe_start ht' k + t) % ht'.items.length]? =
        some ⟨kv.key, Function.update kv.value p (if overwrite then v else -1)⟩ ∧
      hash_table_lookup ht' k p = some (if overwrite then v else -1) := by
  have hn : 0 < ht.items.length := by omega
  have hstart := probe_start_lt ht k hn
  obtain ⟨hpre, kv2, hkv2, hcond⟩ := hstop
  have e2 : kv2 = kv := by rw [hkv] at hkv2; exact (Option.some.inj hkv2).symm
  subst e2
  have hmatch : strncmp_eq k kv2.key ht.key_length = true := by
    rcases hcond with h | h
    · exact absurd h hne
    · exact h
  set pos := (probe_start ht k + t) % ht.items.length with hpos
  have hposlt : pos < ht.items.length := Nat.mod_lt _ hn
  have hitems := insert_at_items ht k v p overwrite pos kv2 hkv
  have hlen := insert_at_length ht k v p overwrite pos
  have hkl := insert_at_key_length ht k v p overwrite pos
  have hws : written_slot ht.key_length k v p overwrite kv2 =
      ⟨kv2.key, Function.update kv2.value p (if overwrite then v else -1)⟩ := by
    unfold written_slot
    rw [if_neg hne]
  rw [hws] at hitems
  have hnew : (insert_at ht k v p overwrite pos).items[pos]? =
      some ⟨kv2.key, Function.update kv2.value p (if overwrite then v else -1)⟩ := by
    rw [hitems, List.getElem?_set_self hposlt]
  have hstop' : ProbeStops (insert_at ht k v p overwrite pos) k p (probe_start ht k) t := by
    refine ⟨fun s hs => ?_, _, by rw [hlen]; exact hnew, Or.inr (by rw [hkl]; exact hmatch)⟩
    obtain ⟨kv', hkv', hv', hm'⟩ := hpre s hs
    refine ⟨kv', ?_, hv', by rw [hkl]; exact hm'⟩
    rw [hlen, hitems, List.getElem?_set_ne ?_]
    · exact hkv'
    · intro heq
      have hmod : (probe_start ht k + t) % ht.items.length
          = (probe_start ht k + s) % ht.items.length := heq
      have := Nat.ModEq.add_left_cancel' (probe_start ht k) hmod
      have h1 : t % ht.items.length = t := Nat.mod_eq_of_lt ht_lt
      have h2 : s % ht.items.length = s := Nat.mod_eq_of_lt (by omega)
      unfold Nat.ModEq at this
      omega
  refine ⟨insert_at ht k v p overwrite pos,
    insert_loop_of_stops ht k v p overwrite t _ _ ht_lt (le_of_lt hstart) ⟨hpre, kv2, hkv, hcond⟩,
    hitems, hkl, by rw [probe_start_insert_at]; exact hstop',
    by rw [probe_start_insert_at, hlen]; exact hnew, ?_⟩
  unfold hash_table_lookup bc_hash_table.num_slots
  rw [probe_start_insert_at, lookup_loop_of_stops _ k p t _ _ (by rw [hlen]; exact ht_lt)
    (by rw [hlen]; exact le_of_lt hstart) hstop', hlen, hnew]
  simp

/-- Claim C29: when the lookup of `k` for pool `p` returns a non-zero value,
`hash_table_insert(k, v, p, overwrite = false)` returns a table in which the
lookup returns -1, every slot keeps its key and its value for the other pool;
a second such insert keeps -1, and an insert with `overwrite = true` after it
makes the lookup return the new value. -/
theorem ambiguity_marking (ht : bc_hash_table) (k : List Nat) (p : Fin 2) (v w v0 : Int)
    (h : hash_table_lookup ht k p = some v0) (hv0 : v0 ≠ 0) :
    ∃ ht1, hash_table_insert ht k v p false = some ht1 ∧
      hash_table_lookup ht1 k p = some (-1) ∧
      ht1.items.length = ht.items.length ∧
      (∀ (i : Nat) (kv : hash_kv), ht.items[i]? = some kv →
        ∃ kv1, ht1.items[i]? = some kv1 ∧ kv1.key = kv.key ∧
          ∀ q : Fin 2, q ≠ p → kv1.value q = kv.value q) ∧
      ∃ ht2, hash_table_insert ht1 k v p false = some ht2 ∧
        hash_table_lookup ht2 k p = some (-1) ∧
        ∃ ht3, hash_table_insert ht2 k w p true = some ht3 ∧
          hash_table_lookup ht3 k p = some w := by
  have hn : 0 < ht.items.length := by
    rcases Nat.eq_zero_or_pos ht.items.length with h0 | h0
    · unfold hash_table_lookup bc_hash_table.num_slots at h
      rw [h0] at h
      simp [lookup_loop] at h
    · exact h0
  obtain ⟨t, ht_lt, hstop, kv, hkv, hval⟩ := lookup_loop_nonzero_stops ht k p _ _ v0
    (le_of_lt (probe_start_lt ht k hn)) h hv0
  have ht_lt' : t < ht.items.length := ht_lt
  have hne : kv.value p ≠ 0 := by rw [hval]; exact hv0
  obtain ⟨ht1, hins1, hitems1, hkl1, hstop1, hkv1, hlook1⟩ :=
    insert_of_stored ht k p t kv v false ht_lt' hstop hkv hne
  have hlen1 : ht1.items.length = ht.items.length := by rw [hitems1, List.length_set]
  have hne1 : (⟨kv.key, Function.update kv.value p (if false = true then v else -1)⟩ :
      hash_kv).value p ≠ 0 := by simp
  obtain ⟨ht2, hins2, hitems2, hkl2, hstop2, hkv2, hlook2⟩ :=
    insert_of_stored ht1 k p t _ v false (by rw [hlen1]; exact ht_lt') hstop1 hkv1 hne1
  have hlen2 : ht2.items.length = ht1.items.length := by rw [hitems2, List.length_set]
  have hne2 : (⟨kv.key, Function.update (Function.update kv.value p
      (if false = true then v else -1)) p (if false = true then v else -1)⟩ :
      hash_kv).value p ≠ 0 := by simp
  obtain ⟨ht3, hins3, -, -, -, -, hlook3⟩ :=
    insert_of_stored ht2 k p t _ w true (by rw [hlen2, hlen1]; exact ht_lt') hstop2 hkv2 hne2
  refine ⟨ht1, hins1, by simpa using hlook1, hlen1, fun i kv' hi => ?_, ht2, hins2,
    by simpa using hlook2, ht3, hins3, by simpa using hlook3⟩
  rw [hitems1]
  by_cases hpos : (probe_start ht k + t) % ht.items.length = i
  · subst hpos
    have e : kv' = kv := by rw [hkv] at hi; exact (Option.some.inj hi).symm
    subst e
    refine ⟨_, List.getElem?_set_self (Nat.mod_lt _ hn), rfl, fun q hq => ?_⟩
    exact Function.update_noteq hq _ _
  · exact ⟨kv', by rw [List.getElem?_set_ne hpos]; exact hi, rfl, fun _ _ => rfl⟩

set_option maxRecDepth 100000 in
/-- Witness of claim C29: the table of four slots that holds `GGATCG` for
pool 1 under the value 1. -/
theorem ambiguity_marking_witness :
    ∃ t, ((init_hash_table 2).bind fun t => hash_table_insert t bc_GGATCG 1 0 true) = some t ∧
      hash_table_lookup t bc_GGATCG 0 = some 1 ∧
      ∃ ht1, hash_table_insert t bc_GGATCG 1 0 false = some ht1 ∧
        hash_table_lookup ht1 bc_GGATCG 0 = some (-1) ∧
        ht1.items.length = t.items.length ∧
        (∀ (i : Nat) (kv : hash_kv), t.items[i]? = some kv →
          ∃ kv1, ht1.items[i]? = some kv1 ∧ kv1.key = kv.key ∧
            ∀ q : Fin 2, q ≠ 0 → kv1.value q = kv.value q) ∧
        ∃ ht2, hash_table_insert ht1 bc_GGATCG 1 0 false = some ht2 ∧
          hash_table_lookup ht2 bc_GGATCG 0 = some (-1) ∧
          ∃ ht3, hash_table_insert ht2 bc_GGATCG 5 0 true = some ht3 ∧
            hash_table_lookup ht3 bc_GGATCG 0 = some 5 := by
  have hs : (((init_hash_table 2).bind fun t => hash_table_insert t bc_GGATCG 1 0 true)).isSome
      = true := by decide
  obtain ⟨t, ht⟩ := Option.isSome_iff_exists.mp hs
  have hl : hash_table_lookup t bc_GGATCG 0 = some 1 := by
    have h : (((init_hash_table 2).bind fun t => hash_table_insert t bc_GGATCG 1 0 true).bind
        fun t => hash_table_lookup t bc_GGATCG 0) = some 1 := by decide
    rw [ht] at h; exact h
  exact ⟨t, ht, hl, ambiguity_marking t bc_GGATCG 0 1 5 1 hl (by decide)⟩

/-! ## The candidate bound `calc_num_combos`: claim C21 -/

theorem uint_pow_loop_spec : ∀ (fuel base exponent value : Nat), exponent < 2 ^ fuel →
    value < 2 ^ 64 →
    uint_pow_loop fuel base exponent value = value * base ^ exponent % 2 ^ 64 := by
  intro fuel
  induction fuel with
  | zero =>
    intro base exponent value he hv
    have : exponent = 0 := by simpa using he
    subst this
    rw [uint_pow_loop, pow_zero, mul_one, Nat.mod_eq_of_lt hv]
  | succ fuel ih =>
    intro base exponent value he hv
    unfold uint_pow_loop
    by_cases h0 : exponent > 0
    · rw [if_pos h0]
      have he2 : exponent / 2 < 2 ^ fuel := by
        rw [Nat.div_lt_iff_lt_mul (by norm_num)]
        rw [pow_succ] at he
        exact he
      have hv' : (if exponent % 2 = 1 then value * base % 2 ^ 64 else value) < 2 ^ 64 := by
        split_ifs
        · exact Nat.mod_lt _ (by norm_num)
        · exact hv
      rw [ih _ _ _ he2 hv']
      have hsplit : base ^ exponent = base ^ (exponent % 2) * (base * base) ^ (exponent / 2) := by
        rw [← pow_two, ← pow_mul, ← pow_add, Nat.mod_add_div]
      rw [hsplit]
      have hb : (base * base % 2 ^ 64) ^ (exponent / 2) % 2 ^ 64 =
          (base * base) ^ (exponent / 2) % 2 ^ 64 := by
        rw [Nat.pow_mod, Nat.mod_mod, ← Nat.pow_mod]
      by_cases hodd : exponent % 2 = 1
      · rw [if_pos hodd, hodd, pow_one, Nat.mul_mod, Nat.mod_mod, hb, ← Nat.mul_mod, Nat.mul_assoc]
      · have hev : exponent % 2 = 0 := by omega
        rw [if_neg hodd, hev, pow_zero, one_mul, Nat.mul_mod, hb, ← Nat.mul_mod]
    · rw [if_neg h0]
      have : exponent = 0 := by omega
      subst this
      rw [pow_zero, mul_one, Nat.mod_eq_of_lt hv]

theorem uint_pow_eq (base exponent : Nat) (he : exponent < 2 ^ 64) :
    uint_pow base exponent = base ^ exponent % 2 ^ 64 := by
  unfold uint_pow
  rw [uint_pow_loop_spec 64 base exponent 1 he (by norm_num), one_mul]

theorem uint_pow_four (k : Nat) (hk : k < 32) : uint_pow 4 k = 4 ^ k := by
  rw [uint_pow_eq 4 k (lt_of_lt_of_le hk (by norm_num))]
  apply Nat.mod_eq_of_lt
  calc 4 ^ k ≤ 4 ^ 31 := Nat.pow_le_pow_right (by norm_num) (by omega)
    _ < 2 ^ 64 := by norm_num

theorem factorial_eq (n : Nat) (hn : n ≤ 20) : factorial n = n.factorial := by
  revert n
  unfold factorial
  decide

theorem n_choose_k_eq (n k : Nat) (hn : n ≤ 20) (hk : k ≤ n) : n_choose_k n k = n.choose k := by
  unfold n_choose_k
  have e1 : (n + 2 ^ 32 - k) % 2 ^ 32 = n - k := by omega
  rw [e1, factorial_eq n hn, factorial_eq k (by omega), factorial_eq (n - k) (by omega)]
  have hdvd := Nat.factorial_mul_factorial_dvd_factorial hk
  have hle : k.factorial * (n - k).factorial ≤ n.factorial :=
    Nat.le_of_dvd (Nat.factorial_pos _) hdvd
  have h20 : n.factorial ≤ (20).factorial := Nat.factorial_le hn
  have hlt : (20 : Nat).factorial < 2 ^ 64 := by decide
  rw [Nat.mod_eq_of_lt (by omega), Nat.choose_eq_factorial_div_factorial hk]

theorem combos_sum_le (bc_len m : Nat) (hm : m ≤ bc_len) : combos_sum bc_len m ≤ 5 ^ bc_len := by
  unfold combos_sum
  have hbin : (∑ k ∈ Finset.range (bc_len + 1), bc_len.choose k * 4 ^ k) = 5 ^ bc_len := by
    have := add_pow (4 : Nat) 1 bc_len
    simp at this
    rw [show (5 : Nat) = 4 + 1 by norm_num, this]
    apply Finset.sum_congr rfl
    intro k _
    ring
  rw [← hbin]
  apply Finset.sum_le_sum_of_subset
  intro k hk
  rw [Finset.mem_Icc] at hk
  rw [Finset.mem_range]
  omega

theorem combos_sum_succ (bc_len m : Nat) :
    combos_sum bc_len (m + 1) = combos_sum bc_len m + bc_len.choose (m + 1) * 4 ^ (m + 1) := by
  unfold combos_sum
  rw [Finset.sum_Icc_succ_top (by omega)]

theorem combos_loop_eq (bc_len m : Nat) (hlen : bc_len ≤ 20) (hm : m ≤ bc_len) :
    forLoop (fun k total =>
      (total + (uint_pow 4 k * n_choose_k bc_len k) % 2 ^ 64) % 2 ^ 64) m 1 0 =
      combos_sum bc_len m := by
  have h := forLoop_induction
    (fun k total => (total + (uint_pow 4 k * n_choose_k bc_len k) % 2 ^ 64) % 2 ^ 64)
    (fun j total => total = combos_sum bc_len (j - 1)) m 1 0
    (by simp [combos_sum])
    (fun i total hi hil hP => by
      obtain ⟨j, rfl⟩ : ∃ j, i = j + 1 := ⟨i - 1, by omega⟩
      simp only [Nat.add_sub_cancel] at hP ⊢
      rw [hP, uint_pow_four (j + 1) (by omega), n_choose_k_eq bc_len (j + 1) hlen (by omega),
        combos_sum_succ]
      have hb := combos_sum_le bc_len (j + 1) (by omega)
      rw [combos_sum_succ] at hb
      have h5 : 5 ^ bc_len ≤ 5 ^ 20 := Nat.pow_le_pow_right (by norm_num) hlen
      have h520 : (5 : Nat) ^ 20 < 2 ^ 64 := by norm_num
      rw [Nat.mul_comm (4 ^ (j + 1))]
      rw [Nat.mod_eq_of_lt (a := bc_len.choose (j + 1) * 4 ^ (j + 1)) (by omega),
        Nat.mod_eq_of_lt (by omega)])
  simpa using h

/-- Claim C21: for `len ≤ 20` and `1 ≤ m < len`, when the product of `n` and
the sum over `k = 1..m` of `C(len, k) * 4 ^ k` fits 64 bits,
`calc_num_combos(len, n, m)` is the smaller of that product and `4 ^ len`;
with `m = 0` it returns `n`; `calc_num_combos(6, 1, 0)` is 1 and
`calc_num_combos(6, 48, 1)` is `min(48 * 6 * 4, 4 ^ 6) = 1152`. -/
theorem calc_num_combos_formula (len n m : Nat) (hlen : len ≤ 20) (hm1 : 1 ≤ m) (hm : m < len)
    (hfit : n * combos_sum len m < 2 ^ 64) :
    calc_num_combos len n m = min (n * combos_sum len m) (4 ^ len) ∧
    calc_num_combos len n 0 = n ∧
    calc_num_combos 6 1 0 = 1 ∧
    calc_num_combos 6 48 1 = min (48 * 6 * 4) (4 ^ 6) ∧ min (48 * 6 * 4) (4 ^ 6) = 1152 := by
  refine ⟨?_, by simp [calc_num_combos], by decide, by decide, by decide⟩
  unfold calc_num_combos
  rw [if_neg (by omega)]
  simp only
  rw [combos_loop_eq len m hlen (le_of_lt hm), uint_pow_four len (by omega),
    Nat.mul_comm (combos_sum len m) n, Nat.mod_eq_of_lt hfit]
  by_cases hgt : n * combos_sum len m > 4 ^ len
  · rw [if_pos hgt, min_eq_right (le_of_lt hgt)]
  · rw [if_neg hgt, min_eq_left (by omega)]

/-- Witness of claim C21: `len = 6`, `n = 48` and `m = 1`. -/
theorem calc_num_combos_formula_witness :
    calc_num_combos 6 48 1 = min (48 * combos_sum 6 1) (4 ^ 6) ∧
    calc_num_combos 6 48 0 = 48 ∧
    calc_num_combos 6 1 0 = 1 ∧
    calc_num_combos 6 48 1 = min (48 * 6 * 4) (4 ^ 6) ∧ min (48 * 6 * 4) (4 ^ 6) = 1152 :=
  calc_num_combos_formula 6 48 1 (by decide) (by decide) (by decide) (by decide)

/-! ## The enumeration `generate_all_bc_combos`: claims C23 and C24 -/

theorem getD_set_rows (l : List (List Nat)) (i : Nat) (a : List Nat) (n : Nat) (hi : i < l.length) :
    (l.set i a).getD n [] = if n = i then a else l.getD n [] := by
  rw [List.getD_eq_getElem?_getD, List.getD_eq_getElem?_getD, List.getElem?_set]
  by_cases h : i = n
  · subst h
    simp [hi]
  · rw [if_neg h, if_neg (fun e => h e.symm)]

theorem forLoop_set_rows (g : Nat → List (List Nat) → List Nat) (b N : Nat)
    (out0 : List (List Nat)) (hb : b + N ≤ out0.length) (G : Nat → List Nat)
    (hg : ∀ k out, k < N → out.length = out0.length →
      (∀ n, ¬ (b ≤ n ∧ n < b + k) → out.getD n [] = out0.getD n []) → g k out = G k) :
    (forLoop (fun k out => out.set (b + k) (g k out)) N 0 out0).length = out0.length ∧
    ∀ n, (forLoop (fun k out => out.set (b + k) (g k out)) N 0 out0).getD n [] =
      if b ≤ n ∧ n < b + N then G (n - b) else out0.getD n [] := by
  have h := forLoop_induction (fun k out => out.set (b + k) (g k out))
    (fun k out => out.length = out0.length ∧
      ∀ n, out.getD n [] = if b ≤ n ∧ n < b + k then G (n - b) else out0.getD n [])
    N 0 out0 ⟨rfl, fun n => by rw [if_neg (by omega)]⟩
    (fun k out _ hk hP => by
      have hk' : k < N := by omega
      refine ⟨by rw [List.length_set]; exact hP.1, fun n => ?_⟩
      rw [getD_set_rows _ _ _ _ (by rw [hP.1]; omega)]
      have hgk := hg k out hk' hP.1 (fun n hn => by rw [hP.2 n, if_neg hn])
      by_cases hn : n = b + k
      · subst hn
        rw [if_pos rfl, if_pos ⟨by omega, by omega⟩, hgk, Nat.add_sub_cancel_left]
      · rw [if_neg hn, hP.2 n]
        by_cases hr : b ≤ n ∧ n < b + k
        · rw [if_pos hr, if_pos ⟨hr.1, by omega⟩]
        · rw [if_neg hr, if_neg (by omega)])
  simpa using h

theorem getD_flatMap_block {α β : Type} (f : α → List β) (N : Nat) (d : β) (x0 : α) :
    ∀ (l : List α), (∀ x ∈ l, (f x).length = N) → ∀ j k, k < N → j < l.length →
      (l.flatMap f).getD (j * N + k) d = (f (l.getD j x0)).getD k d := by
  intro l
  induction l with
  | nil => intro _ j k _ hj; simp at hj
  | cons x rest ih =>
    intro hlen j k hk hj
    rw [List.flatMap_cons]
    cases j with
    | zero =>
      rw [Nat.zero_mul, Nat.zero_add, List.getD_append _ _ _ _ (by
        rw [hlen x (List.mem_cons_self _ _)]; exact hk)]
      rfl
    | succ j =>
      have hx := hlen x (List.mem_cons_self _ _)
      rw [List.getD_append_right _ _ _ _ (by rw [hx, Nat.succ_mul]; omega), hx]
      have e : (j + 1) * N + k - N = j * N + k := by rw [Nat.succ_mul]; omega
      rw [e, ih (fun y hy => hlen y (List.mem_cons_of_mem _ hy)) j k hk
        (by simpa using hj)]
      rfl

theorem getD_map_lt {α β : Type} (f : α → β) (l : List α) (k : Nat) (d : β) (d' : α)
    (hk : k < l.length) : (l.map f).getD k d = f (l.getD k d') := by
  rw [List.getD_eq_getElem?_getD, List.getD_eq_getElem?_getD, List.getElem?_map,
    List.getElem?_eq_getElem hk]
  rfl

theorem all_strings_length (n : Nat) : (all_strings n).length = 4 ^ n := by
  induction n with
  | zero => rfl
  | succ n ih =>
    simp only [all_strings, bases, List.flatMap_cons, List.flatMap_nil, List.length_append,
      List.length_map, ih, List.length_nil]
    rw [pow_succ]
    omega

theorem all_strings_mem (n : Nat) (s : List Nat) :
    s ∈ all_strings n ↔ s.length = n ∧ ∀ c ∈ s, c ∈ bases := by
  induction n generalizing s with
  | zero =>
    simp only [all_strings, List.mem_singleton]
    constructor
    · rintro rfl; simp
    · rintro ⟨h, -⟩; exact List.length_eq_zero.mp h
  | succ n ih =>
    simp only [all_strings, List.mem_flatMap, List.mem_map]
    constructor
    · rintro ⟨c, hc, s', hs', rfl⟩
      obtain ⟨h1, h2⟩ := (ih s').mp hs'
      refine ⟨by simp [h1], fun x hx => ?_⟩
      rcases List.mem_cons.mp hx with rfl | hx
      · exact hc
      · exact h2 x hx
    · rintro ⟨hl, hall⟩
      cases s with
      | nil => simp at hl
      | cons c s' =>
        exact ⟨c, hall c (List.mem_cons_self _ _), s',
          (ih s').mpr ⟨by simpa using hl, fun x hx => hall x (List.mem_cons_of_mem _ hx)⟩, rfl⟩

theorem all_strings_getD (n m : Nat) (hm : m < 4 ^ (n + 1)) :
    (all_strings (n + 1)).getD m [] =
      bases.getD (m / 4 ^ n) 0 :: (all_strings n).getD (m % 4 ^ n) [] := by
  have hpos : 0 < 4 ^ n := pow_pos (by norm_num) n
  have hdiv : m / 4 ^ n < 4 := by
    rw [Nat.div_lt_iff_lt_mul hpos, Nat.mul_comm, ← pow_succ]
    exact hm
  have hsplit : m = m / 4 ^ n * 4 ^ n + m % 4 ^ n := by
    rw [Nat.mul_comm]; exact (Nat.div_add_mod m (4 ^ n)).symm
  rw [all_strings]
  conv_lhs => rw [hsplit]
  rw [getD_flatMap_block _ (4 ^ n) [] 0 bases
    (fun x _ => by rw [List.length_map, all_strings_length]) _ _ (Nat.mod_lt _ hpos) hdiv]
  exact getD_map_lt _ _ _ _ _ (by rw [all_strings_length]; exact Nat.mod_lt _ hpos)

theorem div_mod_block (P j n : Nat) (hP : 0 < P) (h1 : j * P ≤ n) (h2 : n < j * P + P) :
    n / P = j ∧ n % P = n - j * P := by
  obtain ⟨r, rfl⟩ := Nat.exists_eq_add_of_le h1
  have hr : r < P := by omega
  constructor
  · rw [Nat.mul_comm j P, Nat.mul_add_div hP, Nat.div_eq_of_lt hr]; rfl
  · rw [Nat.mul_comm j P, Nat.mul_add_mod, Nat.mod_eq_of_lt hr]; omega

theorem cstr_append_nul (s rest : List Nat) (h : ∀ c ∈ s, c ≠ 0) : cstr (s ++ 0 :: rest) = s := by
  unfold cstr
  rw [List.takeWhile_append_of_pos (by intro c hc; simpa using h c hc)]
  simp

theorem copy_suffix_zero_row (len i : Nat) (s : List Nat) (hi : i ≤ len) (hs : s.length = i)
    (hnz : ∀ c ∈ s, c ≠ 0) :
    copy_suffix (List.replicate (len + 1) 0) (List.replicate (len - i) 0 ++ s ++ [0]) (len - i) i =
      List.replicate (len - i) 0 ++ s ++ [0] := by
  unfold copy_suffix
  have h1 : (List.replicate (len + 1) 0).take (len - i) = List.replicate (len - i) (0 : Nat) := by
    rw [List.take_replicate, Nat.min_eq_left (by omega)]
  have h2 : (List.replicate (len + 1) 0).drop (len - i + i) = [(0 : Nat)] := by
    rw [List.drop_replicate]
    have : len + 1 - (len - i + i) = 1 := by omega
    rw [this]; rfl
  have h3 : (List.replicate (len - i) 0 ++ s ++ [0]).drop (len - i) = s ++ [0] := by
    rw [List.append_assoc]
    exact List.drop_left' (by simp)
  have h4 : strncpy (s ++ [0]) i = s := by
    unfold strncpy
    rw [cstr_append_nul s [] hnz, List.take_of_length_le (by omega), hs, Nat.sub_self]
    simp
  rw [h1, h2, h3, h4]

theorem set_row_prepend (len i c : Nat) (s : List Nat) (hi : i < len) :
    (List.replicate (len - i) 0 ++ s ++ [0]).set (len - i - 1) c =
      List.replicate (len - (i + 1)) 0 ++ (c :: s) ++ [0] := by
  have e : len - i = (len - (i + 1)) + 1 := by omega
  have e2 : len - i - 1 = len - (i + 1) := by omega
  rw [e2, e, List.replicate_succ', List.append_assoc, List.append_assoc,
    List.set_append_right _ _ (by simp)]
  simp

theorem all_strings_getD_mem (i m : Nat) (hm : m < 4 ^ i) :
    (all_strings i).getD m [] ∈ all_strings i := by
  have h : m < (all_strings i).length := by rw [all_strings_length]; exact hm
  rw [List.getD_eq_getElem _ _ h]
  exact List.getElem_mem h

theorem bases_ne_zero (c : Nat) (hc : c ∈ bases) : c ≠ 0 := by
  simp only [bases, chA, chT, chG, chC, List.mem_cons, List.mem_singleton, List.mem_nil_iff,
    or_false] at hc
  omega

theorem combos_copy_phase (len i P : Nat) (R : List (List Nat)) (hR : 4 * P ≤ R.length) :
    (forLoop (fun j out => forLoop (fun k out =>
      out.set (j * P + k)
        (copy_suffix (out.getD (j * P + k) []) (out.getD k []) (len - i) i))
      P 0 out) 3 1 R).length = R.length ∧
    ∀ n, (forLoop (fun j out => forLoop (fun k out =>
      out.set (j * P + k)
        (copy_suffix (out.getD (j * P + k) []) (out.getD k []) (len - i) i))
      P 0 out) 3 1 R).getD n [] =
      if P ≤ n ∧ n < 4 * P then copy_suffix (R.getD n []) (R.getD (n % P) []) (len - i) i
      else R.getD n [] := by
  have h := forLoop_induction (fun j out => forLoop (fun k out =>
      out.set (j * P + k)
        (copy_suffix (out.getD (j * P + k) []) (out.getD k []) (len - i) i))
      P 0 out)
    (fun j out => out.length = R.length ∧
      ∀ n, out.getD n [] =
        if P ≤ n ∧ n < j * P then copy_suffix (R.getD n []) (R.getD (n % P) []) (len - i) i
        else R.getD n [])
    3 1 R ⟨rfl, fun n => by rw [if_neg (by omega)]⟩
    (fun j out hj1 hj4 hQ => by
      have hjP : P ≤ j * P := Nat.le_mul_of_pos_left P (by omega)
      have hj4P : j * P + P ≤ 4 * P := by
        have : (j + 1) * P ≤ 4 * P := Nat.mul_le_mul_right P (by omega)
        rw [Nat.succ_mul] at this
        exact this
      have hs := forLoop_set_rows
        (fun k out => copy_suffix (out.getD (j * P + k) []) (out.getD k []) (len - i) i)
        (j * P) P out (by rw [hQ.1]; omega)
        (fun k => copy_suffix (R.getD (j * P + k) []) (R.getD k []) (len - i) i)
        (fun k out2 hk hl hag => by
          show copy_suffix (out2.getD (j * P + k) []) (out2.getD k []) (len - i) i = _
          rw [hag (j * P + k) (by omega), hag k (by omega), hQ.2 (j * P + k), hQ.2 k,
            if_neg (by omega), if_neg (by omega)])
      refine ⟨hs.1.trans hQ.1, fun n => ?_⟩
      rw [hs.2 n, Nat.succ_mul]
      by_cases hn : j * P ≤ n ∧ n < j * P + P
      · have hP : 0 < P := by omega
        obtain ⟨-, hm⟩ := div_mod_block P j n hP hn.1 hn.2
        rw [if_pos hn, if_pos ⟨by omega, hn.2⟩, hm]
        show copy_suffix (R.getD (j * P + (n - j * P)) []) (R.getD (n - j * P) []) _ _ = _
        rw [Nat.add_sub_cancel' hn.1]
      · rw [if_neg hn, hQ.2 n]
        by_cases hr : P ≤ n ∧ n < j * P
        · rw [if_pos hr, if_pos ⟨hr.1, by omega⟩]
        · rw [if_neg hr, if_neg (by omega)])
  exact h

theorem combos_set_phase (pos P : Nat) (R : List (List Nat)) (hP : 0 < P)
    (hR : 4 * P ≤ R.length) :
    (forLoop (fun j out => forLoop (fun k out =>
      out.set (j * P + k) ((out.getD (j * P + k) []).set pos (bases.getD j 0)))
      P 0 out) 4 0 R).length = R.length ∧
    ∀ n, (forLoop (fun j out => forLoop (fun k out =>
      out.set (j * P + k) ((out.getD (j * P + k) []).set pos (bases.getD j 0)))
      P 0 out) 4 0 R).getD n [] =
      if n < 4 * P then (R.getD n []).set pos (bases.getD (n / P) 0) else R.getD n [] := by
  have h := forLoop_induction (fun j out => forLoop (fun k out =>
      out.set (j * P + k) ((out.getD (j * P + k) []).set pos (bases.getD j 0)))
      P 0 out)
    (fun j out => out.length = R.length ∧
      ∀ n, out.getD n [] =
        if n < j * P then (R.getD n []).set pos (bases.getD (n / P) 0) else R.getD n [])
    4 0 R ⟨rfl, fun n => by rw [if_neg (by omega)]⟩
    (fun j out _ hj4 hQ => by
      have hj4P : j * P + P ≤ 4 * P := by
        have : (j + 1) * P ≤ 4 * P := Nat.mul_le_mul_right P (by omega)
        rw [Nat.succ_mul] at this
        exact this
      have hs := forLoop_set_rows
        (fun k out => (out.getD (j * P + k) []).set pos (bases.getD j 0))
        (j * P) P out (by rw [hQ.1]; omega)
        (fun k => (R.getD (j * P + k) []).set pos (bases.getD j 0))
        (fun k out2 hk hl hag => by
          show (out2.getD (j * P + k) []).set pos (bases.getD j 0) = _
          rw [hag (j * P + k) (by omega), hQ.2 (j * P + k), if_neg (by omega)])
      refine ⟨hs.1.trans hQ.1, fun n => ?_⟩
      rw [hs.2 n, Nat.succ_mul]
      by_cases hn : j * P ≤ n ∧ n < j * P + P
      · obtain ⟨hd, -⟩ := div_mod_block P j n hP hn.1 hn.2
        rw [if_pos hn, if_pos hn.2, hd]
        show (R.getD (j * P + (n - j * P)) []).set pos _ = _
        rw [Nat.add_sub_cancel' hn.1]
      · rw [if_neg hn, hQ.2 n]
        by_cases hr : n < j * P
        · rw [if_pos hr, if_pos (by omega)]
        · rw [if_neg hr, if_neg (by omega)])
  simpa using h

theorem combos_pass_rows (len i : Nat) (hi : i < len) (h32 : i < 32) (out : List (List Nat))
    (hlen : out.length = 4 ^ len) (h : ∀ n, n < 4 ^ len → out.getD n [] = combos_rows len i n) :
    (combos_pass len i out).length = 4 ^ len ∧
    ∀ n, n < 4 ^ len → (combos_pass len i out).getD n [] = combos_rows len (i + 1) n := by
  have hP : 0 < 4 ^ i := pow_pos (by norm_num) i
  have h4P : 4 * 4 ^ i = 4 ^ (i + 1) := by rw [pow_succ, Nat.mul_comm]
  have hle : 4 ^ (i + 1) ≤ 4 ^ len := Nat.pow_le_pow_right (by norm_num) hi
  unfold combos_pass
  simp only [uint_pow_four i h32]
  obtain ⟨hc1, hc2⟩ := combos_copy_phase len i (4 ^ i) out (by rw [hlen, h4P]; exact hle)
  obtain ⟨hs1, hs2⟩ := combos_set_phase (len - i - 1) (4 ^ i) _ hP
    (by rw [hc1, hlen, h4P]; exact hle)
  refine ⟨by rw [hs1, hc1, hlen], fun n hn => ?_⟩
  rw [hs2 n, hc2 n, h4P]
  unfold combos_rows
  have hrow : ∀ m, m < 4 ^ i → out.getD m [] =
      List.replicate (len - i) 0 ++ (all_strings i).getD m [] ++ [0] := by
    intro m hm
    rw [h m (lt_of_lt_of_le hm (Nat.pow_le_pow_right (by norm_num) (by omega)))]
    unfold combos_rows
    rw [if_pos hm]
  by_cases hn1 : n < 4 ^ (i + 1)
  · rw [if_pos hn1, if_pos hn1, all_strings_getD i n hn1]
    have hmod : n % 4 ^ i < 4 ^ i := Nat.mod_lt _ hP
    have hmem := (all_strings_mem i _).mp (all_strings_getD_mem i (n % 4 ^ i) hmod)
    by_cases hn0 : 4 ^ i ≤ n
    · rw [if_pos ⟨hn0, hn1⟩, h n hn, hrow _ hmod]
      unfold combos_rows
      rw [if_neg (by omega), copy_suffix_zero_row len i _ (by omega) hmem.1
        (fun c hc => bases_ne_zero c (hmem.2 c hc))]
      exact set_row_prepend len i _ _ hi
    · rw [if_neg (fun hh => hn0 hh.1), hrow n (by omega), Nat.mod_eq_of_lt (by omega)]
      exact set_row_prepend len i _ _ hi
  · rw [if_neg hn1, if_neg hn1, if_neg (fun hh => hn1 hh.2), h n hn]
    unfold combos_rows
    rw [if_neg (by omega)]

theorem generate_all_bc_combos_rows (len : Nat) (hlen : len ≤ 32) :
    (generate_all_bc_combos len
      (List.replicate (4 ^ len) (List.replicate (len + 1) 0))).length = 4 ^ len ∧
    ∀ n, n < 4 ^ len →
      (generate_all_bc_combos len
        (List.replicate (4 ^ len) (List.replicate (len + 1) 0))).getD n [] =
        (all_strings len).getD n [] ++ [0] := by
  have h := forLoop_induction (combos_pass len)
    (fun i out => out.length = 4 ^ len ∧ ∀ n, n < 4 ^ len → out.getD n [] = combos_rows len i n)
    len 0 (List.replicate (4 ^ len) (List.replicate (len + 1) 0))
    ⟨by simp, fun n hn => by
      rw [List.getD_eq_getElem _ _ (by simpa using hn), List.getElem_replicate]
      unfold combos_rows
      by_cases h0 : n < 4 ^ 0
      · have : n = 0 := by simpa using h0
        subst this
        rw [if_pos h0, List.replicate_succ', Nat.sub_zero]
        simp [all_strings]
      · rw [if_neg h0]⟩
    (fun i out _ hi hQ => combos_pass_rows len i (by omega) (by omega) out hQ.1 hQ.2)
  rw [Nat.zero_add] at h
  refine ⟨h.1, fun n hn => ?_⟩
  have h2 := h.2 n hn
  unfold combos_rows at h2
  rw [if_pos hn, Nat.sub_self] at h2
  simpa using h2

theorem bases_getD_inj (a b : Nat) (ha : a < 4) (hb : b < 4)
    (h : bases.getD a 0 = bases.getD b 0) : a = b := by
  interval_cases a <;> interval_cases b <;> first | rfl | (exfalso; revert h; decide)

theorem all_strings_getD_inj (len : Nat) : ∀ a b, a < 4 ^ len → b < 4 ^ len →
    (all_strings len).getD a [] = (all_strings len).getD b [] → a = b := by
  induction len with
  | zero =>
    intro a b ha hb _
    have h1 : a = 0 := by simpa using ha
    have h2 : b = 0 := by simpa using hb
    rw [h1, h2]
  | succ n ih =>
    intro a b ha hb h
    have hpos : 0 < 4 ^ n := pow_pos (by norm_num) n
    rw [all_strings_getD n a ha, all_strings_getD n b hb] at h
    have hda : a / 4 ^ n < 4 := by
      rw [Nat.div_lt_iff_lt_mul hpos, Nat.mul_comm, ← pow_succ]; exact ha
    have hdb : b / 4 ^ n < 4 := by
      rw [Nat.div_lt_iff_lt_mul hpos, Nat.mul_comm, ← pow_succ]; exact hb
    injection h with h1 h2
    have e1 := bases_getD_inj _ _ hda hdb h1
    have e2 := ih _ _ (Nat.mod_lt a hpos) (Nat.mod_lt b hpos) h2
    rw [← Nat.div_add_mod a (4 ^ n), ← Nat.div_add_mod b (4 ^ n), e1, e2]

theorem all_strings_digit (len : Nat) : ∀ n i, n < 4 ^ len → i < len →
    ((all_strings len).getD n []).getD (len - 1 - i) 0 = bases.getD (n / 4 ^ i % 4) 0 := by
  induction len with
  | zero => intro n i _ hi; omega
  | succ l ih =>
    intro n i hn hi
    have hpos : 0 < 4 ^ l := pow_pos (by norm_num) l
    rw [all_strings_getD l n hn]
    by_cases hil : i = l
    · subst hil
      have hd : n / 4 ^ i < 4 := by
        rw [Nat.div_lt_iff_lt_mul hpos, Nat.mul_comm, ← pow_succ]; exact hn
      rw [Nat.mod_eq_of_lt hd]
      have : i + 1 - 1 - i = 0 := by omega
      rw [this]
      rfl
    · have hlt : i < l := by omega
      have e : l + 1 - 1 - i = (l - 1 - i) + 1 := by omega
      rw [e, List.getD_cons_succ, ih _ i (Nat.mod_lt n hpos) hlt]
      have hsplit : 4 ^ l = 4 ^ i * (4 * 4 ^ (l - i - 1)) := by
        rw [← pow_succ', ← pow_add]
        congr 1
        omega
      rw [hsplit, Nat.mod_mul_right_div_self, Nat.mod_mul_right_mod]

theorem all_strings_getD_length (len n : Nat) (hn : n < 4 ^ len) :
    ((all_strings len).getD n []).length = len :=
  ((all_strings_mem len _).mp (all_strings_getD_mem len n hn)).1

theorem cstr_all_strings_row (len n : Nat) (hn : n < 4 ^ len) :
    cstr ((all_strings len).getD n [] ++ [0]) = (all_strings len).getD n [] :=
  cstr_append_nul _ [] (fun c hc =>
    bases_ne_zero c (((all_strings_mem len _).mp (all_strings_getD_mem len n hn)).2 c hc))

theorem generate_all_bc_combos_eq (len : Nat) (hlen : len ≤ 32) :
    generate_all_bc_combos len (List.replicate (4 ^ len) (List.replicate (len + 1) 0)) =
      (all_strings len).map fun s => s ++ [0] := by
  obtain ⟨h1, h2⟩ := generate_all_bc_combos_rows len hlen
  apply List.ext_getElem
  · rw [h1, List.length_map, all_strings_length]
  · intro n hn1 hn2
    have hn : n < 4 ^ len := by rw [← h1]; exact hn1
    have h := h2 n hn
    rw [List.getD_eq_getElem _ _ hn1] at h
    rw [h, List.getElem_map, List.getD_eq_getElem _ _ (by rw [all_strings_length]; exact hn)]

/-- Claim C23. On a zeroed array of `4 ^ len` rows of `len + 1` bytes (an
array that large exists for `len ≤ 32` at most, and there `uint_pow(4, i)`
is exact in every pass), `generate_all_bc_combos` leaves `4 ^ len` rows,
each holding a string of length `len` over the alphabet, pairwise distinct,
and every string of length `len` over the alphabet is the string of exactly
one row. -/
theorem exhaustive_enumeration (len : Nat) (hlen : len ≤ 32) :
    (generate_all_bc_combos len
      (List.replicate (4 ^ len) (List.replicate (len + 1) 0))).length = 4 ^ len ∧
    (∀ n, n < 4 ^ len →
      (cstr ((generate_all_bc_combos len
        (List.replicate (4 ^ len) (List.replicate (len + 1) 0))).getD n [])).length = len ∧
      ∀ c ∈ cstr ((generate_all_bc_combos len
        (List.replicate (4 ^ len) (List.replicate (len + 1) 0))).getD n []), c ∈ bases) ∧
    (∀ n m, n < 4 ^ len → m < 4 ^ len →
      cstr ((generate_all_bc_combos len
        (List.replicate (4 ^ len) (List.replicate (len + 1) 0))).getD n []) =
      cstr ((generate_all_bc_combos len
        (List.replicate (4 ^ len) (List.replicate (len + 1) 0))).getD m []) → n = m) ∧
    ∀ s : List Nat, s.length = len → (∀ c ∈ s, c ∈ bases) →
      ∃! n, n < 4 ^ len ∧
        cstr ((generate_all_bc_combos len
          (List.replicate (4 ^ len) (List.replicate (len + 1) 0))).getD n []) = s := by
  obtain ⟨h1, h2⟩ := generate_all_bc_combos_rows len hlen
  have hrow : ∀ n, n < 4 ^ len →
      cstr ((generate_all_bc_combos len
        (List.replicate (4 ^ len) (List.replicate (len + 1) 0))).getD n []) =
      (all_strings len).getD n [] := by
    intro n hn
    rw [h2 n hn, cstr_all_strings_row len n hn]
  refine ⟨h1, fun n hn => ?_, fun n m hn hm h => ?_, fun s hs hall => ?_⟩
  · rw [hrow n hn]
    exact (all_strings_mem len _).mp (all_strings_getD_mem len n hn)
  · rw [hrow n hn, hrow m hm] at h
    exact all_strings_getD_inj len n m hn hm h
  · obtain ⟨n, hn, hget⟩ := List.getElem_of_mem ((all_strings_mem len s).mpr ⟨hs, hall⟩)
    have hn4 : n < 4 ^ len := by rw [← all_strings_length len]; exact hn
    have hs' : (all_strings len).getD n [] = s := by
      rw [List.getD_eq_getElem _ _ hn, hget]
    refine ⟨n, ⟨hn4, by rw [hrow n hn4, hs']⟩, fun m hm => ?_⟩
    have := hm.2
    rw [hrow m hm.1, ← hs'] at this
    exact all_strings_getD_inj len m n hm.1 hn4 this

/-- Witness of claim C23: `len = 6` and the string `GGATCG`. -/
theorem exhaustive_enumeration_witness :
    (generate_all_bc_combos 6
      (List.replicate (4 ^ 6) (List.replicate (6 + 1) 0))).length = 4 ^ 6 ∧
    ∃! n, n < 4 ^ 6 ∧
      cstr ((generate_all_bc_combos 6
        (List.replicate (4 ^ 6) (List.replicate (6 + 1) 0))).getD n []) =
        [chG, chG, chA, chT, chC, chG] :=
  ⟨(exhaustive_enumeration 6 (by decide)).1,
   (exhaustive_enumeration 6 (by decide)).2.2.2 [chG, chG, chA, chT, chC, chG] rfl (by decide)⟩

/-- Claim C24. For `1 ≤ len ≤ 32`, row `n < 4 ^ len` of the array filled by
`generate_all_bc_combos` has at character position `len - 1 - i` the symbol
`bases[(n / 4 ^ i) mod 4]`, with `bases = [A, T, G, C]`; the rows for
`len = 1` are exactly `"A"`, `"T"`, `"G"`, `"C"`, in that order. -/
theorem enumeration_order (len n i : Nat) (hlen : len ≤ 32) (hn : n < 4 ^ len) (hi : i < len) :
    byteAt ((generate_all_bc_combos len
      (List.replicate (4 ^ len) (List.replicate (len + 1) 0))).getD n []) (len - 1 - i) =
      bases.getD (n / 4 ^ i % 4) 0 ∧
    bases = [chA, chT, chG, chC] ∧
    (generate_all_bc_combos 1 (List.replicate (4 ^ 1) (List.replicate (1 + 1) 0))).map cstr =
      [[chA], [chT], [chG], [chC]] := by
  refine ⟨?_, rfl, ?_⟩
  · rw [(generate_all_bc_combos_rows len hlen).2 n hn]
    unfold byteAt
    rw [List.getD_append _ _ _ _ (by rw [all_strings_getD_length len n hn]; omega)]
    exact all_strings_digit len n i hn hi
  · rw [generate_all_bc_combos_eq 1 (by norm_num)]
    decide

/-- Witness of claim C24: `len = 6`, row 27 and `i = 1`, the symbol `G`. -/
theorem enumeration_order_witness :
    byteAt ((generate_all_bc_combos 6
      (List.replicate (4 ^ 6) (List.replicate (6 + 1) 0))).getD 27 []) (6 - 1 - 1) =
      bases.getD (27 / 4 ^ 1 % 4) 0 ∧ bases.getD (27 / 4 ^ 1 % 4) 0 = chG :=
  ⟨(enumeration_order 6 27 1 (by decide) (by decide) (by decide)).1, by decide⟩

/-! ## The candidate bound covers the candidates: claim C22 -/

theorem ball_size_zero_right (len : Nat) : ball_size len 0 = 1 := by
  simp [ball_size]

theorem ball_size_succ_right (len m : Nat) :
    ball_size len (m + 1) = ball_size len m + len.choose (m + 1) * 3 ^ (m + 1) := by
  unfold ball_size
  rw [Finset.sum_range_succ]

theorem ball_size_zero_left (m : Nat) : ball_size 0 m = 1 := by
  induction m with
  | zero => exact ball_size_zero_right 0
  | succ m ih => rw [ball_size_succ_right, ih, Nat.choose_zero_succ, Nat.zero_mul]

theorem ball_size_pascal (len m : Nat) :
    ball_size (len + 1) (m + 1) = ball_size len (m + 1) + 3 * ball_size len m := by
  induction m with
  | zero =>
    rw [ball_size_succ_right, ball_size_succ_right, ball_size_zero_right, ball_size_zero_right]
    simp only [Nat.choose_one_right, zero_add, pow_one]
    ring
  | succ m ih =>
    rw [ball_size_succ_right (len + 1) (m + 1), ih, ball_size_succ_right len (m + 1),
      ball_size_succ_right len m, Nat.choose_succ_succ len (m + 1)]
    ring

theorem ball_size_le_combos_sum (len m : Nat) (hlen : 1 ≤ len) (hm : 1 ≤ m) :
    ball_size len m ≤ combos_sum len m := by
  induction m, hm using Nat.le_induction with
  | base =>
    rw [ball_size_succ_right, ball_size_zero_right, combos_sum_succ]
    simp only [Nat.choose_one_right, zero_add, pow_one, combos_sum]
    simp
    omega
  | succ k _ ih =>
    rw [ball_size_succ_right, combos_sum_succ]
    exact Nat.add_le_add ih
      (Nat.mul_le_mul_left _ (Nat.pow_le_pow_left (by norm_num) _))

theorem mismatches_cons (c d : Nat) (s t : List Nat) (k : Nat) :
    mismatches (c :: s) (d :: t) (k + 1) = (if c ≠ d then 1 else 0) + mismatches s t k := by
  induction k with
  | zero => simp [mismatches, byteAt]
  | succ k ih =>
    rw [mismatches, ih, mismatches, Nat.add_assoc]
    rfl

theorem countP_or_le {α : Type} (p q : α → Bool) (l : List α) :
    l.countP (fun x => p x || q x) ≤ l.countP p + l.countP q := by
  induction l with
  | nil => simp
  | cons x rest ih =>
    rw [List.countP_cons, List.countP_cons, List.countP_cons]
    cases hp : p x <;> cases hq : q x <;> simp <;> omega

theorem countP_any_le {α β : Type} (S : List α) (p : α → β → Bool) (N : Nat) :
    ∀ bs : List β, (∀ b ∈ bs, S.countP (fun s => p s b) ≤ N) →
      S.countP (fun s => bs.any fun b => p s b) ≤ bs.length * N := by
  intro bs
  induction bs with
  | nil => intro _; simp
  | cons b rest ih =>
    intro h
    have h1 := h b (List.mem_cons_self _ _)
    have h2 := ih (fun b hb => h b (List.mem_cons_of_mem _ hb))
    have h3 := countP_or_le (fun s => p s b) (fun s => rest.any fun b => p s b) S
    simp only [List.any_cons, List.length_cons]
    rw [Nat.succ_mul]
    omega

theorem countP_cons_ball (len m c b0 : Nat) (b : List Nat)
    (ih : ∀ m, (all_strings len).countP (fun s => decide (mismatches s b len ≤ m)) ≤
      ball_size len m) :
    (all_strings len).countP
      ((fun s => decide (mismatches s (b0 :: b) (len + 1) ≤ m)) ∘ fun s => c :: s) ≤
      if c = b0 then ball_size len m else if m = 0 then 0 else ball_size len (m - 1) := by
  by_cases hc : c = b0
  · rw [if_pos hc]
    have e : ((fun s => decide (mismatches s (b0 :: b) (len + 1) ≤ m)) ∘ fun s => c :: s) =
        fun s => decide (mismatches s b len ≤ m) := by
      funext s
      show decide (mismatches (c :: s) (b0 :: b) (len + 1) ≤ m) = _
      rw [mismatches_cons, if_neg (by simpa using hc), Nat.zero_add]
    rw [e]
    exact ih m
  · rw [if_neg hc]
    cases m with
    | zero =>
      rw [if_pos rfl]
      apply Nat.le_of_eq
      rw [List.countP_eq_zero]
      intro s _
      show ¬ (decide (mismatches (c :: s) (b0 :: b) (len + 1) ≤ 0) = true)
      rw [mismatches_cons, if_pos hc]
      simp
    | succ m =>
      rw [if_neg (by omega), Nat.add_sub_cancel]
      have e : ((fun s => decide (mismatches s (b0 :: b) (len + 1) ≤ m + 1)) ∘
          fun s => c :: s) = fun s => decide (mismatches s b len ≤ m) := by
        funext s
        show decide (mismatches (c :: s) (b0 :: b) (len + 1) ≤ m + 1) = _
        rw [mismatches_cons, if_pos hc]
        apply decide_eq_decide.mpr
        omega
      rw [e]
      exact ih m

theorem countP_ball_le (len : Nat) : ∀ (m : Nat) (b : List Nat), b.length = len →
    (∀ c ∈ b, c ∈ bases) →
    (all_strings len).countP (fun s => decide (mismatches s b len ≤ m)) ≤ ball_size len m := by
  induction len with
  | zero =>
    intro m b _ _
    rw [ball_size_zero_left]
    exact le_trans (List.countP_le_length _) (by simp [all_strings])
  | succ len ih =>
    intro m b hb hall
    cases b with
    | nil => simp at hb
    | cons b0 b =>
      have ihb : ∀ m, (all_strings len).countP (fun s => decide (mismatches s b len ≤ m)) ≤
          ball_size len m :=
        fun m => ih m b (by simpa using hb) (fun c hc => hall c (List.mem_cons_of_mem _ hc))
      have hA := countP_cons_ball len m chA b0 b ihb
      have hT := countP_cons_ball len m chT b0 b ihb
      have hG := countP_cons_ball len m chG b0 b ihb
      have hC := countP_cons_ball len m chC b0 b ihb
      have hb0 : b0 ∈ bases := hall b0 (List.mem_cons_self _ _)
      simp only [all_strings, bases, List.flatMap_cons, List.flatMap_nil, List.append_nil,
        List.countP_append, List.countP_map]
      have hrec : ball_size len m + 3 * (if m = 0 then 0 else ball_size len (m - 1)) =
          ball_size (len + 1) m := by
        cases m with
        | zero => rw [if_pos rfl, ball_size_zero_right, ball_size_zero_right]
        | succ m => rw [if_neg (by omega), Nat.add_sub_cancel, ball_size_pascal]
      rw [← hrec]
      simp only [bases, List.mem_cons, List.mem_singleton, List.mem_nil_iff, or_false] at hb0
      rcases hb0 with h | h | h | h <;> subst h <;>
        simp only [chA, chT, chG, chC, if_true, if_false, Nat.reduceEqDiff] at hA hT hG hC <;>
        simp only [chA, chT, chG, chC] <;> omega

theorem calc_num_combos_min (len n m : Nat) (hlen : len ≤ 20) (hm1 : 1 ≤ m) (hm : m < len)
    (hfit : n * combos_sum len m < 2 ^ 64) :
    calc_num_combos len n m = min (n * combos_sum len m) (4 ^ len) := by
  unfold calc_num_combos
  rw [if_neg (by omega)]
  simp only
  rw [combos_loop_eq len m hlen (le_of_lt hm), uint_pow_four len (by omega),
    Nat.mul_comm (combos_sum len m) n, Nat.mod_eq_of_lt hfit]
  by_cases hgt : n * combos_sum len m > 4 ^ len
  · rw [if_pos hgt, min_eq_right (le_of_lt hgt)]
  · rw [if_neg hgt, min_eq_left (by omega)]

theorem countP_candidates_le (len m : Nat) (barcodes : List (List Nat)) (hlen : len ≤ 20)
    (hm : m < len) (hbc : ∀ b ∈ barcodes, b.length = len ∧ ∀ c ∈ b, c ∈ bases)
    (hfit : barcodes.length * combos_sum len m < 2 ^ 64) :
    (all_strings len).countP
      (fun s => barcodes.any fun b => decide (hamming_distance s b len ≤ m)) ≤
      calc_num_combos len barcodes.length m := by
  have h32 : len < 2 ^ 32 := lt_of_le_of_lt hlen (by norm_num)
  have hball : (all_strings len).countP
      (fun s => barcodes.any fun b => decide (hamming_distance s b len ≤ m)) ≤
      barcodes.length * ball_size len m :=
    countP_any_le (all_strings len) (fun s b => decide (hamming_distance s b len ≤ m))
      (ball_size len m) barcodes (fun b hb => by
        have e : (fun s => decide (hamming_distance s b len ≤ m)) =
            fun s => decide (mismatches s b len ≤ m) := by
          funext s
          rw [hamming_distance_eq_mismatches s b len h32]
        show (all_strings len).countP (fun s => decide (hamming_distance s b len ≤ m)) ≤ _
        rw [e]
        exact countP_ball_le len m b (hbc b hb).1 (hbc b hb).2)
  have hall : (all_strings len).countP
      (fun s => barcodes.any fun b => decide (hamming_distance s b len ≤ m)) ≤ 4 ^ len := by
    rw [← all_strings_length len]
    exact List.countP_le_length _
  by_cases hm0 : m = 0
  · subst hm0
    rw [ball_size_zero_right, Nat.mul_one] at hball
    simpa [calc_num_combos] using hball
  · rw [calc_num_combos_min len _ m hlen (by omega) hm hfit]
    exact le_min (le_trans hball
      (Nat.mul_le_mul_left _ (ball_size_le_combos_sum len m (by omega) (by omega)))) hall

/-- Claim C22. For `len ≤ 20`, barcodes of length `len` over the alphabet and
`m < len`, when the product of the number of barcodes and the sum over
`k = 1..m` of `C(len, k) * 4 ^ k` fits 64 bits, the strings of length `len`
over the alphabet within Hamming distance `m` of at least one barcode number
at most `calc_num_combos(len, n, m)`: so does the sublist of them in the list
of all strings, and so does every list of pairwise distinct ones. -/
theorem calc_num_combos_bounds_candidates (len m : Nat) (barcodes candidates : List (List Nat))
    (hlen : len ≤ 20) (hm : m < len)
    (hbc : ∀ b ∈ barcodes, b.length = len ∧ ∀ c ∈ b, c ∈ bases)
    (hfit : barcodes.length * combos_sum len m < 2 ^ 64)
    (hnd : candidates.Nodup)
    (hc : ∀ s ∈ candidates, s.length = len ∧ (∀ c ∈ s, c ∈ bases) ∧
      ∃ b ∈ barcodes, hamming_distance s b len ≤ m) :
    ((all_strings len).filter
      (fun s => barcodes.any fun b => decide (hamming_distance s b len ≤ m))).length ≤
      calc_num_combos len barcodes.length m ∧
    candidates.length ≤ calc_num_combos len barcodes.length m := by
  have h := countP_candidates_le len m barcodes hlen hm hbc hfit
  rw [List.countP_eq_length_filter] at h
  refine ⟨h, le_trans ?_ h⟩
  apply List.Subperm.length_le
  apply List.subperm_of_subset hnd
  intro s hs
  obtain ⟨h1, h2, b, hb, hd⟩ := hc s hs
  rw [List.mem_filter]
  refine ⟨(all_strings_mem len s).mpr ⟨h1, h2⟩, ?_⟩
  rw [List.any_eq_true]
  exact ⟨b, hb, by simpa using hd⟩

/-- Witness of claim C22: the barcodes `AGCAAT` and `CCTGTT` with `m = 1`. -/
theorem calc_num_combos_bounds_candidates_witness :
    ((all_strings 6).filter
      (fun s => [bc_AGCAAT, bc_CCTGTT].any fun b => decide (hamming_distance s b 6 ≤ 1))).length ≤
      calc_num_combos 6 [bc_AGCAAT, bc_CCTGTT].length 1 ∧
    [bc_AGCAAT, bc_CCTGTT].length ≤ calc_num_combos 6 [bc_AGCAAT, bc_CCTGTT].length 1 :=
  calc_num_combos_bounds_candidates 6 1 [bc_AGCAAT, bc_CCTGTT] [bc_AGCAAT, bc_CCTGTT]
    (by decide) (by decide) (by decide) (by decide) (by decide) (by decide)

/-! ## The count of `hamming_distance`: claim C31 -/

theorem mismatches_eq_card (seq_1 seq_2 : List Nat) (k : Nat) :
    mismatches seq_1 seq_2 k =
      ((Finset.range k).filter (fun i => byteAt seq_1 i ≠ byteAt seq_2 i)).card := by
  induction k with
  | zero => simp [mismatches]
  | succ k ih =>
    rw [mismatches, ih, Finset.range_succ, Finset.filter_insert]
    by_cases h : byteAt seq_1 k ≠ byteAt seq_2 k
    · rw [if_pos h, if_pos h, Finset.card_insert_of_not_mem (by simp)]
    · rw [if_neg h, if_neg h, Nat.add_zero]

/-- Claim C31. For `len` below `2 ^ 32`, the range of the `unsigned int`
counter, `hamming_distance(a, b, len)` is the number of positions `i < len`
with `a[i] != b[i]`; it is symmetric in `a` and `b`, at most `len`, and `0`
exactly when the first `len` characters agree. -/
theorem hamming_distance_counts_mismatches (a b : List Nat) (len : Nat) (hlen : len < 2 ^ 32) :
    hamming_distance a b len =
      ((Finset.range len).filter (fun i => byteAt a i ≠ byteAt b i)).card ∧
    hamming_distance a b len = hamming_distance b a len ∧
    hamming_distance a b len ≤ len ∧
    (hamming_distance a b len = 0 ↔ ∀ i, i < len → byteAt a i = byteAt b i) := by
  have hab := hamming_distance_eq_mismatches a b len hlen
  have hba := hamming_distance_eq_mismatches b a len hlen
  rw [mismatches_eq_card] at hab hba
  refine ⟨hab, ?_, hamming_distance_le a b len, ?_⟩
  · rw [hab, hba]
    congr 1
    apply Finset.filter_congr
    intro i _
    exact ne_comm
  · rw [hab, Finset.card_eq_zero, Finset.filter_eq_empty_iff]
    constructor
    · intro h i hi
      exact not_not.mp (h (Finset.mem_range.mpr hi))
    · intro h i hi
      exact not_not.mpr (h i (Finset.mem_range.mp hi))

/-- Witness of claim C31: `AGCAAT` against `AGCTAT` with `len = 6`, one mismatch. -/
theorem hamming_distance_counts_mismatches_witness :
    hamming_distance bc_AGCAAT [chA, chG, chC, chT, chA, chT] 6 =
      ((Finset.range 6).filter
        (fun i => byteAt bc_AGCAAT i ≠ byteAt [chA, chG, chC, chT, chA, chT] i)).card ∧
    hamming_distance bc_AGCAAT [chA, chG, chC, chT, chA, chT] 6 =
      hamming_distance [chA, chG, chC, chT, chA, chT] bc_AGCAAT 6 ∧
    hamming_distance bc_AGCAAT [chA, chG, chC, chT, chA, chT] 6 ≤ 6 ∧
    (hamming_distance bc_AGCAAT [chA, chG, chC, chT, chA, chT] 6 = 0 ↔
      ∀ i, i < 6 → byteAt bc_AGCAAT i = byteAt [chA, chG, chC, chT, chA, chT] i) :=
  hamming_distance_counts_mismatches bc_AGCAAT [chA, chG, chC, chT, chA, chT] 6 (by decide)

/-! ## Termination of the probe loops: claim C33 -/

theorem probe_visits_of_stops (ht : bc_hash_table) (key : List Nat) (p : Fin 2) (t : Nat) :
    ∀ fuel index, t < fuel → index ≤ ht.items.length → ProbeStops ht key p index t →
      probe_visits ht key p fuel index =
        (List.range (t + 1)).map (fun s => (index + s) % ht.items.length) := by
  induction t with
  | zero =>
    intro fuel index hf hi hs
    obtain ⟨fuel, rfl⟩ : ∃ f, fuel = f + 1 := ⟨fuel - 1, by omega⟩
    obtain ⟨-, kv, hkv, hstop⟩ := hs
    simp only [Nat.add_zero] at hkv
    simp only [probe_visits, bc_hash_table.num_slots, norm_index _ _ hi, hkv]
    have hc : kv.value p = 0 ∨ strncmp_eq key kv.key ht.key_length = true := hstop
    rw [if_pos hc]
    rfl
  | succ t ih =>
    intro fuel index hf hi hs
    obtain ⟨fuel, rfl⟩ : ∃ f, fuel = f + 1 := ⟨fuel - 1, by omega⟩
    obtain ⟨hpre, kv, hkv, hstop⟩ := hs
    obtain ⟨kv0, hkv0, hv0, hm0⟩ := hpre 0 (Nat.succ_pos t)
    have hn : 0 < ht.items.length := by
      rcases Nat.eq_zero_or_pos ht.items.length with h0 | h0
      · rw [List.length_eq_zero] at h0; simp [h0] at hkv
      · exact h0
    simp only [Nat.add_zero] at hkv0
    have hstep : ∀ s, (index % ht.items.length + 1 + s) % ht.items.length
        = (index + (s + 1)) % ht.items.length := by
      intro s
      rw [Nat.add_assoc, Nat.mod_add_mod, Nat.add_comm 1 s]
    have hrec := ih fuel (index % ht.items.length + 1) (by omega)
      (Nat.succ_le_of_lt (Nat.mod_lt _ hn))
      ⟨fun s hs => by rw [hstep]; exact hpre (s + 1) (by omega), kv, by rw [hstep]; exact hkv,
        hstop⟩
    simp only [probe_visits, bc_hash_table.num_slots, norm_index _ _ hi, hkv0]
    rw [if_neg (by simp [hv0, hm0]), hrec, List.range_succ_eq_map (t + 1), List.map_cons,
      List.map_map]
    congr 1
    apply List.map_congr_left
    intro s _
    exact hstep s

theorem probe_indices_nodup (a n t : Nat) (ht : t < n) :
    ((List.range (t + 1)).map (fun s => (a + s) % n)).Nodup := by
  apply List.Nodup.map_on _ (List.nodup_range _)
  intro x hx y hy hxy
  rw [List.mem_range] at hx hy
  have h : x % n = y % n := Nat.ModEq.add_left_cancel' a hxy
  rwa [Nat.mod_eq_of_lt (by omega), Nat.mod_eq_of_lt (by omega)] at h

/-- Claim C33. In a table with a slot whose value for pool `p` is `0`, the
probes of `hash_table_insert` and of `hash_table_lookup` for any key return:
they start at `hash & (num_slots - 1)`, a slot of the table, read the slots
`start, start + 1, ...` with wraparound to index 0, and after `t + 1` rounds
with `t < num_slots` both loops have returned; the slots read are pairwise
different. -/
theorem probing_terminates (ht : bc_hash_table) (key : List Nat) (value : Int) (p : Fin 2)
    (overwrite : Bool) (hfree : ∃ kv ∈ ht.items, kv.value p = 0) :
    ∃ t, t < ht.num_slots ∧
      probe_start ht key < ht.num_slots ∧
      probe_visits ht key p ht.num_slots (probe_start ht key) =
        (List.range (t + 1)).map (fun s => (probe_start ht key + s) % ht.num_slots) ∧
      (probe_visits ht key p ht.num_slots (probe_start ht key)).Nodup ∧
      (∃ ht', insert_loop ht key value p overwrite (t + 1) (probe_start ht key) = some ht' ∧
        hash_table_insert ht key value p overwrite = some ht') ∧
      ∃ v, lookup_loop ht key p (t + 1) (probe_start ht key) = some v ∧
        hash_table_lookup ht key p = some v := by
  obtain ⟨t, ht_lt, hstop⟩ := exists_probeStops ht key p (probe_start ht key) hfree
  have hn : 0 < ht.items.length := by omega
  have hstart := probe_start_lt ht key hn
  have hvis := probe_visits_of_stops ht key p t ht.items.length (probe_start ht key) ht_lt
    (le_of_lt hstart) hstop
  refine ⟨t, ht_lt, hstart, hvis, ?_, ?_, ?_⟩
  · show (probe_visits ht key p ht.items.length (probe_start ht key)).Nodup
    rw [hvis]
    exact probe_indices_nodup _ _ t ht_lt
  · refine ⟨_, insert_loop_of_stops ht key value p overwrite t (t + 1) (probe_start ht key)
      (by omega) (le_of_lt hstart) hstop, ?_⟩
    exact insert_loop_of_stops ht key value p overwrite t ht.items.length (probe_start ht key)
      ht_lt (le_of_lt hstart) hstop
  · have hstop' := hstop
    obtain ⟨-, kv, hkv, -⟩ := hstop'
    refine ⟨kv.value p, ?_, ?_⟩
    · rw [lookup_loop_of_stops ht key p t (t + 1) (probe_start ht key) (by omega)
        (le_of_lt hstart) hstop, hkv]
      rfl
    · show lookup_loop ht key p ht.items.length (probe_start ht key) = _
      rw [lookup_loop_of_stops ht key p t ht.items.length (probe_start ht key) ht_lt
        (le_of_lt hstart) hstop, hkv]
      rfl

/-- Witness of claim C33: the key `GGATCG` in the zeroed table of four slots. -/
theorem probing_terminates_witness :
    ∃ t, t < (bc_hash_table.mk 6 0 (List.replicate 4 empty_kv)).num_slots ∧
      probe_start ⟨6, 0, List.replicate 4 empty_kv⟩ bc_GGATCG <
        (bc_hash_table.mk 6 0 (List.replicate 4 empty_kv)).num_slots ∧
      probe_visits ⟨6, 0, List.replicate 4 empty_kv⟩ bc_GGATCG 0
          (bc_hash_table.mk 6 0 (List.replicate 4 empty_kv)).num_slots
          (probe_start ⟨6, 0, List.replicate 4 empty_kv⟩ bc_GGATCG) =
        (List.range (t + 1)).map (fun s =>
          (probe_start ⟨6, 0, List.replicate 4 empty_kv⟩ bc_GGATCG + s) %
            (bc_hash_table.mk 6 0 (List.replicate 4 empty_kv)).num_slots) ∧
      (probe_visits ⟨6, 0, List.replicate 4 empty_kv⟩ bc_GGATCG 0
          (bc_hash_table.mk 6 0 (List.replicate 4 empty_kv)).num_slots
          (probe_start ⟨6, 0, List.replicate 4 empty_kv⟩ bc_GGATCG)).Nodup ∧
      (∃ ht', insert_loop ⟨6, 0, List.replicate 4 empty_kv⟩ bc_GGATCG 12 0 true (t + 1)
          (probe_start ⟨6, 0, List.replicate 4 empty_kv⟩ bc_GGATCG) = some ht' ∧
        hash_table_insert ⟨6, 0, List.replicate 4 empty_kv⟩ bc_GGATCG 12 0 true = some ht') ∧
      ∃ v, lookup_loop ⟨6, 0, List.replicate 4 empty_kv⟩ bc_GGATCG 0 (t + 1)
          (probe_start ⟨6, 0, List.replicate 4 empty_kv⟩ bc_GGATCG) = some v ∧
        hash_table_lookup ⟨6, 0, List.replicate 4 empty_kv⟩ bc_GGATCG 0 = some v :=
  probing_terminates ⟨6, 0, List.replicate 4 empty_kv⟩ bc_GGATCG 12 0 true
    ⟨empty_kv, by simp, rfl⟩

/-! ## The guard of the allele recovery: claim C34 -/

theorem nw_fill_diag_of_agree (seq_1 seq_2 : List Nat) (len : Nat)
    (hag : ∀ i, i < len → byteAt seq_1 i = byteAt seq_2 i) :
    ∀ a, a ≤ len → (nw_fill seq_1 seq_2 len).1 a a = (a : Int) ∧
      (1 ≤ a → (nw_fill seq_1 seq_2 len).2 a a = DIAG) := by
  intro a
  induction a with
  | zero =>
    intro _
    refine ⟨?_, fun h => by omega⟩
    rw [(nw_fill_inv seq_1 seq_2 len).1 0 (by omega)]
    rfl
  | succ a ih =>
    intro ha
    have h0 := (ih (by omega)).1
    have h1 := (nw_fill_bound seq_1 seq_2 len a (by omega) (a + 1) ha).1
    have h2 := (nw_fill_bound seq_1 seq_2 len (a + 1) ha a (by omega)).2
    obtain ⟨e1, e2⟩ := nw_fill_rec seq_1 seq_2 len (a + 1) (a + 1) (by omega) ha (by omega) ha
    rw [e1, e2]
    unfold nw_score_value nw_move_value
    simp only [Nat.add_sub_cancel, hag a (by omega), if_true]
    push_cast at h1 h2 ⊢
    constructor
    · split_ifs <;> omega
    · intro _
      split_ifs <;> first | rfl | omega

theorem nw_offset_of_agree (seq_1 seq_2 : List Nat) (len : Nat) (hlen : 1 ≤ len)
    (hag : ∀ i, i < len → byteAt seq_1 i = byteAt seq_2 i) :
    nw_offset seq_1 seq_2 len = 1 - 2 * (len : Int) :=
  nw_offset_of_diag seq_1 seq_2 len hlen
    ((nw_fill_diag_of_agree seq_1 seq_2 len hag len (le_refl _)).2 hlen)

theorem resolve_allele_of_invalid (fs2_seqs : library_seqs) (valid_alleles : Fin 4 → Bool)
    (read_1 : List Nat)
    (h : valid_alleles
      (allele_char_to_enum (byteAt read_1 (fs2_seqs.prototypes 0).allele_offset)) = false) :
    resolve_allele fs2_seqs valid_alleles read_1 =
      if recovery_guard (recovered_allele_offset fs2_seqs read_1) read_1.length = true then
        allele_char_to_enum (byteAtInt read_1 (recovered_allele_offset fs2_seqs read_1))
      else allele_char_to_enum (byteAt read_1 (fs2_seqs.prototypes 0).allele_offset) := by
  unfold resolve_allele recovery_guard recovered_allele_offset
  simp only [h]
  simp

/-- Claim C34 fails on the code: the guard `0 < allele_offset < fq[0]->seq.l`
compares the truth value of `0 < allele_offset` with the length of the read,
so for every read of at least two characters whose base at the allele offset
is not a declared allele the guard holds, whatever the corrected offset, and
the allele is the character read at the corrected offset. -/
theorem recovery_guard_admits_every_offset (fs2_seqs : library_seqs)
    (valid_alleles : Fin 4 → Bool) (read_1 : List Nat) (hlen : 2 ≤ read_1.length)
    (hinv : valid_alleles
      (allele_char_to_enum (byteAt read_1 (fs2_seqs.prototypes 0).allele_offset)) = false) :
    recovery_guard (recovered_allele_offset fs2_seqs read_1) read_1.length = true ∧
    resolve_allele fs2_seqs valid_alleles read_1 =
      allele_char_to_enum (byteAtInt read_1 (recovered_allele_offset fs2_seqs read_1)) := by
  have hg : recovery_guard (recovered_allele_offset fs2_seqs read_1) read_1.length = true := by
    unfold recovery_guard
    rw [decide_eq_true_eq]
    split_ifs <;> omega
  refine ⟨hg, ?_⟩
  rw [resolve_allele_of_invalid fs2_seqs valid_alleles read_1 hinv, if_pos hg]

/-- Evaluation for claim C34: with `long_flanking_library`, declared allele
`A`, and the thresholds 1 and 4, the pair of `CCTGTT AC GATTACAGAT C` and
`GGGTTT TT GG` passes segment validation, the base `C` at offset 18 is not a
declared allele, `nw_offset` returns -19 for the exact flanking segment, the
corrected offset is -1, outside the read of 19 characters, and the guard
holds: the allele is the character read at offset -1. -/
theorem recovery_guard_admits_every_offset_witness :
    segments_accepted long_flanking_library 1 4 read_1_long_flanking read_2_exact ∧
    recovered_allele_offset long_flanking_library read_1_long_flanking = -1 ∧
    read_1_long_flanking.length = 19 ∧
    recovery_guard (recovered_allele_offset long_flanking_library read_1_long_flanking)
      read_1_long_flanking.length = true ∧
    resolve_allele long_flanking_library (main_valid_alleles long_flanking_library)
        read_1_long_flanking =
      allele_char_to_enum (byteAtInt read_1_long_flanking
        (recovered_allele_offset long_flanking_library read_1_long_flanking)) := by
  have hoff : recovered_allele_offset long_flanking_library read_1_long_flanking = -1 := by
    unfold recovered_allele_offset
    simp only
    rw [nw_offset_of_agree _ _ _ (by decide) (by decide)]
    decide
  have hseg1 : ∀ s ∈ (long_flanking_library.prototypes 0).segments,
      ∀ n, n < s.length → byteAt s.seq n = byteAt (read_1_long_flanking.drop s.offset) n := by
    decide
  have hseg2 : ∀ s ∈ (long_flanking_library.prototypes 1).segments,
      ∀ n, n < s.length → byteAt s.seq n = byteAt (read_2_exact.drop s.offset) n := by
    decide
  have hacc : segments_accepted long_flanking_library 1 4 read_1_long_flanking read_2_exact := by
    refine ⟨fun s hs => ?_, fun s hs => ?_, ?_⟩
    · rw [segment_distance_exact _ s (hseg1 s hs)]; decide
    · rw [segment_distance_exact _ s (hseg2 s hs)]; decide
    · rw [sum_segment_distance_exact _ _ hseg1, sum_segment_distance_exact _ _ hseg2]; decide
  exact ⟨hacc, hoff, rfl,
    recovery_guard_admits_every_offset long_flanking_library
      (main_valid_alleles long_flanking_library) read_1_long_flanking (by decide) (by decide)⟩

/-! ## The layout written by `parse_prototypes`: claim C32 -/

theorem deref_write (l : library_layout) (ptr q : segment_ptr) (o n : Nat) :
    (l.write ptr o n).deref q = if q = ptr then ⟨o, n, (l.deref ptr).seq⟩ else l.deref q := by
  cases ptr with
  | adapter i =>
    cases q with
    | adapter j =>
      by_cases h : j = i
      · subst h; simp [library_layout.write, library_layout.deref]
      · simp [library_layout.write, library_layout.deref, Function.update_noteq h, h]
    | flanking j => simp [library_layout.write, library_layout.deref]
  | flanking i =>
    cases q with
    | adapter j => simp [library_layout.write, library_layout.deref]
    | flanking j =>
      by_cases h : j = i
      · subst h; simp [library_layout.write, library_layout.deref]
      · simp [library_layout.write, library_layout.deref, Function.update_noteq h, h]

theorem write_prototypes (l : library_layout) (ptr : segment_ptr) (o n : Nat) :
    (l.write ptr o n).prototypes = l.prototypes ∧
    (l.write ptr o n).prototype_strings = l.prototype_strings := by
  cases ptr <;> exact ⟨rfl, rfl⟩

theorem deref_with_prototypes (l : library_layout) (p : Fin 2 → prototype_slots)
    (q : segment_ptr) :
    library_layout.deref { l with prototypes := p } q = l.deref q := by
  cases q <;> rfl

/-- Auxiliary: what one round of the loop of `parse_prototypes` does to the
state, read off the three branches. -/
theorem parse_token_spec (i : Fin 2) (st st1 : parse_state) (segment : List Nat)
    (h : parse_token i st segment = some st1) :
    st1.offset_counter = st.offset_counter + token_length st.fs2_seqs segment ∧
    st1.segment_index = st.segment_index + (token_names segment).toList.length ∧
    (st1.fs2_seqs.prototypes i).segments.length = (st.fs2_seqs.prototypes i).segments.length ∧
    (∀ n, (st1.fs2_seqs.prototypes i).segments[n]? =
      if n = st.segment_index ∧ (token_names segment).isSome ∧
          n < (st.fs2_seqs.prototypes i).segments.length
      then some (token_names segment) else (st.fs2_seqs.prototypes i).segments[n]?) ∧
    (∀ j, j ≠ i → st1.fs2_seqs.prototypes j = st.fs2_seqs.prototypes j) ∧
    st1.fs2_seqs.prototype_strings = st.fs2_seqs.prototype_strings ∧
    (∀ q, st1.fs2_seqs.deref q =
      if token_names segment = some q then
        ⟨st.offset_counter, (cstr (st.fs2_seqs.deref q).seq).length, (st.fs2_seqs.deref q).seq⟩
      else st.fs2_seqs.deref q) ∧
    (st1.fs2_seqs.prototypes i).allele_offset =
      (if is_allele_token segment then st.offset_counter
       else (st.fs2_seqs.prototypes i).allele_offset) ∧
    ((token_names segment).isSome →
      st.segment_index < (st.fs2_seqs.prototypes i).segments.length) := by
  unfold parse_token at h
  by_cases hbc : strncmp_eq segment str_bc 2 = true
  · rw [if_pos hbc] at h
    injection h with h
    subst h
    simp [token_length, token_names, is_allele_token, hbc]
  · rw [if_neg hbc] at h
    by_cases hal : strcmp_eq segment str_allele = true
    · rw [if_pos hal] at h
      injection h with h
      subst h
      have hn : token_names segment = none := by simp [token_names, hbc, hal]
      have hl : token_length st.fs2_seqs segment = 1 := by simp [token_length, hbc, hal]
      have ha : is_allele_token segment = true := by simp [is_allele_token, hbc, hal]
      rw [hn, hl, ha]
      refine ⟨rfl, rfl, ?_, fun n => ?_, fun j hj => ?_, rfl, fun q => ?_, ?_, ?_⟩
      · simp
      · simp
      · simp [Function.update_noteq hj]
      · simp [deref_with_prototypes]
      · simp
      · simp
    · rw [if_neg hal] at h
      cases hptr : token_segment_ptr segment with
      | none => rw [hptr] at h; simp at h
      | some ptr =>
        rw [hptr, Option.some_bind] at h
        obtain ⟨hp1, hp2⟩ := write_prototypes st.fs2_seqs ptr st.offset_counter
          (cstr (st.fs2_seqs.deref ptr).seq).length
        simp only [hp1] at h
        have hn : token_names segment = some ptr := by simp [token_names, hbc, hal, hptr]
        have hl : token_length st.fs2_seqs segment = (cstr (st.fs2_seqs.deref ptr).seq).length := by
          simp [token_length, hbc, hal, hptr]
        have ha : is_allele_token segment = false := by simp [is_allele_token, hbc, hal]
        rw [hn, hl, ha]
        by_cases hcap : st.segment_index < (st.fs2_seqs.prototypes i).segments.length
        · rw [if_pos hcap] at h
          injection h with h
          subst h
          refine ⟨rfl, rfl, ?_, fun n => ?_, fun j hj => ?_, hp2, fun q => ?_, ?_, fun _ => hcap⟩
          · simp
          · simp only [Function.update_same, List.getElem?_set, Option.isSome_some, true_and]
            by_cases hn' : st.segment_index = n
            · subst hn'
              simp [hcap]
            · rw [if_neg hn', if_neg (fun hh => hn' hh.1.symm)]
          · simp [Function.update_noteq hj]
          · rw [deref_with_prototypes, deref_write]
            by_cases hq : q = ptr
            · subst hq; simp
            · rw [if_neg hq, if_neg (fun hh => hq (Option.some.inj hh).symm)]
          · simp
        · rw [if_neg hcap] at h
          simp at h

theorem parse_loop_cons (i : Fin 2) (st st' : parse_state) (t : List Nat)
    (rest : List (List Nat)) (h : parse_loop i st (t :: rest) = some st') :
    ∃ st1, parse_token i st t = some st1 ∧ parse_loop i st1 rest = some st' := by
  rw [parse_loop] at h
  cases h1 : parse_token i st t with
  | none => rw [h1] at h; simp at h
  | some st1 => rw [h1, Option.some_bind] at h; exact ⟨st1, rfl, h⟩

theorem token_length_congr (l l' : library_layout)
    (h : ∀ q, (l'.deref q).seq = (l.deref q).seq) (t : List Nat) :
    token_length l' t = token_length l t := by
  unfold token_length
  cases token_segment_ptr t with
  | none => rfl
  | some q => simp only [h q]

theorem token_offset_congr (l l' : library_layout)
    (h : ∀ q, (l'.deref q).seq = (l.deref q).seq) (toks : List (List Nat)) (k : Nat) :
    token_offset l' toks k = token_offset l toks k := by
  unfold token_offset
  congr 1
  apply List.map_congr_left
  intro t _
  exact token_length_congr l l' h t

theorem parse_token_seq (i : Fin 2) (st st1 : parse_state) (t : List Nat)
    (h : parse_token i st t = some st1) (q : segment_ptr) :
    (st1.fs2_seqs.deref q).seq = (st.fs2_seqs.deref q).seq := by
  have hd := (parse_token_spec i st st1 t h).2.2.2.2.2.2.1 q
  rw [hd]
  split_ifs <;> rfl

theorem segment_tokens_cons (t : List Nat) (rest : List (List Nat)) :
    segment_tokens (t :: rest) = (token_names t).toList ++ segment_tokens rest := by
  unfold segment_tokens
  rw [List.filterMap_cons]
  cases token_names t <;> rfl

/-- Auxiliary: what the loop over the tokens of one prototype leaves
untouched, and the counters and the pointer array it leaves. -/
theorem parse_loop_frame (i : Fin 2) (toks : List (List Nat)) :
    ∀ st st', parse_loop i st toks = some st' →
      st'.offset_counter = st.offset_counter + (toks.map (token_length st.fs2_seqs)).sum ∧
      st'.segment_index = st.segment_index + (segment_tokens toks).length ∧
      (st'.fs2_seqs.prototypes i).segments.length = (st.fs2_seqs.prototypes i).segments.length ∧
      (segment_tokens toks = [] ∨ st.segment_index + (segment_tokens toks).length ≤
        (st.fs2_seqs.prototypes i).segments.length) ∧
      (∀ n, (st'.fs2_seqs.prototypes i).segments[n]? =
        if st.segment_index ≤ n ∧ n < st.segment_index + (segment_tokens toks).length
        then ((segment_tokens toks)[n - st.segment_index]?).map some
        else (st.fs2_seqs.prototypes i).segments[n]?) ∧
      (∀ j, j ≠ i → st'.fs2_seqs.prototypes j = st.fs2_seqs.prototypes j) ∧
      st'.fs2_seqs.prototype_strings = st.fs2_seqs.prototype_strings ∧
      (∀ q, (st'.fs2_seqs.deref q).seq = (st.fs2_seqs.deref q).seq) ∧
      (∀ q, q ∉ segment_tokens toks → st'.fs2_seqs.deref q = st.fs2_seqs.deref q) ∧
      (∀ q, q ∈ segment_tokens toks →
        (st'.fs2_seqs.deref q).length = (cstr (st.fs2_seqs.deref q).seq).length) ∧
      ((∀ t ∈ toks, is_allele_token t = false) →
        (st'.fs2_seqs.prototypes i).allele_offset = (st.fs2_seqs.prototypes i).allele_offset) := by
  induction toks with
  | nil =>
    intro st st' h
    rw [parse_loop] at h
    injection h with h
    subst h
    refine ⟨by simp, by simp [segment_tokens], rfl, Or.inl rfl, fun n => ?_, fun _ _ => rfl, rfl,
      fun _ => rfl, fun _ _ => rfl, fun q hq => ?_, fun _ => rfl⟩
    · rw [if_neg]
      simp [segment_tokens]
    · simp [segment_tokens] at hq
  | cons t rest ih =>
    intro st st' h
    obtain ⟨st1, h1, h2⟩ := parse_loop_cons i st st' t rest h
    obtain ⟨s1, s2, s3, s4, s5, s6, s7, s8, s9⟩ := parse_token_spec i st st1 t h1
    obtain ⟨f1, f2, f3, f4, f5, f6, f7, f8, f9, f10, f11⟩ := ih st1 st' h2
    have hseq1 : ∀ q, (st1.fs2_seqs.deref q).seq = (st.fs2_seqs.deref q).seq :=
      parse_token_seq i st st1 t h1
    have hlen : (rest.map (token_length st1.fs2_seqs)) = rest.map (token_length st.fs2_seqs) :=
      List.map_congr_left (fun x _ => token_length_congr _ _ hseq1 x)
    rw [segment_tokens_cons]
    refine ⟨?_, ?_, ?_, ?_, ?_, ?_, ?_, ?_, ?_, ?_, ?_⟩
    · rw [f1, s1, hlen, List.map_cons, List.sum_cons, Nat.add_assoc]
    · rw [f2, s2, List.length_append, Nat.add_assoc]
    · rw [f3, s3]
    · cases hn : token_names t with
      | none =>
        rw [hn] at s2
        simp only [Option.toList, List.nil_append, List.length_nil, Nat.add_zero] at s2 ⊢
        rw [s2, s3] at f4
        exact f4
      | some q =>
        right
        have hcap := s9 (by rw [hn]; rfl)
        rw [hn] at s2
        simp only [Option.toList, List.singleton_append, List.length_cons, List.length_nil,
          Nat.zero_add] at s2 ⊢
        rcases f4 with f4 | f4
        · rw [f4]; simp; omega
        · rw [s2, s3] at f4; omega
    · intro n
      rw [f5 n]
      cases hn : token_names t with
      | none =>
        rw [hn] at s2 s4
        simp only [Option.toList, List.nil_append, List.length_nil, Nat.add_zero] at s2 ⊢
        rw [s2, s4 n]
        simp
      | some q =>
        have hcap := s9 (by rw [hn]; rfl)
        rw [hn] at s2 s4
        simp only [Option.toList, List.singleton_append, List.length_cons, List.length_nil,
          Nat.zero_add] at s2 ⊢
        rw [s2, s4 n]
        by_cases hr : st.segment_index + 1 ≤ n ∧
            n < st.segment_index + 1 + (segment_tokens rest).length
        · rw [if_pos hr, if_pos ⟨by omega, by omega⟩]
          have e : n - st.segment_index = (n - (st.segment_index + 1)) + 1 := by omega
          rw [e, List.getElem?_cons_succ]
        · rw [if_neg hr]
          by_cases hn0 : n = st.segment_index
          · subst hn0
            rw [if_pos ⟨rfl, rfl, hcap⟩, if_pos ⟨le_refl _, by omega⟩, Nat.sub_self]
            simp
          · rw [if_neg (fun hh => hn0 hh.1), if_neg (by omega)]
    · intro j hj
      rw [f6 j hj, s5 j hj]
    · rw [f7, s6]
    · intro q
      rw [f8 q, hseq1 q]
    · intro q hq
      rw [List.mem_append, not_or] at hq
      rw [f9 q hq.2, s7 q, if_neg]
      intro hh
      exact hq.1 (by rw [hh]; simp)
    · intro q hq
      by_cases hrest : q ∈ segment_tokens rest
      · rw [f10 q hrest, hseq1 q]
      · rw [List.mem_append] at hq
        have hq1 : token_names t = some q := by
          rcases hq with hq | hq
          · cases hn : token_names t with
            | none => rw [hn] at hq; simp at hq
            | some q' => rw [hn] at hq; simp at hq; rw [hq]
          · exact absurd hq hrest
        rw [f9 q hrest, s7 q, if_pos hq1]
    · intro hall
      rw [f11 (fun x hx => hall x (List.mem_cons_of_mem _ hx)), s8,
        hall t (List.mem_cons_self _ _)]
      rfl

theorem token_offset_zero (l : library_layout) (toks : List (List Nat)) :
    token_offset l toks 0 = 0 := by
  simp [token_offset]

theorem token_offset_cons (l : library_layout) (t : List Nat) (rest : List (List Nat))
    (k : Nat) :
    token_offset l (t :: rest) (k + 1) = token_length l t + token_offset l rest k := by
  simp [token_offset]

/-- Auxiliary: a segment named by token `k` and by no later token of the
loop ends with the running sum at token `k` as its offset. -/
theorem parse_loop_offset (i : Fin 2) (toks : List (List Nat)) :
    ∀ st st', parse_loop i st toks = some st' → ∀ k t q, toks[k]? = some t →
      token_names t = some q → q ∉ segment_tokens (toks.drop (k + 1)) →
      (st'.fs2_seqs.deref q).offset = st.offset_counter + token_offset st.fs2_seqs toks k := by
  induction toks with
  | nil => intro st st' _ k t q hk; simp at hk
  | cons t0 rest ih =>
    intro st st' h k t q hk hq hlater
    obtain ⟨st1, h1, h2⟩ := parse_loop_cons i st st' t0 rest h
    have hs := parse_token_spec i st st1 t0 h1
    have hf := parse_loop_frame i rest st1 st' h2
    cases k with
    | zero =>
      simp only [List.getElem?_cons_zero, Option.some.injEq] at hk
      subst hk
      simp only [Nat.zero_add, List.drop_succ_cons, List.drop_zero] at hlater
      rw [hf.2.2.2.2.2.2.2.2.1 q hlater, hs.2.2.2.2.2.2.1 q, if_pos hq, token_offset_zero]
      rfl
    | succ k =>
      simp only [List.getElem?_cons_succ] at hk
      simp only [List.drop_succ_cons] at hlater
      rw [ih st1 st' h2 k t q hk hq hlater, hs.1, token_offset_cons,
        token_offset_congr _ _ (parse_token_seq i st st1 t0 h1), Nat.add_assoc]

/-- Auxiliary: the allele offset is the running sum at the last allele token. -/
theorem parse_loop_allele_offset (i : Fin 2) (toks : List (List Nat)) :
    ∀ st st', parse_loop i st toks = some st' → ∀ k t, toks[k]? = some t →
      is_allele_token t = true → (∀ u ∈ toks.drop (k + 1), is_allele_token u = false) →
      (st'.fs2_seqs.prototypes i).allele_offset =
        st.offset_counter + token_offset st.fs2_seqs toks k := by
  induction toks with
  | nil => intro st st' _ k t hk; simp at hk
  | cons t0 rest ih =>
    intro st st' h k t hk ht hlater
    obtain ⟨st1, h1, h2⟩ := parse_loop_cons i st st' t0 rest h
    have hs := parse_token_spec i st st1 t0 h1
    have hf := parse_loop_frame i rest st1 st' h2
    cases k with
    | zero =>
      simp only [List.getElem?_cons_zero, Option.some.injEq] at hk
      subst hk
      simp only [Nat.zero_add, List.drop_succ_cons, List.drop_zero] at hlater
      rw [hf.2.2.2.2.2.2.2.2.2.2 hlater, hs.2.2.2.2.2.2.2.1, if_pos ht, token_offset_zero]
      rfl
    | succ k =>
      simp only [List.getElem?_cons_succ] at hk
      simp only [List.drop_succ_cons] at hlater
      rw [ih st1 st' h2 k t hk ht hlater, hs.1, token_offset_cons,
        token_offset_congr _ _ (parse_token_seq i st st1 t0 h1), Nat.add_assoc]

theorem parse_token_some (i : Fin 2) (st : parse_state) (t : List Nat)
    (hv : valid_token t = true)
    (hcap : (token_names t).isSome = true →
      st.segment_index < (st.fs2_seqs.prototypes i).segments.length) :
    ∃ st1, parse_token i st t = some st1 := by
  unfold parse_token
  by_cases hbc : strncmp_eq t str_bc 2 = true
  · rw [if_pos hbc]; exact ⟨_, rfl⟩
  · rw [if_neg hbc]
    by_cases hal : strcmp_eq t str_allele = true
    · rw [if_pos hal]; exact ⟨_, rfl⟩
    · rw [if_neg hal]
      cases hptr : token_segment_ptr t with
      | none => simp [valid_token, hbc, hal, hptr] at hv
      | some ptr =>
        have hn : token_names t = some ptr := by simp [token_names, hbc, hal, hptr]
        have hc := hcap (by rw [hn]; rfl)
        rw [Option.some_bind]
        simp only [(write_prototypes st.fs2_seqs ptr _ _).1]
        rw [if_pos hc]
        exact ⟨_, rfl⟩

/-- Auxiliary: the loop returns on valid tokens when the pointer array has
room for the segments they name. -/
theorem parse_loop_some (i : Fin 2) (toks : List (List Nat)) :
    ∀ st, (∀ t ∈ toks, valid_token t = true) →
      st.segment_index + (segment_tokens toks).length ≤
        (st.fs2_seqs.prototypes i).segments.length →
      ∃ st', parse_loop i st toks = some st' := by
  induction toks with
  | nil => intro st _ _; exact ⟨st, rfl⟩
  | cons t rest ih =>
    intro st hv hcap
    rw [segment_tokens_cons, List.length_append] at hcap
    obtain ⟨st1, h1⟩ := parse_token_some i st t (hv t (List.mem_cons_self _ _)) (fun hsome => by
      cases hn : token_names t with
      | none => rw [hn] at hsome; simp at hsome
      | some q => rw [hn] at hcap; simp at hcap; omega)
    have hs := parse_token_spec i st st1 t h1
    obtain ⟨st', h2⟩ := ih st1 (fun u hu => hv u (List.mem_cons_of_mem _ hu)) (by
      rw [hs.2.1, hs.2.2.1]; omega)
    exact ⟨st', by rw [parse_loop, h1, Option.some_bind, h2]⟩

theorem segments_of_getElem? (segs segs' : List (Option segment_ptr)) (ptrs : List segment_ptr)
    (h : ∀ n, segs'[n]? = if 0 ≤ n ∧ n < 0 + ptrs.length then (ptrs[n - 0]?).map some
      else segs[n]?) :
    segs' = ptrs.map some ++ segs.drop ptrs.length := by
  apply List.ext_getElem?
  intro n
  rw [h n]
  by_cases hn : n < ptrs.length
  · rw [if_pos ⟨Nat.zero_le _, by omega⟩, List.getElem?_append_left (by simpa using hn)]
    simp
  · rw [if_neg (by omega), List.getElem?_append_right (by simpa using hn)]
    simp only [List.length_map, List.getElem?_drop]
    congr 1
    omega

theorem takeWhile_isSome_append (ptrs : List segment_ptr) (rest : List (Option segment_ptr))
    (hrest : ∀ s ∈ rest, s = none) :
    (ptrs.map some ++ rest).takeWhile Option.isSome = ptrs.map some := by
  rw [List.takeWhile_append_of_pos (by
    intro a ha
    obtain ⟨q, -, rfl⟩ := List.mem_map.mp ha
    rfl)]
  cases rest with
  | nil => simp
  | cons s tl =>
    rw [hrest s (List.mem_cons_self _ _)]
    simp

theorem prototype_segments_of_slots (l : library_layout) (i : Fin 2) (ptrs : List segment_ptr)
    (rest : List (Option segment_ptr))
    (h : (l.prototypes i).segments = ptrs.map some ++ rest) (hrest : ∀ s ∈ rest, s = none) :
    (l.prototype i).segments = ptrs.map l.deref := by
  unfold library_layout.prototype
  simp only
  rw [h, takeWhile_isSome_append ptrs rest hrest, List.filterMap_map]
  induction ptrs with
  | nil => rfl
  | cons q tl ih => simp

/-- Claim C32 fails on the code as stated: the array `segments` holds
pointers to the adapters and flanking segments of the library, each of which
has one `offset`. With the prototypes `bc1|adapter1|flanking1|allele` and
`bc2|flanking2|adapter1`, adapters `AC`, `TT` and flanking segments `GT`,
`GG`, the token `adapter1` of prototype 1 follows tokens of total length 6,
and after `parse_prototypes` the first segment of prototype 1 has the offset
8 of the token `adapter1` of prototype 2. -/
theorem repeated_segment_keeps_last_offset :
    strtok_tokens ((layout_of "bc1|adapter1|flanking1|allele"
        "bc2|flanking2|adapter1").prototype_strings 0).seq =
      [ascii "bc1", ascii "adapter1", ascii "flanking1", ascii "allele"] ∧
    token_names (ascii "adapter1") = some (segment_ptr.adapter 0) ∧
    token_offset (layout_of "bc1|adapter1|flanking1|allele" "bc2|flanking2|adapter1")
      [ascii "bc1", ascii "adapter1", ascii "flanking1", ascii "allele"] 1 = 6 ∧
    (parse_prototypes (layout_of "bc1|adapter1|flanking1|allele"
        "bc2|flanking2|adapter1")).map (fun l => (l.prototypes 0).segments) =
      some [some (segment_ptr.adapter 0), some (segment_ptr.flanking 0), none, none, none] ∧
    (parse_prototypes (layout_of "bc1|adapter1|flanking1|allele"
        "bc2|flanking2|adapter1")).map
        (fun l => (l.prototype 0).segments.map fun s => (s.offset, s.length, s.seq)) =
      some [(8, 2, [chA, chC]), (8, 2, [chG, chT])] := by
  decide

/-- Claim C32 as amended. When every token of the two prototype strings is a
barcode token, the allele token or an adapter or flanking token, and the
array `segments` of each prototype has room for its adapter and flanking
tokens, `parse_prototypes` returns, leaves the reference sequences as they
were, and for each prototype: the array `segments` lists the segments of the
adapter and flanking tokens in the order of the tokens (the demultiplexer
reads exactly these when the array was zeroed); each of them has its length
set to the length of its reference sequence; the segment of a token that no
later token names, in the same prototype or in prototype 2, has its offset
set to the sum of the lengths of the tokens before it (6 for a barcode token,
1 for the allele token, the length of the reference sequence for an adapter or
flanking token); and `allele_offset` is that running sum at the last allele
token. -/
theorem parse_prototypes_layout (fs2_seqs : library_layout)
    (hvalid : ∀ i, ∀ t ∈ strtok_tokens (fs2_seqs.prototype_strings i).seq, valid_token t = true)
    (hcap : ∀ i, (segment_tokens (strtok_tokens (fs2_seqs.prototype_strings i).seq)).length ≤
      (fs2_seqs.prototypes i).segments.length) :
    ∃ parsed, parse_prototypes fs2_seqs = some parsed ∧
      (∀ q, (parsed.deref q).seq = (fs2_seqs.deref q).seq) ∧
      ∀ i : Fin 2,
        (parsed.prototypes i).segments =
          (segment_tokens (strtok_tokens (fs2_seqs.prototype_strings i).seq)).map some ++
            (fs2_seqs.prototypes i).segments.drop
              (segment_tokens (strtok_tokens (fs2_seqs.prototype_strings i).seq)).length ∧
        ((∀ s ∈ (fs2_seqs.prototypes i).segments, s = none) →
          (parsed.prototype i).segments =
            (segment_tokens (strtok_tokens (fs2_seqs.prototype_strings i).seq)).map
              parsed.deref) ∧
        (∀ q ∈ segment_tokens (strtok_tokens (fs2_seqs.prototype_strings i).seq),
          (parsed.deref q).length = (cstr (fs2_seqs.deref q).seq).length) ∧
        (∀ k t q, (strtok_tokens (fs2_seqs.prototype_strings i).seq)[k]? = some t →
          token_names t = some q →
          q ∉ segment_tokens ((strtok_tokens (fs2_seqs.prototype_strings i).seq).drop (k + 1)) →
          (i = 0 → q ∉ segment_tokens (strtok_tokens (fs2_seqs.prototype_strings 1).seq)) →
          (parsed.deref q).offset =
            token_offset fs2_seqs (strtok_tokens (fs2_seqs.prototype_strings i).seq) k) ∧
        (∀ k t, (strtok_tokens (fs2_seqs.prototype_strings i).seq)[k]? = some t →
          is_allele_token t = true →
          (∀ u ∈ (strtok_tokens (fs2_seqs.prototype_strings i).seq).drop (k + 1),
            is_allele_token u = false) →
          (parsed.prototypes i).allele_offset =
            token_offset fs2_seqs (strtok_tokens (fs2_seqs.prototype_strings i).seq) k) := by
  obtain ⟨st0, h0⟩ := parse_loop_some 0 (strtok_tokens (fs2_seqs.prototype_strings 0).seq)
    ⟨fs2_seqs, 0, 0⟩ (hvalid 0) (by simpa using hcap 0)
  obtain ⟨a1, a2, a3, a4, a5, a6, a7, a8, a9, a10, a11⟩ := parse_loop_frame 0 _ _ _ h0
  simp only at a1 a2 a3 a4 a5 a6 a7 a8 a9 a10 a11
  have hp1 : st0.fs2_seqs.prototypes 1 = fs2_seqs.prototypes 1 := a6 1 (by decide)
  obtain ⟨st1, h1⟩ := parse_loop_some 1 (strtok_tokens (fs2_seqs.prototype_strings 1).seq)
    ⟨st0.fs2_seqs, 0, 0⟩ (hvalid 1) (by simpa [hp1] using hcap 1)
  obtain ⟨b1, b2, b3, b4, b5, b6, b7, b8, b9, b10, b11⟩ := parse_loop_frame 1 _ _ _ h1
  simp only at b1 b2 b3 b4 b5 b6 b7 b8 b9 b10 b11
  have hp0 : st1.fs2_seqs.prototypes 0 = st0.fs2_seqs.prototypes 0 := b6 0 (by decide)
  have hparsed : parse_prototypes fs2_seqs = some st1.fs2_seqs := by
    unfold parse_prototypes parse_prototype
    rw [h0]
    simp only [Option.map_some', Option.some_bind]
    rw [a7, h1]
    rfl
  have hseq : ∀ q, (st1.fs2_seqs.deref q).seq = (fs2_seqs.deref q).seq :=
    fun q => by rw [b8 q, a8 q]
  have hsegs0 := segments_of_getElem? _ _ _ a5
  have hsegs1 := segments_of_getElem? _ (st1.fs2_seqs.prototypes 1).segments _
    (by rw [hp1] at b5; exact b5)
  refine ⟨st1.fs2_seqs, hparsed, hseq, fun i => ?_⟩
  rcases Fin.exists_fin_two.mp ⟨i, rfl⟩ with rfl | rfl
  · refine ⟨by rw [hp0]; exact hsegs0, fun hnone => ?_, fun q hq => ?_,
      fun k t q hk hq hlater hother => ?_, fun k t hk ht hlater => ?_⟩
    · exact prototype_segments_of_slots _ 0 _ _ (by rw [hp0]; exact hsegs0)
        (fun s hs => hnone s (List.mem_of_mem_drop hs))
    · by_cases h2 : q ∈ segment_tokens (strtok_tokens (fs2_seqs.prototype_strings 1).seq)
      · rw [b10 q h2, a8 q]
      · rw [b9 q h2, a10 q hq]
    · rw [b9 q (hother rfl)]
      have := parse_loop_offset 0 _ _ _ h0 k t q hk hq hlater
      simpa using this
    · rw [hp0]
      have := parse_loop_allele_offset 0 _ _ _ h0 k t hk ht hlater
      simpa using this
  · refine ⟨hsegs1, fun hnone => ?_, fun q hq => ?_,
      fun k t q hk hq hlater _ => ?_, fun k t hk ht hlater => ?_⟩
    · exact prototype_segments_of_slots _ 1 _ _ hsegs1
        (fun s hs => hnone s (List.mem_of_mem_drop hs))
    · rw [b10 q hq, a8 q]
    · have := parse_loop_offset 1 _ _ _ h1 k t q hk hq hlater
      simp only [Nat.zero_add] at this
      rw [this, token_offset_congr _ _ a8]
    · have := parse_loop_allele_offset 1 _ _ _ h1 k t hk ht hlater
      simp only [Nat.zero_add] at this
      rw [this, token_offset_congr _ _ a8]

/-- Witness of claim C32 as amended: the prototypes
`bc1|adapter1|flanking1|allele` and `bc2|adapter2|flanking2` with adapters
and flanking segments of two characters: prototype 1 lists `adapter1` at
offset 6 and `flanking1` at offset 8 and has the allele offset 10; prototype
2 lists `adapter2` at offset 6 and `flanking2` at offset 8. -/
theorem parse_prototypes_layout_witness :
    ∃ parsed, parse_prototypes
        (layout_of "bc1|adapter1|flanking1|allele" "bc2|adapter2|flanking2") = some parsed ∧
      (parsed.prototypes 0).segments =
        [some (segment_ptr.adapter 0), some (segment_ptr.flanking 0), none, none, none] ∧
      (parsed.prototypes 1).segments =
        [some (segment_ptr.adapter 1), some (segment_ptr.flanking 1), none, none, none] ∧
      (parsed.deref (segment_ptr.adapter 0)).offset = 6 ∧
      (parsed.deref (segment_ptr.flanking 0)).offset = 8 ∧
      (parsed.deref (segment_ptr.flanking 0)).length = 2 ∧
      (parsed.prototypes 0).allele_offset = 10 ∧
      (parsed.deref (segment_ptr.adapter 1)).offset = 6 ∧
      (parsed.deref (segment_ptr.flanking 1)).offset = 8 := by
  obtain ⟨parsed, hp, -, h⟩ := parse_prototypes_layout
    (layout_of "bc1|adapter1|flanking1|allele" "bc2|adapter2|flanking2")
    (by decide) (by decide)
  exact ⟨parsed, hp, (h 0).1.trans (by decide), (h 1).1.trans (by decide),
    ((h 0).2.2.2.1 1 (ascii "adapter1") (segment_ptr.adapter 0) (by decide) (by decide)
      (by decide) (fun _ => by decide)).trans (by decide),
    ((h 0).2.2.2.1 2 (ascii "flanking1") (segment_ptr.flanking 0) (by decide) (by decide)
      (by decide) (fun _ => by decide)).trans (by decide),
    ((h 0).2.2.1 (segment_ptr.flanking 0) (by decide)).trans (by decide),
    ((h 0).2.2.2.2 3 (ascii "allele") (by decide) (by decide) (by decide)).trans (by decide),
    ((h 1).2.2.2.1 1 (ascii "adapter2") (segment_ptr.adapter 1) (by decide) (by decide)
      (by decide) (fun e => absurd e (by decide))).trans (by decide),
    ((h 1).2.2.2.1 2 (ascii "flanking2") (segment_ptr.flanking 1) (by decide) (by decide)
      (by decide) (fun e => absurd e (by decide))).trans (by decide)⟩

end Fsdm
